import Mathlib

/-!
# Lock-free containers of C-Algorithms: sequential embedding

Shallow embedding of `lock-free/wellons_stack/stack.c`,
`lock-free/michael-scott_queue/queue.c`, `lock-free/sundell-tsigas_deque/mempool.c`
and `lock-free/sundell-tsigas_deque/deque.c`, executed by one thread.

Conventions.
* A pointer is `Option Nat`: `none` is `NULL`, `some a` is the address `a`.
* `size_t` and `uintptr_t` are 64 bits wide, `uint32_t` counters 32 bits wide; every
  arithmetic result of the source is reduced modulo the width of its type.
* A function returns `none` when the execution leaves defined behaviour (an access
  through `NULL` or outside an allocated object) or when a loop runs out of `fuel`.
* `atomic_compare_exchange_weak` run by one thread is the exchange that fails only when
  the cell differs from the expected value.
* `errno` is reported as the last value the library code itself assigned during the
  call (`none` when it assigned nothing).
-/

namespace LockFree

/-! ## Common definitions -/

/-- Modulus of `size_t` and `uintptr_t` arithmetic. -/
def SIZE_MOD : Nat := 2 ^ 64

/-- Modulus of `uint32_t` arithmetic. -/
def UINT32_MOD : Nat := 2 ^ 32

/-- Error kinds the library stores in `errno`. -/
inductive errno_t where
  | EINVAL
  | ENOMEM
  | ENOENT
deriving DecidableEq, Repr

/-- Status of a call: the returned `int` and the `errno` the library code assigned. -/
structure status where
  ret : Int
  errno : Option errno_t
deriving DecidableEq, Repr

/-- Compare-and-swap on a cell holding `cell`: returns the success flag and the new
content of the cell. -/
def CAS {α : Type} [DecidableEq α] (cell expected desired : α) : Bool × α :=
  if cell = expected then (true, desired) else (false, cell)

/-- Value of a pointer as an integer (`NULL` is 0). -/
def ptrval (p : Option Nat) : Nat := p.getD 0

/-- Result of `calloc(nmemb, size)`: the address proposed by the environment when it is
non-null and the object fits into the address space, `NULL` otherwise. -/
def calloc_ptr (env : Option Nat) (nmemb size : Nat) : Option Nat :=
  match env with
  | none => none
  | some p => if 0 < p ∧ p + nmemb * size < SIZE_MOD then some p else none

/-- Copy of `n` bytes from `src` over the start of `dst` (`memcpy(dst, src, n)`);
undefined when either object is shorter than `n`. -/
def memcpy (dst src : List Nat) (n : Nat) : Option (List Nat) :=
  if n ≤ src.length ∧ n ≤ dst.length then some (src.take n ++ dst.drop n) else none

/-! ## Memory pool (`mempool.c`, `MEMPOOL_IMPLEMENTED_QUEUE` defined) -/

/-- Tagged pointer `struct memory_node`. -/
structure memory_node where
  count : Nat
  frag : Option Nat
deriving DecidableEq, Repr

/-- Headers (`next`) of the fragments, by address; `none` where no fragment is
allocated. -/
abbrev FragMem := Nat → Option memory_node

/-- Control block `struct memory_pool`. -/
structure memory_pool where
  pool : Option Nat
  data_bytes : Nat
  capacity : Nat
  freeable : Nat
  head : memory_node
  tail : memory_node
deriving DecidableEq, Repr

/-- Header written by `MEMORY_FRAGMENT_MAKER()`. -/
def MEMORY_FRAGMENT_MAKER : memory_node := ⟨0, none⟩

/-- Control block built by `MEMORY_POOL_MAKER(p, b, c)`. -/
def MEMORY_POOL_MAKER (p : Option Nat) (b c : Nat) : memory_pool :=
  ⟨p, b, c, 0, ⟨0, none⟩, ⟨0, none⟩⟩

/-- Size of `struct memory_fragment` (its header `next`). -/
def sizeof_memory_fragment : Nat := 16

/-- Fragment size: `max(data_bytes, sizeof(fragment))` rounded up to 16. -/
def internal_mempool_aligned_data_bytes (self : memory_pool) : Nat :=
  let frag_bytes := max self.data_bytes sizeof_memory_fragment
  if frag_bytes % 16 ≠ 0 then (frag_bytes + (16 - frag_bytes % 16)) % SIZE_MOD
  else frag_bytes

/-- Store to the header of the fragment at `a`. -/
def frag_store (mem : FragMem) (a : Nat) (v : memory_node) : Option FragMem :=
  match mem a with
  | none => none
  | some _ => some (Function.update mem a (some v))

/-- Fragment memory after `calloc(nmemb, size)` returned `p`: zeroed headers at
`p + size * i` for `i < nmemb`, when a header fits into `size` bytes. -/
def frag_calloc (mem : FragMem) (p nmemb size : Nat) : FragMem :=
  fun a =>
    if p ≤ a ∧ sizeof_memory_fragment ≤ size ∧ (a - p) % size = 0 ∧ (a - p) / size < nmemb
    then some ⟨0, none⟩ else mem a

/-- Loop of `internal_mempool_put`: links `frag` behind the last fragment; returns the
`tail` it read last. -/
def internal_mempool_put_loop (frag : Nat) :
    Nat → memory_pool → FragMem → Option (memory_node × memory_pool × FragMem)
  | 0, _, _ => none
  | fuel + 1, self, mem =>
    let tail := self.tail
    match tail.frag with
    | none => none
    | some t =>
      match mem t with
      | none => none
      | some next =>
        if tail = self.tail then
          if next.frag = none then
            let tmp : memory_node := ⟨(next.count + 1) % UINT32_MOD, some frag⟩
            let r := CAS (mem t) (some next) (some tmp)
            if r.1 then some (tail, self, Function.update mem t r.2)
            else internal_mempool_put_loop frag fuel self mem
          else
            let tmp : memory_node := ⟨(tail.count + 1) % UINT32_MOD, next.frag⟩
            let r := CAS self.tail tail tmp
            internal_mempool_put_loop frag fuel { self with tail := r.2 } mem
        else internal_mempool_put_loop frag fuel self mem

/-- Enqueue of `frag` into the free list (`internal_mempool_put`). -/
def internal_mempool_put (fuel : Nat) (self : memory_pool) (mem : FragMem) (frag : Nat) :
    Option (memory_pool × FragMem) :=
  match frag_store mem frag MEMORY_FRAGMENT_MAKER with
  | none => none
  | some mem1 =>
    match internal_mempool_put_loop frag fuel self mem1 with
    | none => none
    | some (tail, self1, mem2) =>
      let tmp : memory_node := ⟨(tail.count + 1) % UINT32_MOD, some frag⟩
      let r := CAS self1.tail tail tmp
      some ({ self1 with tail := r.2, freeable := (self1.freeable + 1) % SIZE_MOD }, mem2)

/-- Loop of `internal_mempool_pick`: `some head` when the head was advanced, `none` when
only the sentinel remains (`errno = ENOMEM`). -/
def internal_mempool_pick_loop :
    Nat → memory_pool → FragMem → Option (Option memory_node × memory_pool)
  | 0, _, _ => none
  | fuel + 1, self, mem =>
    let head := self.head
    let tail := self.tail
    match head.frag with
    | none => none
    | some hd =>
      match mem hd with
      | none => none
      | some next =>
        if head = self.head then
          if head.frag = tail.frag then
            if next.frag = none then some (none, self)
            else
              let tmp : memory_node := ⟨(tail.count + 1) % UINT32_MOD, next.frag⟩
              let r := CAS self.tail tail tmp
              internal_mempool_pick_loop fuel { self with tail := r.2 } mem
          else
            let tmp : memory_node := ⟨(head.count + 1) % UINT32_MOD, next.frag⟩
            let r := CAS self.head head tmp
            if r.1 then some (some head, { self with head := r.2 })
            else internal_mempool_pick_loop fuel self mem
        else internal_mempool_pick_loop fuel self mem

/-- Dequeue of one fragment from the free list (`internal_mempool_pick`): the fragment
(or `NULL`), the `errno` assigned, and the pool. -/
def internal_mempool_pick (fuel : Nat) (self : memory_pool) (mem : FragMem) :
    Option (Option Nat × Option errno_t × memory_pool) :=
  match internal_mempool_pick_loop fuel self mem with
  | none => none
  | some (none, self1) => some (none, some errno_t.ENOMEM, self1)
  | some (some head, self1) =>
    some (head.frag, none,
      { self1 with freeable := (self1.freeable + (SIZE_MOD - 1)) % SIZE_MOD })

/-- Loop of `internal_mempool_setup`: `k` remaining iterations, loop variable `i`. -/
def internal_mempool_setup_loop (fuel pool frag_bytes : Nat) :
    Nat → Nat → memory_pool → FragMem → Option (memory_pool × FragMem)
  | 0, _, self, mem => some (self, mem)
  | k + 1, i, self, mem =>
    match internal_mempool_put fuel self mem ((pool + frag_bytes * i) % SIZE_MOD) with
    | none => none
    | some (self1, mem1) => internal_mempool_setup_loop fuel pool frag_bytes k (i + 1) self1 mem1

/-- Initialisation of the pool over the region at `pool` (`internal_mempool_setup`). -/
def internal_mempool_setup (fuel : Nat) (mem : FragMem) (pool : Option Nat)
    (data_bytes capacity : Nat) : Option (memory_pool × FragMem) :=
  let self := MEMORY_POOL_MAKER pool data_bytes capacity
  let node : memory_node := ⟨0, pool⟩
  match pool with
  | none => none
  | some p =>
    match frag_store mem p MEMORY_FRAGMENT_MAKER with
    | none => none
    | some mem1 =>
      let self1 := { self with head := node, tail := node }
      let frag_bytes := internal_mempool_aligned_data_bytes self1
      internal_mempool_setup_loop fuel p frag_bytes ((self1.capacity + 1) % SIZE_MOD - 1) 1
        self1 mem1

/-- Constructor `mempool_create(mp, data_bytes, capacity)`; `env` is the address the
environment proposes for the `calloc`. Returns the status, the handle and the memory. -/
def mempool_create (fuel : Nat) (mp : Option memory_pool) (data_bytes capacity : Nat)
    (env : Option Nat) (mem : FragMem) : Option (status × Option memory_pool × FragMem) :=
  match mp with
  | none => some (⟨-1, some errno_t.EINVAL⟩, none, mem)
  | some self0 =>
    if data_bytes = 0 ∨ capacity = 0 then some (⟨-1, some errno_t.EINVAL⟩, some self0, mem)
    else
      let self := MEMORY_POOL_MAKER none data_bytes capacity
      let frag_bytes := internal_mempool_aligned_data_bytes self
      match calloc_ptr env ((capacity + 1) % SIZE_MOD) frag_bytes with
      | none => some (⟨-1, none⟩, some self, mem)
      | some pool =>
        match internal_mempool_setup fuel
            (frag_calloc mem pool ((capacity + 1) % SIZE_MOD) frag_bytes)
            (some pool) data_bytes capacity with
        | none => none
        | some (self1, mem1) => some (⟨0, none⟩, some self1, mem1)

/-- Destructor `mempool_destroy(mp)`: releases the region. -/
def mempool_destroy (mp : Option memory_pool) : status × Option memory_pool :=
  match mp with
  | none => (⟨-1, some errno_t.EINVAL⟩, none)
  | some self => (⟨0, none⟩, some { self with pool := none })

/-- Allocation `mempool_alloc(mp)`: the fragment or `NULL`, the `errno` assigned, the
handle. -/
def mempool_alloc (fuel : Nat) (mp : Option memory_pool) (mem : FragMem) :
    Option (Option Nat × Option errno_t × Option memory_pool) :=
  match mp with
  | none => some (none, some errno_t.EINVAL, none)
  | some self =>
    match internal_mempool_pick fuel self mem with
    | none => none
    | some (p, e, self1) => some (p, e, some self1)

/-- Release `mempool_free(mp, ptr)`. -/
def mempool_free (fuel : Nat) (mp : Option memory_pool) (mem : FragMem) (ptr : Option Nat) :
    Option (Option memory_pool × FragMem) :=
  match mp, ptr with
  | none, _ => some (none, mem)
  | some self, none => some (some self, mem)
  | some self, some p =>
    match internal_mempool_put fuel self mem p with
    | none => none
    | some (self1, mem1) => some (some self1, mem1)

/-- Getter `mempool_capacity(mp)` with the `errno` assigned. -/
def mempool_capacity (mp : Option memory_pool) : Int × Option errno_t :=
  match mp with
  | none => (-1, some errno_t.EINVAL)
  | some self => (self.capacity, none)

/-- Getter `mempool_freeable(mp)` with the `errno` assigned. -/
def mempool_freeable (mp : Option memory_pool) : Int × Option errno_t :=
  match mp with
  | none => (-1, some errno_t.EINVAL)
  | some self => (self.freeable, none)

/-- Range test `mempool_contains(mp, ptr)` with the `errno` assigned. -/
def mempool_contains (mp : Option memory_pool) (ptr : Option Nat) : Bool × Option errno_t :=
  match mp with
  | none => (false, some errno_t.EINVAL)
  | some self =>
    let frag_bytes := internal_mempool_aligned_data_bytes self
    let pool_size := (frag_bytes * self.capacity + 1) % SIZE_MOD
    let pool_end := (ptrval self.pool + pool_size) % SIZE_MOD
    (decide (ptrval self.pool ≤ ptrval ptr ∧ ptrval ptr < pool_end), none)

/-! ## Stack (`stack.c`) -/

/-- Node of the stack: the `next` pointer (an index into the node buffer) and the
`value_bytes` bytes of payload. -/
structure stack_node where
  next : Option Nat
  value : List Nat
deriving DecidableEq, Repr

/-- Tagged list head `struct stack_head`. -/
structure stack_head where
  aba : Nat
  node : Option Nat
deriving DecidableEq, Repr

/-- Control block `struct stack` with the node buffer that follows it. The node at
address `&node_buffer + node_bytes * i` is named by its index `i`; `node_buffer i` is
`none` when that node lies outside the allocation. -/
structure stack where
  value_bytes : Nat
  node_bytes : Nat
  size : Nat
  head : stack_head
  free : stack_head
  node_buffer : Nat → Option stack_node

/-- Size of `struct stack_node` without its payload. -/
def sizeof_stack_node : Nat := 8

/-- Size of `struct stack`. -/
def sizeof_stack : Nat := 80

/-- Offset of the member `node_buffer` in `struct stack`. -/
def offsetof_node_buffer : Nat := 64

namespace Stack

/-- Node size `sizeof(struct stack_node) + value_bytes` rounded up to 16. -/
def node_byte_aligned (value_bytes : Nat) : Nat :=
  let node_bytes := (sizeof_stack_node + value_bytes) % SIZE_MOD
  if node_bytes % 16 ≠ 0 then (node_bytes + (16 - node_bytes % 16)) % SIZE_MOD
  else node_bytes

/-- Loop of the static `pop`: `cell` is the list head in memory, `orig` the expected
value. Returns the node taken (or `NULL`) and the new list head. -/
def pop_loop (buf : Nat → Option stack_node) :
    Nat → stack_head → stack_head → Option (Option Nat × stack_head)
  | 0, _, _ => none
  | fuel + 1, cell, orig =>
    match orig.node with
    | none => some (none, cell)
    | some n =>
      match buf n with
      | none => none
      | some nd =>
        let next : stack_head := ⟨(orig.aba + 1) % SIZE_MOD, nd.next⟩
        let r := CAS cell orig next
        if r.1 then some (orig.node, r.2) else pop_loop buf fuel r.2 r.2

/-- Static `pop(head)`. -/
def pop (fuel : Nat) (buf : Nat → Option stack_node) (cell : stack_head) :
    Option (Option Nat × stack_head) :=
  pop_loop buf fuel cell cell

/-- Loop of the static `push`. Returns the node buffer and the new list head. -/
def push_loop (node : Nat) :
    Nat → (Nat → Option stack_node) → stack_head → stack_head →
      Option ((Nat → Option stack_node) × stack_head)
  | 0, _, _, _ => none
  | fuel + 1, buf, cell, orig =>
    match buf node with
    | none => none
    | some nd =>
      let buf1 := Function.update buf node (some { nd with next := orig.node })
      let next : stack_head := ⟨(orig.aba + 1) % SIZE_MOD, some node⟩
      let r := CAS cell orig next
      if r.1 then some (buf1, r.2) else push_loop node fuel buf1 r.2 r.2

/-- Static `push(head, node)`. -/
def push (fuel : Nat) (buf : Nat → Option stack_node) (cell : stack_head) (node : Nat) :
    Option ((Nat → Option stack_node) × stack_head) :=
  push_loop node fuel buf cell cell

/-- Loop of `stack_create` chaining the nodes: `k` remaining iterations, loop
variable `i`. -/
def create_loop : Nat → Nat → (Nat → Option stack_node) → Option (Nat → Option stack_node)
  | 0, _, buf => some buf
  | k + 1, i, buf =>
    match buf i with
    | none => none
    | some nd => create_loop k (i + 1) (Function.update buf i (some { nd with next := some (i + 1) }))

end Stack

/-- Constructor `stack_create(value_bytes, capacity)`; `calloc_ok` tells whether the
environment grants the allocation. The inner `none` is the `NULL` handle. -/
def stack_create (value_bytes capacity : Nat) (calloc_ok : Bool) : Option (Option stack) :=
  let node_bytes := Stack.node_byte_aligned value_bytes
  let alloc_bytes := (sizeof_stack + node_bytes * capacity) % SIZE_MOD
  if calloc_ok = false then some none
  else if alloc_bytes < sizeof_stack then none
  else
    let cells : Nat → Option stack_node := fun i =>
      if sizeof_stack_node + value_bytes ≤ node_bytes
          ∧ offsetof_node_buffer + node_bytes * (i + 1) ≤ alloc_bytes
      then some ⟨none, List.replicate value_bytes 0⟩ else none
    match Stack.create_loop ((capacity + (SIZE_MOD - 1)) % SIZE_MOD) 0 cells with
    | none => none
    | some buf =>
      some (some
        { value_bytes := value_bytes, node_bytes := node_bytes, size := 0,
          head := ⟨0, none⟩, free := ⟨0, some 0⟩, node_buffer := buf })

/-- Destructor `stack_destroy(s)`: `free(self); return 0;`. -/
def stack_destroy (_s : Option stack) : status := ⟨0, none⟩

/-- Getter `stack_size(s)` with the `errno` assigned. -/
def stack_size (s : Option stack) : Nat × Option errno_t :=
  match s with
  | none => (0, some errno_t.EINVAL)
  | some self => (self.size, none)

/-- Operation `stack_push(s, value)`: status and stack afterwards. -/
def stack_push (fuel : Nat) (s : Option stack) (value : Option (List Nat)) :
    Option (status × Option stack) :=
  match s, value with
  | none, _ => some (⟨-1, some errno_t.EINVAL⟩, none)
  | some self, none => some (⟨-1, some errno_t.EINVAL⟩, some self)
  | some self, some v =>
    match Stack.pop fuel self.node_buffer self.free with
    | none => none
    | some (none, free1) => some (⟨-1, some errno_t.ENOMEM⟩, some { self with free := free1 })
    | some (some n, free1) =>
      match self.node_buffer n with
      | none => none
      | some nd =>
        match memcpy nd.value v self.value_bytes with
        | none => none
        | some val =>
          match Stack.push fuel (Function.update self.node_buffer n (some { nd with value := val }))
              self.head n with
          | none => none
          | some (buf2, head1) =>
            some (⟨0, none⟩,
              some { self with free := free1, node_buffer := buf2, head := head1,
                               size := (self.size + 1) % SIZE_MOD })

/-- Operation `stack_pop(s, value)`: status, stack and output buffer afterwards. -/
def stack_pop (fuel : Nat) (s : Option stack) (value : Option (List Nat)) :
    Option (status × Option stack × Option (List Nat)) :=
  match s, value with
  | none, _ => some (⟨-1, some errno_t.EINVAL⟩, none, value)
  | some self, none => some (⟨-1, some errno_t.EINVAL⟩, some self, none)
  | some self, some out =>
    match Stack.pop fuel self.node_buffer self.head with
    | none => none
    | some (none, head1) =>
      some (⟨-1, some errno_t.ENOMEM⟩, some { self with head := head1 }, some out)
    | some (some n, head1) =>
      match self.node_buffer n with
      | none => none
      | some nd =>
        match memcpy out nd.value self.value_bytes with
        | none => none
        | some out1 =>
          match Stack.push fuel self.node_buffer self.free n with
          | none => none
          | some (buf2, free1) =>
            some (⟨0, none⟩,
              some { self with head := head1, node_buffer := buf2, free := free1,
                               size := (self.size + (SIZE_MOD - 1)) % SIZE_MOD },
              some out1)

/-! ## FIFO queue (`queue.c`) -/

/-- Tagged pointer `pointer_t`. -/
structure pointer_t where
  ptr : Option Nat
  count : Nat
deriving DecidableEq, Repr

/-- Queue node `node_t`: the `next` link and the `value_bytes` bytes of payload. -/
structure node_t where
  next : pointer_t
  value : List Nat
deriving DecidableEq, Repr

/-- Heap of queue nodes by address; `none` where no node is allocated. -/
abbrev QHeap := Nat → Option node_t

/-- Control block `queue_t`. -/
structure queue_t where
  Head : pointer_t
  Tail : pointer_t
  value_bytes : Nat
  size : Nat
deriving DecidableEq, Repr

/-- Size of `node_t` without its payload. -/
def sizeof_node_t : Nat := 16

/-- Largest value of `int`. -/
def INT_MAX : Nat := 2 ^ 31 - 1

/-- Size of `int`. -/
def sizeof_int : Nat := 4

/-- Buffer returned by `calloc(n, size)` seen as `n` slots of `size` zero bytes; `NULL`
when the environment refuses or the product overflows. -/
def calloc_slots (calloc_ok : Bool) (n size : Nat) : Option (List (List Nat)) :=
  if calloc_ok = true ∧ n * size < SIZE_MOD then some (List.replicate n (List.replicate size 0))
  else none

/-- Copy `memcpy(&ptr[size * i], src, size)` into slot `i` of a buffer. -/
def slot_store (ptr : Option (List (List Nat))) (i : Nat) (src : List Nat) (size : Nat) :
    Option (List (List Nat)) :=
  match ptr with
  | none => none
  | some slots =>
    match slots.get? i with
    | none => none
    | some slot =>
      match memcpy slot src size with
      | none => none
      | some slot1 => some (slots.set i slot1)

namespace Queue

/-- Static `new_node(self)`: `calloc(1, sizeof(node_t) + value_bytes)` at the address
`env` proposed by the environment, which must be unused. Returns the pointer and the
heap. -/
def new_node (self : queue_t) (heap : QHeap) (env : Option Nat) : Option Nat × QHeap :=
  match calloc_ptr env 1 ((sizeof_node_t + self.value_bytes) % SIZE_MOD) with
  | none => (none, heap)
  | some a =>
    if (heap a).isSome then (none, heap)
    else if sizeof_node_t + self.value_bytes < SIZE_MOD then
      (some a, Function.update heap a (some ⟨⟨none, 0⟩, List.replicate self.value_bytes 0⟩))
    else (some a, heap)

/-- Loop of `queue_destroy` releasing every node from `curr` on. -/
def destroy_loop : Nat → QHeap → pointer_t → Option QHeap
  | 0, _, _ => none
  | fuel + 1, heap, curr =>
    match curr.ptr with
    | none => some heap
    | some a =>
      match heap a with
      | none => none
      | some nd => destroy_loop fuel (Function.update heap a none) nd.next

/-- Loop of `queue_enqueue` linking `node` behind the last node; returns the `tail` read
last. -/
def enqueue_loop (node : Nat) : Nat → queue_t → QHeap → Option (pointer_t × queue_t × QHeap)
  | 0, _, _ => none
  | fuel + 1, q, heap =>
    let tail := q.Tail
    match tail.ptr with
    | none => none
    | some t =>
      match heap t with
      | none => none
      | some tnode =>
        let next := tnode.next
        if tail.ptr = q.Tail.ptr ∧ tail.count = q.Tail.count then
          if next.ptr = none then
            let r := CAS tnode.next next ⟨some node, (next.count + 1) % UINT32_MOD⟩
            if r.1 then some (tail, q, Function.update heap t (some { tnode with next := r.2 }))
            else enqueue_loop node fuel q heap
          else
            let r := CAS q.Tail tail ⟨next.ptr, (tail.count + 1) % UINT32_MOD⟩
            enqueue_loop node fuel { q with Tail := r.2 } heap
        else enqueue_loop node fuel q heap

/-- The statement `next = tail.ptr->next` of `queue_enqueue`, run by a thread on the heap
as it is now with the value `tail` it loaded from `q->Tail` before: the link read, and
`none` when `tail.ptr` is `NULL` or the node it points at is not allocated (any more). -/
def enqueue_read_next (heap : QHeap) (tail : pointer_t) : Option pointer_t :=
  match tail.ptr with
  | none => none
  | some t => (heap t).map fun tnode => tnode.next

/-- Loop of `queue_dequeue`: `none` inside when the queue is empty, else the old head
with the output buffer. -/
def dequeue_loop : Nat → queue_t → QHeap → List Nat →
    Option (Option (pointer_t × List Nat) × queue_t)
  | 0, _, _, _ => none
  | fuel + 1, q, heap, out =>
    let head := q.Head
    let tail := q.Tail
    match head.ptr with
    | none => none
    | some h =>
      match heap h with
      | none => none
      | some hnode =>
        let next := hnode.next
        if head.ptr = q.Head.ptr ∧ head.count = q.Head.count then
          if head.ptr = tail.ptr then
            if next.ptr = none then some (none, q)
            else
              let r := CAS q.Tail tail ⟨next.ptr, (tail.count + 1) % UINT32_MOD⟩
              dequeue_loop fuel { q with Tail := r.2 } heap out
          else
            match next.ptr with
            | none => none
            | some n =>
              match heap n with
              | none => none
              | some nnode =>
                match memcpy out nnode.value q.value_bytes with
                | none => none
                | some out1 =>
                  let r := CAS q.Head head ⟨next.ptr, (head.count + 1) % UINT32_MOD⟩
                  if r.1 then some (some (head, out1), { q with Head := r.2 })
                  else dequeue_loop fuel q heap out1
        else dequeue_loop fuel q heap out

/-- Loop of `queue_to_array`: walks the list from `curr`, copying the payload of each
successor into slot `i`. Before each copy the loop prints `*(int *)next.ptr->value`, a
read of `sizeof(int)` bytes of the payload, undefined when the payload is shorter. -/
def to_array_loop (heap : QHeap) (size : Nat) :
    Nat → pointer_t → Nat → Option (List (List Nat)) → Option (Option (List (List Nat)))
  | 0, _, _, _ => none
  | fuel + 1, curr, i, ptr =>
    match curr.ptr with
    | none => some ptr
    | some c =>
      match heap c with
      | none => none
      | some cnode =>
        let next := cnode.next
        if INT_MAX ≤ i then none
        else
          match next.ptr with
          | none => to_array_loop heap size fuel cnode.next (i + 1) ptr
          | some n =>
            match heap n with
            | none => none
            | some nnode =>
              if nnode.value.length < sizeof_int then none
              else
                match slot_store ptr i nnode.value size with
                | none => none
                | some slots => to_array_loop heap size fuel cnode.next (i + 1) (some slots)

end Queue

/-- Constructor `queue_create(q, value_bytes)`; `env` is the address proposed for the
sentinel. -/
def queue_create (q : Option queue_t) (value_bytes : Nat) (env : Option Nat) (heap : QHeap) :
    Option (status × Option queue_t × QHeap) :=
  match q with
  | none => some (⟨-1, some errno_t.EINVAL⟩, none, heap)
  | some q0 =>
    if value_bytes = 0 then some (⟨-1, some errno_t.EINVAL⟩, some q0, heap)
    else
      let q1 : queue_t := { q0 with value_bytes := value_bytes, size := 0 }
      match Queue.new_node q1 heap env with
      | (none, heap1) => some (⟨-1, none⟩, some q1, heap1)
      | (some a, heap1) =>
        match heap1 a with
        | none => none
        | some nd =>
          let heap2 := Function.update heap1 a (some { nd with next := { nd.next with ptr := none } })
          some (⟨0, none⟩, some { q1 with Head := ⟨some a, 0⟩, Tail := ⟨some a, 0⟩ }, heap2)

/-- Destructor `queue_destroy(q)`. -/
def queue_destroy (fuel : Nat) (q : Option queue_t) (heap : QHeap) : Option (status × QHeap) :=
  match q with
  | none => some (⟨-1, some errno_t.EINVAL⟩, heap)
  | some q0 =>
    match Queue.destroy_loop fuel heap q0.Head with
    | none => none
    | some heap1 => some (⟨0, none⟩, heap1)

/-- Operation `queue_enqueue(q, value)`; `env` is the address proposed for the node. -/
def queue_enqueue (fuel : Nat) (q : Option queue_t) (value : Option (List Nat))
    (env : Option Nat) (heap : QHeap) : Option (status × Option queue_t × QHeap) :=
  match q, value with
  | none, _ => some (⟨-1, some errno_t.EINVAL⟩, none, heap)
  | some q0, none => some (⟨-1, some errno_t.EINVAL⟩, some q0, heap)
  | some q0, some v =>
    match Queue.new_node q0 heap env with
    | (none, heap1) => some (⟨-1, none⟩, some q0, heap1)
    | (some a, heap1) =>
      match heap1 a with
      | none => none
      | some nd =>
        match memcpy nd.value v q0.value_bytes with
        | none => none
        | some val =>
          let heap2 := Function.update heap1 a
            (some { next := { nd.next with ptr := none }, value := val })
          match Queue.enqueue_loop a fuel q0 heap2 with
          | none => none
          | some (tail, q1, heap3) =>
            let r := CAS q1.Tail tail ⟨some a, (tail.count + 1) % UINT32_MOD⟩
            some (⟨0, none⟩,
              some { q1 with Tail := r.2, size := (q1.size + 1) % SIZE_MOD }, heap3)

/-- Operation `queue_dequeue(q, value)`: status, queue, heap and output buffer. -/
def queue_dequeue (fuel : Nat) (q : Option queue_t) (value : Option (List Nat)) (heap : QHeap) :
    Option (status × Option queue_t × QHeap × Option (List Nat)) :=
  match q, value with
  | none, _ => some (⟨-1, some errno_t.EINVAL⟩, none, heap, value)
  | some q0, none => some (⟨-1, some errno_t.EINVAL⟩, some q0, heap, none)
  | some q0, some out =>
    match Queue.dequeue_loop fuel q0 heap out with
    | none => none
    | some (none, q1) => some (⟨-1, some errno_t.ENOENT⟩, some q1, heap, some out)
    | some (some (head, out1), q1) =>
      match head.ptr with
      | none => none
      | some h =>
        some (⟨0, none⟩, some { q1 with size := (q1.size + (SIZE_MOD - 1)) % SIZE_MOD },
          Function.update heap h none, some out1)

/-- Debug helper `queue_to_array(q)`: the buffer (or `NULL`) and the `errno` assigned;
`calloc_ok` tells whether the environment grants the buffer. -/
def queue_to_array (fuel : Nat) (q : Option queue_t) (calloc_ok : Bool) (heap : QHeap) :
    Option (Option (List (List Nat)) × Option errno_t) :=
  match q with
  | none => some (none, some errno_t.EINVAL)
  | some q0 =>
    let n := q0.size
    let size := q0.value_bytes
    match Queue.to_array_loop heap size fuel q0.Head 0 (calloc_slots calloc_ok n size) with
    | none => none
    | some ptr => some (ptr, none)

/-! ## Deque (`deque.c`) -/

/-- Link `struct deque_link`: a node pointer and the deletion mark. -/
structure Link where
  p : Option Nat
  d : Bool
deriving DecidableEq, Repr

/-- Memory of the deque nodes, one map per member of `struct deque_node`, indexed by
the address of the node (the address of the pool fragment that holds it). `data` holds
the `val_bytes` bytes of payload. -/
structure NodeMem where
  prev : Nat → Link
  next : Nat → Link
  ref : Nat → Nat
  data : Nat → List Nat

/-- Control block `deq_t`. -/
structure deq_t where
  pool : memory_pool
  val_bytes : Nat
  head : Option Nat
  tail : Option Nat
deriving DecidableEq, Repr

/-- Size of `struct deque_node`. -/
def sizeof_deque_node : Nat := 48

/-- Offset of the member `data` in `struct deque_node`. -/
def offsetof_data : Nat := 36

/-- Link built by `LINK_MAKER(a, b)`. -/
def LINK_MAKER (a : Option Nat) (b : Bool) : Link := ⟨a, b⟩

/-- Store to `a->prev`. -/
def NodeMem.set_prev (h : NodeMem) (a : Nat) (l : Link) : NodeMem :=
  { h with prev := Function.update h.prev a l }

/-- Store to `a->next`. -/
def NodeMem.set_next (h : NodeMem) (a : Nat) (l : Link) : NodeMem :=
  { h with next := Function.update h.next a l }

/-- Store to `a->ref`. -/
def NodeMem.set_ref (h : NodeMem) (a : Nat) (r : Nat) : NodeMem :=
  { h with ref := Function.update h.ref a r }

/-- Store to `a->data`. -/
def NodeMem.set_data (h : NodeMem) (a : Nat) (v : List Nat) : NodeMem :=
  { h with data := Function.update h.data a v }

/-- Increment `atomic_inc(&a->ref)`. -/
def NodeMem.inc_ref (h : NodeMem) (a : Nat) : NodeMem :=
  h.set_ref a ((h.ref a + 1) % UINT32_MOD)

/-- Node allocation `MALLOC_NODE(self)`: the node (or `NULL`), the `errno` assigned, the
pool and the node memory. -/
def MALLOC_NODE (fuel : Nat) (pool : memory_pool) (frags : FragMem) (h : NodeMem) :
    Option (Option Nat × Option errno_t × memory_pool × NodeMem) :=
  match mempool_alloc fuel (some pool) frags with
  | none => none
  | some (_, _, none) => none
  | some (none, e, some pool1) => some (none, e, pool1, h)
  | some (some n, e, some pool1) =>
    if internal_mempool_aligned_data_bytes pool1 < sizeof_deque_node then none
    else some (some n, e, pool1,
      ((h.set_ref n 0).set_prev n ⟨none, false⟩).set_next n ⟨none, false⟩)

/-- Dereference `DEREF(link)` of a link cell holding `link1`: `NULL` when the link is
marked, else the target with its reference count incremented. -/
def DEREF (h : NodeMem) (link1 : Link) : Option (NodeMem × Option Nat) :=
  if link1.d then some (h, none)
  else
    match link1.p with
    | none => none
    | some a => some (h.inc_ref a, some a)

/-- Dereference `DEREF_D(link)` ignoring the mark. -/
def DEREF_D (h : NodeMem) (link1 : Link) : Option (NodeMem × Option Nat) :=
  match link1.p with
  | none => none
  | some a => some (h.inc_ref a, some a)

/-- Reference copy `COPY(node)`. -/
def COPY (h : NodeMem) (node : Option Nat) : Option NodeMem :=
  match node with
  | none => none
  | some a => some (h.inc_ref a)

/-- Release `REL(node)` together with `TerminateNode(node)`, which it calls when the
count it decremented was 1. -/
def REL : Nat → NodeMem → Option Nat → Option NodeMem
  | 0, _, _ => none
  | _ + 1, h, none => some h
  | fuel + 1, h, some a =>
    let ref := h.ref a
    let h1 := h.set_ref a ((ref + (UINT32_MOD - 1)) % UINT32_MOD)
    if ref = 1 then
      match REL fuel h1 (h1.prev a).p with
      | none => none
      | some h2 => REL fuel h2 (h2.next a).p
    else some h1

/-- Release `REL(node)` with a log: the memory it leaves and, in order, the arguments of
all the invocations of `REL` that the call makes, itself first and those made through
`TerminateNode` after it. -/
def REL_log : Nat → NodeMem → Option Nat → Option (NodeMem × List (Option Nat))
  | 0, _, _ => none
  | _ + 1, h, none => some (h, [none])
  | fuel + 1, h, some a =>
    let ref := h.ref a
    let h1 := h.set_ref a ((ref + (UINT32_MOD - 1)) % UINT32_MOD)
    if ref = 1 then
      match REL_log fuel h1 (h1.prev a).p with
      | none => none
      | some (h2, l2) =>
        match REL_log fuel h2 (h2.next a).p with
        | none => none
        | some (h3, l3) => some (h3, some a :: (l2 ++ l3))
    else some (h1, [some a])

/-- Node creation `CreateNode(self, val)`. -/
def CreateNode (fuel : Nat) (pool : memory_pool) (val_bytes : Nat) (frags : FragMem)
    (h : NodeMem) (val : List Nat) :
    Option (Option Nat × Option errno_t × memory_pool × NodeMem) :=
  match MALLOC_NODE fuel pool frags h with
  | none => none
  | some (none, e, pool1, h1) => some (none, e, pool1, h1)
  | some (some n, e, pool1, h1) =>
    if val_bytes ≤ val.length
        ∧ offsetof_data + val_bytes ≤ internal_mempool_aligned_data_bytes pool1
    then some (some n, e, pool1, h1.set_data n (val.take val_bytes))
    else none

/-- Marking `deque_mark_prev(node)`: sets the deletion mark of `node->prev`. -/
def deque_mark_prev : Nat → NodeMem → Nat → Option NodeMem
  | 0, _, _ => none
  | fuel + 1, h, node =>
    let link1 := h.prev node
    if link1.d then some h
    else
      let r := CAS (h.prev node) link1 (LINK_MAKER link1.p true)
      if r.1 then some (h.set_prev node r.2) else deque_mark_prev fuel (h.set_prev node r.2) node

/-- Release of `last` when it is not `NULL` (`if (last != NULL) REL(last);`). -/
def REL_last (fuel : Nat) (h : NodeMem) (last : Option Nat) : Option NodeMem :=
  match last with
  | none => some h
  | some l => REL fuel h (some l)

/-- Loop of `HelpDelete(node)` over the locals `last`, `prev`, `next`. -/
def HelpDelete_loop (node : Nat) :
    Nat → NodeMem → Option Nat → Option Nat → Option Nat →
      Option (NodeMem × Option Nat × Option Nat × Option Nat)
  | 0, _, _, _, _ => none
  | fuel + 1, h, last, prev, next =>
    if prev = next then some (h, last, prev, next)
    else
      match next, prev with
      | none, _ => none
      | some _, none => none
      | some nx, some pv =>
        if (h.next nx).d then
          (deque_mark_prev fuel h nx).bind fun h1 =>
          (DEREF_D h1 (h1.next nx)).bind fun (h2, next2) =>
          (REL fuel h2 (some nx)).bind fun h3 =>
          HelpDelete_loop node fuel h3 last prev next2
        else
          (DEREF h (h.next pv)).bind fun (h1, prev2) =>
          match prev2 with
          | none =>
            match last with
            | some l =>
              (deque_mark_prev fuel h1 pv).bind fun h2 =>
              (DEREF_D h2 (h2.next pv)).bind fun (h3, next2) =>
              let r := CAS (h3.next l) (LINK_MAKER prev false) (LINK_MAKER next2 false)
              let h4 := h3.set_next l r.2
              (REL fuel h4 (if r.1 then prev else next2)).bind fun h5 =>
              (REL fuel h5 prev).bind fun h6 =>
              HelpDelete_loop node fuel h6 none last next
            | none =>
              (DEREF_D h1 (h1.prev pv)).bind fun (h2, prev2) =>
              (REL fuel h2 prev).bind fun h3 =>
              HelpDelete_loop node fuel h3 last prev2 next
          | some p2 =>
            if p2 ≠ node then
              (REL_last fuel h1 last).bind fun h2 =>
              HelpDelete_loop node fuel h2 prev prev2 next
            else
              (REL fuel h1 prev2).bind fun h2 =>
              let r := CAS (h2.next pv) (LINK_MAKER (some node) false) (LINK_MAKER next false)
              let h3 := h2.set_next pv r.2
              if r.1 then
                (COPY h3 next).bind fun h4 =>
                (REL fuel h4 (some node)).bind fun h5 =>
                some (h5, last, prev, next)
              else HelpDelete_loop node fuel h3 last prev next

/-- Helper `HelpDelete(node)`: unlinks a node whose `next` link is marked. -/
def HelpDelete (fuel : Nat) (h : NodeMem) (node : Nat) : Option NodeMem :=
  (deque_mark_prev fuel h node).bind fun h1 =>
  (DEREF_D h1 (h1.prev node)).bind fun (h2, prev) =>
  (DEREF_D h2 (h2.next node)).bind fun (h3, next) =>
  (HelpDelete_loop node fuel h3 none prev next).bind fun (h4, last, prev1, next1) =>
  (REL_last fuel h4 last).bind fun h5 =>
  (REL fuel h5 prev1).bind fun h6 =>
  REL fuel h6 next1

/-- Loop of `HelpInsert(prev, node)` over the locals `last`, `prev`. -/
def HelpInsert_loop (node : Nat) :
    Nat → NodeMem → Option Nat → Option Nat → Option (NodeMem × Option Nat × Option Nat)
  | 0, _, _, _ => none
  | fuel + 1, h, last, prev =>
    match prev with
    | none => none
    | some pv =>
      (DEREF h (h.next pv)).bind fun (h1, prev2) =>
      match prev2 with
      | none =>
        match last with
        | some l =>
          (deque_mark_prev fuel h1 pv).bind fun h2 =>
          (DEREF_D h2 (h2.next pv)).bind fun (h3, next2) =>
          let r := CAS (h3.next l) (LINK_MAKER prev false) (LINK_MAKER next2 false)
          let h4 := h3.set_next l r.2
          (REL fuel h4 (if r.1 then prev else next2)).bind fun h5 =>
          (REL fuel h5 prev).bind fun h6 =>
          HelpInsert_loop node fuel h6 none last
        | none =>
          (DEREF_D h1 (h1.prev pv)).bind fun (h2, prev2) =>
          (REL fuel h2 prev).bind fun h3 =>
          HelpInsert_loop node fuel h3 last prev2
      | some p2 =>
        let link1 := h1.prev node
        if link1.d then
          (REL fuel h1 prev2).bind fun h2 => some (h2, last, prev)
        else if p2 ≠ node then
          (REL_last fuel h1 last).bind fun h2 =>
          HelpInsert_loop node fuel h2 prev prev2
        else
          (REL fuel h1 prev2).bind fun h2 =>
          if link1.p = prev then some (h2, last, prev)
          else if (h2.next pv).p = some node then
            let r := CAS (h2.prev node) link1 (LINK_MAKER prev false)
            let h3 := h2.set_prev node r.2
            if r.1 then
              (COPY h3 prev).bind fun h4 =>
              (REL fuel h4 link1.p).bind fun h5 =>
              if (h5.prev pv).d then HelpInsert_loop node fuel h5 last prev
              else some (h5, last, prev)
            else HelpInsert_loop node fuel h3 last prev
          else HelpInsert_loop node fuel h2 last prev

/-- Helper `HelpInsert(prev, node)`: makes `node->prev` point at a live predecessor and
returns that predecessor. -/
def HelpInsert (fuel : Nat) (h : NodeMem) (prev : Option Nat) (node : Nat) :
    Option (NodeMem × Option Nat) :=
  (HelpInsert_loop node fuel h none prev).bind fun (h1, last, prev1) =>
  (REL_last fuel h1 last).bind fun h2 => some (h2, prev1)

/-- Helper `RemoveCrossReference(node)`. -/
def RemoveCrossReference : Nat → NodeMem → Nat → Option NodeMem
  | 0, _, _ => none
  | fuel + 1, h, node =>
    match (h.prev node).p with
    | none => none
    | some prev =>
      if (h.prev prev).d then
        (DEREF_D h (h.prev prev)).bind fun (h1, prev2) =>
        let h2 := h1.set_prev node (LINK_MAKER prev2 true)
        (REL fuel h2 (some prev)).bind fun h3 =>
        RemoveCrossReference fuel h3 node
      else
        match (h.next node).p with
        | none => none
        | some next =>
          if (h.prev next).d then
            (DEREF_D h (h.next next)).bind fun (h1, next2) =>
            RemoveCrossReference fuel (h1.set_next node (LINK_MAKER next2 true)) node
          else some h

/-- Loop of `deque_push_common(node, next)`. -/
def deque_push_common_loop (node next : Nat) : Nat → NodeMem → Option NodeMem
  | 0, _ => none
  | fuel + 1, h =>
    let link1 := h.prev next
    if link1.d ∨ ((h.next node).p ≠ some next ∨ (h.next node).d) then some h
    else
      let r := CAS (h.prev next) link1 (LINK_MAKER (some node) false)
      let h1 := h.set_prev next r.2
      if r.1 then
        (COPY h1 (some node)).bind fun h2 =>
        (REL fuel h2 link1.p).bind fun h3 =>
        if (h3.prev node).d then
          (COPY h3 (some node)).bind fun h4 =>
          (HelpInsert fuel h4 (some node) next).bind fun (h5, prev2) =>
          REL fuel h5 prev2
        else some h3
      else deque_push_common_loop node next fuel h1

/-- Second half of both insertions, `deque_push_common(node, next)`: installs the back
link of `next`. -/
def deque_push_common (fuel : Nat) (h : NodeMem) (node : Nat) (next : Option Nat) :
    Option NodeMem :=
  match next with
  | none => none
  | some nx =>
    (deque_push_common_loop node nx fuel h).bind fun h1 =>
    (REL fuel h1 next).bind fun h2 =>
    REL fuel h2 (some node)

/-- Loop of `deque_push` over the local `next`; returns the `next` the node was linked
in front of. -/
def deque_push_loop (node prev : Nat) : Nat → NodeMem → Option Nat → Option (NodeMem × Option Nat)
  | 0, _, _ => none
  | fuel + 1, h, next =>
    if (h.next prev).p ≠ next ∨ (h.next prev).d then
      (REL fuel h next).bind fun h1 =>
      (DEREF h1 (h1.next prev)).bind fun (h2, next1) =>
      deque_push_loop node prev fuel h2 next1
    else
      let h1 := (h.set_prev node (LINK_MAKER (some prev) false)).set_next node
        (LINK_MAKER next false)
      let r := CAS (h1.next prev) (LINK_MAKER next false) (LINK_MAKER (some node) false)
      let h2 := h1.set_next prev r.2
      if r.1 then (COPY h2 (some node)).bind fun h3 => some (h3, next)
      else deque_push_loop node prev fuel h2 next

/-- Loop of `deque_shift` over the local `prev`; returns the node memory. -/
def deque_shift_loop (node next : Nat) : Nat → NodeMem → Option Nat → Option NodeMem
  | 0, _, _ => none
  | fuel + 1, h, prev =>
    match prev with
    | none => none
    | some pv =>
      if (h.next pv).p ≠ some next ∨ (h.next pv).d then
        (HelpInsert fuel h prev next).bind fun (h1, prev1) =>
        deque_shift_loop node next fuel h1 prev1
      else
        let h1 := (h.set_prev node (LINK_MAKER prev false)).set_next node
          (LINK_MAKER (some next) false)
        let r := CAS (h1.next pv) (LINK_MAKER (some next) false) (LINK_MAKER (some node) false)
        let h2 := h1.set_next pv r.2
        if r.1 then COPY h2 (some node)
        else deque_shift_loop node next fuel h2 prev

/-- Loop of `deque_pop`: `none` inside when only the sentinels remain, else the node
removed and the output buffer. -/
def deque_pop_loop (val_bytes : Nat) (tail : Option Nat) (out : List Nat) :
    Nat → NodeMem → Option Nat → Option (NodeMem × Option (Nat × List Nat))
  | 0, _, _ => none
  | fuel + 1, h, prev =>
    match prev with
    | none => none
    | some pv =>
      (DEREF h (h.next pv)).bind fun (h1, node) =>
      if node = tail then
        (REL fuel h1 node).bind fun h2 =>
        (REL fuel h2 prev).bind fun h3 => some (h3, none)
      else
        match node with
        | none => none
        | some nd =>
          let link1 := h1.next nd
          if link1.d then
            (HelpDelete fuel h1 nd).bind fun h2 =>
            (REL fuel h2 node).bind fun h3 =>
            deque_pop_loop val_bytes tail out fuel h3 prev
          else
            let r := CAS (h1.next nd) link1 (LINK_MAKER link1.p true)
            let h2 := h1.set_next nd r.2
            if r.1 then
              (HelpDelete fuel h2 nd).bind fun h3 =>
              (DEREF_D h3 (h3.next nd)).bind fun (h4, next) =>
              match next with
              | none => none
              | some nx =>
                (HelpInsert fuel h4 prev nx).bind fun (h5, prev1) =>
                (REL fuel h5 prev1).bind fun h6 =>
                (REL fuel h6 next).bind fun h7 =>
                (memcpy out (h7.data nd) val_bytes).bind fun out1 =>
                some (h7, some (nd, out1))
            else
              (REL fuel h2 node).bind fun h3 =>
              deque_pop_loop val_bytes tail out fuel h3 prev

/-- Loop of `deque_unshift` over the local `node`: `none` inside when only the sentinels
remain, else the node removed and the output buffer. -/
def deque_unshift_loop (val_bytes : Nat) (head : Option Nat) (next : Nat) (out : List Nat) :
    Nat → NodeMem → Option Nat → Option (NodeMem × Option (Nat × List Nat))
  | 0, _, _ => none
  | fuel + 1, h, node =>
    match node with
    | none => none
    | some nd =>
      if (h.next nd).p ≠ some next ∨ (h.next nd).d then
        (HelpInsert fuel h node next).bind fun (h1, node1) =>
        deque_unshift_loop val_bytes head next out fuel h1 node1
      else if node = head then
        (REL fuel h node).bind fun h1 =>
        (REL fuel h1 (some next)).bind fun h2 => some (h2, none)
      else
        let r := CAS (h.next nd) (LINK_MAKER (some next) false) (LINK_MAKER (some next) true)
        let h1 := h.set_next nd r.2
        if r.1 then
          (HelpDelete fuel h1 nd).bind fun h2 =>
          (DEREF_D h2 (h2.prev nd)).bind fun (h3, prev) =>
          (HelpInsert fuel h3 prev next).bind fun (h4, prev1) =>
          (REL fuel h4 prev1).bind fun h5 =>
          (REL fuel h5 (some next)).bind fun h6 =>
          (memcpy out (h6.data nd) val_bytes).bind fun out1 =>
          some (h6, some (nd, out1))
        else deque_unshift_loop val_bytes head next out fuel h1 node

/-- Loop of `deque_to_array`: copies the payload of every node from `node` up to the
tail sentinel into the slots `i`, `i + 1`, ... -/
def deque_to_array_loop (h : NodeMem) (tail : Option Nat) (size : Nat) :
    Nat → Option Nat → Nat → Option (List (List Nat)) → Option (Option (List (List Nat)))
  | 0, _, _, _ => none
  | fuel + 1, node, i, ptr =>
    if node = tail then some ptr
    else
      match node with
      | none => none
      | some nd =>
        if INT_MAX ≤ i then none
        else
          match slot_store ptr i (h.data nd) size with
          | none => none
          | some slots => deque_to_array_loop h tail size fuel (h.next nd).p (i + 1) (some slots)

/-- State of a program using one deque: the control block, the fragment headers of its
pool and the node memory. -/
structure DequeWorld where
  q : deq_t
  frags : FragMem
  nodes : NodeMem

/-- Constructor `deque_create(q, val_bytes, capacity)`; `env` is the address proposed
for the pool region. Returns the status and the handle with the memories. -/
def deque_create (fuel : Nat) (q : Option deq_t) (val_bytes capacity : Nat) (env : Option Nat)
    (frags : FragMem) (h : NodeMem) : Option (status × Option deq_t × FragMem × NodeMem) :=
  match q with
  | none => some (⟨-1, some errno_t.EINVAL⟩, none, frags, h)
  | some self =>
    if val_bytes = 0 ∨ capacity = 0 then some (⟨-1, some errno_t.EINVAL⟩, some self, frags, h)
    else
      let node_bytes := (sizeof_deque_node * val_bytes) % SIZE_MOD
      match mempool_create fuel (some self.pool) node_bytes ((capacity + 2) % SIZE_MOD) env
          frags with
      | none => none
      | some (_, none, _) => none
      | some (st, some pool1, frags1) =>
        if st.ret ≠ 0 then some (⟨-1, st.errno⟩, some { self with pool := pool1 }, frags1, h)
        else
          (MALLOC_NODE fuel pool1 frags1 h).bind fun (head, _, pool2, h1) =>
          (MALLOC_NODE fuel pool2 frags1 h1).bind fun (tail, e2, pool3, h2) =>
          match head, tail with
          | some hd, some tl =>
            let h3 := h2.set_next hd { h2.next hd with p := tail }
            let h4 := h3.set_prev tl { h3.prev tl with p := head }
            some (⟨0, e2⟩,
              some { pool := pool3, val_bytes := val_bytes, head := head, tail := tail },
              frags1, h4)
          | _, _ => none

/-- Destructor `deque_destroy(q)`. -/
def deque_destroy (q : Option deq_t) : status × Option deq_t :=
  match q with
  | none => (⟨-1, some errno_t.EINVAL⟩, none)
  | some self =>
    match (mempool_destroy (some self.pool)).2 with
    | none => (⟨0, none⟩, some self)
    | some pool1 => (⟨0, none⟩, some { self with pool := pool1 })

/-- Operation `deque_push(q, val)` (insertion at the front). -/
def deque_push (fuel : Nat) (q : Option deq_t) (val : Option (List Nat)) (frags : FragMem)
    (h : NodeMem) : Option (status × Option deq_t × NodeMem) :=
  match q, val with
  | none, _ => some (⟨-1, some errno_t.EINVAL⟩, none, h)
  | some self, none => some (⟨-1, some errno_t.EINVAL⟩, some self, h)
  | some self, some v =>
    match CreateNode fuel self.pool self.val_bytes frags h v with
    | none => none
    | some (none, e, pool1, h1) => some (⟨-1, e⟩, some { self with pool := pool1 }, h1)
    | some (some node, _, pool1, h1) =>
      match self.head with
      | none => none
      | some prev =>
        (COPY h1 self.head).bind fun h2 =>
        (DEREF h2 (h2.next prev)).bind fun (h3, next) =>
        (deque_push_loop node prev fuel h3 next).bind fun (h4, next1) =>
        (deque_push_common fuel h4 node next1).bind fun h5 =>
        some (⟨0, none⟩, some { self with pool := pool1 }, h5)

/-- Operation `deque_shift(q, val)` (insertion at the back). -/
def deque_shift (fuel : Nat) (q : Option deq_t) (val : Option (List Nat)) (frags : FragMem)
    (h : NodeMem) : Option (status × Option deq_t × NodeMem) :=
  match q, val with
  | none, _ => some (⟨-1, some errno_t.EINVAL⟩, none, h)
  | some self, none => some (⟨-1, some errno_t.EINVAL⟩, some self, h)
  | some self, some v =>
    match CreateNode fuel self.pool self.val_bytes frags h v with
    | none => none
    | some (none, e, pool1, h1) => some (⟨-1, e⟩, some { self with pool := pool1 }, h1)
    | some (some node, _, pool1, h1) =>
      match self.tail with
      | none => none
      | some next =>
        (COPY h1 self.tail).bind fun h2 =>
        (DEREF h2 (h2.prev next)).bind fun (h3, prev) =>
        (deque_shift_loop node next fuel h3 prev).bind fun h4 =>
        (deque_push_common fuel h4 node self.tail).bind fun h5 =>
        some (⟨0, none⟩, some { self with pool := pool1 }, h5)

/-- Operation `deque_pop(q, val)` (removal at the front): status, node memory and output
buffer. -/
def deque_pop (fuel : Nat) (q : Option deq_t) (val : Option (List Nat)) (h : NodeMem) :
    Option (status × NodeMem × Option (List Nat)) :=
  match q, val with
  | none, _ => some (⟨-1, some errno_t.EINVAL⟩, h, val)
  | some _, none => some (⟨-1, some errno_t.EINVAL⟩, h, none)
  | some self, some out =>
    (COPY h self.head).bind fun h1 =>
    (deque_pop_loop self.val_bytes self.tail out fuel h1 self.head).bind fun (h2, r) =>
    match r with
    | none => some (⟨-1, some errno_t.ENOENT⟩, h2, some out)
    | some (node, out1) =>
      (RemoveCrossReference fuel h2 node).bind fun h3 =>
      (REL fuel h3 (some node)).bind fun h4 => some (⟨0, none⟩, h4, some out1)

/-- Operation `deque_unshift(q, val)` (removal at the back): status, node memory and
output buffer. -/
def deque_unshift (fuel : Nat) (q : Option deq_t) (val : Option (List Nat)) (h : NodeMem) :
    Option (status × NodeMem × Option (List Nat)) :=
  match q, val with
  | none, _ => some (⟨-1, some errno_t.EINVAL⟩, h, val)
  | some _, none => some (⟨-1, some errno_t.EINVAL⟩, h, none)
  | some self, some out =>
    match self.tail with
    | none => none
    | some next =>
      (COPY h self.tail).bind fun h1 =>
      (DEREF h1 (h1.prev next)).bind fun (h2, node) =>
      (deque_unshift_loop self.val_bytes self.head next out fuel h2 node).bind fun (h3, r) =>
      match r with
      | none => some (⟨-1, some errno_t.ENOENT⟩, h3, some out)
      | some (nd, out1) =>
        (RemoveCrossReference fuel h3 nd).bind fun h4 =>
        (REL fuel h4 (some nd)).bind fun h5 => some (⟨0, none⟩, h5, some out1)

/-- Debug helper `deque_to_array(q)`: the buffer (or `NULL`) and the `errno` assigned;
`calloc_ok` tells whether the environment grants the buffer. -/
def deque_to_array (fuel : Nat) (q : Option deq_t) (calloc_ok : Bool) (h : NodeMem) :
    Option (Option (List (List Nat)) × Option errno_t) :=
  match q with
  | none => some (none, some errno_t.EINVAL)
  | some self =>
    let n := (self.pool.capacity + (SIZE_MOD - self.pool.freeable % SIZE_MOD)) % SIZE_MOD
    let size := self.val_bytes
    match self.head with
    | none => none
    | some hd =>
      match deque_to_array_loop h self.tail size fuel (h.next hd).p 0
          (calloc_slots calloc_ok n size) with
      | none => none
      | some ptr => some (ptr, none)

/-! ## Sequential use of the stack -/

/-- One call made by the single thread using a stack. -/
inductive stack_op where
  | push (value : Option (List Nat))
  | pop (out : Option (List Nat))
deriving DecidableEq, Repr

/-- The buffer handed to a call is `NULL` or holds at least `n` bytes. -/
def buffer_fits (n : Nat) (b : Option (List Nat)) : Bool :=
  match b with
  | none => true
  | some l => decide (n ≤ l.length)

/-- The buffer of the call holds at least `n` bytes when it is not `NULL`. -/
def stack_op.fits (n : Nat) : stack_op → Bool
  | stack_op.push v => buffer_fits n v
  | stack_op.pop out => buffer_fits n out

/-- Runs the calls `ops` in order on the stack `s`, counting the pushes and the pops that
returned 0. -/
def stack_run (fuel : Nat) : List stack_op → stack → Nat → Nat → Option (stack × Nat × Nat)
  | [], s, pushes, pops => some (s, pushes, pops)
  | stack_op.push v :: ops, s, pushes, pops =>
    match stack_push fuel (some s) v with
    | some (st, some s1) =>
      stack_run fuel ops s1 (if st.ret = 0 then pushes + 1 else pushes) pops
    | _ => none
  | stack_op.pop out :: ops, s, pushes, pops =>
    match stack_pop fuel (some s) out with
    | some (st, some s1, _) =>
      stack_run fuel ops s1 pushes (if st.ret = 0 then pops + 1 else pops)
    | _ => none

/-- The nodes `l` are linked in this order from the pointer `p` and the last one ends
the list with `NULL`. -/
def Stack.chain (buf : Nat → Option stack_node) : Option Nat → List Nat → Prop
  | p, [] => p = none
  | p, a :: l => p = some a ∧ ∃ nd, buf a = some nd ∧ Stack.chain buf nd.next l

/-- Representation invariant of a stack of capacity `cap`: `live` is the list rooted at
`head`, `fr` the list rooted at `free`. -/
structure StackInv (cap : Nat) (s : stack) (live fr : List Nat) : Prop where
  hlive : Stack.chain s.node_buffer s.head.node live
  hfree : Stack.chain s.node_buffer s.free.node fr
  nodup : (live ++ fr).Nodup
  cells : ∀ i ∈ live ++ fr, ∃ nd, s.node_buffer i = some nd ∧ nd.value.length = s.value_bytes
  size : s.size = live.length
  total : live.length + fr.length = cap
  bound : cap < SIZE_MOD

/-- Runs the calls `ops` in order on the stack `s`; `elems` lists the payloads pushed by a
call that returned 0 and not popped since, newest first. -/
def stack_run_elems (fuel : Nat) :
    List stack_op → stack → List (List Nat) → Option (stack × List (List Nat))
  | [], s, elems => some (s, elems)
  | stack_op.push v :: ops, s, elems =>
    match stack_push fuel (some s) v with
    | some (st, some s1) =>
      stack_run_elems fuel ops s1
        (if st.ret = 0 then (v.getD []).take s.value_bytes :: elems else elems)
    | _ => none
  | stack_op.pop out :: ops, s, elems =>
    match stack_pop fuel (some s) out with
    | some (st, some s1, _) =>
      stack_run_elems fuel ops s1 (if st.ret = 0 then elems.tail else elems)
    | _ => none

/-- Payload held by the node `i` of the node buffer. -/
def Stack.payload (s : stack) (i : Nat) : List Nat :=
  match s.node_buffer i with
  | some nd => nd.value
  | none => []

/-! ## Sequential use of the memory pool -/

/-- One call made by the single thread using a pool: an allocation, or the release of
the `i`-th fragment it still holds (nothing happens when it holds fewer). -/
inductive pool_op where
  | alloc
  | free (i : Nat)
deriving DecidableEq, Repr

/-- Runs the calls `ops` in order; `out` lists the fragments returned by
`mempool_alloc` and not released since, newest first. -/
def pool_run (fuel : Nat) :
    List pool_op → memory_pool → FragMem → List Nat → Option (memory_pool × FragMem × List Nat)
  | [], self, mem, out => some (self, mem, out)
  | pool_op.alloc :: ops, self, mem, out =>
    match mempool_alloc fuel (some self) mem with
    | some (some p, _, some self1) => pool_run fuel ops self1 mem (p :: out)
    | some (none, _, some self1) => pool_run fuel ops self1 mem out
    | _ => none
  | pool_op.free i :: ops, self, mem, out =>
    match out.get? i with
    | none => pool_run fuel ops self mem out
    | some p =>
      match mempool_free fuel (some self) mem (some p) with
      | some (some self1, mem1) => pool_run fuel ops self1 mem1 (out.erase p)
      | _ => none

/-- The fragments `l` are linked in this order from the pointer `p` and the last one
ends the list with `NULL`. -/
def Pool.chain (mem : FragMem) : Option Nat → List Nat → Prop
  | p, [] => p = none
  | p, a :: l => p = some a ∧ ∃ nd, mem a = some nd ∧ Pool.chain mem nd.frag l

/-- Representation invariant of a pool of capacity `N`: `l` is the free list from the
sentinel at `head` to the fragment at `tail`, `out` the fragments outside the list. -/
structure PoolInv (N : Nat) (mp : memory_pool) (mem : FragMem) (l out : List Nat) : Prop where
  hchain : Pool.chain mem mp.head.frag l
  htail : mp.tail.frag = l.getLast?
  nonempty : l ≠ []
  nodup : (l ++ out).Nodup
  cells : ∀ a ∈ out, ∃ nd, mem a = some nd
  freeable : mp.freeable + 1 = l.length
  total : l.length + out.length = N + 1
  bound : N + 1 < SIZE_MOD

/-! ## Sequential use of the queue -/

/-- One call made by the single thread using a queue; `env` is the address the
environment proposes for the node of an enqueue. -/
inductive queue_op where
  | enqueue (value : Option (List Nat)) (env : Option Nat)
  | dequeue (out : Option (List Nat))
deriving DecidableEq, Repr

/-- The buffer of the call holds at least `n` bytes when it is not `NULL`. -/
def queue_op.fits (n : Nat) : queue_op → Bool
  | queue_op.enqueue v _ => buffer_fits n v
  | queue_op.dequeue out => buffer_fits n out

/-- Runs the calls `ops` in order; `elems` lists the payloads enqueued by a call that
returned 0 and not yet removed by a dequeue that returned 0, oldest first. -/
def queue_run (fuel : Nat) :
    List queue_op → queue_t → QHeap → List (List Nat) → Option (queue_t × QHeap × List (List Nat))
  | [], q, heap, elems => some (q, heap, elems)
  | queue_op.enqueue v env :: ops, q, heap, elems =>
    match queue_enqueue fuel (some q) v env heap with
    | some (st, some q1, heap1) =>
      queue_run fuel ops q1 heap1
        (if st.ret = 0 then elems ++ [(v.getD []).take q.value_bytes] else elems)
    | _ => none
  | queue_op.dequeue out :: ops, q, heap, elems =>
    match queue_dequeue fuel (some q) out heap with
    | some (st, some q1, heap1, _) =>
      queue_run fuel ops q1 heap1 (if st.ret = 0 then elems.tail else elems)
    | _ => none

/-- Address the environment proposes for the node of the call, for an enqueue. -/
def queue_op.env : queue_op → Option Nat
  | queue_op.enqueue _ e => e
  | queue_op.dequeue _ => none

/-- Runs the calls `ops` in order and lists what each call returned: its status and, for
a `queue_dequeue`, the output buffer as the call left it (`none` for an enqueue). -/
def queue_trace (fuel : Nat) :
    List queue_op → queue_t → QHeap → Option (List (status × Option (List Nat)))
  | [], _, _ => some []
  | queue_op.enqueue v env :: ops, q, heap =>
    match queue_enqueue fuel (some q) v env heap with
    | some (st, some q1, heap1) =>
      (queue_trace fuel ops q1 heap1).map fun t => (st, none) :: t
    | _ => none
  | queue_op.dequeue out :: ops, q, heap =>
    match queue_dequeue fuel (some q) out heap with
    | some (st, some q1, heap1, out1) =>
      (queue_trace fuel ops q1 heap1).map fun t => (st, out1) :: t
    | _ => none

/-- FIFO list of the specification, for elements of `n` bytes and an allocator that
grants every node: an enqueue appends the first `n` bytes of the value, a dequeue removes
the oldest element and writes it over the start of the buffer, or returns `empty` (-1 with
`ENOENT`) when the list holds no element; a `NULL` argument gives `invalid-argument` (-1
with `EINVAL`). Returns what the call returns and the list after it. -/
def spec_queue_step (n : Nat) (elems : List (List Nat)) :
    queue_op → (status × Option (List Nat)) × List (List Nat)
  | queue_op.enqueue none _ => ((⟨-1, some errno_t.EINVAL⟩, none), elems)
  | queue_op.enqueue (some v) _ => ((⟨0, none⟩, none), elems ++ [v.take n])
  | queue_op.dequeue none => ((⟨-1, some errno_t.EINVAL⟩, none), elems)
  | queue_op.dequeue (some o) =>
    match elems with
    | [] => ((⟨-1, some errno_t.ENOENT⟩, some o), [])
    | x :: rest => ((⟨0, none⟩, some (x ++ o.drop n)), rest)

/-- What the calls `ops` return, in order, on the FIFO list of the specification. -/
def spec_queue_trace (n : Nat) : List queue_op → List (List Nat) → List (status × Option (List Nat))
  | [], _ => []
  | op :: ops, elems =>
    (spec_queue_step n elems op).1 :: spec_queue_trace n ops (spec_queue_step n elems op).2

/-- The FIFO list of the specification after the calls `ops`. -/
def spec_queue_run (n : Nat) : List queue_op → List (List Nat) → List (List Nat)
  | [], elems => elems
  | op :: ops, elems => spec_queue_run n ops (spec_queue_step n elems op).2

/-- The nodes `l`, given with their payloads, are linked in this order from the pointer
`p` and the last one ends the list with `NULL`. -/
def Queue.chain (heap : QHeap) : Option Nat → List (Nat × List Nat) → Prop
  | p, [] => p = none
  | p, x :: l =>
    p = some x.1 ∧ ∃ nd, heap x.1 = some nd ∧ nd.value = x.2 ∧ Queue.chain heap nd.next.ptr l

/-- Representation invariant of a queue: `nodes` is the list from the sentinel at `Head`
to the node at `Tail`, each node with its payload. -/
structure QueueInv (q : queue_t) (heap : QHeap) (nodes : List (Nat × List Nat)) : Prop where
  hchain : Queue.chain heap q.Head.ptr nodes
  htail : q.Tail.ptr = nodes.getLast?.map Prod.fst
  nonempty : nodes ≠ []
  nodup : (nodes.map Prod.fst).Nodup
  addr : ∀ x ∈ nodes, x.1 < SIZE_MOD
  vals : ∀ x ∈ nodes, x.2.length = q.value_bytes
  size : q.size + 1 = nodes.length
  fits : sizeof_node_t + q.value_bytes < SIZE_MOD

/-! ## Sequential use of the deque -/

/-- One call made by the single thread using a deque. -/
inductive deque_op where
  | push (val : Option (List Nat))
  | shift (val : Option (List Nat))
  | pop (out : Option (List Nat))
  | unshift (out : Option (List Nat))
deriving DecidableEq, Repr

/-- Runs the calls `ops` in order; `elems` lists, front first, the payloads inserted by a
call that returned 0 and not removed since: `deque_push` inserts at the front and
`deque_pop` removes there, `deque_shift` inserts at the back and `deque_unshift` removes
there. -/
def deque_run (fuel : Nat) :
    List deque_op → deq_t → FragMem → NodeMem → List (List Nat) →
      Option (deq_t × NodeMem × List (List Nat))
  | [], q, _, h, elems => some (q, h, elems)
  | deque_op.push v :: ops, q, frags, h, elems =>
    match deque_push fuel (some q) v frags h with
    | some (st, some q1, h1) =>
      deque_run fuel ops q1 frags h1
        (if st.ret = 0 then (v.getD []).take q.val_bytes :: elems else elems)
    | _ => none
  | deque_op.shift v :: ops, q, frags, h, elems =>
    match deque_shift fuel (some q) v frags h with
    | some (st, some q1, h1) =>
      deque_run fuel ops q1 frags h1
        (if st.ret = 0 then elems ++ [(v.getD []).take q.val_bytes] else elems)
    | _ => none
  | deque_op.pop out :: ops, q, frags, h, elems =>
    match deque_pop fuel (some q) out h with
    | some (st, h1, _) =>
      deque_run fuel ops q frags h1 (if st.ret = 0 then elems.tail else elems)
    | none => none
  | deque_op.unshift out :: ops, q, frags, h, elems =>
    match deque_unshift fuel (some q) out h with
    | some (st, h1, _) =>
      deque_run fuel ops q frags h1 (if st.ret = 0 then elems.dropLast else elems)
    | none => none

/-- The call is an insertion (`deque_push` or `deque_shift`). -/
def deque_op.inserts : deque_op → Bool
  | deque_op.push _ => true
  | deque_op.shift _ => true
  | _ => false

/-- Runs the calls `ops` in order and lists what each call returned: its status and, for
a `deque_pop` or a `deque_unshift`, the output buffer as the call left it (`none` for an
insertion). -/
def deque_trace (fuel : Nat) :
    List deque_op → deq_t → FragMem → NodeMem → Option (List (status × Option (List Nat)))
  | [], _, _, _ => some []
  | deque_op.push v :: ops, q, frags, h =>
    match deque_push fuel (some q) v frags h with
    | some (st, some q1, h1) =>
      (deque_trace fuel ops q1 frags h1).map fun t => (st, none) :: t
    | _ => none
  | deque_op.shift v :: ops, q, frags, h =>
    match deque_shift fuel (some q) v frags h with
    | some (st, some q1, h1) =>
      (deque_trace fuel ops q1 frags h1).map fun t => (st, none) :: t
    | _ => none
  | deque_op.pop out :: ops, q, frags, h =>
    match deque_pop fuel (some q) out h with
    | some (st, h1, out1) => (deque_trace fuel ops q frags h1).map fun t => (st, out1) :: t
    | none => none
  | deque_op.unshift out :: ops, q, frags, h =>
    match deque_unshift fuel (some q) out h with
    | some (st, h1, out1) => (deque_trace fuel ops q frags h1).map fun t => (st, out1) :: t
    | none => none

/-- Double-ended sequence of the specification, for elements of `n` bytes and a pool that
is not exhausted: `push_front` (`deque_push`) puts the first `n` bytes of the value at the
front, `push_back` (`deque_shift`) at the back, `pop_front` (`deque_pop`) removes the front
element and writes it over the start of the buffer, `pop_back` (`deque_unshift`) the back
element; a pop returns `empty` (-1 with `ENOENT`) when the sequence holds no element, and
a `NULL` argument gives `invalid-argument` (-1 with `EINVAL`). Returns what the call
returns and the sequence after it. -/
def spec_deque_step (n : Nat) (elems : List (List Nat)) :
    deque_op → (status × Option (List Nat)) × List (List Nat)
  | deque_op.push none => ((⟨-1, some errno_t.EINVAL⟩, none), elems)
  | deque_op.push (some v) => ((⟨0, none⟩, none), v.take n :: elems)
  | deque_op.shift none => ((⟨-1, some errno_t.EINVAL⟩, none), elems)
  | deque_op.shift (some v) => ((⟨0, none⟩, none), elems ++ [v.take n])
  | deque_op.pop none => ((⟨-1, some errno_t.EINVAL⟩, none), elems)
  | deque_op.pop (some o) =>
    match elems with
    | [] => ((⟨-1, some errno_t.ENOENT⟩, some o), [])
    | x :: rest => ((⟨0, none⟩, some (x ++ o.drop n)), rest)
  | deque_op.unshift none => ((⟨-1, some errno_t.EINVAL⟩, none), elems)
  | deque_op.unshift (some o) =>
    match elems.getLast? with
    | none => ((⟨-1, some errno_t.ENOENT⟩, some o), elems)
    | some x => ((⟨0, none⟩, some (x ++ o.drop n)), elems.dropLast)

/-- What the calls `ops` return, in order, on the double-ended sequence of the
specification. -/
def spec_deque_trace (n : Nat) : List deque_op → List (List Nat) → List (status × Option (List Nat))
  | [], _ => []
  | op :: ops, elems =>
    (spec_deque_step n elems op).1 :: spec_deque_trace n ops (spec_deque_step n elems op).2

/-- The double-ended sequence of the specification after the calls `ops`. -/
def spec_deque_run (n : Nat) : List deque_op → List (List Nat) → List (List Nat)
  | [], elems => elems
  | op :: ops, elems => spec_deque_run n ops (spec_deque_step n elems op).2

/-- The node `b` is the successor of the node `a` and `a` the predecessor of `b`, by
links without deletion mark: `a->next = {b, false}` and `b->prev = {a, false}`. -/
def Deque.adj (h : NodeMem) (a b : Nat) : Prop :=
  h.next a = ⟨some b, false⟩ ∧ h.prev b = ⟨some a, false⟩

/-- Representation invariant of a deque over a pool of capacity `N`: `hd` and `tl` are
the sentinels, `nodes` the nodes between them from front to back, each with its payload,
and `outp` the fragments taken from the pool. -/
structure DequeInv (N : Nat) (q : deq_t) (frags : FragMem) (h : NodeMem) (hd tl : Nat)
    (nodes : List (Nat × List Nat)) (outp : List Nat) : Prop where
  head : q.head = some hd
  tail : q.tail = some tl
  linked : List.Chain' (Deque.adj h) (hd :: nodes.map Prod.fst ++ [tl])
  nodup : (hd :: nodes.map Prod.fst ++ [tl]).Nodup
  data : ∀ x ∈ nodes, h.data x.1 = x.2
  vals : ∀ x ∈ nodes, x.2.length = q.val_bytes
  head_prev : h.prev hd = ⟨none, false⟩
  tail_next : h.next tl = ⟨none, false⟩
  pool : ∃ lp, PoolInv N q.pool frags lp outp
  held : ∀ a ∈ hd :: nodes.map Prod.fst ++ [tl], a ∈ outp
  capacity : q.pool.capacity = N

/-- A session of one thread with a deque: `deque_create`, which has to return 0, and then
the calls `ops` in order. Returns the control block, the node memory and the payloads
kept by `deque_run`. -/
def deque_session (fuel : Nat) (q0 : deq_t) (val_bytes capacity : Nat) (env : Option Nat)
    (frags : FragMem) (h0 : NodeMem) (ops : List deque_op) :
    Option (deq_t × NodeMem × List (List Nat)) :=
  match deque_create fuel (some q0) val_bytes capacity env frags h0 with
  | some (st, some q, frags1, h) =>
    if st.ret = 0 then deque_run fuel ops q frags1 h [] else none
  | _ => none

/-! ## Deletion marks -/

/-- Every link that carries the deletion mark in `h` still carries it in `h1`; the links
of the node `x`, when `x` is not `NULL`, are left out of the comparison. -/
def MarksKept (x : Option Nat) (h h1 : NodeMem) : Prop :=
  ∀ a, some a ≠ x →
    ((h.prev a).d = true → (h1.prev a).d = true) ∧ ((h.next a).d = true → (h1.next a).d = true)

/-- A computation started from a memory that kept the marks of `h` ends, when it ends, in
a memory that kept them; `mem` reads the memory off the result. -/
def Keeps {α : Type} (x : Option Nat) (mem : α → NodeMem) (h : NodeMem) (o : Option α) : Prop :=
  ∀ r, o = some r → MarksKept x h (mem r)

/-! ## Termination of the deque operations -/

/-- The buffer of the call holds at least `n` bytes when it is not `NULL`. -/
def deque_op.fits (n : Nat) : deque_op → Bool
  | deque_op.push v => buffer_fits n v
  | deque_op.shift v => buffer_fits n v
  | deque_op.pop out => buffer_fits n out
  | deque_op.unshift out => buffer_fits n out

/-- Number of decrements after which the reference count `r` is 0 again. -/
def Deque.refCost (r : Nat) : Nat := (UINT32_MOD - r % UINT32_MOD) % UINT32_MOD

/-- Sum of `Deque.refCost` over the nodes `S`. -/
def Deque.cost (h : NodeMem) (S : List Nat) : Nat :=
  (S.map fun a => Deque.refCost (h.ref a)).sum

/-- The links `f` of the nodes `S` are `NULL` or lead to nodes of `S`. -/
def Deque.LinksIn (S : List Nat) (f : Nat → Link) : Prop :=
  ∀ a ∈ S, ∀ b, (f a).p = some b → b ∈ S

/-- Both links of every node of `S` are `NULL` or lead to nodes of `S`. -/
def Deque.Closed (S : List Nat) (h : NodeMem) : Prop :=
  Deque.LinksIn S h.prev ∧ Deque.LinksIn S h.next

/-- A computation returns, and its result satisfies `P`. -/
def Returns {β : Type} (o : Option β) (P : β → Prop) : Prop :=
  ∃ res, o = some res ∧ P res

/-- The fragments of the pool of the deque have the size `deque_create` asked for, which
holds a node with its payload. -/
def DequeSized (q : deq_t) : Prop :=
  0 < q.val_bytes ∧ q.pool.data_bytes = sizeof_deque_node * q.val_bytes
    ∧ q.pool.data_bytes + 16 ≤ SIZE_MOD

/-- An insertion at the front (`true`, `deque_push`) or at the back (`false`,
`deque_shift`) of the value given. -/
def deque_insert (bv : Bool × List Nat) : deque_op :=
  if bv.1 then deque_op.push (some bv.2) else deque_op.shift (some bv.2)

/-! ## Theorems -/

/-! ### Argument checks of the constructors, destructors and operations -/

/-- C11: `stack_create(0, 1)` with a granted allocation returns a usable handle, not
`NULL`: the constructor does not check its arguments. -/
theorem stack_create_accepts_zero_value_bytes :
    ∃ s, stack_create 0 1 true = some (some s) ∧ s.value_bytes = 0 ∧ s.node_bytes = 16
      ∧ s.free = ⟨0, some 0⟩ ∧ s.head = ⟨0, none⟩ ∧ s.size = 0 :=
  ⟨_, rfl, rfl, rfl, rfl, rfl, rfl⟩

/-- With capacity 0 the loop bound `capacity - 1` wraps to `2^64 - 1` and the chaining
loop of `stack_create` writes outside the allocation. -/
theorem stack_create_zero_capacity_undefined : stack_create 4 0 true = none := rfl

/-- C12: `deque_create(q, 2^60, 1)` with a non-null handle reports `EINVAL`: the fragment
size `sizeof(struct deque_node) * val_bytes` wraps to 0 and `mempool_create` rejects
it. -/
theorem deque_create_reports_EINVAL_on_wrapped_size (fuel : Nat) (q : deq_t)
    (env : Option Nat) (frags : FragMem) (h : NodeMem) :
    deque_create fuel (some q) (2 ^ 60) 1 env frags h
      = some (⟨-1, some errno_t.EINVAL⟩, some q, frags, h) := by
  simp [deque_create, mempool_create, sizeof_deque_node, SIZE_MOD]

/-- C13: `stack_destroy(NULL)` returns 0 and assigns no `errno`. -/
theorem stack_destroy_null_returns_zero : stack_destroy none = ⟨0, none⟩ := rfl

/-- C14: every insert and remove operation called with a null handle or a null value
buffer returns -1 with `EINVAL` and gives back the container and the memory it was
given, for every amount of fuel. -/
theorem null_arguments_are_rejected (fuel : Nat) (v : Option (List Nat)) (env : Option Nat)
    (s : stack) (q : queue_t) (dq : deq_t) (heap : QHeap) (frags : FragMem) (h : NodeMem) :
    (queue_enqueue fuel none v env heap = some (⟨-1, some errno_t.EINVAL⟩, none, heap)
      ∧ queue_enqueue fuel (some q) none env heap
          = some (⟨-1, some errno_t.EINVAL⟩, some q, heap))
    ∧ (queue_dequeue fuel none v heap = some (⟨-1, some errno_t.EINVAL⟩, none, heap, v)
      ∧ queue_dequeue fuel (some q) none heap
          = some (⟨-1, some errno_t.EINVAL⟩, some q, heap, none))
    ∧ (stack_push fuel none v = some (⟨-1, some errno_t.EINVAL⟩, none)
      ∧ stack_push fuel (some s) none = some (⟨-1, some errno_t.EINVAL⟩, some s))
    ∧ (stack_pop fuel none v = some (⟨-1, some errno_t.EINVAL⟩, none, v)
      ∧ stack_pop fuel (some s) none = some (⟨-1, some errno_t.EINVAL⟩, some s, none))
    ∧ (deque_push fuel none v frags h = some (⟨-1, some errno_t.EINVAL⟩, none, h)
      ∧ deque_push fuel (some dq) none frags h
          = some (⟨-1, some errno_t.EINVAL⟩, some dq, h))
    ∧ (deque_shift fuel none v frags h = some (⟨-1, some errno_t.EINVAL⟩, none, h)
      ∧ deque_shift fuel (some dq) none frags h
          = some (⟨-1, some errno_t.EINVAL⟩, some dq, h))
    ∧ (deque_pop fuel none v h = some (⟨-1, some errno_t.EINVAL⟩, h, v)
      ∧ deque_pop fuel (some dq) none h = some (⟨-1, some errno_t.EINVAL⟩, h, none))
    ∧ (deque_unshift fuel none v h = some (⟨-1, some errno_t.EINVAL⟩, h, v)
      ∧ deque_unshift fuel (some dq) none h = some (⟨-1, some errno_t.EINVAL⟩, h, none)) := by
  refine ⟨⟨?_, ?_⟩, ⟨?_, ?_⟩, ⟨?_, ?_⟩, ⟨?_, ?_⟩, ⟨?_, ?_⟩, ⟨?_, ?_⟩, ⟨?_, ?_⟩, ⟨?_, ?_⟩⟩ <;> rfl

/-- C16: for the pool of capacity 1 created at address 4096 with 16-byte fragments,
`mempool_contains` rejects the address 4113, which lies inside the second fragment
`[4112, 4128)`: the pool size is computed as `frag_bytes * capacity + 1`. -/
theorem mempool_contains_rejects_address_in_last_fragment :
    ∃ (mp : memory_pool) (mem : FragMem),
      mempool_create 1 (some (MEMORY_POOL_MAKER none 0 0)) 8 1 (some 4096) (fun _ => none)
        = some (⟨0, none⟩, some mp, mem)
      ∧ mp.pool = some 4096 ∧ mp.capacity = 1 ∧ internal_mempool_aligned_data_bytes mp = 16
      ∧ (mempool_contains (some mp) (some 4113)).1 = false
      ∧ 4096 ≤ 4113 ∧ 4113 < 4096 + 16 * (1 + 1) :=
  ⟨_, _, rfl, rfl, rfl, rfl, rfl, by decide, by decide⟩

/-! ### Stack: representation invariant and size counter -/

/-- One iteration of the static `pop` suffices for a single thread. -/
theorem Stack.pop_succ (fuel : Nat) (buf : Nat → Option stack_node) (cell : stack_head) :
    Stack.pop (fuel + 1) buf cell =
      match cell.node with
      | none => some (none, cell)
      | some n =>
        match buf n with
        | none => none
        | some nd => some (some n, ⟨(cell.aba + 1) % SIZE_MOD, nd.next⟩) := by
  unfold Stack.pop Stack.pop_loop
  cases hn : cell.node with
  | none => simp
  | some n =>
    cases hb : buf n with
    | none => simp [hb]
    | some nd => simp [CAS, hn, hb]

/-- One iteration of the static `push` suffices for a single thread. -/
theorem Stack.push_succ (fuel : Nat) (buf : Nat → Option stack_node) (cell : stack_head)
    (node : Nat) :
    Stack.push (fuel + 1) buf cell node =
      match buf node with
      | none => none
      | some nd =>
        some (Function.update buf node (some { nd with next := cell.node }),
          ⟨(cell.aba + 1) % SIZE_MOD, some node⟩) := by
  unfold Stack.push Stack.push_loop
  cases hb : buf node with
  | none => simp [hb]
  | some nd => simp [CAS, hb]

/-- A store to a node outside a list leaves the list as it was. -/
theorem Stack.stack_chain_update {buf : Nat → Option stack_node} {n : Nat} (x : Option stack_node)
    {l : List Nat} : ∀ {p : Option Nat}, n ∉ l →
      (Stack.chain (Function.update buf n x) p l ↔ Stack.chain buf p l) := by
  induction l with
  | nil => intro p _; simp [Stack.chain]
  | cons a l ih =>
    intro p hn
    have ha : a ≠ n := fun h => hn (by simp [h])
    have hl : n ∉ l := fun h => hn (by simp [h])
    simp only [Stack.chain, Function.update_noteq ha]
    constructor
    · rintro ⟨hp, nd, hb, hc⟩
      exact ⟨hp, nd, hb, (ih hl).1 hc⟩
    · rintro ⟨hp, nd, hb, hc⟩
      exact ⟨hp, nd, hb, (ih hl).2 hc⟩

/-- A push keeps the invariant, and changes the size by one exactly when it returns 0. -/
theorem stack_push_inv {cap : Nat} {s : stack} {live fr : List Nat} (fuel : Nat)
    (hinv : StackInv cap s live fr) (v : Option (List Nat)) (hv : buffer_fits s.value_bytes v = true) :
    ∃ st s1 live1 fr1, stack_push (fuel + 1) (some s) v = some (st, some s1)
      ∧ StackInv cap s1 live1 fr1 ∧ s1.value_bytes = s.value_bytes
      ∧ (st.ret = 0 ∨ st.ret = -1)
      ∧ (st.ret = 0 → s1.size = s.size + 1)
      ∧ (st.ret ≠ 0 → s1.size = s.size)
      ∧ (live1 ++ fr1).Perm (live ++ fr)
      ∧ (∀ x, v = some x → (st = ⟨0, none⟩ ∧ fr ≠ [])
          ∨ (st = ⟨-1, some errno_t.ENOMEM⟩ ∧ fr = []))
      ∧ (st.ret ≠ 0 → s1 = s ∧ live1 = live ∧ fr1 = fr)
      ∧ (st.ret = 0 → ∃ a nd1, live1 = a :: live ∧ s1.node_buffer a = some nd1
          ∧ nd1.value = (v.getD []).take s.value_bytes
          ∧ ∀ i, i ≠ a → s1.node_buffer i = s.node_buffer i) := by
  cases v with
  | none =>
    exact ⟨_, s, live, fr, rfl, hinv, rfl, Or.inr rfl, by simp, by simp, List.Perm.refl _,
      by simp, fun _ => ⟨rfl, rfl, rfl⟩, fun h => absurd h (by decide)⟩
  | some v =>
    simp only [buffer_fits, decide_eq_true_eq] at hv
    cases fr with
    | nil =>
      have hf := hinv.hfree
      simp only [Stack.chain] at hf
      refine ⟨⟨-1, some errno_t.ENOMEM⟩, s, live, [], ?_, hinv, rfl, Or.inr rfl, by simp, by simp,
        List.Perm.refl _, fun _ _ => Or.inr ⟨rfl, rfl⟩, fun _ => ⟨rfl, rfl, rfl⟩,
        fun h => absurd h (by decide)⟩
      simp [stack_push, Stack.pop_succ, hf]
    | cons a fr =>
      obtain ⟨hfa, nd, hnd, hfr⟩ := hinv.hfree
      have hnodup := hinv.nodup
      have ha_live : a ∉ live := by
        intro h
        have := List.nodup_append.1 hnodup
        exact this.2.2 h (by simp)
      have ha_fr : a ∉ fr := by
        have := (List.nodup_append.1 hnodup).2.1
        exact (List.nodup_cons.1 this).1
      obtain ⟨nd', hnd', hlen⟩ := hinv.cells a (by simp)
      rw [hnd] at hnd'
      cases hnd'
      have hmem : memcpy nd.value v s.value_bytes = some (v.take s.value_bytes ++ nd.value.drop s.value_bytes) := by
        simp [memcpy, hv, hlen]
      refine ⟨⟨0, none⟩, ?s1, a :: live, fr, ?_, ?_, ?_, Or.inl rfl, ?_, by simp,
        List.perm_middle.symm, fun _ _ => Or.inl ⟨rfl, by simp⟩, fun h => absurd rfl h,
        ?_⟩
      case s1 => exact { s with free := ⟨(s.free.aba + 1) % SIZE_MOD, nd.next⟩, node_buffer := Function.update (Function.update s.node_buffer a (some { nd with value := v.take s.value_bytes ++ nd.value.drop s.value_bytes })) a (some { next := s.head.node, value := v.take s.value_bytes ++ nd.value.drop s.value_bytes }), head := ⟨(s.head.aba + 1) % SIZE_MOD, some a⟩, size := (s.size + 1) % SIZE_MOD }
      · simp only [stack_push, Stack.pop_succ, hfa, hnd, hmem, Stack.push_succ, Function.update_same]
      · constructor
        · refine ⟨rfl, _, Function.update_same _ _ _, ?_⟩
          simp only [Function.update_idem]
          exact (Stack.stack_chain_update _ ha_live).2 hinv.hlive
        · simp only [Function.update_idem]
          exact (Stack.stack_chain_update _ ha_fr).2 hfr
        · have := hinv.nodup
          simp only [List.cons_append, List.nodup_cons, List.mem_append, not_or] 
          refine ⟨⟨ha_live, ha_fr⟩, ?_⟩
          have h2 := List.nodup_append.1 hnodup
          refine List.nodup_append.2 ⟨h2.1, (List.nodup_cons.1 h2.2.1).2, ?_⟩
          intro x hx hx'
          exact h2.2.2 hx (List.mem_cons_of_mem _ hx')
        · intro i hi
          simp only [Function.update_idem]
          by_cases hia : i = a
          · subst hia
            simp [hlen, hv]
          · rw [Function.update_noteq hia]
            apply hinv.cells
            simp only [List.cons_append, List.mem_cons, List.mem_append] at hi ⊢
            tauto
        · simp only [List.length_cons]
          have h1 := hinv.size
          have h2 := hinv.total
          have h3 := hinv.bound
          simp only [List.length_cons] at h2
          rw [h1, Nat.mod_eq_of_lt (by omega)]
        · have h2 := hinv.total
          simp only [List.length_cons] at h2 ⊢
          omega
        · exact hinv.bound
      · rfl
      · intro _
        have h1 := hinv.size
        have h2 := hinv.total
        have h3 := hinv.bound
        simp only [List.length_cons] at h2
        show (s.size + 1) % SIZE_MOD = s.size + 1
        rw [Nat.mod_eq_of_lt (by omega)]
      · intro _
        refine ⟨a, _, rfl, Function.update_same _ _ _, ?_, ?_⟩
        · show v.take s.value_bytes ++ nd.value.drop s.value_bytes = _
          rw [List.drop_eq_nil_of_le (by omega)]
          simp
        · intro i hi
          show Function.update (Function.update s.node_buffer a _) a _ i = _
          rw [Function.update_noteq hi, Function.update_noteq hi]

/-- A pop keeps the invariant, and changes the size by one exactly when it returns 0. -/
theorem stack_pop_inv {cap : Nat} {s : stack} {live fr : List Nat} (fuel : Nat)
    (hinv : StackInv cap s live fr) (out : Option (List Nat))
    (hv : buffer_fits s.value_bytes out = true) :
    ∃ st s1 live1 fr1 out1, stack_pop (fuel + 1) (some s) out = some (st, some s1, out1)
      ∧ StackInv cap s1 live1 fr1 ∧ s1.value_bytes = s.value_bytes
      ∧ (st.ret = 0 ∨ st.ret = -1)
      ∧ (st.ret = 0 → s1.size + 1 = s.size)
      ∧ (st.ret ≠ 0 → s1.size = s.size)
      ∧ (live1 ++ fr1).Perm (live ++ fr)
      ∧ (∀ o, out = some o → (st = ⟨0, none⟩ ∧ live ≠ [])
          ∨ (st = ⟨-1, some errno_t.ENOMEM⟩ ∧ live = []))
      ∧ (st.ret ≠ 0 → s1 = s ∧ live1 = live ∧ fr1 = fr ∧ out1 = out)
      ∧ (st.ret = 0 → ∃ a nd, live = a :: live1 ∧ s.node_buffer a = some nd
          ∧ (∀ o, out = some o → out1 = some (nd.value ++ o.drop s.value_bytes))
          ∧ ∀ i, i ≠ a → s1.node_buffer i = s.node_buffer i) := by
  cases out with
  | none =>
    exact ⟨_, s, live, fr, none, rfl, hinv, rfl, Or.inr rfl, by simp, by simp, List.Perm.refl _,
      by simp, fun _ => ⟨rfl, rfl, rfl, rfl⟩, fun h => absurd h (by decide)⟩
  | some out =>
    simp only [buffer_fits, decide_eq_true_eq] at hv
    cases live with
    | nil =>
      have hf := hinv.hlive
      simp only [Stack.chain] at hf
      refine ⟨⟨-1, some errno_t.ENOMEM⟩, s, [], fr, some out, ?_, hinv, rfl, Or.inr rfl,
        by simp, by simp, List.Perm.refl _, fun _ _ => Or.inr ⟨rfl, rfl⟩,
        fun _ => ⟨rfl, rfl, rfl, rfl⟩, fun h => absurd h (by decide)⟩
      simp [stack_pop, Stack.pop_succ, hf]
    | cons a live =>
      obtain ⟨hfa, nd, hnd, hlv⟩ := hinv.hlive
      have hnodup := hinv.nodup
      have h2 := List.nodup_append.1 hnodup
      have ha_live : a ∉ live := (List.nodup_cons.1 h2.1).1
      have ha_fr : a ∉ fr := fun h => h2.2.2 (by simp) h
      obtain ⟨nd', hnd', hlen⟩ := hinv.cells a (by simp)
      rw [hnd] at hnd'
      cases hnd'
      have hmem : memcpy out nd.value s.value_bytes
          = some (nd.value.take s.value_bytes ++ out.drop s.value_bytes) := by
        simp [memcpy, hv, hlen]
      have hsz := hinv.size
      have htot := hinv.total
      have hbd := hinv.bound
      simp only [List.length_cons] at hsz htot
      refine ⟨⟨0, none⟩, ?s1, live, a :: fr,
        some (nd.value.take s.value_bytes ++ out.drop s.value_bytes), ?_, ?_, ?_, Or.inl rfl, ?_,
        by simp, List.perm_middle, fun _ _ => Or.inl ⟨rfl, by simp⟩, fun h => absurd rfl h,
        ?_⟩
      case s1 =>
        exact { s with
          head := ⟨(s.head.aba + 1) % SIZE_MOD, nd.next⟩,
          node_buffer := Function.update s.node_buffer a (some { nd with next := s.free.node }),
          free := ⟨(s.free.aba + 1) % SIZE_MOD, some a⟩,
          size := (s.size + (SIZE_MOD - 1)) % SIZE_MOD }
      · simp only [stack_pop, Stack.pop_succ, hfa, hnd, hmem, Stack.push_succ]
      · constructor
        · exact (Stack.stack_chain_update _ ha_live).2 hlv
        · refine ⟨rfl, _, Function.update_same _ _ _, ?_⟩
          exact (Stack.stack_chain_update _ ha_fr).2 hinv.hfree
        · refine List.nodup_append.2 ⟨(List.nodup_cons.1 h2.1).2, ?_, ?_⟩
          · exact List.nodup_cons.2 ⟨ha_fr, h2.2.1⟩
          · intro x hx hx'
            rcases List.mem_cons.1 hx' with h | h
            · subst h; exact ha_live hx
            · exact h2.2.2 (List.mem_cons_of_mem _ hx) h
        · intro i hi
          by_cases hia : i = a
          · subst hia
            simp [hlen]
          · show ∃ nd_1, Function.update s.node_buffer a _ i = some nd_1 ∧ _
            rw [Function.update_noteq hia]
            apply hinv.cells
            simp only [List.cons_append, List.mem_cons, List.mem_append] at hi ⊢
            tauto
        · show (s.size + (SIZE_MOD - 1)) % SIZE_MOD = live.length
          rw [hsz]
          simp only [SIZE_MOD] at hbd ⊢
          omega
        · simp only [List.length_cons]
          omega
        · exact hbd
      · rfl
      · intro _
        show (s.size + (SIZE_MOD - 1)) % SIZE_MOD + 1 = s.size
        rw [hsz]
        simp only [SIZE_MOD] at hbd ⊢
        omega
      · intro _
        refine ⟨a, nd, rfl, hnd, ?_, ?_⟩
        · intro o ho
          simp only [Option.some.injEq] at ho
          subst ho
          rw [List.take_of_length_le (by omega)]
        · intro i hi
          show Function.update s.node_buffer a _ i = _
          rw [Function.update_noteq hi]

/-- The chaining loop of `stack_create` sets `next` of the nodes `i .. i + k - 1`. -/
theorem Stack.create_loop_spec : ∀ (k i : Nat) (buf : Nat → Option stack_node),
    (∀ j, i ≤ j → j < i + k → ∃ nd, buf j = some nd) →
    ∃ buf1, Stack.create_loop k i buf = some buf1
      ∧ (∀ j, i ≤ j → j < i + k →
          buf1 j = (buf j).map (fun nd => { nd with next := some (j + 1) }))
      ∧ (∀ j, ¬ (i ≤ j ∧ j < i + k) → buf1 j = buf j) := by
  intro k
  induction k with
  | zero =>
    intro i buf _
    exact ⟨buf, rfl, fun j h1 h2 => by omega, fun _ _ => rfl⟩
  | succ k ih =>
    intro i buf hb
    obtain ⟨nd, hnd⟩ := hb i (le_refl _) (by omega)
    obtain ⟨buf1, h1, h2, h3⟩ := ih (i + 1)
      (Function.update buf i (some { nd with next := some (i + 1) }))
      (fun j hj1 hj2 => by
        rw [Function.update_noteq (by omega)]
        exact hb j (by omega) (by omega))
    refine ⟨buf1, ?_, ?_, ?_⟩
    · simp only [Stack.create_loop, hnd, h1]
    · intro j hj1 hj2
      by_cases hji : j = i
      · subst hji
        rw [h3 j (by omega), Function.update_same, hnd]
        rfl
      · rw [h2 j (by omega) (by omega), Function.update_noteq hji]
    · intro j hj
      rw [h3 j (by omega), Function.update_noteq (by omega)]

/-- Nodes chained by increasing index form a list. -/
theorem Stack.chain_range' (buf : Nat → Option stack_node) (cap : Nat)
    (hb : ∀ j, j < cap →
      ∃ v, buf j = some ⟨if j + 1 < cap then some (j + 1) else none, v⟩) :
    ∀ (n i : Nat), i + n = cap →
      Stack.chain buf (if i < cap then some i else none) (List.range' i n) := by
  intro n
  induction n with
  | zero =>
    intro i hi
    simp [Stack.chain, List.range', show ¬ i < cap by omega]
  | succ n ih =>
    intro i hi
    obtain ⟨v, hv⟩ := hb i (by omega)
    simp only [List.range', Stack.chain, show i < cap by omega, if_true, true_and]
    exact ⟨_, hv, ih (i + 1) (by omega)⟩

/-- Without wrap-around a node holds its header and payload. -/
theorem Stack.node_byte_aligned_ge (vb : Nat) (hvb : vb + 24 ≤ SIZE_MOD) :
    sizeof_stack_node + vb ≤ Stack.node_byte_aligned vb ∧ 16 ≤ Stack.node_byte_aligned vb := by
  simp only [Stack.node_byte_aligned, sizeof_stack_node, SIZE_MOD] at *
  split <;> omega

/-- `stack_create` establishes the invariant with every node on the free list. -/
theorem stack_create_inv (vb cap : Nat) (hcap : 0 < cap) (hvb : vb + 24 ≤ SIZE_MOD)
    (hsz : sizeof_stack + Stack.node_byte_aligned vb * cap < SIZE_MOD) :
    ∃ s0, stack_create vb cap true = some (some s0) ∧ StackInv cap s0 [] (List.range' 0 cap)
      ∧ s0.value_bytes = vb ∧ s0.size = 0 := by
  obtain ⟨hnb, hnb16⟩ := Stack.node_byte_aligned_ge vb hvb
  have hcapM : cap < SIZE_MOD := by
    have : cap ≤ Stack.node_byte_aligned vb * cap := Nat.le_mul_of_pos_left _ (by omega)
    omega
  have hcell : ∀ j, j < cap →
      (sizeof_stack_node + vb ≤ Stack.node_byte_aligned vb
        ∧ offsetof_node_buffer + Stack.node_byte_aligned vb * (j + 1)
            ≤ (sizeof_stack + Stack.node_byte_aligned vb * cap) % SIZE_MOD) := by
    intro j hj
    refine ⟨hnb, ?_⟩
    rw [Nat.mod_eq_of_lt hsz]
    have : Stack.node_byte_aligned vb * (j + 1) ≤ Stack.node_byte_aligned vb * cap :=
      Nat.mul_le_mul_left _ (by omega)
    simp only [offsetof_node_buffer, sizeof_stack]
    omega
  have hk : (cap + (SIZE_MOD - 1)) % SIZE_MOD = cap - 1 := by
    simp only [SIZE_MOD] at hcapM ⊢
    omega
  obtain ⟨buf1, h1, h2, h3⟩ := Stack.create_loop_spec (cap - 1) 0
    (fun i =>
      if sizeof_stack_node + vb ≤ Stack.node_byte_aligned vb
          ∧ offsetof_node_buffer + Stack.node_byte_aligned vb * (i + 1)
              ≤ (sizeof_stack + Stack.node_byte_aligned vb * cap) % SIZE_MOD
      then some ⟨none, List.replicate vb 0⟩ else none)
    (fun j _ hj => ⟨_, if_pos (hcell j (by omega))⟩)
  have hbuf : ∀ j, j < cap →
      buf1 j = some ⟨if j + 1 < cap then some (j + 1) else none, List.replicate vb 0⟩ := by
    intro j hj
    by_cases hj1 : j + 1 < cap
    · rw [h2 j (by omega) (by omega), if_pos (hcell j hj), if_pos hj1]
      rfl
    · rw [h3 j (by omega), if_pos (hcell j hj), if_neg hj1]
  refine ⟨{ value_bytes := vb, node_bytes := Stack.node_byte_aligned vb, size := 0,
            head := ⟨0, none⟩, free := ⟨0, some 0⟩, node_buffer := buf1 }, ?_, ?_, rfl, rfl⟩
  · have hlt : ¬ (sizeof_stack + Stack.node_byte_aligned vb * cap) % SIZE_MOD < sizeof_stack := by
      rw [Nat.mod_eq_of_lt hsz]; omega
    unfold stack_create
    dsimp only
    rw [if_neg (by decide), if_neg hlt, hk, h1]
  · constructor
    · exact rfl
    · have := Stack.chain_range' buf1 cap (fun j hj => ⟨_, hbuf j hj⟩) cap 0 (by omega)
      simpa [hcap] using this
    · simpa using List.nodup_range' 0 cap
    · intro i hi
      simp only [List.nil_append, List.mem_range'_1] at hi
      exact ⟨_, hbuf i (by omega), by simp⟩
    · rfl
    · simp
    · exact hcapM

/-- A push that does not return 0 leaves the size counter as it was. -/
theorem stack_push_failed_size (fuel : Nat) (s : stack) (v : Option (List Nat)) (st : status)
    (s1 : Option stack) (h : stack_push fuel (some s) v = some (st, s1)) (hret : st.ret ≠ 0) :
    stack_size s1 = stack_size (some s) := by
  unfold stack_push at h
  cases v with
  | none => simp only [Option.some.injEq, Prod.mk.injEq] at h; rw [← h.2]
  | some v =>
    simp only at h
    split at h
    · simp at h
    · simp only [Option.some.injEq, Prod.mk.injEq] at h; rw [← h.2]; rfl
    · split at h
      · simp at h
      · split at h
        · simp at h
        · split at h
          · simp at h
          · simp only [Option.some.injEq, Prod.mk.injEq] at h
            rw [← h.1] at hret
            exact absurd rfl hret

/-- A pop that does not return 0 leaves the size counter as it was. -/
theorem stack_pop_failed_size (fuel : Nat) (s : stack) (out : Option (List Nat)) (st : status)
    (s1 : Option stack) (out1 : Option (List Nat))
    (h : stack_pop fuel (some s) out = some (st, s1, out1)) (hret : st.ret ≠ 0) :
    stack_size s1 = stack_size (some s) := by
  unfold stack_pop at h
  cases out with
  | none => simp only [Option.some.injEq, Prod.mk.injEq] at h; rw [← h.2.1]
  | some v =>
    simp only at h
    split at h
    · simp at h
    · simp only [Option.some.injEq, Prod.mk.injEq] at h; rw [← h.2.1]; rfl
    · split at h
      · simp at h
      · split at h
        · simp at h
        · split at h
          · simp at h
          · simp only [Option.some.injEq, Prod.mk.injEq] at h
            rw [← h.1] at hret
            exact absurd rfl hret

/-- Running a list of calls keeps the invariant, the set of nodes on the two lists and
the size equal to the difference of the two counters. -/
theorem stack_run_inv {cap : Nat} (fuel : Nat) : ∀ (ops : List stack_op) (s : stack)
    (live fr : List Nat) (pushes pops : Nat), StackInv cap s live fr →
    (∀ op ∈ ops, stack_op.fits s.value_bytes op = true) → pops ≤ pushes →
    s.size = pushes - pops →
    ∃ s1 pushes1 pops1 live1 fr1,
      stack_run (fuel + 1) ops s pushes pops = some (s1, pushes1, pops1)
        ∧ StackInv cap s1 live1 fr1 ∧ pops1 ≤ pushes1 ∧ s1.size = pushes1 - pops1
        ∧ (live1 ++ fr1).Perm (live ++ fr) := by
  intro ops
  induction ops with
  | nil =>
    intro s live fr pushes pops hinv _ hle hsize
    exact ⟨s, pushes, pops, live, fr, rfl, hinv, hle, hsize, List.Perm.refl _⟩
  | cons op ops ih =>
    intro s live fr pushes pops hinv hfits hle hsize
    have hop := hfits op (by simp)
    cases op with
    | push v =>
      obtain ⟨st, s1, live1, fr1, hrun, hinv1, hvb, hret, h0, h1, hperm, _⟩ :=
        stack_push_inv fuel hinv v hop
      have hfits1 : ∀ op ∈ ops, stack_op.fits s1.value_bytes op = true := by
        intro op hmem
        rw [hvb]
        exact hfits op (by simp [hmem])
      by_cases hr : st.ret = 0
      · obtain ⟨s2, p2, q2, l2, f2, hrun2, hinv2, hle2, hsz2, hperm2⟩ :=
          ih s1 live1 fr1 (pushes + 1) pops hinv1 hfits1 (by omega) (by rw [h0 hr]; omega)
        exact ⟨s2, p2, q2, l2, f2, by simp only [stack_run, hrun, hr, if_true, hrun2],
          hinv2, hle2, hsz2, hperm2.trans hperm⟩
      · obtain ⟨s2, p2, q2, l2, f2, hrun2, hinv2, hle2, hsz2, hperm2⟩ :=
          ih s1 live1 fr1 pushes pops hinv1 hfits1 hle (by rw [h1 hr]; omega)
        exact ⟨s2, p2, q2, l2, f2, by simp only [stack_run, hrun, hr, if_false, hrun2],
          hinv2, hle2, hsz2, hperm2.trans hperm⟩
    | pop out =>
      obtain ⟨st, s1, live1, fr1, out1, hrun, hinv1, hvb, hret, h0, h1, hperm, _⟩ :=
        stack_pop_inv fuel hinv out hop
      have hfits1 : ∀ op ∈ ops, stack_op.fits s1.value_bytes op = true := by
        intro op hmem
        rw [hvb]
        exact hfits op (by simp [hmem])
      by_cases hr : st.ret = 0
      · have := h0 hr
        obtain ⟨s2, p2, q2, l2, f2, hrun2, hinv2, hle2, hsz2, hperm2⟩ :=
          ih s1 live1 fr1 pushes (pops + 1) hinv1 hfits1 (by omega) (by omega)
        exact ⟨s2, p2, q2, l2, f2, by simp only [stack_run, hrun, hr, if_true, hrun2],
          hinv2, hle2, hsz2, hperm2.trans hperm⟩
      · obtain ⟨s2, p2, q2, l2, f2, hrun2, hinv2, hle2, hsz2, hperm2⟩ :=
          ih s1 live1 fr1 pushes pops hinv1 hfits1 hle (by rw [h1 hr]; omega)
        exact ⟨s2, p2, q2, l2, f2, by simp only [stack_run, hrun, hr, if_false, hrun2],
          hinv2, hle2, hsz2, hperm2.trans hperm⟩

/-- C17: after `stack_create` the size is 0, and after any sequence of calls (each given
`NULL` or a buffer of at least `value_bytes` bytes) the run completes, `stack_size` returns
the number of pushes that returned 0 minus the number of pops that returned 0, which is
the number of nodes on the list rooted at `head`; a push or a pop that does not return 0
leaves `stack_size` as it was. -/
theorem stack_size_counts_live_elements (vb cap fuel : Nat) (ops : List stack_op)
    (hcap : 0 < cap) (hvb : vb + 24 ≤ SIZE_MOD)
    (hsz : sizeof_stack + Stack.node_byte_aligned vb * cap < SIZE_MOD)
    (hops : ∀ op ∈ ops, stack_op.fits vb op = true) :
    ∃ s0, stack_create vb cap true = some (some s0) ∧ stack_size (some s0) = (0, none)
      ∧ ∃ s pushes pops live,
          stack_run (fuel + 1) ops s0 0 0 = some (s, pushes, pops)
          ∧ pops ≤ pushes
          ∧ stack_size (some s) = (pushes - pops, none)
          ∧ Stack.chain s.node_buffer s.head.node live ∧ live.length = pushes - pops
          ∧ (∀ f v st s1, stack_push f (some s) v = some (st, s1) → st.ret ≠ 0 →
              stack_size s1 = stack_size (some s))
          ∧ (∀ f out st s1 out1, stack_pop f (some s) out = some (st, s1, out1) → st.ret ≠ 0 →
              stack_size s1 = stack_size (some s)) := by
  obtain ⟨s0, hc, hinv, hv0, hs0⟩ := stack_create_inv vb cap hcap hvb hsz
  obtain ⟨s, p, q, live, fr, hrun, hinv1, hle, hsize, _⟩ :=
    stack_run_inv fuel ops s0 [] _ 0 0 hinv (by rw [hv0]; exact hops) (le_refl _)
      (by rw [hs0])
  refine ⟨s0, hc, by simp [stack_size, hs0], s, p, q, live, hrun, hle, by simp [stack_size, hsize],
    hinv1.hlive, ?_, ?_, ?_⟩
  · rw [← hinv1.size, hsize]
  · intro f v st s1 h hr
    exact stack_push_failed_size f s v st s1 h hr
  · intro f out st s1 out1 h hr
    exact stack_pop_failed_size f s out st s1 out1 h hr

/-- Instance of `stack_size_counts_live_elements` on a stack of two `int`-sized
elements. -/
theorem stack_size_counts_live_elements_witness :
    (0 < 2 ∧ 4 + 24 ≤ SIZE_MOD ∧ sizeof_stack + Stack.node_byte_aligned 4 * 2 < SIZE_MOD
      ∧ ∀ op ∈ [stack_op.push (some [1, 2, 3, 4]), stack_op.push (some [5, 6, 7, 8]),
                 stack_op.push (some [9, 9, 9, 9]), stack_op.pop (some [0, 0, 0, 0]),
                 stack_op.pop none], stack_op.fits 4 op = true)
    ∧ ∃ s0, stack_create 4 2 true = some (some s0) ∧ stack_size (some s0) = (0, none)
      ∧ ∃ s pushes pops live,
          stack_run (0 + 1) [stack_op.push (some [1, 2, 3, 4]), stack_op.push (some [5, 6, 7, 8]),
                 stack_op.push (some [9, 9, 9, 9]), stack_op.pop (some [0, 0, 0, 0]),
                 stack_op.pop none] s0 0 0 = some (s, pushes, pops)
          ∧ pops ≤ pushes
          ∧ stack_size (some s) = (pushes - pops, none)
          ∧ Stack.chain s.node_buffer s.head.node live ∧ live.length = pushes - pops
          ∧ (∀ f v st s1, stack_push f (some s) v = some (st, s1) → st.ret ≠ 0 →
              stack_size s1 = stack_size (some s))
          ∧ (∀ f out st s1 out1, stack_pop f (some s) out = some (st, s1, out1) → st.ret ≠ 0 →
              stack_size s1 = stack_size (some s)) :=
  ⟨⟨by decide, by decide, by decide, by decide⟩,
    stack_size_counts_live_elements 4 2 0 _ (by decide) (by decide) (by decide) (by decide)⟩

/-! ### Memory pool: representation invariant and the counter freeable -/

/-- A store to a fragment outside a chain leaves the chain as it was. -/
theorem Pool.pool_chain_update {mem : FragMem} {n : Nat} (x : Option memory_node)
    {l : List Nat} : ∀ {p : Option Nat}, n ∉ l →
      (Pool.chain (Function.update mem n x) p l ↔ Pool.chain mem p l) := by
  induction l with
  | nil => intro p _; simp [Pool.chain]
  | cons a l ih =>
    intro p hn
    have ha : a ≠ n := fun h => hn (by simp [h])
    have hl : n ∉ l := fun h => hn (by simp [h])
    simp only [Pool.chain, Function.update_noteq ha]
    constructor
    · rintro ⟨hp, nd, hb, hc⟩
      exact ⟨hp, nd, hb, (ih hl).1 hc⟩
    · rintro ⟨hp, nd, hb, hc⟩
      exact ⟨hp, nd, hb, (ih hl).2 hc⟩

/-- Every fragment of a chain has a header. -/
theorem Pool.pool_chain_cell {mem : FragMem} {l : List Nat} : ∀ {p : Option Nat},
    Pool.chain mem p l → ∀ a ∈ l, ∃ nd, mem a = some nd := by
  induction l with
  | nil => intro p _ a ha; simp at ha
  | cons b l ih =>
    intro p hc a ha
    obtain ⟨_, nd, hnd, hrest⟩ := hc
    rcases List.mem_cons.1 ha with h | h
    · subst h; exact ⟨nd, hnd⟩
    · exact ih hrest a h

/-- The last fragment of a chain has a `NULL` successor. -/
theorem Pool.pool_chain_last {mem : FragMem} {l : List Nat} : ∀ {p : Option Nat},
    Pool.chain mem p l → ∀ t, l.getLast? = some t → ∃ nd, mem t = some nd ∧ nd.frag = none := by
  induction l with
  | nil => intro p _ t ht; simp at ht
  | cons b l ih =>
    intro p hc t ht
    obtain ⟨_, nd, hnd, hrest⟩ := hc
    cases l with
    | nil =>
      simp only [List.getLast?_singleton, Option.some.injEq] at ht
      subst ht
      exact ⟨nd, hnd, hrest⟩
    | cons c l =>
      rw [List.getLast?_cons_cons] at ht
      exact ih hrest t ht

/-- Linking a fragment outside the chain behind its last fragment extends the chain. -/
theorem Pool.pool_chain_append {mem : FragMem} {l : List Nat} (q : Nat) (c : Nat) :
    ∀ {p : Option Nat}, Pool.chain mem p l → (l ++ [q]).Nodup → ∀ t, l.getLast? = some t →
      (∃ nd, mem q = some nd ∧ nd.frag = none) →
      Pool.chain (Function.update mem t (some ⟨c, some q⟩)) p (l ++ [q]) := by
  induction l with
  | nil => intro p _ _ t ht; simp at ht
  | cons b l ih =>
    intro p hc hnd t ht hq
    obtain ⟨hp, nd, hb, hrest⟩ := hc
    have hbq : b ≠ q := by
      intro h; subst h
      simp at hnd
    cases l with
    | nil =>
      simp only [List.getLast?_singleton, Option.some.injEq] at ht
      subst ht
      obtain ⟨nq, hnq, hnqf⟩ := hq
      refine ⟨hp, _, Function.update_same _ _ _, rfl, nq, ?_, ?_⟩
      · rw [Function.update_noteq (Ne.symm hbq)]; exact hnq
      · rw [hnqf]; rfl
    | cons c' l =>
      rw [List.getLast?_cons_cons] at ht
      have hnd' : (c' :: l ++ [q]).Nodup := (List.nodup_cons.1 hnd).2
      have hbt : b ≠ t := by
        intro h; subst h
        have hmem : b ∈ c' :: l := List.mem_of_getLast?_eq_some ht
        have := (List.nodup_cons.1 hnd).1
        exact this (List.mem_append_left _ hmem)
      refine ⟨hp, nd, ?_, ih hrest hnd' t ht hq⟩
      rw [Function.update_noteq hbt]; exact hb

/-- Releasing a fragment that is outside the free list appends it to the list. -/
theorem internal_mempool_put_inv {N : Nat} {self : memory_pool} {mem : FragMem}
    {l out : List Nat} (fuel : Nat) (hinv : PoolInv N self mem l out) (p : Nat) (hp : p ∈ out) :
    ∃ self1 mem1, internal_mempool_put (fuel + 1) self mem p = some (self1, mem1)
      ∧ PoolInv N self1 mem1 (l ++ [p]) (out.erase p)
      ∧ self1.freeable = self.freeable + 1
      ∧ self1.capacity = self.capacity ∧ self1.data_bytes = self.data_bytes
      ∧ self1.pool = self.pool ∧ self1.head = self.head
      ∧ ∃ t nd, self.tail.frag = some t ∧ t ≠ p ∧ mem t = some nd
          ∧ self1.tail = ⟨(self.tail.count + 1) % UINT32_MOD, some p⟩
          ∧ mem1 = Function.update (Function.update mem p (some MEMORY_FRAGMENT_MAKER)) t
              (some ⟨(nd.count + 1) % UINT32_MOD, some p⟩) := by
  have hnd := hinv.nodup
  have hdis := List.nodup_append.1 hnd
  have hpl : p ∉ l := fun h => hdis.2.2 h hp
  obtain ⟨ndp, hndp⟩ := hinv.cells p hp
  obtain ⟨t, ht⟩ : ∃ t, l.getLast? = some t := by
    cases h : l.getLast? with
    | none => exact absurd (List.getLast?_eq_none_iff.1 h) hinv.nonempty
    | some t => exact ⟨t, rfl⟩
  have htl : t ∈ l := List.mem_of_getLast?_eq_some ht
  have htp : t ≠ p := fun h => hpl (h ▸ htl)
  have hchain1 : Pool.chain (Function.update mem p (some MEMORY_FRAGMENT_MAKER)) self.head.frag l :=
    (Pool.pool_chain_update _ hpl).2 hinv.hchain
  obtain ⟨next, hnext, hnextf⟩ := Pool.pool_chain_last hchain1 t ht
  have htail : self.tail.frag = some t := by rw [hinv.htail, ht]
  have hfr := hinv.freeable
  have htot := hinv.total
  have hbd := hinv.bound
  have hlen : l.length ≤ N + 1 := by omega
  refine ⟨{ self with tail := ⟨(self.tail.count + 1) % UINT32_MOD, some p⟩,
                      freeable := (self.freeable + 1) % SIZE_MOD },
    Function.update (Function.update mem p (some MEMORY_FRAGMENT_MAKER)) t
      (some ⟨(next.count + 1) % UINT32_MOD, some p⟩), ?_, ?_, ?_, rfl, rfl, rfl, rfl,
    t, next, htail, htp, by rw [← hnext, Function.update_noteq htp], rfl, rfl⟩
  · simp only [internal_mempool_put, frag_store, hndp, internal_mempool_put_loop, htail, hnext,
      hnextf, CAS, if_true]
  · constructor
    · exact Pool.pool_chain_append p _ hchain1
        (List.nodup_append.2 ⟨hdis.1, List.nodup_singleton p, by
          intro x hx hx'
          rw [List.mem_singleton] at hx'
          exact hpl (hx' ▸ hx)⟩) t ht
        ⟨MEMORY_FRAGMENT_MAKER, Function.update_same _ _ _, rfl⟩
    · simp
    · simp
    · have hperm : (l ++ [p] ++ out.erase p).Perm (l ++ out) := by
        rw [List.append_assoc]
        exact List.Perm.append_left l (List.perm_cons_erase hp).symm
      exact hperm.nodup_iff.2 hnd
    · intro a ha
      have ha' : a ∈ out := List.mem_of_mem_erase ha
      obtain ⟨nd, hnda⟩ := hinv.cells a ha'
      by_cases hat : a = t
      · exact ⟨_, by rw [hat, Function.update_same]⟩
      · by_cases hap : a = p
        · exact ⟨_, by rw [Function.update_noteq hat, hap, Function.update_same]⟩
        · exact ⟨nd, by rw [Function.update_noteq hat, Function.update_noteq hap, hnda]⟩
    · show (self.freeable + 1) % SIZE_MOD + 1 = (l ++ [p]).length
      rw [Nat.mod_eq_of_lt (by omega)]
      simp
      omega
    · rw [List.length_append, List.length_erase_of_mem hp]
      simp only [List.length_singleton]
      have : 0 < out.length := List.length_pos_of_mem hp
      omega
    · exact hbd
  · show (self.freeable + 1) % SIZE_MOD = self.freeable + 1
    rw [Nat.mod_eq_of_lt (by omega)]

/-- Allocation fails exactly when the free list holds only the sentinel, and otherwise
takes the fragment at the head out of the list. -/
theorem internal_mempool_pick_inv {N : Nat} {self : memory_pool} {mem : FragMem}
    {l out : List Nat} (fuel : Nat) (hinv : PoolInv N self mem l out) :
    (∀ a, l = [a] →
        internal_mempool_pick (fuel + 1) self mem = some (none, some errno_t.ENOMEM, self))
    ∧ (∀ a b rest, l = a :: b :: rest →
        ∃ self1, internal_mempool_pick (fuel + 1) self mem = some (some a, none, self1)
          ∧ PoolInv N self1 mem (b :: rest) (a :: out)
          ∧ self1.freeable + 1 = self.freeable
          ∧ self1.capacity = self.capacity ∧ self1.data_bytes = self.data_bytes
          ∧ self1.pool = self.pool
          ∧ self1.head = ⟨(self.head.count + 1) % UINT32_MOD, some b⟩
          ∧ self1.tail = self.tail) := by
  constructor
  · intro a hl
    subst hl
    obtain ⟨hh, nd, hnd, hrest⟩ := hinv.hchain
    have htail : self.tail.frag = some a := by rw [hinv.htail]; rfl
    simp only [Pool.chain] at hrest
    simp only [internal_mempool_pick, internal_mempool_pick_loop, hh, hnd, htail, hrest, if_true]
  · intro a b rest hl
    subst hl
    obtain ⟨hh, nd, hnd, hb, hrest⟩ := hinv.hchain
    have hnodup := hinv.nodup
    have hdis := List.nodup_append.1 hnodup
    obtain ⟨t, ht⟩ : ∃ t, (b :: rest).getLast? = some t := by
      cases h : (b :: rest).getLast? with
      | none => simp at h
      | some t => exact ⟨t, rfl⟩
    have htail : self.tail.frag = some t := by
      rw [hinv.htail, List.getLast?_cons_cons, ht]
    have hta : a ≠ t := by
      intro h
      have : t ∈ b :: rest := List.mem_of_getLast?_eq_some ht
      exact (List.nodup_cons.1 hdis.1).1 (h ▸ this)
    have hfr := hinv.freeable
    have htot := hinv.total
    have hbd := hinv.bound
    simp only [List.length_cons] at hfr htot
    refine ⟨{ self with head := ⟨(self.head.count + 1) % UINT32_MOD, some b⟩,
                        freeable := (self.freeable + (SIZE_MOD - 1)) % SIZE_MOD }, ?_, ?_, ?_,
      rfl, rfl, rfl, rfl, rfl⟩
    · have hne : ¬ (some a = some t) := by simpa using hta
      simp only [internal_mempool_pick, internal_mempool_pick_loop, hh, hnd, htail, hb, hne, CAS,
        if_true, if_false]
    · constructor
      · exact ⟨rfl, hrest⟩
      · show self.tail.frag = (b :: rest).getLast?
        rw [hinv.htail, List.getLast?_cons_cons]
      · simp
      · have hperm : ((b :: rest) ++ a :: out).Perm ((a :: b :: rest) ++ out) := by
          simpa using (@List.perm_middle _ a (b :: rest) out)
        exact hperm.nodup_iff.2 hnodup
      · intro x hx
        rcases List.mem_cons.1 hx with h | h
        · subst h; exact ⟨nd, hnd⟩
        · exact hinv.cells x h
      · show (self.freeable + (SIZE_MOD - 1)) % SIZE_MOD + 1 = (b :: rest).length
        simp only [List.length_cons, SIZE_MOD] at hbd ⊢
        omega
      · simp only [List.length_cons]
        omega
      · exact hbd
    · show (self.freeable + (SIZE_MOD - 1)) % SIZE_MOD + 1 = self.freeable
      simp only [SIZE_MOD] at hbd ⊢
      omega

/-- The fragment size depends on `data_bytes` only. -/
theorem internal_mempool_aligned_data_bytes_congr (a b : memory_pool)
    (h : a.data_bytes = b.data_bytes) :
    internal_mempool_aligned_data_bytes a = internal_mempool_aligned_data_bytes b := by
  simp [internal_mempool_aligned_data_bytes, h]

/-- Without wrap-around a fragment holds its header and `data_bytes` bytes. -/
theorem internal_mempool_aligned_data_bytes_ge (self : memory_pool)
    (h : self.data_bytes + 16 ≤ SIZE_MOD) :
    16 ≤ internal_mempool_aligned_data_bytes self
      ∧ self.data_bytes ≤ internal_mempool_aligned_data_bytes self := by
  simp only [internal_mempool_aligned_data_bytes, sizeof_memory_fragment, SIZE_MOD] at *
  split <;> omega

/-- The setup loop releases the fragments `i .. i + k - 1` one after the other. -/
theorem internal_mempool_setup_loop_inv {N : Nat} (fuel base f : Nat) :
    ∀ (k i : Nat) (self : memory_pool) (mem : FragMem) (l : List Nat),
      PoolInv N self mem l ((List.range' i k).map (fun j => (base + f * j) % SIZE_MOD)) →
      ∃ self1 mem1 l1, internal_mempool_setup_loop (fuel + 1) base f k i self mem
          = some (self1, mem1)
        ∧ PoolInv N self1 mem1 l1 []
        ∧ self1.capacity = self.capacity ∧ self1.data_bytes = self.data_bytes
        ∧ self1.pool = self.pool
        ∧ l1 = l ++ (List.range' i k).map (fun j => (base + f * j) % SIZE_MOD) := by
  intro k
  induction k with
  | zero =>
    intro i self mem l hinv
    exact ⟨self, mem, l, rfl, by simpa using hinv, rfl, rfl, rfl, by simp⟩
  | succ k ih =>
    intro i self mem l hinv
    simp only [List.range', List.map_cons] at hinv
    obtain ⟨self1, mem1, hput, hinv1, _, hc, hd, hp, _⟩ :=
      internal_mempool_put_inv fuel hinv ((base + f * i) % SIZE_MOD) (by simp)
    rw [List.erase_cons_head] at hinv1
    obtain ⟨self2, mem2, l2, hrun, hinv2, hc2, hd2, hp2, hl2⟩ := ih (i + 1) self1 mem1 _ hinv1
    refine ⟨self2, mem2, l2, ?_, hinv2, hc2.trans hc, hd2.trans hd, hp2.trans hp, ?_⟩
    · simp only [internal_mempool_setup_loop, hput, hrun]
    · rw [hl2]
      simp [List.range']

/-- `mempool_create` with valid arguments and a granted allocation returns 0 and
establishes the invariant with every fragment but the sentinel free. -/
theorem mempool_create_inv (fuel : Nat) (mp : memory_pool) (data_bytes N base : Nat)
    (mem : FragMem) (hd : 0 < data_bytes) (hN : 0 < N) (hbase : 0 < base)
    (hdb : data_bytes + 16 ≤ SIZE_MOD)
    (hfit : base + (N + 1) * internal_mempool_aligned_data_bytes
        (MEMORY_POOL_MAKER none data_bytes N) < SIZE_MOD) :
    ∃ self0 mem0 l, mempool_create (fuel + 1) (some mp) data_bytes N (some base) mem
        = some (⟨0, none⟩, some self0, mem0)
      ∧ PoolInv N self0 mem0 l []
      ∧ self0.capacity = N ∧ self0.data_bytes = data_bytes ∧ self0.pool = some base
      ∧ ∀ a ∈ l, ∃ j, j ≤ N ∧ a = base + internal_mempool_aligned_data_bytes self0 * j := by
  set f := internal_mempool_aligned_data_bytes (MEMORY_POOL_MAKER none data_bytes N) with hf
  obtain ⟨hf16, _⟩ := internal_mempool_aligned_data_bytes_ge
    (MEMORY_POOL_MAKER none data_bytes N) hdb
  rw [← hf] at hf16
  have hN1 : N + 1 ≤ (N + 1) * f := Nat.le_mul_of_pos_right _ (by omega)
  have hNM : (N + 1) % SIZE_MOD = N + 1 := Nat.mod_eq_of_lt (by omega)
  have haddr : ∀ j, j ≤ N → (base + f * j) % SIZE_MOD = base + f * j := by
    intro j hj
    apply Nat.mod_eq_of_lt
    have : f * j ≤ (N + 1) * f := by
      rw [Nat.mul_comm f j]
      exact Nat.mul_le_mul_right f (by omega)
    omega
  have hcell : ∀ j, j ≤ N → frag_calloc mem base (N + 1) f (base + f * j) = some ⟨0, none⟩ := by
    intro j hj
    have h1 : (base + f * j - base) = f * j := by omega
    have hcond : base ≤ base + f * j ∧ sizeof_memory_fragment ≤ f
        ∧ (base + f * j - base) % f = 0 ∧ (base + f * j - base) / f < N + 1 := by
      refine ⟨by omega, hf16, ?_, ?_⟩
      · rw [h1]; exact Nat.mul_mod_right f j
      · rw [h1, Nat.mul_div_cancel_left j (by omega)]; omega
    simp only [frag_calloc, if_pos hcond]
  have hc0 : frag_calloc mem base (N + 1) f base = some ⟨0, none⟩ := by
    simpa using hcell 0 (by omega)
  have hinv0 : PoolInv N
      { MEMORY_POOL_MAKER (some base) data_bytes N with
          head := ⟨0, some base⟩, tail := ⟨0, some base⟩ }
      (Function.update (frag_calloc mem base (N + 1) f) base (some MEMORY_FRAGMENT_MAKER))
      [base] ((List.range' 1 N).map (fun j => (base + f * j) % SIZE_MOD)) := by
    constructor
    · exact ⟨rfl, _, Function.update_same _ _ _, rfl⟩
    · rfl
    · simp
    · have hall : [base] ++ (List.range' 1 N).map (fun j => (base + f * j) % SIZE_MOD)
          = (List.range' 0 (N + 1)).map (fun j => (base + f * j) % SIZE_MOD) := by
        simp only [List.range', List.map_cons, Nat.zero_add, Nat.mul_zero, Nat.add_zero,
          haddr 0 (by omega), List.singleton_append, Nat.mul_zero]
        have := haddr 0 (by omega)
        simp only [Nat.mul_zero, Nat.add_zero] at this
        rw [this]
      rw [hall]
      apply List.Nodup.map_on _ (List.nodup_range' 0 (N + 1))
      intro x hx y hy hxy
      simp only [List.mem_range'_1] at hx hy
      rw [haddr x (by omega), haddr y (by omega)] at hxy
      have : f * x = f * y := by omega
      exact Nat.eq_of_mul_eq_mul_left (by omega) this
    · intro a ha
      simp only [List.mem_map, List.mem_range'_1] at ha
      obtain ⟨j, hj, rfl⟩ := ha
      rw [haddr j (by omega)]
      by_cases hb : base + f * j = base
      · exact ⟨_, by rw [hb, Function.update_same]⟩
      · exact ⟨_, by rw [Function.update_noteq hb, hcell j (by omega)]⟩
    · rfl
    · simp; omega
    · omega
  have hfeq : internal_mempool_aligned_data_bytes
      { MEMORY_POOL_MAKER (some base) data_bytes N with
          head := ⟨0, some base⟩, tail := ⟨0, some base⟩ } = f :=
    internal_mempool_aligned_data_bytes_congr _ _ rfl
  obtain ⟨self1, mem1, l1, hrun, hinv1, hc1, hd1, hp1, hl1⟩ :=
    internal_mempool_setup_loop_inv fuel base f N 1 _ _ _ hinv0
  have hf1 : internal_mempool_aligned_data_bytes self1 = f :=
    internal_mempool_aligned_data_bytes_congr _ _ hd1
  refine ⟨self1, mem1, l1, ?_, hinv1, hc1, hd1, hp1, ?_⟩
  swap
  · intro a ha
    rw [hl1] at ha
    simp only [List.singleton_append, List.mem_cons, List.mem_map, List.mem_range'_1] at ha
    rw [hf1]
    rcases ha with rfl | ⟨j, hj, rfl⟩
    · exact ⟨0, by omega, by simp⟩
    · exact ⟨j, by omega, haddr j (by omega)⟩
  have hcal : calloc_ptr (some base) (N + 1) f = some base := by
    simp only [calloc_ptr]
    rw [if_pos ⟨hbase, hfit⟩]
  have hsetup : internal_mempool_setup (fuel + 1) (frag_calloc mem base (N + 1) f) (some base)
      data_bytes N = some (self1, mem1) := by
    simp only [internal_mempool_setup, frag_store, hc0, hfeq]
    have : (MEMORY_POOL_MAKER (some base) data_bytes N).capacity = N := rfl
    simp only [this, hNM, Nat.add_sub_cancel]
    exact hrun
  have hne : ¬ (data_bytes = 0 ∨ N = 0) := by omega
  simp only [mempool_create, if_neg hne, hNM, ← hf, hcal, hsetup]

/-- Under the invariant the counter `freeable` is the capacity minus the number of
fragments outside the free list. -/
theorem PoolInv.freeable_eq {N : Nat} {mp : memory_pool} {mem : FragMem} {l out : List Nat}
    (hinv : PoolInv N mp mem l out) : mp.freeable = N - out.length ∧ out.length ≤ N := by
  have h1 := hinv.freeable
  have h2 := hinv.total
  omega

/-- Outcome of `mempool_alloc` under the invariant. -/
theorem mempool_alloc_inv {N : Nat} {self : memory_pool} {mem : FragMem}
    {l out : List Nat} (fuel : Nat) (hinv : PoolInv N self mem l out) :
    (mempool_alloc (fuel + 1) (some self) mem = some (none, some errno_t.ENOMEM, some self)
      ∧ out.length = N)
    ∨ ∃ p self1 l1, mempool_alloc (fuel + 1) (some self) mem = some (some p, none, some self1)
        ∧ PoolInv N self1 mem l1 (p :: out) ∧ self1.freeable + 1 = self.freeable := by
  obtain ⟨h1, h2⟩ := internal_mempool_pick_inv fuel hinv
  cases hl : l with
  | nil => exact absurd hl hinv.nonempty
  | cons a rest =>
    cases hr : rest with
    | nil =>
      left
      subst hr
      refine ⟨by simp only [mempool_alloc, h1 a hl], ?_⟩
      have := hinv.total
      rw [hl] at this
      simp only [List.length_cons, List.length_nil] at this
      omega
    | cons b rest2 =>
      right
      subst hr
      obtain ⟨self1, hpick, hinv1, hfr, _⟩ := h2 a b rest2 hl
      exact ⟨a, self1, _, by simp only [mempool_alloc, hpick], hinv1, hfr⟩

/-- Outcome of `mempool_free` of a fragment outside the free list. -/
theorem mempool_free_inv {N : Nat} {self : memory_pool} {mem : FragMem}
    {l out : List Nat} (fuel : Nat) (hinv : PoolInv N self mem l out) (p : Nat) (hp : p ∈ out) :
    ∃ self1 mem1 l1, mempool_free (fuel + 1) (some self) mem (some p) = some (some self1, mem1)
      ∧ PoolInv N self1 mem1 l1 (out.erase p) ∧ self1.freeable = self.freeable + 1 := by
  obtain ⟨self1, mem1, hput, hinv1, hfr, _⟩ := internal_mempool_put_inv fuel hinv p hp
  exact ⟨self1, mem1, _, by simp only [mempool_free, hput], hinv1, hfr⟩

/-- Running a list of calls keeps the invariant. -/
theorem pool_run_inv {N : Nat} (fuel : Nat) : ∀ (ops : List pool_op) (self : memory_pool)
    (mem : FragMem) (l out : List Nat), PoolInv N self mem l out →
    ∃ self1 mem1 l1 out1, pool_run (fuel + 1) ops self mem out = some (self1, mem1, out1)
      ∧ PoolInv N self1 mem1 l1 out1 := by
  intro ops
  induction ops with
  | nil => intro self mem l out hinv; exact ⟨self, mem, l, out, rfl, hinv⟩
  | cons op ops ih =>
    intro self mem l out hinv
    cases op with
    | alloc =>
      rcases mempool_alloc_inv fuel hinv with ⟨h, _⟩ | ⟨p, self1, l1, h, hinv1, _⟩
      · obtain ⟨s2, m2, l2, o2, hrun, hinv2⟩ := ih self mem l out hinv
        exact ⟨s2, m2, l2, o2, by simp only [pool_run, h, hrun], hinv2⟩
      · obtain ⟨s2, m2, l2, o2, hrun, hinv2⟩ := ih self1 mem l1 (p :: out) hinv1
        exact ⟨s2, m2, l2, o2, by simp only [pool_run, h, hrun], hinv2⟩
    | free i =>
      cases hg : out.get? i with
      | none =>
        obtain ⟨s2, m2, l2, o2, hrun, hinv2⟩ := ih self mem l out hinv
        exact ⟨s2, m2, l2, o2, by simp only [pool_run, hg, hrun], hinv2⟩
      | some p =>
        have hp : p ∈ out := List.get?_mem hg
        obtain ⟨self1, mem1, l1, h, hinv1, _⟩ := mempool_free_inv fuel hinv p hp
        obtain ⟨s2, m2, l2, o2, hrun, hinv2⟩ := ih self1 mem1 l1 _ hinv1
        exact ⟨s2, m2, l2, o2, by simp only [pool_run, hg, h, hrun], hinv2⟩

/-- C15: for a pool of capacity `N` created by `mempool_create`, every sequence of
allocations and of releases of fragments still held completes, and afterwards
`mempool_freeable` is `N` minus the number of fragments held, hence within `[0, N]`; a
successful `mempool_alloc` followed by `mempool_free` of its result restores
`mempool_freeable`. -/
theorem mempool_freeable_counts_free_fragments (fuel : Nat) (mp : memory_pool)
    (data_bytes N base : Nat) (mem : FragMem) (ops : List pool_op)
    (hd : 0 < data_bytes) (hN : 0 < N) (hbase : 0 < base) (hdb : data_bytes + 16 ≤ SIZE_MOD)
    (hfit : base + (N + 1) * internal_mempool_aligned_data_bytes
        (MEMORY_POOL_MAKER none data_bytes N) < SIZE_MOD) :
    ∃ self0 mem0, mempool_create (fuel + 1) (some mp) data_bytes N (some base) mem
        = some (⟨0, none⟩, some self0, mem0)
      ∧ ∃ self1 mem1 out, pool_run (fuel + 1) ops self0 mem0 [] = some (self1, mem1, out)
        ∧ mempool_freeable (some self1) = (((N - out.length : Nat) : Int), none)
        ∧ out.length ≤ N
        ∧ 0 ≤ (mempool_freeable (some self1)).1 ∧ (mempool_freeable (some self1)).1 ≤ (N : Int)
        ∧ ∀ p e self2, mempool_alloc (fuel + 1) (some self1) mem1 = some (some p, e, some self2) →
            ∃ self3 mem3, mempool_free (fuel + 1) (some self2) mem1 (some p)
                = some (some self3, mem3)
              ∧ mempool_freeable (some self3) = mempool_freeable (some self1) := by
  obtain ⟨self0, mem0, l0, hc, hinv0, _⟩ :=
    mempool_create_inv fuel mp data_bytes N base mem hd hN hbase hdb hfit
  obtain ⟨self1, mem1, l1, out, hrun, hinv1⟩ := pool_run_inv fuel ops self0 mem0 l0 [] hinv0
  obtain ⟨hfr, hle⟩ := hinv1.freeable_eq
  refine ⟨self0, mem0, hc, self1, mem1, out, hrun, ?_, hle, ?_, ?_, ?_⟩
  · simp only [mempool_freeable, hfr]
  · simp [mempool_freeable]
  · simp only [mempool_freeable, hfr]
    exact_mod_cast Nat.sub_le N out.length
  · intro p e self2 halloc
    rcases mempool_alloc_inv fuel hinv1 with ⟨h, _⟩ | ⟨p', self2', l2, h, hinv2, hfr2⟩
    · rw [h] at halloc; simp at halloc
    · rw [h] at halloc
      simp only [Option.some.injEq, Prod.mk.injEq] at halloc
      obtain ⟨hp, _, hs⟩ := halloc
      subst hp; subst hs
      obtain ⟨self3, mem3, l3, hfree, _, hfr3⟩ := mempool_free_inv fuel hinv2 p' (by simp)
      refine ⟨self3, mem3, hfree, ?_⟩
      simp only [mempool_freeable, Prod.mk.injEq, and_true]
      have : self3.freeable = self1.freeable := by omega
      rw [this]

/-- Instance of `mempool_freeable_counts_free_fragments` on a pool of two 16-byte
fragments at address 4096. -/
theorem mempool_freeable_counts_free_fragments_witness :
    (0 < 8 ∧ 0 < 2 ∧ 0 < 4096 ∧ 8 + 16 ≤ SIZE_MOD
      ∧ 4096 + (2 + 1) * internal_mempool_aligned_data_bytes (MEMORY_POOL_MAKER none 8 2)
          < SIZE_MOD)
    ∧ ∃ self0 mem0, mempool_create (0 + 1) (some (MEMORY_POOL_MAKER none 0 0)) 8 2 (some 4096)
          (fun _ => none) = some (⟨0, none⟩, some self0, mem0)
      ∧ ∃ self1 mem1 out,
          pool_run (0 + 1) [pool_op.alloc, pool_op.alloc, pool_op.alloc, pool_op.free 1,
            pool_op.alloc, pool_op.free 0] self0 mem0 [] = some (self1, mem1, out)
        ∧ mempool_freeable (some self1) = (((2 - out.length : Nat) : Int), none)
        ∧ out.length ≤ 2
        ∧ 0 ≤ (mempool_freeable (some self1)).1 ∧ (mempool_freeable (some self1)).1 ≤ (2 : Int)
        ∧ ∀ p e self2, mempool_alloc (0 + 1) (some self1) mem1 = some (some p, e, some self2) →
            ∃ self3 mem3, mempool_free (0 + 1) (some self2) mem1 (some p)
                = some (some self3, mem3)
              ∧ mempool_freeable (some self3) = mempool_freeable (some self1) :=
  ⟨⟨by decide, by decide, by decide, by decide, by decide⟩,
    mempool_freeable_counts_free_fragments 0 _ 8 2 4096 _ _ (by decide) (by decide) (by decide)
      (by decide) (by decide)⟩

/-! ### Queue: representation invariant and queue_to_array -/

/-- A store to a node outside a chain leaves the chain as it was. -/
theorem Queue.queue_chain_update {heap : QHeap} {n : Nat} (x : Option node_t)
    {l : List (Nat × List Nat)} : ∀ {p : Option Nat}, n ∉ l.map Prod.fst →
      (Queue.chain (Function.update heap n x) p l ↔ Queue.chain heap p l) := by
  induction l with
  | nil => intro p _; simp [Queue.chain]
  | cons a l ih =>
    intro p hn
    have ha : a.1 ≠ n := fun h => hn (by simp [h])
    have hl : n ∉ l.map Prod.fst := fun h => hn (by simp only [List.map_cons]; exact List.mem_cons_of_mem _ h)
    simp only [Queue.chain, Function.update_noteq ha]
    constructor
    · rintro ⟨hp, nd, hb, hv, hc⟩
      exact ⟨hp, nd, hb, hv, (ih hl).1 hc⟩
    · rintro ⟨hp, nd, hb, hv, hc⟩
      exact ⟨hp, nd, hb, hv, (ih hl).2 hc⟩

/-- Every node of a chain is allocated. -/
theorem Queue.queue_chain_cell {heap : QHeap} {l : List (Nat × List Nat)} : ∀ {p : Option Nat},
    Queue.chain heap p l → ∀ a ∈ l.map Prod.fst, ∃ nd, heap a = some nd := by
  induction l with
  | nil => intro p _ a ha; simp at ha
  | cons b l ih =>
    intro p hc a ha
    obtain ⟨_, nd, hnd, _, hrest⟩ := hc
    simp only [List.map_cons, List.mem_cons] at ha
    rcases ha with h | h
    · subst h; exact ⟨nd, hnd⟩
    · exact ih hrest a h

/-- The last node of a chain has a `NULL` successor. -/
theorem Queue.queue_chain_last {heap : QHeap} {l : List (Nat × List Nat)} : ∀ {p : Option Nat},
    Queue.chain heap p l → ∀ t, l.getLast? = some t →
      ∃ nd, heap t.1 = some nd ∧ nd.next.ptr = none := by
  induction l with
  | nil => intro p _ t ht; simp at ht
  | cons b l ih =>
    intro p hc t ht
    obtain ⟨_, nd, hnd, _, hrest⟩ := hc
    cases l with
    | nil =>
      simp only [List.getLast?_singleton, Option.some.injEq] at ht
      subst ht
      exact ⟨nd, hnd, hrest⟩
    | cons c l =>
      rw [List.getLast?_cons_cons] at ht
      exact ih hrest t ht

/-- Linking a node outside the chain behind its last node extends the chain. -/
theorem Queue.queue_chain_append {heap : QHeap} {l : List (Nat × List Nat)} (a : Nat)
    (v : List Nat) (c : Nat) :
    ∀ {p : Option Nat}, Queue.chain heap p l → a ∉ l.map Prod.fst →
      (l.map Prod.fst).Nodup → ∀ t, l.getLast? = some t →
      (∃ nd, heap a = some nd ∧ nd.value = v ∧ nd.next.ptr = none) →
      ∀ tn, heap t.1 = some tn →
      Queue.chain (Function.update heap t.1 (some { tn with next := ⟨some a, c⟩ })) p
        (l ++ [(a, v)]) := by
  induction l with
  | nil => intro p _ _ _ t ht; simp at ht
  | cons b l ih =>
    intro p hc ha hnd t ht hq tn htn
    obtain ⟨hp, nd, hb, hv, hrest⟩ := hc
    have hba : b.1 ≠ a := fun h => ha (by simp [h])
    cases l with
    | nil =>
      simp only [List.getLast?_singleton, Option.some.injEq] at ht
      subst ht
      rw [hb] at htn
      cases htn
      obtain ⟨nq, hnq, hnqv, hnqf⟩ := hq
      refine ⟨hp, _, Function.update_same _ _ _, hv, rfl, nq, ?_, hnqv, ?_⟩
      · rw [Function.update_noteq (Ne.symm hba)]; exact hnq
      · rw [hnqf]; rfl
    | cons c' l =>
      rw [List.getLast?_cons_cons] at ht
      have hnd' : ((c' :: l).map Prod.fst).Nodup := (List.nodup_cons.1 hnd).2
      have hbt : b.1 ≠ t.1 := by
        intro h
        have hmem : t ∈ c' :: l := List.mem_of_getLast?_eq_some ht
        have := (List.nodup_cons.1 hnd).1
        exact this (h ▸ List.mem_map_of_mem Prod.fst hmem)
      have ha' : a ∉ (c' :: l).map Prod.fst := fun h => ha (by
        simp only [List.map_cons] at h ⊢
        exact List.mem_cons_of_mem _ h)
      refine ⟨hp, nd, ?_, hv, ih hrest ha' hnd' t ht hq tn htn⟩
      rw [Function.update_noteq hbt]; exact hb

/-- Outcomes of `new_node`: `NULL` with the heap untouched, or an unused address, which
holds a zeroed node when a node fits into the address space. -/
theorem Queue.new_node_cases (q : queue_t) (heap : QHeap) (env : Option Nat) :
    Queue.new_node q heap env = (none, heap)
    ∨ ∃ a, heap a = none ∧ a < SIZE_MOD
        ∧ ((sizeof_node_t + q.value_bytes < SIZE_MOD
            ∧ Queue.new_node q heap env
              = (some a,
                  Function.update heap a (some ⟨⟨none, 0⟩, List.replicate q.value_bytes 0⟩)))
          ∨ (¬ sizeof_node_t + q.value_bytes < SIZE_MOD
            ∧ Queue.new_node q heap env = (some a, heap))) := by
  unfold Queue.new_node
  cases hc : calloc_ptr env 1 ((sizeof_node_t + q.value_bytes) % SIZE_MOD) with
  | none => left; rfl
  | some a =>
    have ha : a < SIZE_MOD := by
      unfold calloc_ptr at hc
      cases env with
      | none => simp at hc
      | some p =>
        simp only at hc
        split at hc
        · simp only [Option.some.injEq] at hc
          subst hc
          omega
        · simp at hc
    cases hh : heap a with
    | some nd => left; simp [hh]
    | none =>
      right
      refine ⟨a, hh, ha, ?_⟩
      by_cases hfit : sizeof_node_t + q.value_bytes < SIZE_MOD
      · left; exact ⟨hfit, by simp [hh, hfit]⟩
      · right; exact ⟨hfit, by simp [hh, hfit]⟩

/-- A successful `queue_create` establishes the invariant with the sentinel alone. -/
theorem queue_create_inv (q0 q1 : queue_t) (vb : Nat) (env : Option Nat) (heap0 heap1 : QHeap)
    (h : queue_create (some q0) vb env heap0 = some (⟨0, none⟩, some q1, heap1)) :
    ∃ s v, QueueInv q1 heap1 [(s, v)] ∧ q1.value_bytes = vb ∧ q1.size = 0 := by
  unfold queue_create at h
  simp only at h
  split at h
  · simp at h
  · rcases Queue.new_node_cases { q0 with value_bytes := vb, size := 0 } heap0 env with
      hn | ⟨a, hfresh, ha, ⟨hfit, hn⟩ | ⟨hfit, hn⟩⟩
    · rw [hn] at h
      simp at h
    · rw [hn] at h
      simp only [Function.update_same, Option.some.injEq, Prod.mk.injEq, true_and] at h
      obtain ⟨hq, hheap⟩ := h
      subst hq; subst hheap
      refine ⟨a, List.replicate vb 0, ?_, rfl, rfl⟩
      constructor
      · exact ⟨rfl, _, Function.update_same _ _ _, rfl, rfl⟩
      · rfl
      · simp
      · simp
      · intro x hx
        simp only [List.mem_singleton] at hx
        subst hx
        exact ha
      · intro x hx
        simp only [List.mem_singleton] at hx
        subst hx
        simp
      · rfl
      · exact hfit
    · rw [hn] at h
      simp [hfresh] at h

/-- A list of distinct numbers below `m` has at most `m` entries. -/
theorem nodup_length_le_of_lt {l : List Nat} {m : Nat} (hnd : l.Nodup) (h : ∀ x ∈ l, x < m) :
    l.length ≤ m := by
  have hsub : l.toFinset ⊆ Finset.range m := by
    intro x hx
    rw [List.mem_toFinset] at hx
    exact Finset.mem_range.2 (h x hx)
  have := Finset.card_le_card hsub
  rwa [List.toFinset_card_of_nodup hnd, Finset.card_range] at this

/-- When the environment grants an unused block that fits into the address space,
`new_node` returns it, zeroed. -/
theorem Queue.new_node_granted (q : queue_t) (heap : QHeap) (a : Nat) (h0 : 0 < a)
    (hfit : a + (sizeof_node_t + q.value_bytes) < SIZE_MOD) (hfresh : heap a = none) :
    Queue.new_node q heap (some a)
      = (some a, Function.update heap a (some ⟨⟨none, 0⟩, List.replicate q.value_bytes 0⟩)) := by
  have hm : (sizeof_node_t + q.value_bytes) % SIZE_MOD = sizeof_node_t + q.value_bytes :=
    Nat.mod_eq_of_lt (by omega)
  have hlt : sizeof_node_t + q.value_bytes < SIZE_MOD := by omega
  simp only [Queue.new_node, calloc_ptr, hm, h0, Nat.one_mul, hfit, and_self, if_true, hfresh,
    Option.isSome_none, Bool.false_eq_true, if_false, hlt]

/-- An enqueue keeps the invariant; it appends its payload exactly when it returns 0. -/
theorem queue_enqueue_inv {q : queue_t} {heap : QHeap} {nodes : List (Nat × List Nat)}
    (fuel : Nat) (hinv : QueueInv q heap nodes) (v : Option (List Nat)) (env : Option Nat)
    (hv : buffer_fits q.value_bytes v = true) :
    ∃ st q1 heap1 nodes1, queue_enqueue (fuel + 1) (some q) v env heap = some (st, some q1, heap1)
      ∧ QueueInv q1 heap1 nodes1 ∧ q1.value_bytes = q.value_bytes
      ∧ (st.ret = 0 → ∃ a, nodes1 = nodes ++ [(a, (v.getD []).take q.value_bytes)])
      ∧ (st.ret ≠ 0 → nodes1 = nodes)
      ∧ (st.ret = 0 → ∃ t nd nd1, q.Tail.ptr = some t ∧ heap t = some nd ∧ heap1 t = some nd1
          ∧ nd.next.ptr = none ∧ nd1.next.ptr ≠ none
          ∧ nd1.next.count = (nd.next.count + 1) % UINT32_MOD
          ∧ q1.Tail.count = (q.Tail.count + 1) % UINT32_MOD
          ∧ q1.Tail.ptr ≠ q.Tail.ptr ∧ q1.Head = q.Head)
      ∧ (∀ b, heap b = none → heap1 b = none ∨ ∃ x, nodes1 = nodes ++ [(b, x)])
      ∧ (∀ x a, v = some x → env = some a → 0 < a →
          a + (sizeof_node_t + q.value_bytes) < SIZE_MOD → heap a = none →
          st = ⟨0, none⟩ ∧ nodes1 = nodes ++ [(a, x.take q.value_bytes)]) := by
  cases v with
  | none =>
    exact ⟨_, q, heap, nodes, rfl, hinv, rfl, by simp, by simp, by simp, fun _ hb => Or.inl hb,
      by intro x a h; cases h⟩
  | some v =>
    simp only [buffer_fits, decide_eq_true_eq] at hv
    rcases Queue.new_node_cases q heap env with hn | ⟨a, hfresh, ha, ⟨hfit, hn⟩ | ⟨hfit, _⟩⟩
    · refine ⟨⟨-1, none⟩, q, heap, nodes, ?_, hinv, rfl, by simp, by simp, by simp,
        fun _ hb => Or.inl hb, ?_⟩
      · simp only [queue_enqueue, hn]
      · intro x a' _ he h0 hfit' hfr
        rw [he, Queue.new_node_granted q heap a' h0 hfit' hfr] at hn
        simp at hn
    · -- the node at `a` is linked behind the last node `t`
      obtain ⟨t, ht⟩ : ∃ t, nodes.getLast? = some t := by
        cases h : nodes.getLast? with
        | none => exact absurd (List.getLast?_eq_none_iff.1 h) hinv.nonempty
        | some t => exact ⟨t, rfl⟩
      have htmem : t ∈ nodes := List.mem_of_getLast?_eq_some ht
      have hanodes : a ∉ nodes.map Prod.fst := by
        intro hmem
        obtain ⟨nd, hnd⟩ := Queue.queue_chain_cell hinv.hchain a hmem
        rw [hfresh] at hnd
        cases hnd
      have hta : t.1 ≠ a := fun h => hanodes (h ▸ List.mem_map_of_mem Prod.fst htmem)
      have htail : q.Tail.ptr = some t.1 := by rw [hinv.htail, ht]; rfl
      obtain ⟨tn, htn, htnn⟩ := Queue.queue_chain_last hinv.hchain t ht
      have hmem : memcpy (List.replicate q.value_bytes 0) v q.value_bytes
          = some (v.take q.value_bytes) := by
        simp [memcpy, hv]
      have hsz := hinv.size
      have hlen : (nodes ++ [(a, v.take q.value_bytes)]).length ≤ SIZE_MOD := by
        have hnd2 : ((nodes ++ [(a, v.take q.value_bytes)]).map Prod.fst).Nodup := by
          rw [List.map_append]
          refine List.nodup_append.2 ⟨hinv.nodup, by simp, ?_⟩
          intro x hx hx'
          simp only [List.map_cons, List.map_nil, List.mem_singleton] at hx'
          exact hanodes (hx' ▸ hx)
        have := nodup_length_le_of_lt hnd2 (m := SIZE_MOD) (by
          intro x hx
          rw [List.map_append, List.mem_append] at hx
          rcases hx with hx | hx
          · obtain ⟨y, hy, rfl⟩ := List.mem_map.1 hx
            exact hinv.addr y hy
          · simp only [List.map_cons, List.map_nil, List.mem_singleton] at hx
            exact hx ▸ ha)
        simpa using this
      simp only [List.length_append, List.length_singleton] at hlen
      refine ⟨⟨0, none⟩,
        { q with Tail := ⟨some a, (q.Tail.count + 1) % UINT32_MOD⟩,
                 size := (q.size + 1) % SIZE_MOD },
        Function.update
          (Function.update
            (Function.update heap a (some ⟨⟨none, 0⟩, List.replicate q.value_bytes 0⟩)) a
            (some ⟨⟨none, 0⟩, v.take q.value_bytes⟩)) t.1
          (some { tn with next := ⟨some a, (tn.next.count + 1) % UINT32_MOD⟩ }),
        nodes ++ [(a, v.take q.value_bytes)], ?_, ?_, rfl, ?_, by simp, ?_, ?_, ?_⟩
      · simp only [queue_enqueue, hn, Function.update_same, hmem, Queue.enqueue_loop, htail,
          Function.update_noteq hta, htn, htnn, CAS, if_true, and_self]
      · have hchain2 : Queue.chain
            (Function.update
              (Function.update heap a (some ⟨⟨none, 0⟩, List.replicate q.value_bytes 0⟩)) a
              (some ⟨⟨none, 0⟩, v.take q.value_bytes⟩)) q.Head.ptr nodes :=
          (Queue.queue_chain_update _ hanodes).2 ((Queue.queue_chain_update _ hanodes).2 hinv.hchain)
        constructor
        · exact Queue.queue_chain_append a _ _ hchain2 hanodes hinv.nodup t ht
            ⟨_, Function.update_same _ _ _, rfl, rfl⟩ tn
            (by rw [Function.update_noteq hta, Function.update_noteq hta]; exact htn)
        · simp
        · simp
        · rw [List.map_append]
          refine List.nodup_append.2 ⟨hinv.nodup, by simp, ?_⟩
          intro x hx hx'
          simp only [List.map_cons, List.map_nil, List.mem_singleton] at hx'
          exact hanodes (hx' ▸ hx)
        · intro x hx
          rcases List.mem_append.1 hx with hx | hx
          · exact hinv.addr x hx
          · simp only [List.mem_singleton] at hx
            subst hx; exact ha
        · intro x hx
          rcases List.mem_append.1 hx with hx | hx
          · exact hinv.vals x hx
          · simp only [List.mem_singleton] at hx
            subst hx
            simp [hv]
        · show (q.size + 1) % SIZE_MOD + 1 = (nodes ++ [(a, v.take q.value_bytes)]).length
          rw [Nat.mod_eq_of_lt (by omega)]
          simp
          omega
        · exact hinv.fits
      · intro _
        exact ⟨a, rfl⟩
      · intro _
        refine ⟨t.1, tn, _, htail, htn, Function.update_same _ _ _, htnn, by simp, rfl, rfl,
          ?_, rfl⟩
        rw [htail]
        simpa using Ne.symm hta
      · intro b hb
        by_cases hba : b = a
        · exact Or.inr ⟨_, by rw [hba]⟩
        · left
          have hbt : b ≠ t.1 := fun h => by rw [h, htn] at hb; cases hb
          rw [Function.update_noteq hbt, Function.update_noteq hba, Function.update_noteq hba]
          exact hb
      · intro x a' hx he h0 hfit' hfr
        simp only [Option.some.injEq] at hx
        subst hx
        rw [he, Queue.new_node_granted q heap a' h0 hfit' hfr] at hn
        simp only [Prod.mk.injEq, Option.some.injEq] at hn
        rw [hn.1]
        exact ⟨rfl, rfl⟩
    · exact absurd hinv.fits hfit

/-- A dequeue keeps the invariant; it removes the node behind the sentinel, whose payload
it copies out, exactly when it returns 0, and fails exactly on the sentinel alone. -/
theorem queue_dequeue_inv {q : queue_t} {heap : QHeap} {nodes : List (Nat × List Nat)}
    (fuel : Nat) (hinv : QueueInv q heap nodes) (out : Option (List Nat))
    (hv : buffer_fits q.value_bytes out = true) :
    ∃ st q1 heap1 nodes1 out1,
      queue_dequeue (fuel + 1) (some q) out heap = some (st, some q1, heap1, out1)
      ∧ QueueInv q1 heap1 nodes1 ∧ q1.value_bytes = q.value_bytes
      ∧ (st.ret = 0 → nodes1 = nodes.tail ∧ nodes.tail ≠ []
          ∧ ∀ o, out = some o → ∀ x, nodes1.head? = some x →
              out1 = some (x.2 ++ o.drop q.value_bytes))
      ∧ (st.ret ≠ 0 → nodes1 = nodes ∧ heap1 = heap ∧ q1 = q ∧ out1 = out)
      ∧ (∀ o, out = some o → (st = ⟨0, none⟩ ∧ nodes.tail ≠ [])
          ∨ (st = ⟨-1, some errno_t.ENOENT⟩ ∧ nodes.tail = []))
      ∧ (st.ret = 0 → ∃ s, q.Head.ptr = some s ∧ heap1 = Function.update heap s none
          ∧ q1.Head.count = (q.Head.count + 1) % UINT32_MOD
          ∧ q1.Head.ptr ≠ q.Head.ptr ∧ q1.Tail = q.Tail) := by
  cases out with
  | none =>
    exact ⟨_, q, heap, nodes, none, rfl, hinv, rfl, by simp, by simp, by simp, by simp⟩
  | some out =>
    simp only [buffer_fits, decide_eq_true_eq] at hv
    cases hnodes : nodes with
    | nil => exact absurd hnodes hinv.nonempty
    | cons s rest =>
      subst hnodes
      obtain ⟨hh, nd, hnd, _, hrest⟩ := hinv.hchain
      cases hrest' : rest with
      | nil =>
        subst hrest'
        simp only [Queue.chain] at hrest
        have htail : q.Tail.ptr = some s.1 := by rw [hinv.htail]; rfl
        refine ⟨⟨-1, some errno_t.ENOENT⟩, q, heap, [s], some out, ?_, hinv, rfl, by simp,
          by simp, fun _ _ => Or.inr ⟨rfl, rfl⟩, by simp⟩
        simp only [queue_dequeue, Queue.dequeue_loop, hh, hnd, htail, hrest, if_true, and_self]
      | cons x rest2 =>
        subst hrest'
        obtain ⟨hx, nx, hnx, hxv, hrest2⟩ := hrest
        have hnodup := hinv.nodup
        simp only [List.map_cons, List.nodup_cons] at hnodup
        obtain ⟨t, ht⟩ : ∃ t, (x :: rest2).getLast? = some t := by
          cases h : (x :: rest2).getLast? with
          | none => simp at h
          | some t => exact ⟨t, rfl⟩
        have htail : q.Tail.ptr = some t.1 := by
          rw [hinv.htail, List.getLast?_cons_cons, ht]; rfl
        have hst : s.1 ≠ t.1 := by
          intro h
          have : t ∈ x :: rest2 := List.mem_of_getLast?_eq_some ht
          have h2 : t.1 ∈ (x :: rest2).map Prod.fst := List.mem_map_of_mem Prod.fst this
          rw [← h] at h2
          exact hnodup.1 (by simpa using h2)
        have hxlen : x.2.length = q.value_bytes := hinv.vals x (by simp)
        have hmem : memcpy out nx.value q.value_bytes
            = some (x.2 ++ out.drop q.value_bytes) := by
          simp [memcpy, hv, hxv, hxlen]
        have hsz := hinv.size
        simp only [List.length_cons] at hsz
        have hne : ¬ (some s.1 = some t.1) := by simpa using hst
        refine ⟨⟨0, none⟩,
          { q with Head := ⟨some x.1, (q.Head.count + 1) % UINT32_MOD⟩,
                   size := (q.size + (SIZE_MOD - 1)) % SIZE_MOD },
          Function.update heap s.1 none, x :: rest2, some (x.2 ++ out.drop q.value_bytes), ?_, ?_,
          rfl, ?_, by simp, fun _ _ => Or.inl ⟨rfl, by simp⟩, ?_⟩
        · simp only [queue_dequeue, Queue.dequeue_loop, hh, hnd, htail, hne, hx, hnx, hmem, CAS,
            if_true, if_false, and_self]
        · have hs : s.1 ∉ (x :: rest2).map Prod.fst := by
            simpa using hnodup.1
          constructor
          · exact (Queue.queue_chain_update _ hs).2 ⟨rfl, nx, hnx, hxv, hrest2⟩
          · show q.Tail.ptr = _
            rw [hinv.htail, List.getLast?_cons_cons]
          · simp
          · simpa using hnodup.2
          · intro y hy
            exact hinv.addr y (List.mem_cons_of_mem _ hy)
          · intro y hy
            exact hinv.vals y (List.mem_cons_of_mem _ hy)
          · show (q.size + (SIZE_MOD - 1)) % SIZE_MOD + 1 = (x :: rest2).length
            have hq : q.size = rest2.length + 1 := by omega
            have hlt : q.size < SIZE_MOD := by
              have h1 := nodup_length_le_of_lt hinv.nodup (m := SIZE_MOD) (by
                intro a ha
                obtain ⟨y, hy, rfl⟩ := List.mem_map.1 ha
                exact hinv.addr y hy)
              simp only [List.map_cons, List.length_cons, List.length_map] at h1
              omega
            simp only [List.length_cons, SIZE_MOD] at hlt ⊢
            omega
          · exact hinv.fits
        · intro _
          refine ⟨rfl, by simp, ?_⟩
          intro o ho y hy
          simp only [Option.some.injEq] at ho
          simp only [List.head?_cons, Option.some.injEq] at hy
          subst ho; subst hy
          rfl
        · intro _
          refine ⟨s.1, hh, rfl, rfl, ?_, rfl⟩
          rw [hh]
          intro e
          simp only [Option.some.injEq] at e
          exact hnodup.1 (by simp [← e])

/-- Copying a full payload into the slot behind `pre` replaces that slot. -/
theorem slot_store_mid (pre post : List (List Nat)) (z src : List Nat) (n : Nat)
    (hz : z.length = n) (hs : src.length = n) :
    slot_store (some (pre ++ z :: post)) pre.length src n = some (pre ++ src :: post) := by
  have hget : (pre ++ z :: post).get? pre.length = some z := by
    rw [List.get?_eq_getElem?, List.getElem?_append_right (le_refl _)]
    simp
  have hmem : memcpy z src n = some src := by
    subst hs
    simp [memcpy, hz]
  simp only [slot_store, hget, hmem]
  simp

/-- The loop of `queue_to_array` started at a node of the list fills the slots from `i`
on with the payloads of the nodes behind it. -/
theorem Queue.to_array_loop_spec (heap : QHeap) (vb : Nat) :
    ∀ (rest : List (Nat × List Nat)) (x : Nat × List Nat) (p : Option Nat) (i : Nat)
      (pre post : List (List Nat)) (fuel : Nat),
      Queue.chain heap p (x :: rest) → (∀ y ∈ rest, y.2.length = vb) → sizeof_int ≤ vb →
      pre.length = i → i + rest.length < INT_MAX → rest.length + 2 ≤ fuel →
      ∀ c, Queue.to_array_loop heap vb fuel ⟨p, c⟩ i
          (some (pre ++ List.replicate rest.length (List.replicate vb 0) ++ post))
        = some (some (pre ++ rest.map Prod.snd ++ post)) := by
  intro rest
  induction rest with
  | nil =>
    intro x p i pre post fuel hc _ _ _ hi hfuel c
    obtain ⟨hp, nd, hnd, _, hrest⟩ := hc
    simp only [Queue.chain] at hrest
    obtain ⟨f, rfl⟩ : ∃ f, fuel = f + 2 := ⟨fuel - 2, by simp at hfuel; omega⟩
    have hi' : ¬ INT_MAX ≤ i := by simp at hi; omega
    simp only [Queue.to_array_loop, hp, hnd, hi', hrest, if_false, List.length_nil,
      List.replicate_zero, List.append_nil, List.map_nil]
  | cons y rest ih =>
    intro x p i pre post fuel hc hv h4 hpre hi hfuel c
    obtain ⟨hp, nd, hnd, _, hrest⟩ := hc
    have hrest' := hrest
    obtain ⟨hy, ny, hny, hnyv, _⟩ := hrest'
    simp only [List.length_cons] at hi hfuel
    obtain ⟨f, rfl⟩ : ∃ f, fuel = f + 1 := ⟨fuel - 1, by omega⟩
    have hi' : ¬ INT_MAX ≤ i := by omega
    have hylen : y.2.length = vb := hv y (by simp)
    have hread : ¬ ny.value.length < sizeof_int := by rw [hnyv, hylen]; omega
    have hstore : slot_store
        (some (pre ++ List.replicate (rest.length + 1) (List.replicate vb 0) ++ post)) i ny.value vb
        = some ((pre ++ [y.2]) ++ List.replicate rest.length (List.replicate vb 0) ++ post) := by
      rw [List.replicate_succ, List.append_assoc, List.cons_append, ← hpre, hnyv]
      rw [slot_store_mid pre _ (List.replicate vb 0) y.2 vb (by simp) hylen]
      simp
    have hih := ih y nd.next.ptr (i + 1) (pre ++ [y.2]) post f hrest
      (fun z hz => hv z (List.mem_cons_of_mem _ hz)) h4 (by simp [hpre]) (by omega) (by omega)
      nd.next.count
    simp only [Queue.to_array_loop, hp, hnd, hi', hy, hny, hread, if_false, List.length_cons,
      hstore]
    rw [hih]
    simp

/-- Running a list of calls keeps the invariant, and the list of payloads kept by the run
is the list of the payloads of the nodes behind the sentinel. -/
theorem queue_run_inv (fuel : Nat) : ∀ (ops : List queue_op) (q : queue_t) (heap : QHeap)
    (nodes : List (Nat × List Nat)) (elems : List (List Nat)), QueueInv q heap nodes →
    elems = nodes.tail.map Prod.snd →
    (∀ op ∈ ops, queue_op.fits q.value_bytes op = true) →
    ∃ q1 heap1 nodes1 elems1, queue_run (fuel + 1) ops q heap elems = some (q1, heap1, elems1)
      ∧ QueueInv q1 heap1 nodes1 ∧ elems1 = nodes1.tail.map Prod.snd
      ∧ q1.value_bytes = q.value_bytes := by
  intro ops
  induction ops with
  | nil =>
    intro q heap nodes elems hinv he _
    exact ⟨q, heap, nodes, elems, rfl, hinv, he, rfl⟩
  | cons op ops ih =>
    intro q heap nodes elems hinv he hfits
    have hop := hfits op (by simp)
    cases op with
    | enqueue v env =>
      obtain ⟨st, q1, heap1, nodes1, hrun, hinv1, hvb, h0, h1, _⟩ :=
        queue_enqueue_inv fuel hinv v env hop
      have hfits1 : ∀ op ∈ ops, queue_op.fits q1.value_bytes op = true := by
        intro op hmem
        rw [hvb]
        exact hfits op (by simp [hmem])
      have he1 : (if st.ret = 0 then elems ++ [(v.getD []).take q.value_bytes] else elems)
          = nodes1.tail.map Prod.snd := by
        by_cases hr : st.ret = 0
        · obtain ⟨a, ha⟩ := h0 hr
          rw [if_pos hr, ha, he]
          cases hn : nodes with
          | nil => exact absurd hn hinv.nonempty
          | cons x rest => simp
        · rw [if_neg hr, h1 hr, he]
      obtain ⟨q2, heap2, nodes2, elems2, hrun2, hinv2, he2, hvb2⟩ :=
        ih q1 heap1 nodes1 _ hinv1 he1 hfits1
      exact ⟨q2, heap2, nodes2, elems2, by simp only [queue_run, hrun, hrun2], hinv2, he2,
        hvb2.trans hvb⟩
    | dequeue out =>
      obtain ⟨st, q1, heap1, nodes1, out1, hrun, hinv1, hvb, h0, h1, _⟩ :=
        queue_dequeue_inv fuel hinv out hop
      have hfits1 : ∀ op ∈ ops, queue_op.fits q1.value_bytes op = true := by
        intro op hmem
        rw [hvb]
        exact hfits op (by simp [hmem])
      have he1 : (if st.ret = 0 then elems.tail else elems) = nodes1.tail.map Prod.snd := by
        by_cases hr : st.ret = 0
        · rw [if_pos hr, (h0 hr).1, he]
          simp [List.map_tail]
        · rw [if_neg hr, (h1 hr).1, he]
      obtain ⟨q2, heap2, nodes2, elems2, hrun2, hinv2, he2, hvb2⟩ :=
        ih q1 heap1 nodes1 _ hinv1 he1 hfits1
      exact ⟨q2, heap2, nodes2, elems2, by simp only [queue_run, hrun, hrun2], hinv2, he2,
        hvb2.trans hvb⟩

/-- Under the invariant `queue_to_array` returns the payloads behind the sentinel, when a
payload holds an `int` at least. -/
theorem queue_to_array_inv {q : queue_t} {heap : QHeap} {nodes : List (Nat × List Nat)}
    (hinv : QueueInv q heap nodes) (h4 : sizeof_int ≤ q.value_bytes)
    (hint : nodes.tail.length < INT_MAX)
    (hbuf : nodes.tail.length * q.value_bytes < SIZE_MOD) (f : Nat)
    (hf : nodes.tail.length + 2 ≤ f) :
    queue_to_array f (some q) true heap = some (some (nodes.tail.map Prod.snd), none) := by
  cases hn : nodes with
  | nil => exact absurd hn hinv.nonempty
  | cons x rest =>
    subst hn
    simp only [List.tail_cons] at hint hbuf hf ⊢
    have hsz := hinv.size
    simp only [List.length_cons, Nat.add_right_cancel_iff] at hsz
    have hcal : calloc_slots true q.size q.value_bytes
        = some (List.replicate rest.length (List.replicate q.value_bytes 0)) := by
      simp only [calloc_slots, hsz, hbuf, and_self, if_true]
    have hloop := Queue.to_array_loop_spec heap q.value_bytes rest x q.Head.ptr 0 [] [] f
      hinv.hchain (fun y hy => hinv.vals y (List.mem_cons_of_mem _ hy)) h4 rfl (by omega) hf
      q.Head.count
    simp only [List.nil_append, List.append_nil] at hloop
    simp only [queue_to_array, hcal, hloop]

/-- After a successful `queue_create` for payloads of at least `sizeof(int)` bytes every
sequence of calls (each given `NULL` or a buffer of at least `value_bytes` bytes)
completes; the size counter is then the number `n` of elements enqueued and not yet
dequeued, and for `n >= 1` (below `INT_MAX`, with the buffer granted) `queue_to_array`
returns a buffer of exactly `n` slots whose slot `i` is the payload of the `i`-th oldest
element. -/
theorem queue_to_array_lists_elements (fuel vb : Nat) (q0 q1 : queue_t) (env : Option Nat)
    (heap0 heap1 : QHeap) (ops : List queue_op) (h4 : sizeof_int ≤ vb)
    (hcreate : queue_create (some q0) vb env heap0 = some (⟨0, none⟩, some q1, heap1))
    (hops : ∀ op ∈ ops, queue_op.fits vb op = true) :
    ∃ q heap elems, queue_run (fuel + 1) ops q1 heap1 [] = some (q, heap, elems)
      ∧ q.size = elems.length
      ∧ (1 ≤ elems.length → elems.length < INT_MAX → elems.length * vb < SIZE_MOD →
          ∀ f, elems.length + 2 ≤ f →
            queue_to_array f (some q) true heap = some (some elems, none)) := by
  obtain ⟨s, v, hinv0, hvb0, _⟩ := queue_create_inv q0 q1 vb env heap0 heap1 hcreate
  obtain ⟨q, heap, nodes, elems, hrun, hinv, he, hvb⟩ :=
    queue_run_inv fuel ops q1 heap1 [(s, v)] [] hinv0 rfl (by rw [hvb0]; exact hops)
  refine ⟨q, heap, elems, hrun, ?_, ?_⟩
  · have hsz := hinv.size
    rw [he, List.length_map, List.length_tail]
    omega
  · intro _ hint hbuf f hf
    rw [he] at hint hbuf hf ⊢
    simp only [List.length_map] at hint hbuf hf
    rw [← hvb0, ← hvb] at hbuf
    exact queue_to_array_inv hinv (by rw [hvb, hvb0]; exact h4) hint hbuf f hf

/-- C18 fails on the code: on a queue of 1-byte elements (`queue_create(q, 1)`, sentinel
granted at 4096) that holds the one element `[7]` (node granted at 8192),
`queue_to_array` with its buffer granted is undefined, whatever the fuel: before it copies
the payload it reads `*(int *)next.ptr->value`, 4 bytes of a payload of 1 byte that ends
the 17-byte node. The same calls on a queue of 4-byte elements return the buffer that
holds the element. -/
theorem queue_to_array_reads_int_from_short_payload :
    (∃ q0 heap0 q heap nd,
      queue_create (some ⟨⟨none, 0⟩, ⟨none, 0⟩, 0, 0⟩) 1 (some 4096) (fun _ => none)
        = some (⟨0, none⟩, some q0, heap0)
      ∧ queue_enqueue 1 (some q0) (some [7]) (some 8192) heap0 = some (⟨0, none⟩, some q, heap)
      ∧ q.size = 1 ∧ q.value_bytes = 1
      ∧ heap 8192 = some nd ∧ nd.value = [7] ∧ nd.value.length < sizeof_int
      ∧ ∀ fuel, queue_to_array fuel (some q) true heap = none)
    ∧ ∃ q0 heap0 q heap,
      queue_create (some ⟨⟨none, 0⟩, ⟨none, 0⟩, 0, 0⟩) 4 (some 4096) (fun _ => none)
        = some (⟨0, none⟩, some q0, heap0)
      ∧ queue_enqueue 1 (some q0) (some [7, 0, 0, 0]) (some 8192) heap0
        = some (⟨0, none⟩, some q, heap)
      ∧ queue_to_array 3 (some q) true heap = some (some [[7, 0, 0, 0]], none) :=
  ⟨⟨_, _, _, _, _, rfl, rfl, rfl, rfl, rfl, rfl, by decide,
      fun fuel => by cases fuel <;> rfl⟩,
    ⟨_, _, _, _, rfl, rfl, rfl⟩⟩

/-! ### Invariants of the pool, the stack and the queue in sequential use -/

/-- C30: for a pool created by `mempool_create`, after every sequence of allocations and
of releases of fragments still held, the fragments reachable from `head` through the
`frag` links form a null-terminated list `l` (sentinel included) without repetition, no
fragment held by the caller is on it, and the fragments held are pairwise distinct. -/
theorem mempool_held_fragments_are_off_the_free_list (fuel : Nat) (mp : memory_pool)
    (data_bytes N base : Nat) (mem : FragMem) (ops : List pool_op)
    (hd : 0 < data_bytes) (hN : 0 < N) (hbase : 0 < base) (hdb : data_bytes + 16 ≤ SIZE_MOD)
    (hfit : base + (N + 1) * internal_mempool_aligned_data_bytes
        (MEMORY_POOL_MAKER none data_bytes N) < SIZE_MOD) :
    ∃ self0 mem0, mempool_create (fuel + 1) (some mp) data_bytes N (some base) mem
        = some (⟨0, none⟩, some self0, mem0)
      ∧ ∃ self1 mem1 out l, pool_run (fuel + 1) ops self0 mem0 [] = some (self1, mem1, out)
        ∧ Pool.chain mem1 self1.head.frag l
        ∧ l.Nodup
        ∧ (∀ p ∈ out, p ∉ l)
        ∧ out.Nodup := by
  obtain ⟨self0, mem0, l0, hc, hinv0, _⟩ :=
    mempool_create_inv fuel mp data_bytes N base mem hd hN hbase hdb hfit
  obtain ⟨self1, mem1, l1, out, hrun, hinv1⟩ := pool_run_inv fuel ops self0 mem0 l0 [] hinv0
  have hnd := List.nodup_append.1 hinv1.nodup
  exact ⟨self0, mem0, hc, self1, mem1, out, l1, hrun, hinv1.hchain, hnd.1,
    fun p hp hl => hnd.2.2 hl hp, hnd.2.1⟩

/-- Instance of `mempool_held_fragments_are_off_the_free_list` on a pool of two 16-byte
fragments at address 4096. -/
theorem mempool_held_fragments_are_off_the_free_list_witness :
    (0 < 8 ∧ 0 < 2 ∧ 0 < 4096 ∧ 8 + 16 ≤ SIZE_MOD
      ∧ 4096 + (2 + 1) * internal_mempool_aligned_data_bytes (MEMORY_POOL_MAKER none 8 2)
          < SIZE_MOD)
    ∧ ∃ self0 mem0, mempool_create (0 + 1) (some (MEMORY_POOL_MAKER none 0 0)) 8 2 (some 4096)
          (fun _ => none) = some (⟨0, none⟩, some self0, mem0)
      ∧ ∃ self1 mem1 out l,
          pool_run (0 + 1) [pool_op.alloc, pool_op.alloc, pool_op.free 1, pool_op.alloc]
            self0 mem0 [] = some (self1, mem1, out)
        ∧ Pool.chain mem1 self1.head.frag l
        ∧ l.Nodup
        ∧ (∀ p ∈ out, p ∉ l)
        ∧ out.Nodup :=
  ⟨⟨by decide, by decide, by decide, by decide, by decide⟩,
    mempool_held_fragments_are_off_the_free_list 0 _ 8 2 4096 _ _ (by decide) (by decide)
      (by decide) (by decide) (by decide)⟩

/-- C26: for a stack created with capacity `cap >= 1` (nodes `0 .. cap - 1`), right after
`stack_create` the list rooted at `head` is empty and the list rooted at `free` holds the
`cap` nodes; after every sequence of calls made by one thread (each given `NULL` or a
buffer of at least `value_bytes` bytes, successful or not) the two lists are
null-terminated, free of repetition, their lengths sum to `cap`, and every one of the
`cap` nodes is on exactly one of them. -/
theorem stack_nodes_are_on_exactly_one_list (vb cap fuel : Nat) (ops : List stack_op)
    (hcap : 0 < cap) (hvb : vb + 24 ≤ SIZE_MOD)
    (hsz : sizeof_stack + Stack.node_byte_aligned vb * cap < SIZE_MOD)
    (hops : ∀ op ∈ ops, stack_op.fits vb op = true) :
    ∃ s0, stack_create vb cap true = some (some s0)
      ∧ Stack.chain s0.node_buffer s0.head.node []
      ∧ Stack.chain s0.node_buffer s0.free.node (List.range' 0 cap)
      ∧ ∃ s pushes pops live fr,
          stack_run (fuel + 1) ops s0 0 0 = some (s, pushes, pops)
          ∧ Stack.chain s.node_buffer s.head.node live
          ∧ Stack.chain s.node_buffer s.free.node fr
          ∧ live.Nodup ∧ fr.Nodup
          ∧ live.length + fr.length = cap
          ∧ (∀ i, i ∈ live ∨ i ∈ fr ↔ i < cap)
          ∧ (∀ i, ¬ (i ∈ live ∧ i ∈ fr)) := by
  obtain ⟨s0, hc, hinv, hv0, hs0⟩ := stack_create_inv vb cap hcap hvb hsz
  obtain ⟨s, p, q, live, fr, hrun, hinv1, _, _, hperm⟩ :=
    stack_run_inv fuel ops s0 [] _ 0 0 hinv (by rw [hv0]; exact hops) (le_refl _)
      (by rw [hs0])
  have hnd := List.nodup_append.1 hinv1.nodup
  refine ⟨s0, hc, hinv.hlive, hinv.hfree, s, p, q, live, fr, hrun, hinv1.hlive, hinv1.hfree,
    hnd.1, hnd.2.1, hinv1.total, ?_, ?_⟩
  · intro i
    rw [← List.mem_append, hperm.mem_iff]
    simp [List.mem_range']
  · intro i hi
    exact hnd.2.2 hi.1 hi.2

/-- Instance of `stack_nodes_are_on_exactly_one_list` on a stack of two `int`-sized
elements, with a push that finds the stack full and a pop given `NULL`. -/
theorem stack_nodes_are_on_exactly_one_list_witness :
    (0 < 2 ∧ 4 + 24 ≤ SIZE_MOD ∧ sizeof_stack + Stack.node_byte_aligned 4 * 2 < SIZE_MOD
      ∧ ∀ op ∈ [stack_op.push (some [1, 2, 3, 4]), stack_op.push (some [5, 6, 7, 8]),
                 stack_op.push (some [9, 9, 9, 9]), stack_op.pop (some [0, 0, 0, 0]),
                 stack_op.pop none], stack_op.fits 4 op = true)
    ∧ ∃ s0, stack_create 4 2 true = some (some s0)
      ∧ Stack.chain s0.node_buffer s0.head.node []
      ∧ Stack.chain s0.node_buffer s0.free.node (List.range' 0 2)
      ∧ ∃ s pushes pops live fr,
          stack_run (0 + 1) [stack_op.push (some [1, 2, 3, 4]), stack_op.push (some [5, 6, 7, 8]),
                 stack_op.push (some [9, 9, 9, 9]), stack_op.pop (some [0, 0, 0, 0]),
                 stack_op.pop none] s0 0 0 = some (s, pushes, pops)
          ∧ Stack.chain s.node_buffer s.head.node live
          ∧ Stack.chain s.node_buffer s.free.node fr
          ∧ live.Nodup ∧ fr.Nodup
          ∧ live.length + fr.length = 2
          ∧ (∀ i, i ∈ live ∨ i ∈ fr ↔ i < 2)
          ∧ (∀ i, ¬ (i ∈ live ∧ i ∈ fr)) :=
  ⟨⟨by decide, by decide, by decide, by decide⟩,
    stack_nodes_are_on_exactly_one_list 4 2 0 _ (by decide) (by decide) (by decide)
      (by decide)⟩

/-- Under the invariant `Head.ptr` and `Tail.ptr` are not `NULL`, and the `next` pointer
of the node at `Head.ptr` is `NULL` exactly when no node follows the sentinel. -/
theorem QueueInv.head_next_null_iff {q : queue_t} {heap : QHeap}
    {nodes : List (Nat × List Nat)} (hinv : QueueInv q heap nodes) :
    ∃ hd tl nd, q.Head.ptr = some hd ∧ q.Tail.ptr = some tl ∧ heap hd = some nd
      ∧ (nd.next.ptr = none ↔ nodes.tail = []) := by
  cases hn : nodes with
  | nil => exact absurd hn hinv.nonempty
  | cons x rest =>
    have hc := hinv.hchain
    have ht := hinv.htail
    rw [hn] at hc ht
    obtain ⟨hp, nd, hnd, _, hrest⟩ := hc
    obtain ⟨y, hy⟩ : ∃ y, (x :: rest).getLast? = some y :=
      ⟨(x :: rest).getLast (by simp), List.getLast?_eq_getLast _ _⟩
    refine ⟨x.1, y.1, nd, hp, by rw [ht, hy]; rfl, hnd, ?_⟩
    cases rest with
    | nil => simpa [Queue.chain] using hrest
    | cons z rest2 =>
      obtain ⟨hz, _⟩ := hrest
      simp [hz]

/-- C24: after a successful `queue_create` and after every sequence of completed calls
made by one thread (each given `NULL` or a buffer of at least `value_bytes` bytes),
`Head.ptr` and `Tail.ptr` are not `NULL`, the node at `Head.ptr` is allocated, and its
`next.ptr` is `NULL` exactly when no element enqueued by a call that returned 0 is still
waiting to be dequeued. -/
theorem queue_head_next_null_iff_empty (fuel vb : Nat) (q0 q1 : queue_t) (env : Option Nat)
    (heap0 heap1 : QHeap) (ops : List queue_op)
    (hcreate : queue_create (some q0) vb env heap0 = some (⟨0, none⟩, some q1, heap1))
    (hops : ∀ op ∈ ops, queue_op.fits vb op = true) :
    ∃ q heap elems, queue_run (fuel + 1) ops q1 heap1 [] = some (q, heap, elems)
      ∧ ∃ hd tl nd, q.Head.ptr = some hd ∧ q.Tail.ptr = some tl ∧ heap hd = some nd
          ∧ (nd.next.ptr = none ↔ elems = []) := by
  obtain ⟨s, v, hinv0, hvb0, _⟩ := queue_create_inv q0 q1 vb env heap0 heap1 hcreate
  obtain ⟨q, heap, nodes, elems, hrun, hinv, he, _⟩ :=
    queue_run_inv fuel ops q1 heap1 [(s, v)] [] hinv0 rfl (by rw [hvb0]; exact hops)
  obtain ⟨hd, tl, nd, h1, h2, h3, h4⟩ := hinv.head_next_null_iff
  refine ⟨q, heap, elems, hrun, hd, tl, nd, h1, h2, h3, ?_⟩
  rw [h4, he]
  cases nodes.tail <;> simp

/-- Instance of `queue_head_next_null_iff_empty`: two enqueues and one dequeue on a queue
of `int`-sized elements. -/
theorem queue_head_next_null_iff_empty_witness :
    (queue_create (some ⟨⟨none, 0⟩, ⟨none, 0⟩, 0, 0⟩) 4 (some 4096) (fun _ => none)
        = some (⟨0, none⟩, some ⟨⟨some 4096, 0⟩, ⟨some 4096, 0⟩, 4, 0⟩,
            Function.update (Function.update (fun _ => none) 4096
              (some ⟨⟨none, 0⟩, [0, 0, 0, 0]⟩)) 4096 (some ⟨⟨none, 0⟩, [0, 0, 0, 0]⟩))
      ∧ ∀ op ∈ [queue_op.enqueue (some [10, 0, 0, 0]) (some 8192),
                 queue_op.enqueue (some [20, 0, 0, 0]) (some 12288),
                 queue_op.dequeue (some [0, 0, 0, 0])],
          queue_op.fits 4 op = true)
    ∧ ∃ q heap elems,
        queue_run (0 + 1) [queue_op.enqueue (some [10, 0, 0, 0]) (some 8192),
                 queue_op.enqueue (some [20, 0, 0, 0]) (some 12288),
                 queue_op.dequeue (some [0, 0, 0, 0])]
            ⟨⟨some 4096, 0⟩, ⟨some 4096, 0⟩, 4, 0⟩
            (Function.update (Function.update (fun _ => none) 4096
              (some ⟨⟨none, 0⟩, [0, 0, 0, 0]⟩)) 4096 (some ⟨⟨none, 0⟩, [0, 0, 0, 0]⟩)) []
          = some (q, heap, elems)
      ∧ ∃ hd tl nd, q.Head.ptr = some hd ∧ q.Tail.ptr = some tl ∧ heap hd = some nd
          ∧ (nd.next.ptr = none ↔ elems = []) :=
  ⟨⟨rfl, by decide⟩,
    queue_head_next_null_iff_empty 0 4 ⟨⟨none, 0⟩, ⟨none, 0⟩, 0, 0⟩
      ⟨⟨some 4096, 0⟩, ⟨some 4096, 0⟩, 4, 0⟩ (some 4096) (fun _ => none) _ _ rfl (by decide)⟩

/-- C25: after a successful `queue_create` and after every sequence of completed
`queue_enqueue` and `queue_dequeue` calls made by one thread (so that no compare-and-swap
meets a value changed by another thread), the nodes reachable from `Head` form a
null-terminated list without repetition and `Tail.ptr` is the address of its last node:
`Tail` does not lag. -/
theorem queue_tail_points_at_last_node (fuel vb : Nat) (q0 q1 : queue_t) (env : Option Nat)
    (heap0 heap1 : QHeap) (ops : List queue_op)
    (hcreate : queue_create (some q0) vb env heap0 = some (⟨0, none⟩, some q1, heap1))
    (hops : ∀ op ∈ ops, queue_op.fits vb op = true) :
    (∃ s v, Queue.chain heap1 q1.Head.ptr [(s, v)] ∧ q1.Tail.ptr = some s)
    ∧ ∃ q heap elems nodes, queue_run (fuel + 1) ops q1 heap1 [] = some (q, heap, elems)
      ∧ Queue.chain heap q.Head.ptr nodes ∧ (nodes.map Prod.fst).Nodup
      ∧ ∃ last, nodes.getLast? = some last ∧ q.Tail.ptr = some last.1 := by
  obtain ⟨s, v, hinv0, hvb0, _⟩ := queue_create_inv q0 q1 vb env heap0 heap1 hcreate
  obtain ⟨q, heap, nodes, elems, hrun, hinv, he, _⟩ :=
    queue_run_inv fuel ops q1 heap1 [(s, v)] [] hinv0 rfl (by rw [hvb0]; exact hops)
  refine ⟨⟨s, v, hinv0.hchain, by rw [hinv0.htail]; rfl⟩, q, heap, elems, nodes, hrun,
    hinv.hchain, hinv.nodup, ?_⟩
  refine ⟨nodes.getLast hinv.nonempty, List.getLast?_eq_getLast _ _, ?_⟩
  rw [hinv.htail, List.getLast?_eq_getLast _ hinv.nonempty]
  rfl

/-- Instance of `queue_tail_points_at_last_node`: an enqueue, a dequeue and an enqueue on
a queue of `int`-sized elements. -/
theorem queue_tail_points_at_last_node_witness :
    (queue_create (some ⟨⟨none, 0⟩, ⟨none, 0⟩, 0, 0⟩) 4 (some 4096) (fun _ => none)
        = some (⟨0, none⟩, some ⟨⟨some 4096, 0⟩, ⟨some 4096, 0⟩, 4, 0⟩,
            Function.update (Function.update (fun _ => none) 4096
              (some ⟨⟨none, 0⟩, [0, 0, 0, 0]⟩)) 4096 (some ⟨⟨none, 0⟩, [0, 0, 0, 0]⟩))
      ∧ ∀ op ∈ [queue_op.enqueue (some [10, 0, 0, 0]) (some 8192),
                 queue_op.dequeue (some [0, 0, 0, 0]),
                 queue_op.enqueue (some [20, 0, 0, 0]) (some 12288)],
          queue_op.fits 4 op = true)
    ∧ (∃ s v, Queue.chain
          (Function.update (Function.update (fun _ => none) 4096
              (some ⟨⟨none, 0⟩, [0, 0, 0, 0]⟩)) 4096 (some ⟨⟨none, 0⟩, [0, 0, 0, 0]⟩))
          (pointer_t.ptr (queue_t.Head ⟨⟨some 4096, 0⟩, ⟨some 4096, 0⟩, 4, 0⟩)) [(s, v)]
        ∧ pointer_t.ptr (queue_t.Tail ⟨⟨some 4096, 0⟩, ⟨some 4096, 0⟩, 4, 0⟩) = some s)
    ∧ ∃ q heap elems nodes,
        queue_run (0 + 1) [queue_op.enqueue (some [10, 0, 0, 0]) (some 8192),
                 queue_op.dequeue (some [0, 0, 0, 0]),
                 queue_op.enqueue (some [20, 0, 0, 0]) (some 12288)]
            ⟨⟨some 4096, 0⟩, ⟨some 4096, 0⟩, 4, 0⟩
            (Function.update (Function.update (fun _ => none) 4096
              (some ⟨⟨none, 0⟩, [0, 0, 0, 0]⟩)) 4096 (some ⟨⟨none, 0⟩, [0, 0, 0, 0]⟩)) []
          = some (q, heap, elems)
      ∧ Queue.chain heap q.Head.ptr nodes ∧ (nodes.map Prod.fst).Nodup
      ∧ ∃ last, nodes.getLast? = some last ∧ q.Tail.ptr = some last.1 :=
  ⟨⟨rfl, by decide⟩,
    queue_tail_points_at_last_node 0 4 ⟨⟨none, 0⟩, ⟨none, 0⟩, 0, 0⟩
      ⟨⟨some 4096, 0⟩, ⟨some 4096, 0⟩, 4, 0⟩ (some 4096) (fun _ => none) _ _ rfl (by decide)⟩

/-! ### Deque: effect of the helpers and operations on the links -/

/-- `REL` changes reference counts only. -/
theorem REL_links : ∀ (fuel : Nat) (h : NodeMem) (x : Option Nat) (h1 : NodeMem),
    REL fuel h x = some h1 → h1.prev = h.prev ∧ h1.next = h.next ∧ h1.data = h.data := by
  intro fuel
  induction fuel with
  | zero => intro h x h1 hr; simp [REL] at hr
  | succ fuel ih =>
    intro h x h1 hr
    cases x with
    | none =>
      simp only [REL, Option.some.injEq] at hr
      subst hr
      exact ⟨rfl, rfl, rfl⟩
    | some a =>
      simp only [REL] at hr
      split at hr
      · split at hr
        · simp at hr
        · rename_i h2 hr2
          obtain ⟨p2, n2, d2⟩ := ih _ _ _ hr2
          obtain ⟨p3, n3, d3⟩ := ih _ _ _ hr
          exact ⟨p3.trans p2, n3.trans n2, d3.trans d2⟩
      · simp only [Option.some.injEq] at hr
        subst hr
        exact ⟨rfl, rfl, rfl⟩

/-- A computation that continues after a `REL` continues on a memory that differs from
the one before the `REL` in its reference counts only. -/
theorem REL_bind {β : Type} {fuel : Nat} {h : NodeMem} {x : Option Nat}
    {k : NodeMem → Option β} {res : β} (hk : (REL fuel h x).bind k = some res) :
    ∃ r, k ⟨h.prev, h.next, r, h.data⟩ = some res := by
  cases hr : REL fuel h x with
  | none => rw [hr] at hk; simp at hk
  | some h1 =>
    rw [hr] at hk
    obtain ⟨hp, hn, hd⟩ := REL_links fuel h x h1 hr
    refine ⟨h1.ref, ?_⟩
    rw [← hp, ← hn, ← hd]
    exact hk

/-- The same for the conditional release of `last`. -/
theorem REL_last_bind {β : Type} {fuel : Nat} {h : NodeMem} {x : Option Nat}
    {k : NodeMem → Option β} {res : β} (hk : (REL_last fuel h x).bind k = some res) :
    ∃ r, k ⟨h.prev, h.next, r, h.data⟩ = some res := by
  cases x with
  | none => exact ⟨h.ref, hk⟩
  | some l => exact REL_bind hk

/-- A final `REL` leaves the links and payloads as they were. -/
theorem REL_final {fuel : Nat} {h : NodeMem} {x : Option Nat} {h1 : NodeMem}
    (hk : REL fuel h x = some h1) : ∃ r, h1 = ⟨h.prev, h.next, r, h.data⟩ := by
  obtain ⟨hp, hn, hd⟩ := REL_links fuel h x h1 hk
  exact ⟨h1.ref, by rw [← hp, ← hn, ← hd]⟩

/-- Local effect of `deque_push_common(node, next)` when `next->prev` is the unmarked
link to `p` and `node->next` the unmarked link to `next`. -/
theorem deque_push_common_links {fuel : Nat} {h h1 : NodeMem} {node nx : Nat} {p : Option Nat}
    (hprev : h.prev nx = ⟨p, false⟩) (hnext : h.next node = ⟨some nx, false⟩)
    (hnode : (h.prev node).d = false) (hne : node ≠ nx)
    (hrun : deque_push_common fuel h node (some nx) = some h1) :
    ∃ r, h1 = ⟨Function.update h.prev nx ⟨some node, false⟩, h.next, r, h.data⟩ := by
  unfold deque_push_common at hrun
  simp only at hrun
  cases fuel with
  | zero => simp [deque_push_common_loop] at hrun
  | succ fuel =>
    simp only [deque_push_common_loop, hprev, hnext, CAS, LINK_MAKER, COPY, NodeMem.set_prev,
      NodeMem.inc_ref, NodeMem.set_ref, Option.some_bind, ne_eq, not_true_eq_false, or_self,
      if_false, if_true, Bool.false_eq_true] at hrun
    rw [Option.bind_assoc] at hrun
    obtain ⟨r1, hrun⟩ := REL_bind hrun
    simp only [Function.update_noteq hne, hnode, Bool.false_eq_true, if_false,
      Option.some_bind] at hrun
    obtain ⟨r2, hrun⟩ := REL_bind hrun
    obtain ⟨r3, hrun⟩ := REL_final hrun
    exact ⟨r3, hrun⟩

/-- `deque_mark_prev(node)` sets the mark of `node->prev` and changes nothing else. -/
theorem deque_mark_prev_links {fuel : Nat} {h h1 : NodeMem} {node : Nat} {p : Option Nat}
    {d : Bool} (hprev : h.prev node = ⟨p, d⟩) (hrun : deque_mark_prev fuel h node = some h1) :
    h1 = ⟨Function.update h.prev node ⟨p, true⟩, h.next, h.ref, h.data⟩ := by
  cases fuel with
  | zero => simp [deque_mark_prev] at hrun
  | succ fuel =>
    cases d with
    | true =>
      simp only [deque_mark_prev, hprev, if_true, Option.some.injEq] at hrun
      subst hrun
      rw [← hprev, Function.update_eq_self]
    | false =>
      simp only [deque_mark_prev, hprev, CAS, LINK_MAKER, NodeMem.set_prev, if_true,
        Bool.false_eq_true, if_false, Option.some.injEq] at hrun
      exact hrun.symm

/-- Local effect of `HelpDelete(node)` on a node with marked `next` link that still is
the successor of its predecessor `p`: `node->prev` is marked and `p->next` bypasses the
node. -/
theorem HelpDelete_links {fuel : Nat} {h h1 : NodeMem} {node p n : Nat} {dp : Bool}
    (hp : h.prev node = ⟨some p, dp⟩) (hn : h.next node = ⟨some n, true⟩)
    (hpn : h.next p = ⟨some node, false⟩) (hnn : (h.next n).d = false) (hne : p ≠ n)
    (hrun : HelpDelete fuel h node = some h1) :
    ∃ r, h1 = ⟨Function.update h.prev node ⟨some p, true⟩,
      Function.update h.next p ⟨some n, false⟩, r, h.data⟩ := by
  unfold HelpDelete at hrun
  cases hm : deque_mark_prev fuel h node with
  | none => rw [hm] at hrun; simp at hrun
  | some hm1 =>
    have hm1' := deque_mark_prev_links hp hm
    subst hm1'
    rw [hm] at hrun
    cases fuel with
    | zero => simp [deque_mark_prev] at hm
    | succ fuel =>
      have hne' : ¬ (some p = some n) := by simpa using hne
      simp only [Option.some_bind, Function.update_same, DEREF_D, hn, NodeMem.inc_ref,
        NodeMem.set_ref, HelpDelete_loop, hne', if_false, hnn, Bool.false_eq_true, DEREF, hpn,
        ne_eq, not_true_eq_false, Option.bind_assoc] at hrun
      obtain ⟨r1, hrun⟩ := REL_bind hrun
      simp only [CAS, LINK_MAKER, hpn, if_true, NodeMem.set_next, COPY, NodeMem.inc_ref,
        NodeMem.set_ref, Option.some_bind, Option.bind_assoc] at hrun
      obtain ⟨r2, hrun⟩ := REL_bind hrun
      simp only [Option.some_bind, REL_last] at hrun
      obtain ⟨r3, hrun⟩ := REL_bind hrun
      obtain ⟨r4, hrun⟩ := REL_final hrun
      exact ⟨r4, hrun⟩

/-- Local effect of `HelpInsert(prev, node)` when `prev->next` is the unmarked link to
`node` and `node->prev` still names the removed node `x`: `node->prev` is set to `prev`,
which is returned. -/
theorem HelpInsert_links {fuel : Nat} {h h1 : NodeMem} {p n x : Nat} {res : Option Nat}
    (hpn : h.next p = ⟨some n, false⟩) (hnp : h.prev n = ⟨some x, false⟩)
    (hpp : (h.prev p).d = false) (hxp : x ≠ p) (hne : p ≠ n)
    (hrun : HelpInsert fuel h (some p) n = some (h1, res)) :
    res = some p
      ∧ ∃ r, h1 = ⟨Function.update h.prev n ⟨some p, false⟩, h.next, r, h.data⟩ := by
  unfold HelpInsert at hrun
  cases fuel with
  | zero => simp [HelpInsert_loop] at hrun
  | succ fuel =>
    simp only [HelpInsert_loop, DEREF, hpn, Bool.false_eq_true, if_false, NodeMem.inc_ref,
      NodeMem.set_ref, Option.some_bind, hnp, ne_eq, not_true_eq_false,
      Option.bind_assoc] at hrun
    obtain ⟨r1, hrun⟩ := REL_bind hrun
    have hxp' : ¬ (some x = some p) := by simpa using hxp
    simp only [hxp', if_false, hpn, if_true, CAS, hnp, LINK_MAKER, NodeMem.set_prev, COPY,
      NodeMem.inc_ref, NodeMem.set_ref, Option.some_bind, Option.bind_assoc] at hrun
    obtain ⟨r2, hrun⟩ := REL_bind hrun
    simp only [Function.update_noteq hne, hpp, Bool.false_eq_true, if_false, Option.some_bind,
      REL_last, Option.some.injEq, Prod.mk.injEq] at hrun
    exact ⟨hrun.2.symm, r2, hrun.1.symm⟩

/-- `RemoveCrossReference(node)` changes nothing when neither neighbour of the node has
a marked `prev` link. -/
theorem RemoveCrossReference_links {fuel : Nat} {h h1 : NodeMem} {x p n : Nat} {b c : Bool}
    (hp : h.prev x = ⟨some p, b⟩) (hn : h.next x = ⟨some n, c⟩)
    (hpp : (h.prev p).d = false) (hnp : (h.prev n).d = false)
    (hrun : RemoveCrossReference fuel h x = some h1) : h1 = h := by
  cases fuel with
  | zero => simp [RemoveCrossReference] at hrun
  | succ fuel =>
    simp only [RemoveCrossReference, hp, hn, hpp, hnp, Bool.false_eq_true, if_false,
      Option.some.injEq] at hrun
    exact hrun.symm

/-- Local effect of a `deque_pop` on a deque whose first node `x` sits between the head
sentinel `p` and `n`: the call returns 0, copies the payload of `x` out, marks both links
of `x` and makes `p` and `n` neighbours. -/
theorem deque_pop_links {fuel : Nat} {q : deq_t} {h h1 : NodeMem} {out : List Nat}
    {st : status} {out1 : Option (List Nat)} {p x n : Nat}
    (hhead : q.head = some p) (hxt : some x ≠ q.tail)
    (hpx : h.next p = ⟨some x, false⟩) (hxn : h.next x = ⟨some n, false⟩)
    (hxp : h.prev x = ⟨some p, false⟩) (hnx : h.prev n = ⟨some x, false⟩)
    (hnn : (h.next n).d = false) (hpp : (h.prev p).d = false)
    (d1 : p ≠ x) (d2 : p ≠ n) (d3 : x ≠ n)
    (hrun : deque_pop fuel (some q) (some out) h = some (st, h1, out1)) :
    st = ⟨0, none⟩ ∧ out1 = memcpy out (h.data x) q.val_bytes
      ∧ ∃ r, h1 = ⟨Function.update (Function.update h.prev x ⟨some p, true⟩) n ⟨some p, false⟩,
        Function.update (Function.update h.next x ⟨some n, true⟩) p ⟨some n, false⟩, r,
        h.data⟩ := by
  cases fuel with
  | zero => simp [deque_pop, deque_pop_loop, COPY, hhead] at hrun
  | succ fuel =>
    simp only [deque_pop, hhead, COPY, NodeMem.inc_ref, NodeMem.set_ref, Option.some_bind,
      deque_pop_loop, DEREF, hpx, Bool.false_eq_true, if_false, hxt, hxn, CAS, LINK_MAKER,
      if_true, NodeMem.set_next, Option.bind_assoc] at hrun
    obtain ⟨h2, hd, hrun⟩ := Option.bind_eq_some.1 hrun
    have hpx2 : Function.update h.next x (⟨some n, true⟩ : Link) p = ⟨some x, false⟩ := by
      rw [Function.update_noteq d1]; exact hpx
    have hnn2 : (Function.update h.next x (⟨some n, true⟩ : Link) n).d = false := by
      rw [Function.update_noteq (Ne.symm d3)]; exact hnn
    obtain ⟨r2, rfl⟩ := HelpDelete_links (h := ⟨h.prev, Function.update h.next x ⟨some n, true⟩,
      _, h.data⟩) hxp (Function.update_same _ _ _) hpx2 hnn2 d2 hd
    simp only [DEREF_D, Function.update_noteq (Ne.symm d1), Function.update_same,
      NodeMem.inc_ref, NodeMem.set_ref, Option.some_bind, Option.bind_assoc] at hrun
    obtain ⟨⟨h4, prev1⟩, hi, hrun⟩ := Option.bind_eq_some.1 hrun
    have hnx2 : Function.update h.prev x (⟨some p, true⟩ : Link) n = ⟨some x, false⟩ := by
      rw [Function.update_noteq (Ne.symm d3)]; exact hnx
    have hpp2 : (Function.update h.prev x (⟨some p, true⟩ : Link) p).d = false := by
      rw [Function.update_noteq d1]; exact hpp
    obtain ⟨rfl, r4, rfl⟩ := HelpInsert_links (x := x)
      (h := ⟨Function.update h.prev x ⟨some p, true⟩,
        Function.update (Function.update h.next x ⟨some n, true⟩) p ⟨some n, false⟩, _,
        h.data⟩)
      (Function.update_same _ _ _) hnx2 hpp2 (Ne.symm d1) d2 hi
    dsimp only at hrun
    obtain ⟨r5, hrun⟩ := REL_bind hrun
    dsimp only at hrun
    obtain ⟨r6, hrun⟩ := REL_bind hrun
    dsimp only at hrun
    obtain ⟨out2, hm, hrun⟩ := Option.bind_eq_some.1 hrun
    obtain ⟨h8, hrc, hrun⟩ := Option.bind_eq_some.1 hrun
    have hrc' := RemoveCrossReference_links (p := p) (n := n) (b := true) (c := true)
      (h := ⟨Function.update (Function.update h.prev x ⟨some p, true⟩) n ⟨some p, false⟩,
        Function.update (Function.update h.next x ⟨some n, true⟩) p ⟨some n, false⟩, r6,
        h.data⟩)
      (by show Function.update (Function.update h.prev x _) n _ x = _
          rw [Function.update_noteq d3, Function.update_same])
      (by show Function.update (Function.update h.next x _) p _ x = _
          rw [Function.update_noteq (Ne.symm d1), Function.update_same])
      (by show (Function.update (Function.update h.prev x _) n _ p).d = false
          rw [Function.update_noteq d2, Function.update_noteq d1]; exact hpp)
      (by show (Function.update (Function.update h.prev x _) n _ n).d = false
          rw [Function.update_same])
      hrc
    subst hrc'
    obtain ⟨h9, hrel, hrun⟩ := Option.bind_eq_some.1 hrun
    obtain ⟨r9, rfl⟩ := REL_final hrel
    simp only [Option.some.injEq, Prod.mk.injEq] at hrun
    obtain ⟨rfl, rfl, rfl⟩ := hrun
    exact ⟨rfl, hm.symm, r9, rfl⟩

/-- A `deque_pop` on a deque whose head sentinel is followed by the tail sentinel returns
-1 with `ENOENT`, leaves the output buffer alone and changes reference counts only. -/
theorem deque_pop_empty_links {fuel : Nat} {q : deq_t} {h h1 : NodeMem} {out : List Nat}
    {st : status} {out1 : Option (List Nat)} {p t : Nat}
    (hhead : q.head = some p) (htail : q.tail = some t)
    (hpx : h.next p = ⟨some t, false⟩)
    (hrun : deque_pop fuel (some q) (some out) h = some (st, h1, out1)) :
    st = ⟨-1, some errno_t.ENOENT⟩ ∧ out1 = some out
      ∧ ∃ r, h1 = ⟨h.prev, h.next, r, h.data⟩ := by
  cases fuel with
  | zero => simp [deque_pop, deque_pop_loop, COPY, hhead] at hrun
  | succ fuel =>
    simp only [deque_pop, hhead, htail, COPY, NodeMem.inc_ref, NodeMem.set_ref,
      Option.some_bind, deque_pop_loop, DEREF, hpx, Bool.false_eq_true, if_false, if_true,
      Option.bind_assoc] at hrun
    obtain ⟨r1, hrun⟩ := REL_bind hrun
    dsimp only at hrun
    obtain ⟨r2, hrun⟩ := REL_bind hrun
    simp only [Option.some_bind, Option.some.injEq, Prod.mk.injEq] at hrun
    obtain ⟨rfl, rfl, rfl⟩ := hrun
    exact ⟨rfl, rfl, r2, rfl⟩

/-- Local effect of a `deque_unshift` on a deque whose last node `x` sits between `p` and
the tail sentinel `n`: the call returns 0, copies the payload of `x` out, marks both
links of `x` and makes `p` and `n` neighbours. -/
theorem deque_unshift_links {fuel : Nat} {q : deq_t} {h h1 : NodeMem} {out : List Nat}
    {st : status} {out1 : Option (List Nat)} {p x n : Nat}
    (htail : q.tail = some n) (hxh : some x ≠ q.head)
    (hpx : h.next p = ⟨some x, false⟩) (hxn : h.next x = ⟨some n, false⟩)
    (hxp : h.prev x = ⟨some p, false⟩) (hnx : h.prev n = ⟨some x, false⟩)
    (hnn : (h.next n).d = false) (hpp : (h.prev p).d = false)
    (d1 : p ≠ x) (d2 : p ≠ n) (d3 : x ≠ n)
    (hrun : deque_unshift fuel (some q) (some out) h = some (st, h1, out1)) :
    st = ⟨0, none⟩ ∧ out1 = memcpy out (h.data x) q.val_bytes
      ∧ ∃ r, h1 = ⟨Function.update (Function.update h.prev x ⟨some p, true⟩) n ⟨some p, false⟩,
        Function.update (Function.update h.next x ⟨some n, true⟩) p ⟨some n, false⟩, r,
        h.data⟩ := by
  cases fuel with
  | zero => simp [deque_unshift, deque_unshift_loop, COPY, DEREF, htail, hnx] at hrun
  | succ fuel =>
    simp only [deque_unshift, htail, COPY, NodeMem.inc_ref, NodeMem.set_ref, Option.some_bind,
      deque_unshift_loop, DEREF, hnx, Bool.false_eq_true, if_false, hxh, hxn, CAS, LINK_MAKER,
      if_true, NodeMem.set_next, Option.bind_assoc, ne_eq, not_true_eq_false, or_self] at hrun
    obtain ⟨h2, hd, hrun⟩ := Option.bind_eq_some.1 hrun
    have hpx2 : Function.update h.next x (⟨some n, true⟩ : Link) p = ⟨some x, false⟩ := by
      rw [Function.update_noteq d1]; exact hpx
    have hnn2 : (Function.update h.next x (⟨some n, true⟩ : Link) n).d = false := by
      rw [Function.update_noteq (Ne.symm d3)]; exact hnn
    obtain ⟨r2, rfl⟩ := HelpDelete_links (h := ⟨h.prev, Function.update h.next x ⟨some n, true⟩,
      _, h.data⟩) hxp (Function.update_same _ _ _) hpx2 hnn2 d2 hd
    simp only [DEREF_D, Function.update_same,
      NodeMem.inc_ref, NodeMem.set_ref, Option.some_bind, Option.bind_assoc] at hrun
    obtain ⟨⟨h4, prev1⟩, hi, hrun⟩ := Option.bind_eq_some.1 hrun
    have hnx2 : Function.update h.prev x (⟨some p, true⟩ : Link) n = ⟨some x, false⟩ := by
      rw [Function.update_noteq (Ne.symm d3)]; exact hnx
    have hpp2 : (Function.update h.prev x (⟨some p, true⟩ : Link) p).d = false := by
      rw [Function.update_noteq d1]; exact hpp
    obtain ⟨rfl, r4, rfl⟩ := HelpInsert_links (x := x)
      (h := ⟨Function.update h.prev x ⟨some p, true⟩,
        Function.update (Function.update h.next x ⟨some n, true⟩) p ⟨some n, false⟩, _,
        h.data⟩)
      (Function.update_same _ _ _) hnx2 hpp2 (Ne.symm d1) d2 hi
    dsimp only at hrun
    obtain ⟨r5, hrun⟩ := REL_bind hrun
    dsimp only at hrun
    obtain ⟨r6, hrun⟩ := REL_bind hrun
    dsimp only at hrun
    obtain ⟨out2, hm, hrun⟩ := Option.bind_eq_some.1 hrun
    obtain ⟨h8, hrc, hrun⟩ := Option.bind_eq_some.1 hrun
    have hrc' := RemoveCrossReference_links (p := p) (n := n) (b := true) (c := true)
      (h := ⟨Function.update (Function.update h.prev x ⟨some p, true⟩) n ⟨some p, false⟩,
        Function.update (Function.update h.next x ⟨some n, true⟩) p ⟨some n, false⟩, r6,
        h.data⟩)
      (by show Function.update (Function.update h.prev x _) n _ x = _
          rw [Function.update_noteq d3, Function.update_same])
      (by show Function.update (Function.update h.next x _) p _ x = _
          rw [Function.update_noteq (Ne.symm d1), Function.update_same])
      (by show (Function.update (Function.update h.prev x _) n _ p).d = false
          rw [Function.update_noteq d2, Function.update_noteq d1]; exact hpp)
      (by show (Function.update (Function.update h.prev x _) n _ n).d = false
          rw [Function.update_same])
      hrc
    subst hrc'
    obtain ⟨h9, hrel, hrun⟩ := Option.bind_eq_some.1 hrun
    obtain ⟨r9, rfl⟩ := REL_final hrel
    simp only [Option.some.injEq, Prod.mk.injEq] at hrun
    obtain ⟨rfl, rfl, rfl⟩ := hrun
    exact ⟨rfl, hm.symm, r9, rfl⟩

/-- A `deque_unshift` on a deque whose tail sentinel is preceded by the head sentinel
returns -1 with `ENOENT`, leaves the output buffer alone and changes reference counts
only. -/
theorem deque_unshift_empty_links {fuel : Nat} {q : deq_t} {h h1 : NodeMem} {out : List Nat}
    {st : status} {out1 : Option (List Nat)} {p t : Nat}
    (hhead : q.head = some p) (htail : q.tail = some t)
    (hpx : h.next p = ⟨some t, false⟩) (htp : h.prev t = ⟨some p, false⟩)
    (hrun : deque_unshift fuel (some q) (some out) h = some (st, h1, out1)) :
    st = ⟨-1, some errno_t.ENOENT⟩ ∧ out1 = some out
      ∧ ∃ r, h1 = ⟨h.prev, h.next, r, h.data⟩ := by
  cases fuel with
  | zero => simp [deque_unshift, deque_unshift_loop, COPY, DEREF, htail, htp] at hrun
  | succ fuel =>
    simp only [deque_unshift, hhead, htail, COPY, NodeMem.inc_ref, NodeMem.set_ref,
      Option.some_bind, deque_unshift_loop, DEREF, hpx, htp, Bool.false_eq_true, if_false,
      if_true, Option.bind_assoc, ne_eq, not_true_eq_false, or_self] at hrun
    obtain ⟨r1, hrun⟩ := REL_bind hrun
    dsimp only at hrun
    obtain ⟨r2, hrun⟩ := REL_bind hrun
    simp only [Option.some_bind, Option.some.injEq, Prod.mk.injEq] at hrun
    obtain ⟨rfl, rfl, rfl⟩ := hrun
    exact ⟨rfl, rfl, r2, rfl⟩

/-- Outcomes of `CreateNode`: `NULL` from the pool with the node memory untouched, or a
fragment of the pool initialised as a node with the payload copied in. -/
theorem CreateNode_cases {fuel : Nat} {pool : memory_pool} {vb : Nat} {frags : FragMem}
    {h : NodeMem} {v : List Nat} {res : Option Nat × Option errno_t × memory_pool × NodeMem}
    (hrun : CreateNode fuel pool vb frags h v = some res) :
    (∃ e pool1, mempool_alloc fuel (some pool) frags = some (none, e, some pool1)
        ∧ res = (none, e, pool1, h))
    ∨ (∃ node e pool1, mempool_alloc fuel (some pool) frags = some (some node, e, some pool1)
        ∧ vb ≤ v.length
        ∧ res = (some node, e, pool1,
            ⟨Function.update h.prev node ⟨none, false⟩, Function.update h.next node ⟨none, false⟩,
              Function.update h.ref node 0, Function.update h.data node (v.take vb)⟩)) := by
  unfold CreateNode MALLOC_NODE at hrun
  cases ha : mempool_alloc fuel (some pool) frags with
  | none => rw [ha] at hrun; simp at hrun
  | some r =>
    obtain ⟨pn, e, op⟩ := r
    rw [ha] at hrun
    cases op with
    | none => simp at hrun
    | some pool1 =>
      cases pn with
      | none =>
        left
        simp only [Option.some.injEq] at hrun
        exact ⟨e, pool1, rfl, hrun.symm⟩
      | some node =>
        right
        by_cases hsz : internal_mempool_aligned_data_bytes pool1 < sizeof_deque_node
        · simp [hsz] at hrun
        · by_cases hc : vb ≤ v.length
              ∧ offsetof_data + vb ≤ internal_mempool_aligned_data_bytes pool1
          · simp only [hsz, if_false, hc, and_self, if_true, Option.some.injEq,
              NodeMem.set_ref, NodeMem.set_prev, NodeMem.set_next, NodeMem.set_data] at hrun
            exact ⟨node, e, pool1, rfl, hc.1, hrun.symm⟩
          · simp [hsz, hc] at hrun

/-- Local effect of a `deque_push` in front of `nx`, the successor of the head sentinel
`p`. -/
theorem deque_push_links {fuel : Nat} {q : deq_t} {frags : FragMem} {h h1 : NodeMem}
    {v : List Nat} {st : status} {q1 : Option deq_t} {p nx : Nat}
    (hhead : q.head = some p)
    (hpn : h.next p = ⟨some nx, false⟩) (hnp : h.prev nx = ⟨some p, false⟩)
    (hfresh : ∀ node e pool1, mempool_alloc fuel (some q.pool) frags
        = some (some node, e, some pool1) → node ≠ p ∧ node ≠ nx)
    (hrun : deque_push fuel (some q) (some v) frags h = some (st, q1, h1)) :
    (∃ e pool1, mempool_alloc fuel (some q.pool) frags = some (none, e, some pool1)
        ∧ st = ⟨-1, e⟩ ∧ q1 = some { q with pool := pool1 } ∧ h1 = h)
    ∨ (∃ node e pool1 r, mempool_alloc fuel (some q.pool) frags
          = some (some node, e, some pool1)
        ∧ st = ⟨0, none⟩ ∧ q1 = some { q with pool := pool1 } ∧ q.val_bytes ≤ v.length
        ∧ h1 = ⟨Function.update (Function.update h.prev node ⟨some p, false⟩) nx
              ⟨some node, false⟩,
            Function.update (Function.update h.next node ⟨some nx, false⟩) p ⟨some node, false⟩,
            r, Function.update h.data node (v.take q.val_bytes)⟩) := by
  unfold deque_push at hrun
  simp only at hrun
  cases hc : CreateNode fuel q.pool q.val_bytes frags h v with
  | none => rw [hc] at hrun; simp at hrun
  | some res =>
    rw [hc] at hrun
    rcases CreateNode_cases hc with ⟨e, pool1, ha, rfl⟩ | ⟨node, e, pool1, ha, hlen, rfl⟩
    · left
      simp only [Option.some.injEq, Prod.mk.injEq] at hrun
      obtain ⟨rfl, rfl, rfl⟩ := hrun
      exact ⟨e, pool1, ha, rfl, rfl, rfl⟩
    · right
      obtain ⟨hnp', hnnx⟩ := hfresh node e pool1 ha
      cases fuel with
      | zero => simp [hhead, COPY, DEREF, deque_push_loop, NodeMem.inc_ref, NodeMem.set_ref,
          Function.update_noteq (Ne.symm hnp'), hpn] at hrun
      | succ fuel =>
        simp only [hhead, COPY, NodeMem.inc_ref, NodeMem.set_ref, Option.some_bind, DEREF,
          Function.update_noteq (Ne.symm hnp'), hpn, Bool.false_eq_true, if_false,
          deque_push_loop, ne_eq, not_true_eq_false, or_self, NodeMem.set_prev,
          NodeMem.set_next, LINK_MAKER, CAS, if_true, Function.update_idem,
          Option.bind_assoc] at hrun
        obtain ⟨h5, hpc, hrun⟩ := Option.bind_eq_some.1 hrun
        obtain ⟨r5, rfl⟩ := deque_push_common_links (p := some p)
          (h := ⟨Function.update h.prev node ⟨some p, false⟩,
            Function.update (Function.update h.next node ⟨some nx, false⟩) p ⟨some node, false⟩,
            _, Function.update h.data node (v.take q.val_bytes)⟩)
          (by show Function.update h.prev node _ nx = _
              rw [Function.update_noteq (Ne.symm hnnx)]; exact hnp)
          (by show Function.update (Function.update h.next node _) p _ node = _
              rw [Function.update_noteq hnp', Function.update_same])
          (by show (Function.update h.prev node _ node).d = false
              rw [Function.update_same])
          hnnx hpc
        simp only [Option.some.injEq, Prod.mk.injEq] at hrun
        obtain ⟨rfl, rfl, rfl⟩ := hrun
        exact ⟨node, e, pool1, r5, ha, rfl, by simp [hhead], hlen, rfl⟩

/-- Local effect of a `deque_shift` behind `p`, the predecessor of the tail sentinel
`nx`. -/
theorem deque_shift_links {fuel : Nat} {q : deq_t} {frags : FragMem} {h h1 : NodeMem}
    {v : List Nat} {st : status} {q1 : Option deq_t} {p nx : Nat}
    (htail : q.tail = some nx)
    (hpn : h.next p = ⟨some nx, false⟩) (hnp : h.prev nx = ⟨some p, false⟩)
    (hfresh : ∀ node e pool1, mempool_alloc fuel (some q.pool) frags
        = some (some node, e, some pool1) → node ≠ p ∧ node ≠ nx)
    (hrun : deque_shift fuel (some q) (some v) frags h = some (st, q1, h1)) :
    (∃ e pool1, mempool_alloc fuel (some q.pool) frags = some (none, e, some pool1)
        ∧ st = ⟨-1, e⟩ ∧ q1 = some { q with pool := pool1 } ∧ h1 = h)
    ∨ (∃ node e pool1 r, mempool_alloc fuel (some q.pool) frags
          = some (some node, e, some pool1)
        ∧ st = ⟨0, none⟩ ∧ q1 = some { q with pool := pool1 } ∧ q.val_bytes ≤ v.length
        ∧ h1 = ⟨Function.update (Function.update h.prev node ⟨some p, false⟩) nx
              ⟨some node, false⟩,
            Function.update (Function.update h.next node ⟨some nx, false⟩) p ⟨some node, false⟩,
            r, Function.update h.data node (v.take q.val_bytes)⟩) := by
  unfold deque_shift at hrun
  simp only at hrun
  cases hc : CreateNode fuel q.pool q.val_bytes frags h v with
  | none => rw [hc] at hrun; simp at hrun
  | some res =>
    rw [hc] at hrun
    rcases CreateNode_cases hc with ⟨e, pool1, ha, rfl⟩ | ⟨node, e, pool1, ha, hlen, rfl⟩
    · left
      simp only [Option.some.injEq, Prod.mk.injEq] at hrun
      obtain ⟨rfl, rfl, rfl⟩ := hrun
      exact ⟨e, pool1, ha, rfl, rfl, rfl⟩
    · right
      obtain ⟨hnp', hnnx⟩ := hfresh node e pool1 ha
      cases fuel with
      | zero => simp [htail, COPY, DEREF, deque_shift_loop, NodeMem.inc_ref, NodeMem.set_ref,
          Function.update_noteq (Ne.symm hnnx), hnp] at hrun
      | succ fuel =>
        simp only [htail, COPY, NodeMem.inc_ref, NodeMem.set_ref, Option.some_bind, DEREF,
          Function.update_noteq (Ne.symm hnnx), Function.update_noteq (Ne.symm hnp'), hnp, hpn,
          Bool.false_eq_true, if_false,
          deque_shift_loop, ne_eq, not_true_eq_false, or_self, NodeMem.set_prev,
          NodeMem.set_next, LINK_MAKER, CAS, if_true, Function.update_idem,
          Option.bind_assoc] at hrun
        obtain ⟨h5, hpc, hrun⟩ := Option.bind_eq_some.1 hrun
        obtain ⟨r5, rfl⟩ := deque_push_common_links (p := some p)
          (h := ⟨Function.update h.prev node ⟨some p, false⟩,
            Function.update (Function.update h.next node ⟨some nx, false⟩) p ⟨some node, false⟩,
            _, Function.update h.data node (v.take q.val_bytes)⟩)
          (by show Function.update h.prev node _ nx = _
              rw [Function.update_noteq (Ne.symm hnnx)]; exact hnp)
          (by show Function.update (Function.update h.next node _) p _ node = _
              rw [Function.update_noteq hnp', Function.update_same])
          (by show (Function.update h.prev node _ node).d = false
              rw [Function.update_same])
          hnnx hpc
        simp only [Option.some.injEq, Prod.mk.injEq] at hrun
        obtain ⟨rfl, rfl, rfl⟩ := hrun
        exact ⟨node, e, pool1, r5, ha, rfl, by simp [htail], hlen, rfl⟩

/-! ### Deque: chains of nodes -/

/-- The relation `Deque.adj` of a memory that agrees with `h` on the `next` links of the
first members and on the `prev` links of the second members of the pairs met along a
chain. -/
theorem Deque.chain_congr {h h1 : NodeMem} {l : List Nat}
    (hc : List.Chain' (Deque.adj h) l)
    (H : ∀ a b, a ∈ l → b ∈ l → Deque.adj h a b → Deque.adj h1 a b) :
    List.Chain' (Deque.adj h1) l := by
  rw [List.Chain'.iff_mem] at hc
  exact hc.imp fun a b hab => H a b hab.1 hab.2.1 hab.2.2

/-- Linking `node` between the neighbours `p` and `nx` keeps the chain. -/
theorem Deque.chain_insert {h : NodeMem} {A B : List Nat} {p nx node : Nat} {r : Nat → Nat}
    {D : Nat → List Nat}
    (hc : List.Chain' (Deque.adj h) (A ++ p :: nx :: B))
    (hnd : (A ++ p :: nx :: B).Nodup) (hnode : node ∉ A ++ p :: nx :: B) :
    List.Chain' (Deque.adj
      ⟨Function.update (Function.update h.prev node ⟨some p, false⟩) nx ⟨some node, false⟩,
        Function.update (Function.update h.next node ⟨some nx, false⟩) p ⟨some node, false⟩,
        r, D⟩) (A ++ p :: node :: nx :: B) := by
  rw [List.chain'_split] at hc
  obtain ⟨hA, hB⟩ := hc
  rw [List.chain'_cons] at hB
  obtain ⟨hpn, hB⟩ := hB
  simp only [List.mem_append, List.mem_cons, not_or] at hnode
  obtain ⟨hnA, hnp, hnn, hnB⟩ := hnode
  have hnd' := hnd
  rw [List.nodup_append] at hnd'
  obtain ⟨hAnd, hBnd, hdis⟩ := hnd'
  simp only [List.nodup_cons, List.mem_cons, not_or] at hBnd
  obtain ⟨⟨hpnx, hpB⟩, hnxB, hBnd⟩ := hBnd
  have hpA : p ∉ A := fun hm => hdis hm (by simp)
  have hnxA : nx ∉ A := fun hm => hdis hm (by simp)
  rw [List.chain'_split, List.chain'_cons, List.chain'_cons]
  refine ⟨?_, ?_, ?_, ?_⟩
  · -- the prefix up to `p`
    refine Deque.chain_congr hA ?_
    intro a b ha hb hab
    have hap : a ≠ p := by
      rintro rfl
      have : b = nx := by
        have h1 := hab.1; rw [hpn.1] at h1
        simpa using h1.symm
      subst this
      simp only [List.mem_append, List.mem_singleton] at hb
      rcases hb with hb | hb
      · exact hnxA hb
      · exact hpnx hb.symm
    have hbn : b ≠ nx := by
      rintro rfl
      simp only [List.mem_append, List.mem_singleton] at hb
      rcases hb with hb | hb
      · exact hnxA hb
      · exact hpnx hb.symm
    have han : a ≠ node := by
      rintro rfl
      simp only [List.mem_append, List.mem_singleton] at ha
      rcases ha with ha | ha
      · exact hnA ha
      · exact hnp ha
    have hbnode : b ≠ node := by
      rintro rfl
      simp only [List.mem_append, List.mem_singleton] at hb
      rcases hb with hb | hb
      · exact hnA hb
      · exact hnp hb
    refine ⟨?_, ?_⟩
    · show Function.update (Function.update h.next node _) p _ a = _
      rw [Function.update_noteq hap, Function.update_noteq han]; exact hab.1
    · show Function.update (Function.update h.prev node _) nx _ b = _
      rw [Function.update_noteq hbn, Function.update_noteq hbnode]; exact hab.2
  · refine ⟨?_, ?_⟩
    · show Function.update (Function.update h.next node _) p _ p = _
      rw [Function.update_same]
    · show Function.update (Function.update h.prev node _) nx _ node = _
      rw [Function.update_noteq hnn, Function.update_same]
  · refine ⟨?_, ?_⟩
    · show Function.update (Function.update h.next node _) p _ node = _
      rw [Function.update_noteq hnp, Function.update_same]
    · show Function.update (Function.update h.prev node _) nx _ nx = _
      rw [Function.update_same]
  · refine Deque.chain_congr hB ?_
    intro a b ha hb hab
    have hap : a ≠ p := by
      rintro rfl
      simp only [List.mem_cons] at ha
      rcases ha with ha | ha
      · exact hpnx ha
      · exact hpB ha
    have han : a ≠ node := by
      rintro rfl
      simp only [List.mem_cons] at ha
      rcases ha with ha | ha
      · exact hnn ha
      · exact hnB ha
    have hbnode : b ≠ node := by
      rintro rfl
      simp only [List.mem_cons] at hb
      rcases hb with hb | hb
      · exact hnn hb
      · exact hnB hb
    have hbn : b ≠ nx := by
      rintro rfl
      have h1 := hab.2; rw [hpn.2] at h1
      have : p = a := by simpa using h1
      exact hap this.symm
    refine ⟨?_, ?_⟩
    · show Function.update (Function.update h.next node _) p _ a = _
      rw [Function.update_noteq hap, Function.update_noteq han]; exact hab.1
    · show Function.update (Function.update h.prev node _) nx _ b = _
      rw [Function.update_noteq hbn, Function.update_noteq hbnode]; exact hab.2

/-- Unlinking `x` from between its neighbours `p` and `n` keeps the chain of the other
nodes. -/
theorem Deque.chain_remove {h : NodeMem} {A B : List Nat} {p x n : Nat} {r : Nat → Nat}
    {D : Nat → List Nat}
    (hc : List.Chain' (Deque.adj h) (A ++ p :: x :: n :: B))
    (hnd : (A ++ p :: x :: n :: B).Nodup) :
    List.Chain' (Deque.adj
      ⟨Function.update (Function.update h.prev x ⟨some p, true⟩) n ⟨some p, false⟩,
        Function.update (Function.update h.next x ⟨some n, true⟩) p ⟨some n, false⟩,
        r, D⟩) (A ++ p :: n :: B) := by
  rw [List.chain'_split] at hc
  obtain ⟨hA, hB⟩ := hc
  rw [List.chain'_cons, List.chain'_cons] at hB
  obtain ⟨hpx, hxn, hB⟩ := hB
  have hnd' := hnd
  rw [List.nodup_append] at hnd'
  obtain ⟨hAnd, hBnd, hdis⟩ := hnd'
  simp only [List.nodup_cons, List.mem_cons, not_or] at hBnd
  obtain ⟨⟨hpx', hpn, hpB⟩, ⟨hxn', hxB⟩, hnB, hBnd⟩ := hBnd
  have hpA : p ∉ A := fun hm => hdis hm (by simp)
  have hxA : x ∉ A := fun hm => hdis hm (by simp)
  have hnA : n ∉ A := fun hm => hdis hm (by simp)
  rw [List.chain'_split, List.chain'_cons]
  refine ⟨?_, ?_, ?_⟩
  · refine Deque.chain_congr hA ?_
    intro a b ha hb hab
    have hap : a ≠ p := by
      rintro rfl
      have : b = x := by
        have h1 := hab.1; rw [hpx.1] at h1
        simpa using h1.symm
      subst this
      simp only [List.mem_append, List.mem_singleton] at hb
      rcases hb with hb | hb
      · exact hxA hb
      · exact hpx' hb.symm
    have hax : a ≠ x := by
      rintro rfl
      simp only [List.mem_append, List.mem_singleton] at ha
      rcases ha with ha | ha
      · exact hxA ha
      · exact hpx' ha.symm
    have hbx : b ≠ x := by
      rintro rfl
      simp only [List.mem_append, List.mem_singleton] at hb
      rcases hb with hb | hb
      · exact hxA hb
      · exact hpx' hb.symm
    have hbn : b ≠ n := by
      rintro rfl
      simp only [List.mem_append, List.mem_singleton] at hb
      rcases hb with hb | hb
      · exact hnA hb
      · exact hpn hb.symm
    refine ⟨?_, ?_⟩
    · show Function.update (Function.update h.next x _) p _ a = _
      rw [Function.update_noteq hap, Function.update_noteq hax]; exact hab.1
    · show Function.update (Function.update h.prev x _) n _ b = _
      rw [Function.update_noteq hbn, Function.update_noteq hbx]; exact hab.2
  · refine ⟨?_, ?_⟩
    · show Function.update (Function.update h.next x _) p _ p = _
      rw [Function.update_same]
    · show Function.update (Function.update h.prev x _) n _ n = _
      rw [Function.update_same]
  · refine Deque.chain_congr hB ?_
    intro a b ha hb hab
    have hap : a ≠ p := by
      rintro rfl
      simp only [List.mem_cons] at ha
      rcases ha with ha | ha
      · exact hpn ha
      · exact hpB ha
    have hax : a ≠ x := by
      rintro rfl
      simp only [List.mem_cons] at ha
      rcases ha with ha | ha
      · exact hxn' ha
      · exact hxB ha
    have hbx : b ≠ x := by
      rintro rfl
      simp only [List.mem_cons] at hb
      rcases hb with hb | hb
      · exact hxn' hb
      · exact hxB hb
    have hbn : b ≠ n := by
      rintro rfl
      have h1 := hab.2; rw [hxn.2] at h1
      have : x = a := by simpa using h1
      exact hax this.symm
    refine ⟨?_, ?_⟩
    · show Function.update (Function.update h.next x _) p _ a = _
      rw [Function.update_noteq hap, Function.update_noteq hax]; exact hab.1
    · show Function.update (Function.update h.prev x _) n _ b = _
      rw [Function.update_noteq hbn, Function.update_noteq hbx]; exact hab.2

/-- Along a chain that ends at a node with unmarked `next` link every `next` link is
unmarked. -/
theorem Deque.chain_next_unmarked {h : NodeMem} {t : Nat} (ht : (h.next t).d = false) :
    ∀ (l : List Nat), List.Chain' (Deque.adj h) (l ++ [t]) →
      ∀ a ∈ l ++ [t], (h.next a).d = false := by
  intro l
  induction l with
  | nil => intro _ a ha; simp only [List.nil_append, List.mem_singleton] at ha; rw [ha]; exact ht
  | cons x l ih =>
    intro hc a ha
    rw [List.cons_append, List.mem_cons] at ha
    rcases ha with rfl | ha
    · rw [List.cons_append, List.chain'_cons'] at hc
      cases hl : l ++ [t] with
      | nil => simp at hl
      | cons y rest =>
        rw [hl] at hc
        have := hc.1 y (by simp)
        rw [this.1]
    · rw [List.cons_append] at hc
      exact ih hc.tail a ha

/-- Along a chain that starts at a node with unmarked `prev` link every `prev` link is
unmarked. -/
theorem Deque.chain_prev_unmarked {h : NodeMem} :
    ∀ (l : List Nat) (x : Nat), (h.prev x).d = false → List.Chain' (Deque.adj h) (x :: l) →
      ∀ a ∈ x :: l, (h.prev a).d = false := by
  intro l
  induction l with
  | nil => intro x hx _ a ha; simp only [List.mem_singleton] at ha; rw [ha]; exact hx
  | cons y l ih =>
    intro x hx hc a ha
    rw [List.chain'_cons] at hc
    rw [List.mem_cons] at ha
    rcases ha with rfl | ha
    · exact hx
    · exact ih y (by rw [hc.1.2]) hc.2 a ha

/-! ### Deque: termination -/

/-- The cost of a reference count stays below `2^32`. -/
theorem Deque.refCost_lt (r : Nat) : Deque.refCost r < UINT32_MOD := by
  unfold Deque.refCost
  exact Nat.mod_lt _ (by decide)

/-- A decrement raises the cost of a reference count by 1 at most. -/
theorem Deque.refCost_dec (r : Nat) :
    Deque.refCost ((r + (UINT32_MOD - 1)) % UINT32_MOD) ≤ Deque.refCost r + 1 := by
  unfold Deque.refCost
  simp only [UINT32_MOD]
  norm_num
  omega

/-- The decrement of the count 1, the one that calls `TerminateNode`, takes the cost from
`2^32 - 1` to 0. -/
theorem Deque.refCost_one :
    Deque.refCost 1 = UINT32_MOD - 1
      ∧ Deque.refCost ((1 + (UINT32_MOD - 1)) % UINT32_MOD) = 0 := by
  constructor <;> decide

/-- The cost of a list of nodes is bounded by its length. -/
theorem Deque.cost_le (h : NodeMem) (S : List Nat) :
    Deque.cost h S ≤ S.length * (UINT32_MOD - 1) := by
  unfold Deque.cost
  induction S with
  | nil => simp
  | cons a S ih =>
    simp only [List.map_cons, List.sum_cons, List.length_cons]
    have := Deque.refCost_lt (h.ref a)
    have h2 : (S.length + 1) * (UINT32_MOD - 1) = S.length * (UINT32_MOD - 1) + (UINT32_MOD - 1) := by
      ring
    omega

/-- Storing a reference count of a node outside `S` leaves the cost of `S`. -/
theorem Deque.cost_set_ref_not_mem (h : NodeMem) (S : List Nat) (a r : Nat) (ha : a ∉ S) :
    Deque.cost (h.set_ref a r) S = Deque.cost h S := by
  unfold Deque.cost
  apply congrArg
  apply List.map_congr_left
  intro b hb
  have : b ≠ a := fun e => ha (e ▸ hb)
  simp only [NodeMem.set_ref, Function.update_noteq this]

/-- Storing the reference count `r` of a node of `S` replaces its share of the cost. -/
theorem Deque.cost_set_ref (h : NodeMem) (a r : Nat) : ∀ (S : List Nat), S.Nodup → a ∈ S →
    Deque.cost (h.set_ref a r) S + Deque.refCost (h.ref a)
      = Deque.cost h S + Deque.refCost r := by
  intro S
  induction S with
  | nil => intro _ hm; simp at hm
  | cons b S ih =>
    intro hnd hm
    obtain ⟨hb, hnd'⟩ := List.nodup_cons.1 hnd
    by_cases hab : b = a
    · subst hab
      have h1 := Deque.cost_set_ref_not_mem h S b r hb
      unfold Deque.cost at h1 ⊢
      simp only [List.map_cons, List.sum_cons, h1]
      simp only [NodeMem.set_ref, Function.update_same]
      omega
    · have hm' : a ∈ S := by
        rcases List.mem_cons.1 hm with e | e
        · exact absurd e.symm hab
        · exact e
      have h1 := ih hnd' hm'
      unfold Deque.cost at h1 ⊢
      simp only [List.map_cons, List.sum_cons]
      have : (h.set_ref a r).ref b = h.ref b := by
        simp only [NodeMem.set_ref, Function.update_noteq hab]
      rw [this]
      omega

/-- `REL` returns when its fuel exceeds the cost of the reference counts by 2, and the
cost grows by 1 at most. -/
theorem REL_terminates (S : List Nat) (hS : S.Nodup) : ∀ (fuel : Nat) (h : NodeMem)
    (x : Option Nat), Deque.Closed S h → (∀ a, x = some a → a ∈ S) →
    Deque.cost h S + 2 ≤ fuel →
    ∃ h1, REL fuel h x = some h1 ∧ Deque.cost h1 S ≤ Deque.cost h S + 1 := by
  intro fuel
  induction fuel with
  | zero => intro h x _ _ hf; omega
  | succ fuel ih =>
    intro h x hc hx hf
    cases x with
    | none => exact ⟨h, rfl, by omega⟩
    | some a =>
      have ha : a ∈ S := hx a rfl
      have hcost := Deque.cost_set_ref h a ((h.ref a + (UINT32_MOD - 1)) % UINT32_MOD) S hS ha
      simp only [REL]
      by_cases h1 : h.ref a = 1
      · rw [if_pos h1]
        rw [h1] at hcost
        rw [Deque.refCost_one.1, Deque.refCost_one.2] at hcost
        have hM : UINT32_MOD = 4294967296 := rfl
        obtain ⟨h2, hr2, hc2⟩ := ih (h.set_ref a ((1 + (UINT32_MOD - 1)) % UINT32_MOD))
          ((h.set_ref a ((1 + (UINT32_MOD - 1)) % UINT32_MOD)).prev a).p hc
          (fun b hb => hc.1 a ha b hb) (by omega)
        rw [h1, hr2]
        obtain ⟨hp2, hn2, _⟩ := REL_links _ _ _ _ hr2
        have hc' : Deque.Closed S h2 := by
          unfold Deque.Closed
          rw [hp2, hn2]
          exact hc
        obtain ⟨h3, hr3, hc3⟩ := ih h2 (h2.next a).p hc'
          (fun b hb => hc'.2 a ha b hb) (by omega)
        exact ⟨h3, hr3, by omega⟩
      · rw [if_neg h1]
        refine ⟨_, rfl, ?_⟩
        have := Deque.refCost_dec (h.ref a)
        omega

/-- `REL` on a node of a closed set of `n` nodes returns with fuel `n * 2^32 + 2`; it
changes reference counts only. -/
theorem REL_total {S : List Nat} {h : NodeMem} {x : Option Nat} {fuel : Nat} (hS : S.Nodup)
    (hc : Deque.Closed S h) (hx : ∀ a, x = some a → a ∈ S)
    (hf : S.length * UINT32_MOD + 2 ≤ fuel) :
    ∃ r, REL fuel h x = some ⟨h.prev, h.next, r, h.data⟩ := by
  have hle := Deque.cost_le h S
  have hM : UINT32_MOD = 4294967296 := rfl
  have : S.length * (UINT32_MOD - 1) ≤ S.length * UINT32_MOD :=
    Nat.mul_le_mul_left _ (by omega)
  obtain ⟨h1, hr, _⟩ := REL_terminates S hS fuel h x hc hx (by omega)
  obtain ⟨r, hr1⟩ := REL_final hr
  exact ⟨r, by rw [hr, hr1]⟩

/-- Storing a link to a node of `S` keeps the links inside `S`. -/
theorem Deque.LinksIn.update_some {S : List Nat} {f : Nat → Link} (hf : Deque.LinksIn S f)
    (a : Nat) {b : Nat} (d : Bool) (hb : b ∈ S) :
    Deque.LinksIn S (Function.update f a ⟨some b, d⟩) := by
  intro c hc e he
  by_cases hca : c = a
  · subst hca
    rw [Function.update_same] at he
    simp only [Option.some.injEq] at he
    exact he ▸ hb
  · rw [Function.update_noteq hca] at he
    exact hf c hc e he

/-- Storing a `NULL` link keeps the links inside `S`. -/
theorem Deque.LinksIn.update_none {S : List Nat} {f : Nat → Link} (hf : Deque.LinksIn S f)
    (a : Nat) (d : Bool) : Deque.LinksIn S (Function.update f a ⟨none, d⟩) := by
  intro c hc e he
  by_cases hca : c = a
  · subst hca
    rw [Function.update_same] at he
    simp at he
  · rw [Function.update_noteq hca] at he
    exact hf c hc e he

/-- Storing a link that is `NULL` or leads to a node of `S` keeps the links inside `S`. -/
theorem Deque.LinksIn.update_link {S : List Nat} {f : Nat → Link} (hf : Deque.LinksIn S f)
    (a : Nat) {x : Option Nat} (d : Bool) (hx : ∀ b, x = some b → b ∈ S) :
    Deque.LinksIn S (Function.update f a ⟨x, d⟩) := by
  cases x with
  | none => exact hf.update_none a d
  | some b => exact hf.update_some a d (hx b rfl)

/-- A returned value that satisfies `P`. -/
theorem Returns.ret {β : Type} {a : β} {P : β → Prop} (h : P a) :
    Returns (Option.some a) P := ⟨a, rfl, h⟩

/-- Sequencing: the first computation returns with `Q`, and the continuation returns with
`P` on every value that satisfies `Q`. -/
theorem Returns.andThen {α β : Type} {o : Option α} {k : α → Option β} {Q : α → Prop}
    {P : β → Prop} (ho : Returns o Q) (hk : ∀ a, Q a → Returns (k a) P) :
    Returns (o.bind k) P := by
  obtain ⟨a, ha, hq⟩ := ho
  rw [ha]
  exact hk a hq

/-- Weakening of the property of the result. -/
theorem Returns.imp {β : Type} {o : Option β} {Q P : β → Prop} (ho : Returns o Q)
    (h : ∀ a, Q a → P a) : Returns o P := by
  obtain ⟨a, ha, hq⟩ := ho
  exact ⟨a, ha, h a hq⟩

/-- A computation that continues after a `REL` returns when the continuation returns on
every memory that differs in its reference counts only. -/
theorem Returns.then_rel {β : Type} {S : List Nat} {fuel : Nat} {pv nx : Nat → Link}
    {rf : Nat → Nat} {dt : Nat → List Nat} {x : Option Nat}
    {k : NodeMem → Option β} {P : β → Prop} (hS : S.Nodup)
    (hf : S.length * UINT32_MOD + 2 ≤ fuel)
    (hp : Deque.LinksIn S pv) (hn : Deque.LinksIn S nx)
    (hx : ∀ a, x = Option.some a → a ∈ S)
    (hk : ∀ r, Returns (k ⟨pv, nx, r, dt⟩) P) :
    Returns ((REL fuel ⟨pv, nx, rf, dt⟩ x).bind k) P := by
  obtain ⟨r, hr⟩ := REL_total (h := ⟨pv, nx, rf, dt⟩) hS ⟨hp, hn⟩ hx hf
  rw [hr]
  exact hk r

/-- A final `REL` returns a memory that differs in its reference counts only. -/
theorem Returns.rel {S : List Nat} {fuel : Nat} {pv nx : Nat → Link}
    {rf : Nat → Nat} {dt : Nat → List Nat} {x : Option Nat}
    {P : NodeMem → Prop} (hS : S.Nodup)
    (hf : S.length * UINT32_MOD + 2 ≤ fuel)
    (hp : Deque.LinksIn S pv) (hn : Deque.LinksIn S nx)
    (hx : ∀ a, x = Option.some a → a ∈ S)
    (hk : ∀ r, P ⟨pv, nx, r, dt⟩) :
    Returns (REL fuel ⟨pv, nx, rf, dt⟩ x) P := by
  obtain ⟨r, hr⟩ := REL_total (h := ⟨pv, nx, rf, dt⟩) hS ⟨hp, hn⟩ hx hf
  rw [hr]
  exact ⟨_, rfl, hk r⟩

/-- The pointer `some a` is `NULL` or a node of `S` when `a` is one. -/
theorem mem_of_some_eq {S : List Nat} {a : Nat} (ha : a ∈ S) :
    ∀ b, Option.some a = Option.some b → b ∈ S := by
  intro b e
  simp only [Option.some.injEq] at e
  exact e ▸ ha

/-- With enough fuel `deque_push_common(node, next)` returns when `next->prev` is the
unmarked link to `p` and `node->next` the unmarked link to `next`: it has installed the
back link of `next`. -/
theorem deque_push_common_total {S : List Nat} {fuel : Nat} {h : NodeMem} {node nx : Nat}
    {p : Option Nat} (hS : S.Nodup) (hc : Deque.Closed S h) (hnS : node ∈ S) (hxS : nx ∈ S)
    (hf : S.length * UINT32_MOD + 2 ≤ fuel)
    (hprev : h.prev nx = ⟨p, false⟩) (hnext : h.next node = ⟨some nx, false⟩)
    (hnode : (h.prev node).d = false) (hne : node ≠ nx) :
    Returns (deque_push_common (fuel + 1) h node (some nx))
      (fun h1 => ∃ r, h1 = ⟨Function.update h.prev nx ⟨some node, false⟩, h.next, r, h.data⟩) := by
  have hpS : ∀ b, p = some b → b ∈ S := by
    intro b hb
    apply hc.1 nx hxS b
    rw [hprev, hb]
  have hp1 := hc.1.update_some nx false hnS
  unfold deque_push_common
  simp only [deque_push_common_loop, hprev, hnext, CAS, LINK_MAKER, COPY, NodeMem.set_prev,
    NodeMem.inc_ref, NodeMem.set_ref, Option.some_bind, ne_eq, not_true_eq_false, or_self,
    if_false, if_true, Bool.false_eq_true, Option.bind_assoc]
  refine Returns.then_rel hS hf hp1 hc.2 hpS (fun r1 => ?_)
  simp only [Function.update_noteq hne, hnode, Bool.false_eq_true, if_false,
    Option.some_bind]
  refine Returns.then_rel hS (by omega) hp1 hc.2 (mem_of_some_eq hxS) (fun r2 => ?_)
  exact Returns.rel hS (by omega) hp1 hc.2 (mem_of_some_eq hnS) (fun r3 => ⟨r3, rfl⟩)

/-- With fuel `deque_mark_prev(node)` returns: it sets the mark of `node->prev`. -/
theorem deque_mark_prev_total (fuel : Nat) {h : NodeMem} {node : Nat} {p : Option Nat}
    {d : Bool} (hprev : h.prev node = ⟨p, d⟩) :
    deque_mark_prev (fuel + 1) h node
      = some ⟨Function.update h.prev node ⟨p, true⟩, h.next, h.ref, h.data⟩ := by
  cases d with
  | true =>
    simp only [deque_mark_prev, hprev, if_true, Option.some.injEq]
    rw [← hprev, Function.update_eq_self]
  | false =>
    simp only [deque_mark_prev, hprev, CAS, LINK_MAKER, NodeMem.set_prev, if_true,
      Bool.false_eq_true, if_false]

/-- With enough fuel `HelpDelete(node)` returns on a node with marked `next` link that
still is the successor of its predecessor `p`. -/
theorem HelpDelete_total {S : List Nat} {fuel : Nat} {h : NodeMem} {node p n : Nat} {b : Bool}
    (hS : S.Nodup) (hc : Deque.Closed S h) (hnS : node ∈ S)
    (hf : S.length * UINT32_MOD + 2 ≤ fuel)
    (hp : h.prev node = ⟨some p, b⟩) (hn : h.next node = ⟨some n, true⟩)
    (hpn : h.next p = ⟨some node, false⟩) (hnn : (h.next n).d = false) (hne : p ≠ n) :
    Returns (HelpDelete (fuel + 1) h node)
      (fun h1 => ∃ r, h1 = ⟨Function.update h.prev node ⟨some p, true⟩,
        Function.update h.next p ⟨some n, false⟩, r, h.data⟩) := by
  have hpS : p ∈ S := hc.1 node hnS p (by rw [hp])
  have hxS : n ∈ S := hc.2 node hnS n (by rw [hn])
  have hp1 := hc.1.update_some node true hpS
  have hn1 := hc.2.update_some p false hxS
  unfold HelpDelete
  rw [deque_mark_prev_total fuel hp]
  have hne' : ¬ (some p = some n) := by simpa using hne
  simp only [Option.some_bind, Function.update_same, DEREF_D, hn, NodeMem.inc_ref,
    NodeMem.set_ref, HelpDelete_loop, hne', if_false, hnn, Bool.false_eq_true, DEREF, hpn,
    ne_eq, not_true_eq_false, Option.bind_assoc]
  refine Returns.then_rel hS hf hp1 hc.2 (mem_of_some_eq hnS) (fun r1 => ?_)
  simp only [CAS, LINK_MAKER, hpn, if_true, NodeMem.set_next, COPY, NodeMem.inc_ref,
    NodeMem.set_ref, Option.some_bind, Option.bind_assoc]
  refine Returns.then_rel hS hf hp1 hn1 (mem_of_some_eq hnS) (fun r2 => ?_)
  simp only [Option.some_bind, REL_last]
  refine Returns.then_rel hS (by omega) hp1 hn1 (mem_of_some_eq hpS) (fun r3 => ?_)
  exact Returns.rel hS (by omega) hp1 hn1 (mem_of_some_eq hxS) (fun r4 => ⟨r4, rfl⟩)

/-- With enough fuel `HelpInsert(prev, node)` returns `prev` when `prev->next` is the
unmarked link to `node` and `node->prev` still names the removed node `x`. -/
theorem HelpInsert_total {S : List Nat} {fuel : Nat} {h : NodeMem} {p n x : Nat}
    (hS : S.Nodup) (hc : Deque.Closed S h) (hpS : p ∈ S) (hnS : n ∈ S)
    (hf : S.length * UINT32_MOD + 2 ≤ fuel)
    (hpn : h.next p = ⟨some n, false⟩) (hnp : h.prev n = ⟨some x, false⟩)
    (hpp : (h.prev p).d = false) (hxp : x ≠ p) (hne : p ≠ n) :
    Returns (HelpInsert (fuel + 1) h (some p) n)
      (fun res => res.2 = some p
        ∧ ∃ r, res.1 = ⟨Function.update h.prev n ⟨some p, false⟩, h.next, r, h.data⟩) := by
  have hxS : x ∈ S := hc.1 n hnS x (by rw [hnp])
  have hp1 := hc.1.update_some n false hpS
  unfold HelpInsert
  simp only [HelpInsert_loop, DEREF, hpn, Bool.false_eq_true, if_false, NodeMem.inc_ref,
    NodeMem.set_ref, Option.some_bind, hnp, ne_eq, not_true_eq_false,
    Option.bind_assoc]
  refine Returns.then_rel hS hf hc.1 hc.2 (mem_of_some_eq hnS) (fun r1 => ?_)
  have hxp' : ¬ (some x = some p) := by simpa using hxp
  simp only [hxp', if_false, hpn, if_true, CAS, hnp, LINK_MAKER, NodeMem.set_prev, COPY,
    NodeMem.inc_ref, NodeMem.set_ref, Option.some_bind, Option.bind_assoc]
  refine Returns.then_rel hS hf hp1 hc.2 (mem_of_some_eq hxS) (fun r2 => ?_)
  simp only [Function.update_noteq hne, hpp, Bool.false_eq_true, if_false, Option.some_bind,
    REL_last]
  exact Returns.ret ⟨rfl, r2, rfl⟩

/-- With fuel `RemoveCrossReference(node)` returns at once when neither neighbour of the
node has a marked `prev` link. -/
theorem RemoveCrossReference_total (fuel : Nat) {h : NodeMem} {x p n : Nat} {b c : Bool}
    (hp : h.prev x = ⟨some p, b⟩) (hn : h.next x = ⟨some n, c⟩)
    (hpp : (h.prev p).d = false) (hnp : (h.prev n).d = false) :
    RemoveCrossReference (fuel + 1) h x = some h := by
  simp only [RemoveCrossReference, hp, hn, hpp, hnp, Bool.false_eq_true, if_false]

/-- With enough fuel a `deque_pop` returns on a deque whose first node `x` sits between
the head sentinel `p` and `n`: it returns 0, copies the payload of `x` out, marks both
links of `x` and makes `p` and `n` neighbours. -/
theorem deque_pop_total {S : List Nat} {fuel : Nat} {q : deq_t} {h : NodeMem}
    {out o1 : List Nat} {p x n : Nat}
    (hS : S.Nodup) (hc : Deque.Closed S h) (hpS : p ∈ S) (hxS : x ∈ S) (hnS : n ∈ S)
    (hf : S.length * UINT32_MOD + 2 ≤ fuel)
    (hhead : q.head = some p) (hxt : some x ≠ q.tail)
    (hpx : h.next p = ⟨some x, false⟩) (hxn : h.next x = ⟨some n, false⟩)
    (hxp : h.prev x = ⟨some p, false⟩) (hnx : h.prev n = ⟨some x, false⟩)
    (hnn : (h.next n).d = false) (hpp : (h.prev p).d = false)
    (d1 : p ≠ x) (d2 : p ≠ n) (d3 : x ≠ n)
    (hm : memcpy out (h.data x) q.val_bytes = some o1) :
    Returns (deque_pop (fuel + 2) (some q) (some out) h)
      (fun res => res.1 = ⟨0, none⟩ ∧ res.2.2 = some o1
        ∧ ∃ r, res.2.1
          = ⟨Function.update (Function.update h.prev x ⟨some p, true⟩) n ⟨some p, false⟩,
            Function.update (Function.update h.next x ⟨some n, true⟩) p ⟨some n, false⟩, r,
            h.data⟩) := by
  have hn1 := hc.2.update_some x true hnS
  have hp2 := hc.1.update_some x true hpS
  have hn2 := hn1.update_some p false hnS
  have hp3 := hp2.update_some n false hpS
  simp only [deque_pop, hhead, COPY, NodeMem.inc_ref, NodeMem.set_ref, Option.some_bind,
    deque_pop_loop, DEREF, hpx, Bool.false_eq_true, if_false, hxt, hxn, CAS, LINK_MAKER,
    if_true, NodeMem.set_next, Option.bind_assoc]
  have hpx2 : Function.update h.next x (⟨some n, true⟩ : Link) p = ⟨some x, false⟩ := by
    rw [Function.update_noteq d1]; exact hpx
  have hnn2 : (Function.update h.next x (⟨some n, true⟩ : Link) n).d = false := by
    rw [Function.update_noteq (Ne.symm d3)]; exact hnn
  refine Returns.andThen (HelpDelete_total (p := p) (n := n)
    (h := ⟨h.prev, Function.update h.next x ⟨some n, true⟩, _, h.data⟩) hS ⟨hc.1, hn1⟩ hxS hf
    hxp (Function.update_same _ _ _) hpx2 hnn2 d2) ?_
  rintro h2 ⟨r2, rfl⟩
  simp only [DEREF_D, Function.update_noteq (Ne.symm d1), Function.update_same,
    NodeMem.inc_ref, NodeMem.set_ref, Option.some_bind, Option.bind_assoc]
  have hnx2 : Function.update h.prev x (⟨some p, true⟩ : Link) n = ⟨some x, false⟩ := by
    rw [Function.update_noteq (Ne.symm d3)]; exact hnx
  have hpp2 : (Function.update h.prev x (⟨some p, true⟩ : Link) p).d = false := by
    rw [Function.update_noteq d1]; exact hpp
  refine Returns.andThen (HelpInsert_total (x := x)
    (h := ⟨Function.update h.prev x ⟨some p, true⟩,
      Function.update (Function.update h.next x ⟨some n, true⟩) p ⟨some n, false⟩, _,
      h.data⟩) hS ⟨hp2, hn2⟩ hpS hnS hf
    (Function.update_same _ _ _) hnx2 hpp2 (Ne.symm d1) d2) ?_
  rintro ⟨h4, prev1⟩ ⟨hres, r4, hh4⟩
  simp only at hres hh4
  subst hres; subst hh4
  dsimp only
  refine Returns.then_rel hS (by omega) hp3 hn2 (mem_of_some_eq hpS) (fun r5 => ?_)
  dsimp only
  refine Returns.then_rel hS (by omega) hp3 hn2 (mem_of_some_eq hnS) (fun r6 => ?_)
  simp only [hm, Option.some_bind]
  rw [RemoveCrossReference_total (fuel + 1) (p := p) (n := n) (b := true) (c := true)
      (h := ⟨Function.update (Function.update h.prev x ⟨some p, true⟩) n ⟨some p, false⟩,
        Function.update (Function.update h.next x ⟨some n, true⟩) p ⟨some n, false⟩, r6,
        h.data⟩)
      (by show Function.update (Function.update h.prev x _) n _ x = _
          rw [Function.update_noteq d3, Function.update_same])
      (by show Function.update (Function.update h.next x _) p _ x = _
          rw [Function.update_noteq (Ne.symm d1), Function.update_same])
      (by show (Function.update (Function.update h.prev x _) n _ p).d = false
          rw [Function.update_noteq d2, Function.update_noteq d1]; exact hpp)
      (by show (Function.update (Function.update h.prev x _) n _ n).d = false
          rw [Function.update_same])]
  simp only [Option.some_bind]
  refine Returns.then_rel hS (by omega) hp3 hn2 (mem_of_some_eq hxS) (fun r7 => ?_)
  exact Returns.ret ⟨rfl, rfl, r7, rfl⟩

/-- With enough fuel a `deque_pop` returns on a deque whose head sentinel is followed by
the tail sentinel: -1 with `ENOENT`, the buffer and the links untouched. -/
theorem deque_pop_empty_total {S : List Nat} {fuel : Nat} {q : deq_t} {h : NodeMem}
    {o : List Nat} {p t : Nat}
    (hS : S.Nodup) (hc : Deque.Closed S h) (hpS : p ∈ S) (htS : t ∈ S)
    (hf : S.length * UINT32_MOD + 2 ≤ fuel)
    (hhead : q.head = some p) (htail : q.tail = some t)
    (hpx : h.next p = ⟨some t, false⟩) :
    Returns (deque_pop (fuel + 2) (some q) (some o) h)
      (fun res => res.1 = ⟨-1, some errno_t.ENOENT⟩ ∧ res.2.2 = some o
        ∧ ∃ r, res.2.1 = ⟨h.prev, h.next, r, h.data⟩) := by
  simp only [deque_pop, hhead, htail, COPY, NodeMem.inc_ref, NodeMem.set_ref,
    Option.some_bind, deque_pop_loop, DEREF, hpx, Bool.false_eq_true, if_false, if_true,
    Option.bind_assoc]
  refine Returns.then_rel hS (by omega) hc.1 hc.2 (mem_of_some_eq htS) (fun r1 => ?_)
  dsimp only
  refine Returns.then_rel hS (by omega) hc.1 hc.2 (mem_of_some_eq hpS) (fun r2 => ?_)
  exact Returns.ret ⟨rfl, rfl, r2, rfl⟩

/-- With enough fuel a `deque_unshift` returns on a deque whose last node `x` sits
between `p` and the tail sentinel `n`. -/
theorem deque_unshift_total {S : List Nat} {fuel : Nat} {q : deq_t} {h : NodeMem}
    {out o1 : List Nat} {p x n : Nat}
    (hS : S.Nodup) (hc : Deque.Closed S h) (hpS : p ∈ S) (hxS : x ∈ S) (hnS : n ∈ S)
    (hf : S.length * UINT32_MOD + 2 ≤ fuel)
    (htail : q.tail = some n) (hxh : some x ≠ q.head)
    (hpx : h.next p = ⟨some x, false⟩) (hxn : h.next x = ⟨some n, false⟩)
    (hxp : h.prev x = ⟨some p, false⟩) (hnx : h.prev n = ⟨some x, false⟩)
    (hnn : (h.next n).d = false) (hpp : (h.prev p).d = false)
    (d1 : p ≠ x) (d2 : p ≠ n) (d3 : x ≠ n)
    (hm : memcpy out (h.data x) q.val_bytes = some o1) :
    Returns (deque_unshift (fuel + 2) (some q) (some out) h)
      (fun res => res.1 = ⟨0, none⟩ ∧ res.2.2 = some o1
        ∧ ∃ r, res.2.1
          = ⟨Function.update (Function.update h.prev x ⟨some p, true⟩) n ⟨some p, false⟩,
            Function.update (Function.update h.next x ⟨some n, true⟩) p ⟨some n, false⟩, r,
            h.data⟩) := by
  have hn1 := hc.2.update_some x true hnS
  have hp2 := hc.1.update_some x true hpS
  have hn2 := hn1.update_some p false hnS
  have hp3 := hp2.update_some n false hpS
  simp only [deque_unshift, htail, COPY, NodeMem.inc_ref, NodeMem.set_ref, Option.some_bind,
    deque_unshift_loop, DEREF, hnx, Bool.false_eq_true, if_false, hxh, hxn, CAS, LINK_MAKER,
    if_true, NodeMem.set_next, Option.bind_assoc, ne_eq, not_true_eq_false, or_self]
  have hpx2 : Function.update h.next x (⟨some n, true⟩ : Link) p = ⟨some x, false⟩ := by
    rw [Function.update_noteq d1]; exact hpx
  have hnn2 : (Function.update h.next x (⟨some n, true⟩ : Link) n).d = false := by
    rw [Function.update_noteq (Ne.symm d3)]; exact hnn
  refine Returns.andThen (HelpDelete_total (p := p) (n := n)
    (h := ⟨h.prev, Function.update h.next x ⟨some n, true⟩, _, h.data⟩) hS ⟨hc.1, hn1⟩ hxS hf
    hxp (Function.update_same _ _ _) hpx2 hnn2 d2) ?_
  rintro h2 ⟨r2, rfl⟩
  simp only [DEREF_D, Function.update_same,
    NodeMem.inc_ref, NodeMem.set_ref, Option.some_bind, Option.bind_assoc]
  have hnx2 : Function.update h.prev x (⟨some p, true⟩ : Link) n = ⟨some x, false⟩ := by
    rw [Function.update_noteq (Ne.symm d3)]; exact hnx
  have hpp2 : (Function.update h.prev x (⟨some p, true⟩ : Link) p).d = false := by
    rw [Function.update_noteq d1]; exact hpp
  refine Returns.andThen (HelpInsert_total (x := x)
    (h := ⟨Function.update h.prev x ⟨some p, true⟩,
      Function.update (Function.update h.next x ⟨some n, true⟩) p ⟨some n, false⟩, _,
      h.data⟩) hS ⟨hp2, hn2⟩ hpS hnS hf
    (Function.update_same _ _ _) hnx2 hpp2 (Ne.symm d1) d2) ?_
  rintro ⟨h4, prev1⟩ ⟨hres, r4, hh4⟩
  simp only at hres hh4
  subst hres; subst hh4
  dsimp only
  refine Returns.then_rel hS (by omega) hp3 hn2 (mem_of_some_eq hpS) (fun r5 => ?_)
  dsimp only
  refine Returns.then_rel hS (by omega) hp3 hn2 (mem_of_some_eq hnS) (fun r6 => ?_)
  simp only [hm, Option.some_bind]
  rw [RemoveCrossReference_total (fuel + 1) (p := p) (n := n) (b := true) (c := true)
      (h := ⟨Function.update (Function.update h.prev x ⟨some p, true⟩) n ⟨some p, false⟩,
        Function.update (Function.update h.next x ⟨some n, true⟩) p ⟨some n, false⟩, r6,
        h.data⟩)
      (by show Function.update (Function.update h.prev x _) n _ x = _
          rw [Function.update_noteq d3, Function.update_same])
      (by show Function.update (Function.update h.next x _) p _ x = _
          rw [Function.update_noteq (Ne.symm d1), Function.update_same])
      (by show (Function.update (Function.update h.prev x _) n _ p).d = false
          rw [Function.update_noteq d2, Function.update_noteq d1]; exact hpp)
      (by show (Function.update (Function.update h.prev x _) n _ n).d = false
          rw [Function.update_same])]
  simp only [Option.some_bind]
  refine Returns.then_rel hS (by omega) hp3 hn2 (mem_of_some_eq hxS) (fun r7 => ?_)
  exact Returns.ret ⟨rfl, rfl, r7, rfl⟩

/-- With enough fuel a `deque_unshift` returns on a deque whose tail sentinel is preceded
by the head sentinel: -1 with `ENOENT`, the buffer and the links untouched. -/
theorem deque_unshift_empty_total {S : List Nat} {fuel : Nat} {q : deq_t} {h : NodeMem}
    {o : List Nat} {p t : Nat}
    (hS : S.Nodup) (hc : Deque.Closed S h) (hpS : p ∈ S) (htS : t ∈ S)
    (hf : S.length * UINT32_MOD + 2 ≤ fuel)
    (hhead : q.head = some p) (htail : q.tail = some t)
    (hpx : h.next p = ⟨some t, false⟩) (htp : h.prev t = ⟨some p, false⟩) :
    Returns (deque_unshift (fuel + 2) (some q) (some o) h)
      (fun res => res.1 = ⟨-1, some errno_t.ENOENT⟩ ∧ res.2.2 = some o
        ∧ ∃ r, res.2.1 = ⟨h.prev, h.next, r, h.data⟩) := by
  simp only [deque_unshift, hhead, htail, COPY, NodeMem.inc_ref, NodeMem.set_ref,
    Option.some_bind, deque_unshift_loop, DEREF, hpx, htp, Bool.false_eq_true, if_false,
    if_true, Option.bind_assoc, ne_eq, not_true_eq_false, or_self]
  refine Returns.then_rel hS (by omega) hc.1 hc.2 (mem_of_some_eq hpS) (fun r1 => ?_)
  dsimp only
  refine Returns.then_rel hS (by omega) hc.1 hc.2 (mem_of_some_eq htS) (fun r2 => ?_)
  exact Returns.ret ⟨rfl, rfl, r2, rfl⟩

/-- Initialising the links of a new node keeps the links inside the set extended by the
node. -/
theorem Deque.LinksIn.cons_update {S : List Nat} {f : Nat → Link} (hf : Deque.LinksIn S f)
    (a : Nat) {x : Option Nat} (d : Bool) (hx : ∀ b, x = some b → b ∈ a :: S) :
    Deque.LinksIn (a :: S) (Function.update f a ⟨x, d⟩) := by
  intro c hc e he
  by_cases hca : c = a
  · subst hca
    rw [Function.update_same] at he
    exact hx e he
  · rw [Function.update_noteq hca] at he
    rcases List.mem_cons.1 hc with h1 | h1
    · exact absurd h1 hca
    · exact List.mem_cons_of_mem _ (hf c h1 e he)

/-- `CreateNode` on a pool that hands out the fragment `node`, large enough for a node
with a payload of `vb` bytes. -/
theorem CreateNode_total {fuel : Nat} {pool pool1 : memory_pool} {w : Nat} {frags : FragMem}
    {h : NodeMem} {v : List Nat} {node : Nat} {e : Option errno_t}
    (ha : mempool_alloc fuel (some pool) frags = some (some node, e, some pool1))
    (hsz : sizeof_deque_node ≤ internal_mempool_aligned_data_bytes pool1)
    (hv : w ≤ v.length)
    (hsz2 : offsetof_data + w ≤ internal_mempool_aligned_data_bytes pool1) :
    CreateNode fuel pool w frags h v
      = some (some node, e, pool1,
          ⟨Function.update h.prev node ⟨none, false⟩, Function.update h.next node ⟨none, false⟩,
            Function.update h.ref node 0, Function.update h.data node (v.take w)⟩) := by
  have hnl : ¬ internal_mempool_aligned_data_bytes pool1 < sizeof_deque_node := by omega
  simp only [CreateNode, MALLOC_NODE, ha, hnl, if_false, hv, hsz2, and_self, if_true,
    NodeMem.set_ref, NodeMem.set_prev, NodeMem.set_next, NodeMem.set_data]

/-- With enough fuel a `deque_push` that gets the fresh node `node` from the pool returns
0 with the node linked in between the head sentinel `p` and its successor `nx`. -/
theorem deque_push_total {S : List Nat} {fuel : Nat} {q : deq_t} {frags : FragMem}
    {h : NodeMem} {v : List Nat} {p nx node : Nat} {e : Option errno_t} {pool1 : memory_pool}
    (hS : (node :: S).Nodup) (hc : Deque.Closed S h) (hpS : p ∈ S) (hxS : nx ∈ S)
    (hf : (S.length + 1) * UINT32_MOD + 2 ≤ fuel)
    (hhead : q.head = some p)
    (hpn : h.next p = ⟨some nx, false⟩) (hnp : h.prev nx = ⟨some p, false⟩)
    (hcreate : CreateNode (fuel + 2) q.pool q.val_bytes frags h v
      = some (some node, e, pool1,
          ⟨Function.update h.prev node ⟨none, false⟩, Function.update h.next node ⟨none, false⟩,
            Function.update h.ref node 0, Function.update h.data node (v.take q.val_bytes)⟩)) :
    Returns (deque_push (fuel + 2) (some q) (some v) frags h)
      (fun res => res.1 = ⟨0, none⟩ ∧ res.2.1 = some { q with pool := pool1 }
        ∧ ∃ r, res.2.2
          = ⟨Function.update (Function.update h.prev node ⟨some p, false⟩) nx
              ⟨some node, false⟩,
            Function.update (Function.update h.next node ⟨some nx, false⟩) p ⟨some node, false⟩,
            r, Function.update h.data node (v.take q.val_bytes)⟩) := by
  have hfresh : node ∉ S := (List.nodup_cons.1 hS).1
  have hnp' : node ≠ p := fun e => hfresh (e ▸ hpS)
  have hnnx : node ≠ nx := fun e => hfresh (e ▸ hxS)
  have hpS' : p ∈ node :: S := List.mem_cons_of_mem _ hpS
  have hxS' : nx ∈ node :: S := List.mem_cons_of_mem _ hxS
  have hnS' : node ∈ node :: S := List.mem_cons_self _ _
  have hp1 : Deque.LinksIn (node :: S) (Function.update h.prev node ⟨some p, false⟩) :=
    hc.1.cons_update node false (mem_of_some_eq hpS')
  have hn1 : Deque.LinksIn (node :: S) (Function.update h.next node ⟨some nx, false⟩) :=
    hc.2.cons_update node false (mem_of_some_eq hxS')
  have hn2 := hn1.update_some p false hnS'
  unfold deque_push
  simp only [hcreate]
  simp only [hhead, COPY, NodeMem.inc_ref, NodeMem.set_ref, Option.some_bind, DEREF,
    Function.update_noteq (Ne.symm hnp'), hpn, Bool.false_eq_true, if_false,
    deque_push_loop, ne_eq, not_true_eq_false, or_self, NodeMem.set_prev,
    NodeMem.set_next, LINK_MAKER, CAS, if_true, Function.update_idem,
    Option.bind_assoc]
  refine Returns.andThen (deque_push_common_total (p := some p)
    (h := ⟨Function.update h.prev node ⟨some p, false⟩,
      Function.update (Function.update h.next node ⟨some nx, false⟩) p ⟨some node, false⟩,
      _, Function.update h.data node (v.take q.val_bytes)⟩)
    hS ⟨hp1, hn2⟩ hnS' hxS' (by simp only [List.length_cons]; omega)
    (by show Function.update h.prev node _ nx = _
        rw [Function.update_noteq (Ne.symm hnnx)]; exact hnp)
    (by show Function.update (Function.update h.next node _) p _ node = _
        rw [Function.update_noteq hnp', Function.update_same])
    (by show (Function.update h.prev node _ node).d = false
        rw [Function.update_same])
    hnnx) ?_
  rintro h5 ⟨r5, rfl⟩
  exact Returns.ret ⟨rfl, rfl, r5, rfl⟩

/-- With enough fuel a `deque_shift` that gets the fresh node `node` from the pool
returns 0 with the node linked in between `p` and the tail sentinel `nx`. -/
theorem deque_shift_total {S : List Nat} {fuel : Nat} {q : deq_t} {frags : FragMem}
    {h : NodeMem} {v : List Nat} {p nx node : Nat} {e : Option errno_t} {pool1 : memory_pool}
    (hS : (node :: S).Nodup) (hc : Deque.Closed S h) (hpS : p ∈ S) (hxS : nx ∈ S)
    (hf : (S.length + 1) * UINT32_MOD + 2 ≤ fuel)
    (htail : q.tail = some nx)
    (hpn : h.next p = ⟨some nx, false⟩) (hnp : h.prev nx = ⟨some p, false⟩)
    (hcreate : CreateNode (fuel + 2) q.pool q.val_bytes frags h v
      = some (some node, e, pool1,
          ⟨Function.update h.prev node ⟨none, false⟩, Function.update h.next node ⟨none, false⟩,
            Function.update h.ref node 0, Function.update h.data node (v.take q.val_bytes)⟩)) :
    Returns (deque_shift (fuel + 2) (some q) (some v) frags h)
      (fun res => res.1 = ⟨0, none⟩ ∧ res.2.1 = some { q with pool := pool1 }
        ∧ ∃ r, res.2.2
          = ⟨Function.update (Function.update h.prev node ⟨some p, false⟩) nx
              ⟨some node, false⟩,
            Function.update (Function.update h.next node ⟨some nx, false⟩) p ⟨some node, false⟩,
            r, Function.update h.data node (v.take q.val_bytes)⟩) := by
  have hfresh : node ∉ S := (List.nodup_cons.1 hS).1
  have hnp' : node ≠ p := fun e => hfresh (e ▸ hpS)
  have hnnx : node ≠ nx := fun e => hfresh (e ▸ hxS)
  have hpS' : p ∈ node :: S := List.mem_cons_of_mem _ hpS
  have hxS' : nx ∈ node :: S := List.mem_cons_of_mem _ hxS
  have hnS' : node ∈ node :: S := List.mem_cons_self _ _
  have hp1 : Deque.LinksIn (node :: S) (Function.update h.prev node ⟨some p, false⟩) :=
    hc.1.cons_update node false (mem_of_some_eq hpS')
  have hn1 : Deque.LinksIn (node :: S) (Function.update h.next node ⟨some nx, false⟩) :=
    hc.2.cons_update node false (mem_of_some_eq hxS')
  have hn2 := hn1.update_some p false hnS'
  unfold deque_shift
  simp only [hcreate]
  simp only [htail, COPY, NodeMem.inc_ref, NodeMem.set_ref, Option.some_bind, DEREF,
    Function.update_noteq (Ne.symm hnnx), Function.update_noteq (Ne.symm hnp'), hnp, hpn,
    Bool.false_eq_true, if_false,
    deque_shift_loop, ne_eq, not_true_eq_false, or_self, NodeMem.set_prev,
    NodeMem.set_next, LINK_MAKER, CAS, if_true, Function.update_idem,
    Option.bind_assoc]
  refine Returns.andThen (deque_push_common_total (p := some p)
    (h := ⟨Function.update h.prev node ⟨some p, false⟩,
      Function.update (Function.update h.next node ⟨some nx, false⟩) p ⟨some node, false⟩,
      _, Function.update h.data node (v.take q.val_bytes)⟩)
    hS ⟨hp1, hn2⟩ hnS' hxS' (by simp only [List.length_cons]; omega)
    (by show Function.update h.prev node _ nx = _
        rw [Function.update_noteq (Ne.symm hnnx)]; exact hnp)
    (by show Function.update (Function.update h.next node _) p _ node = _
        rw [Function.update_noteq hnp', Function.update_same])
    (by show (Function.update h.prev node _ node).d = false
        rw [Function.update_same])
    hnnx) ?_
  rintro h5 ⟨r5, rfl⟩
  exact Returns.ret ⟨rfl, rfl, r5, rfl⟩

/-! ### Deque: representation invariant -/

/-- Outcome of a `mempool_alloc` that returned, under the invariant: `NULL` with the pool
unchanged, or a fragment that was not handed out before. -/
theorem mempool_alloc_fresh {N : Nat} {self self1 : memory_pool} {mem : FragMem}
    {l out : List Nat} {fuel : Nat} {p : Option Nat} {e : Option errno_t}
    (hinv : PoolInv N self mem l out)
    (h : mempool_alloc fuel (some self) mem = some (p, e, some self1)) :
    (p = none ∧ self1 = self)
    ∨ ∃ a l1, p = some a ∧ a ∉ out ∧ PoolInv N self1 mem l1 (a :: out)
        ∧ self1.capacity = self.capacity ∧ self1.data_bytes = self.data_bytes := by
  cases fuel with
  | zero => simp [mempool_alloc, internal_mempool_pick, internal_mempool_pick_loop] at h
  | succ fuel =>
    obtain ⟨h1, h2⟩ := internal_mempool_pick_inv fuel hinv
    cases hl : l with
    | nil => exact absurd hl hinv.nonempty
    | cons a rest =>
      cases hr : rest with
      | nil =>
        subst hr
        left
        rw [mempool_alloc, h1 a hl] at h
        simp only [Option.some.injEq, Prod.mk.injEq] at h
        exact ⟨h.1.symm, h.2.2.symm⟩
      | cons b rest2 =>
        subst hr
        right
        obtain ⟨s1, hpick, hinv1, _, hcap, hdb, _⟩ := h2 a b rest2 hl
        rw [mempool_alloc, hpick] at h
        simp only [Option.some.injEq, Prod.mk.injEq] at h
        obtain ⟨hp, _, hs⟩ := h
        subst hs
        refine ⟨a, _, hp.symm, ?_, hinv1, hcap, hdb⟩
        have hnd := hinv1.nodup
        rw [List.nodup_append] at hnd
        exact (List.nodup_cons.1 hnd.2.1).1

/-- A completed `deque_push` keeps the invariant; when it returns 0 the node it took from
the pool, holding the first `val_bytes` bytes of the value, is the new first node. -/
theorem deque_push_inv {N : Nat} {q : deq_t} {frags : FragMem} {h h1 : NodeMem} {hd tl : Nat}
    {nodes : List (Nat × List Nat)} {outp : List Nat} {fuel : Nat} {v : Option (List Nat)}
    {st : status} {q1 : Option deq_t}
    (hinv : DequeInv N q frags h hd tl nodes outp)
    (hrun : deque_push fuel (some q) v frags h = some (st, q1, h1)) :
    ∃ q2 nodes1 outp1, q1 = some q2 ∧ DequeInv N q2 frags h1 hd tl nodes1 outp1
      ∧ q2.val_bytes = q.val_bytes
      ∧ nodes1.map Prod.snd = (if st.ret = 0 then (v.getD []).take q.val_bytes :: nodes.map Prod.snd
          else nodes.map Prod.snd)
      ∧ (∀ a ∈ outp, a ∈ outp1)
      ∧ (∀ a, a ∉ outp1 → h1.prev a = h.prev a ∧ h1.next a = h.next a)
      ∧ (Deque.Closed outp h → Deque.Closed outp1 h1)
      ∧ outp1.length = (if st.ret = 0 then outp.length + 1 else outp.length) := by
  cases v with
  | none =>
    simp only [deque_push, Option.some.injEq, Prod.mk.injEq] at hrun
    obtain ⟨rfl, rfl, rfl⟩ := hrun
    exact ⟨q, nodes, outp, rfl, hinv, rfl, by simp, fun _ ha => ha, fun _ _ => ⟨rfl, rfl⟩,
      fun hcl => hcl, by simp⟩
  | some v =>
    obtain ⟨nx, B, hB⟩ : ∃ nx B, nodes.map Prod.fst ++ [tl] = nx :: B := by
      cases hl : nodes.map Prod.fst ++ [tl] with
      | nil => simp at hl
      | cons a b => exact ⟨a, b, rfl⟩
    have hlinked := hinv.linked
    have hnd := hinv.nodup
    have hheld := hinv.held
    rw [List.cons_append, hB] at hlinked hnd hheld
    have hadj : Deque.adj h hd nx := (List.chain'_cons.1 hlinked).1
    obtain ⟨lp, hpool⟩ := hinv.pool
    have hfresh : ∀ node e pool1, mempool_alloc fuel (some q.pool) frags
        = some (some node, e, some pool1) → node ≠ hd ∧ node ≠ nx := by
      intro node e pool1 ha
      rcases mempool_alloc_fresh hpool ha with ⟨hn, _⟩ | ⟨a, l1, hp, hout, _⟩
      · simp at hn
      · simp only [Option.some.injEq] at hp
        subst hp
        constructor
        · rintro rfl; exact hout (hheld _ (by simp))
        · rintro rfl; exact hout (hheld _ (by simp))
    rcases deque_push_links hinv.head hadj.1 hadj.2 hfresh hrun with
      ⟨e, pool1, halloc, hst, hq1, hh1⟩ | ⟨node, e, pool1, r, halloc, hst, hq1, hvb, hh1⟩
    · rcases mempool_alloc_fresh hpool halloc with ⟨_, hs⟩ | ⟨a, l1, hp, _⟩
      · subst hs; subst hh1; subst hst
        refine ⟨q, nodes, outp, hq1, hinv, rfl, ?_, fun _ ha => ha, fun _ _ => ⟨rfl, rfl⟩,
          fun hcl => hcl, ?_⟩
        · simp
        · simp
      · simp at hp
    · rcases mempool_alloc_fresh hpool halloc with ⟨hp, _⟩ | ⟨a, l1, hp, hout, hpool1, hcap1, _⟩
      · simp at hp
      · simp only [Option.some.injEq] at hp
        subst hp
        have hnode : node ∉ [] ++ hd :: nx :: B := fun hm => hout (hheld _ hm)
        have hnode' : node ∉ hd :: nx :: B := hnode
        simp only [List.mem_cons, not_or] at hnode'
        obtain ⟨hnhd, hnnx, hnB⟩ := hnode'
        have hhdnx : hd ≠ nx := (List.nodup_cons.1 hnd).1 ∘ fun e => by rw [e]; simp
        have htlmem : tl ∈ nx :: B := by rw [← hB]; simp
        have hhdtl : hd ≠ tl := by
          rintro rfl; exact (List.nodup_cons.1 hnd).1 htlmem
        have hntl : node ≠ tl := by
          rintro rfl; exact hnode (by simp [htlmem] )
        refine ⟨{ q with pool := pool1 }, (node, v.take q.val_bytes) :: nodes, node :: outp,
          hq1, ?_, rfl, ?_, fun a ha => List.mem_cons_of_mem _ ha, ?_, ?_, ?_⟩
        · subst hh1
          constructor
          · exact hinv.head
          · exact hinv.tail
          · show List.Chain' _ (hd :: node :: (nodes.map Prod.fst ++ [tl]))
            rw [hB]
            exact @Deque.chain_insert h [] B hd nx node r _ hlinked hnd hnode
          · show (hd :: node :: (nodes.map Prod.fst ++ [tl])).Nodup
            rw [hB]
            refine List.nodup_cons.2 ⟨?_, List.nodup_cons.2 ⟨?_, (List.nodup_cons.1 hnd).2⟩⟩
            · intro hm
              rcases List.mem_cons.1 hm with hm | hm
              · exact hnhd hm.symm
              · exact (List.nodup_cons.1 hnd).1 hm
            · intro hm
              exact hnode (List.mem_cons_of_mem _ hm)
          · intro x hx
            rcases List.mem_cons.1 hx with rfl | hx
            · show Function.update h.data node _ node = _
              rw [Function.update_same]
            · have hxne : x.1 ≠ node := by
                intro hxe
                apply hnode
                rw [← hB, ← hxe]
                simp only [List.nil_append, List.mem_cons, List.mem_append, List.mem_map]
                exact Or.inr (Or.inl ⟨x, hx, rfl⟩)
              show Function.update h.data node _ x.1 = _
              rw [Function.update_noteq hxne]
              exact hinv.data x hx
          · intro x hx
            rcases List.mem_cons.1 hx with rfl | hx
            · show (v.take q.val_bytes).length = q.val_bytes
              rw [List.length_take]; exact min_eq_left hvb
            · exact hinv.vals x hx
          · show Function.update (Function.update h.prev node _) nx _ hd = _
            rw [Function.update_noteq hhdnx, Function.update_noteq (Ne.symm hnhd)]
            exact hinv.head_prev
          · show Function.update (Function.update h.next node _) hd _ tl = _
            rw [Function.update_noteq (Ne.symm hhdtl), Function.update_noteq (Ne.symm hntl)]
            exact hinv.tail_next
          · exact ⟨l1, hpool1⟩
          · intro a ha
            have ha' : a ∈ hd :: node :: (nodes.map Prod.fst ++ [tl]) := ha
            rw [hB] at ha'
            simp only [List.mem_cons] at ha' ⊢
            rcases ha' with rfl | rfl | ha'
            · exact Or.inr (hheld _ (by simp))
            · exact Or.inl rfl
            · exact Or.inr (hheld _ (by simp only [List.mem_cons]; tauto))
          · exact hcap1.trans hinv.capacity
        · subst hst
          simp
        · subst hh1
          intro a ha
          have ha1 : a ≠ node := fun e => ha (by rw [e]; simp)
          have ha2 : a ≠ nx := fun e => ha (List.mem_cons_of_mem _ (hheld _ (by rw [e]; simp)))
          have ha3 : a ≠ hd := fun e => ha (List.mem_cons_of_mem _ (hheld _ (by rw [e]; simp)))
          constructor
          · show Function.update (Function.update h.prev node _) nx _ a = _
            rw [Function.update_noteq ha2, Function.update_noteq ha1]
          · show Function.update (Function.update h.next node _) hd _ a = _
            rw [Function.update_noteq ha3, Function.update_noteq ha1]
        · subst hh1
          intro hcl
          have m1 : hd ∈ node :: outp := List.mem_cons_of_mem _ (hheld _ (by simp))
          have m2 : nx ∈ node :: outp := List.mem_cons_of_mem _ (hheld _ (by simp))
          have m3 : node ∈ node :: outp := List.mem_cons_self _ _
          exact ⟨(hcl.1.cons_update node false (mem_of_some_eq m1)).update_some nx false m3,
            (hcl.2.cons_update node false (mem_of_some_eq m2)).update_some hd false m3⟩
        · subst hst
          simp

/-- A completed `deque_shift` keeps the invariant; when it returns 0 the node it took from
the pool, holding the first `val_bytes` bytes of the value, is the new last node. -/
theorem deque_shift_inv {N : Nat} {q : deq_t} {frags : FragMem} {h h1 : NodeMem} {hd tl : Nat}
    {nodes : List (Nat × List Nat)} {outp : List Nat} {fuel : Nat} {v : Option (List Nat)}
    {st : status} {q1 : Option deq_t}
    (hinv : DequeInv N q frags h hd tl nodes outp)
    (hrun : deque_shift fuel (some q) v frags h = some (st, q1, h1)) :
    ∃ q2 nodes1 outp1, q1 = some q2 ∧ DequeInv N q2 frags h1 hd tl nodes1 outp1
      ∧ q2.val_bytes = q.val_bytes
      ∧ nodes1.map Prod.snd
          = (if st.ret = 0 then nodes.map Prod.snd ++ [(v.getD []).take q.val_bytes]
            else nodes.map Prod.snd)
      ∧ (∀ a ∈ outp, a ∈ outp1)
      ∧ (∀ a, a ∉ outp1 → h1.prev a = h.prev a ∧ h1.next a = h.next a)
      ∧ (Deque.Closed outp h → Deque.Closed outp1 h1)
      ∧ outp1.length = (if st.ret = 0 then outp.length + 1 else outp.length) := by
  cases v with
  | none =>
    simp only [deque_shift, Option.some.injEq, Prod.mk.injEq] at hrun
    obtain ⟨rfl, rfl, rfl⟩ := hrun
    exact ⟨q, nodes, outp, rfl, hinv, rfl, by simp, fun _ ha => ha, fun _ _ => ⟨rfl, rfl⟩,
      fun hcl => hcl, by simp⟩
  | some v =>
    obtain ⟨A, p, hA⟩ : ∃ A p, hd :: nodes.map Prod.fst = A ++ [p] := by
      rcases List.eq_nil_or_concat (hd :: nodes.map Prod.fst) with hl | ⟨L, b, hl⟩
      · simp at hl
      · exact ⟨L, b, by rw [hl, List.concat_eq_append]⟩
    have hfull : hd :: nodes.map Prod.fst ++ [tl] = A ++ p :: tl :: [] := by
      rw [hA, List.append_assoc]; rfl
    have hlinked := hinv.linked
    have hnd := hinv.nodup
    have hheld := hinv.held
    rw [hfull] at hlinked hnd hheld
    have hadj : Deque.adj h p tl :=
      (List.chain'_cons.1 (List.chain'_split.1 hlinked).2).1
    have hpmem : p ∈ hd :: nodes.map Prod.fst := by rw [hA]; simp
    obtain ⟨lp, hpool⟩ := hinv.pool
    have hfresh : ∀ node e pool1, mempool_alloc fuel (some q.pool) frags
        = some (some node, e, some pool1) → node ≠ p ∧ node ≠ tl := by
      intro node e pool1 ha
      rcases mempool_alloc_fresh hpool ha with ⟨hn, _⟩ | ⟨a, l1, hp, hout, _⟩
      · simp at hn
      · simp only [Option.some.injEq] at hp
        subst hp
        constructor
        · rintro rfl; exact hout (hheld _ (by simp))
        · rintro rfl; exact hout (hheld _ (by simp))
    rcases deque_shift_links hinv.tail hadj.1 hadj.2 hfresh hrun with
      ⟨e, pool1, halloc, hst, hq1, hh1⟩ | ⟨node, e, pool1, r, halloc, hst, hq1, hvb, hh1⟩
    · rcases mempool_alloc_fresh hpool halloc with ⟨_, hs⟩ | ⟨a, l1, hp, _⟩
      · subst hs; subst hh1; subst hst
        refine ⟨q, nodes, outp, hq1, hinv, rfl, ?_, fun _ ha => ha, fun _ _ => ⟨rfl, rfl⟩,
          fun hcl => hcl, ?_⟩
        · simp
        · simp
      · simp at hp
    · rcases mempool_alloc_fresh hpool halloc with ⟨hp, _⟩ | ⟨a, l1, hp, hout, hpool1, hcap1, _⟩
      · simp at hp
      · simp only [Option.some.injEq] at hp
        subst hp
        have hnode : node ∉ A ++ p :: tl :: [] := fun hm => hout (hheld _ hm)
        have hnode0 : node ∉ hd :: nodes.map Prod.fst ++ [tl] := by rw [hfull]; exact hnode
        have hnd0 := hinv.nodup
        have hnhd : node ≠ hd := by rintro rfl; exact hnode0 (by simp)
        have hntl : node ≠ tl := by rintro rfl; exact hnode0 (by simp)
        have hhdtl : hd ≠ tl := by
          rintro rfl
          have := (List.nodup_cons.1 hnd0).1
          exact this (by simp)
        have hptl : p ≠ tl := by
          rintro rfl
          rw [List.nodup_append] at hnd0
          exact hnd0.2.2 hpmem (by simp)
        have hfull1 : hd :: (nodes ++ [(node, v.take q.val_bytes)]).map Prod.fst ++ [tl]
            = A ++ p :: node :: tl :: [] := by
          rw [List.map_append, ← List.cons_append, hA]
          simp
        refine ⟨{ q with pool := pool1 }, nodes ++ [(node, v.take q.val_bytes)], node :: outp,
          hq1, ?_, rfl, ?_, fun a ha => List.mem_cons_of_mem _ ha, ?_, ?_, ?_⟩
        · subst hh1
          constructor
          · exact hinv.head
          · exact hinv.tail
          · rw [hfull1]
            exact @Deque.chain_insert h A [] p tl node r _ hlinked hnd hnode
          · have hperm : (hd :: (nodes ++ [(node, v.take q.val_bytes)]).map Prod.fst ++ [tl]).Perm
                (node :: (hd :: nodes.map Prod.fst ++ [tl])) := by
              rw [List.map_append, ← List.cons_append]
              simp only [List.map_cons, List.map_nil, List.append_assoc, List.singleton_append]
              exact List.perm_middle
            rw [hperm.nodup_iff]
            exact List.nodup_cons.2 ⟨hnode0, hnd0⟩
          · intro x hx
            rcases List.mem_append.1 hx with hx | hx
            · have hxne : x.1 ≠ node := by
                intro hxe
                apply hnode0
                rw [← hxe]
                simp only [List.cons_append, List.mem_cons, List.mem_append, List.mem_map]
                exact Or.inr (Or.inl ⟨x, hx, rfl⟩)
              show Function.update h.data node _ x.1 = _
              rw [Function.update_noteq hxne]
              exact hinv.data x hx
            · simp only [List.mem_singleton] at hx
              subst hx
              show Function.update h.data node _ node = _
              rw [Function.update_same]
          · intro x hx
            rcases List.mem_append.1 hx with hx | hx
            · exact hinv.vals x hx
            · simp only [List.mem_singleton] at hx
              subst hx
              show (v.take q.val_bytes).length = q.val_bytes
              rw [List.length_take]; exact min_eq_left hvb
          · show Function.update (Function.update h.prev node _) tl _ hd = _
            rw [Function.update_noteq hhdtl, Function.update_noteq (Ne.symm hnhd)]
            exact hinv.head_prev
          · show Function.update (Function.update h.next node _) p _ tl = _
            rw [Function.update_noteq (Ne.symm hptl), Function.update_noteq (Ne.symm hntl)]
            exact hinv.tail_next
          · exact ⟨l1, hpool1⟩
          · intro a ha
            rw [hfull1] at ha
            simp only [List.mem_append, List.mem_cons, List.mem_singleton, List.not_mem_nil,
              or_false] at ha
            simp only [List.mem_cons]
            rcases ha with ha | rfl | rfl | rfl
            · exact Or.inr (hheld _ (by simp [ha]))
            · exact Or.inr (hheld _ (by simp))
            · exact Or.inl rfl
            · exact Or.inr (hheld _ (by simp))
          · exact hcap1.trans hinv.capacity
        · subst hst
          simp
        · subst hh1
          intro a ha
          have ha1 : a ≠ node := fun e => ha (by rw [e]; simp)
          have ha2 : a ≠ tl := fun e => ha (List.mem_cons_of_mem _ (hheld _ (by rw [e]; simp)))
          have ha3 : a ≠ p := fun e => ha (List.mem_cons_of_mem _ (hheld _ (by rw [e]; simp)))
          constructor
          · show Function.update (Function.update h.prev node _) tl _ a = _
            rw [Function.update_noteq ha2, Function.update_noteq ha1]
          · show Function.update (Function.update h.next node _) p _ a = _
            rw [Function.update_noteq ha3, Function.update_noteq ha1]
        · subst hh1
          intro hcl
          have m1 : p ∈ node :: outp := List.mem_cons_of_mem _ (hheld _ (by simp))
          have m2 : tl ∈ node :: outp := List.mem_cons_of_mem _ (hheld _ (by simp))
          have m3 : node ∈ node :: outp := List.mem_cons_self _ _
          exact ⟨(hcl.1.cons_update node false (mem_of_some_eq m1)).update_some tl false m3,
            (hcl.2.cons_update node false (mem_of_some_eq m2)).update_some p false m3⟩
        · subst hst
          simp

/-- A completed `deque_pop` keeps the invariant; it returns 0 exactly when a node follows
the head sentinel, and then unlinks that node and copies its payload out. -/
theorem deque_pop_inv {N : Nat} {q : deq_t} {frags : FragMem} {h h1 : NodeMem} {hd tl : Nat}
    {nodes : List (Nat × List Nat)} {outp : List Nat} {fuel : Nat} {out : Option (List Nat)}
    {st : status} {out1 : Option (List Nat)}
    (hinv : DequeInv N q frags h hd tl nodes outp)
    (hrun : deque_pop fuel (some q) out h = some (st, h1, out1)) :
    ∃ nodes1, DequeInv N q frags h1 hd tl nodes1 outp
      ∧ nodes1.map Prod.snd
          = (if st.ret = 0 then (nodes.map Prod.snd).tail else nodes.map Prod.snd)
      ∧ (st.ret = 0 → ∃ x o, nodes = x :: nodes1 ∧ out = some o
          ∧ out1 = memcpy o x.2 q.val_bytes)
      ∧ (∀ a, a ∉ outp → h1.prev a = h.prev a ∧ h1.next a = h.next a)
      ∧ (Deque.Closed outp h → Deque.Closed outp h1) := by
  cases out with
  | none =>
    simp only [deque_pop, Option.some.injEq, Prod.mk.injEq] at hrun
    obtain ⟨rfl, rfl, rfl⟩ := hrun
    exact ⟨nodes, hinv, by simp, by simp, fun _ _ => ⟨rfl, rfl⟩, fun hcl => hcl⟩
  | some out =>
    cases hn : nodes with
    | nil =>
      subst hn
      have hlinked := hinv.linked
      have hadj : Deque.adj h hd tl := (List.chain'_cons.1 hlinked).1
      obtain ⟨hst, _, r, hh1⟩ := deque_pop_empty_links hinv.head hinv.tail hadj.1 hrun
      subst hst; subst hh1
      refine ⟨[], ?_, by simp, by simp, fun _ _ => ⟨rfl, rfl⟩, fun hcl => hcl⟩
      exact ⟨hinv.head, hinv.tail, hinv.linked, hinv.nodup, hinv.data, hinv.vals,
        hinv.head_prev, hinv.tail_next, hinv.pool, hinv.held, hinv.capacity⟩
    | cons x rest =>
      subst hn
      obtain ⟨n, B, hB⟩ : ∃ n B, rest.map Prod.fst ++ [tl] = n :: B := by
        cases hl : rest.map Prod.fst ++ [tl] with
        | nil => simp at hl
        | cons a b => exact ⟨a, b, rfl⟩
      have hlinked := hinv.linked
      have hnd := hinv.nodup
      have hheld := hinv.held
      have hunm := Deque.chain_next_unmarked (by rw [hinv.tail_next])
        (hd :: (x :: rest).map Prod.fst) hinv.linked
      have hfull : hd :: (x :: rest).map Prod.fst ++ [tl] = [] ++ hd :: x.1 :: n :: B := by
        rw [← hB]; rfl
      rw [hfull] at hlinked hnd hheld hunm
      have hc := hlinked
      simp only [List.nil_append] at hc hnd
      rw [List.chain'_cons, List.chain'_cons] at hc
      obtain ⟨hpx, hxn, _⟩ := hc
      have hnd' := hnd
      simp only [List.nodup_cons, List.mem_cons, not_or] at hnd'
      obtain ⟨⟨d1, d2, hhdB⟩, ⟨d3, hxB⟩, hnB, hBnd⟩ := hnd'
      have htlmem : tl ∈ n :: B := by rw [← hB]; simp
      have hxt : some x.1 ≠ q.tail := by
        rw [hinv.tail]
        intro he
        simp only [Option.some.injEq] at he
        rw [he] at d3 hxB
        rcases List.mem_cons.1 htlmem with hm | hm
        · exact d3 hm
        · exact hxB hm
      have hhdtl : hd ≠ tl := by
        rintro rfl
        rcases List.mem_cons.1 htlmem with hm | hm
        · exact d2 hm
        · exact hhdB hm
      have hxtl : x.1 ≠ tl := by
        rintro he
        apply hxt
        rw [he, hinv.tail]
      obtain ⟨hst, hout, r, hh1⟩ := deque_pop_links hinv.head hxt hpx.1 hxn.1 hpx.2 hxn.2
        (hunm n (by simp)) (by rw [hinv.head_prev]) d1 d2 d3 hrun
      subst hst; subst hh1
      refine ⟨rest, ?_, by simp, ?_, ?_, ?_⟩
      · constructor
        · exact hinv.head
        · exact hinv.tail
        · show List.Chain' _ (hd :: (rest.map Prod.fst ++ [tl]))
          rw [hB]
          exact @Deque.chain_remove h [] B hd x.1 n r _ hlinked hnd
        · show (hd :: (rest.map Prod.fst ++ [tl])).Nodup
          rw [hB]
          exact hnd.sublist ((List.sublist_cons_self _ _).cons₂ _)
        · intro y hy
          exact hinv.data y (List.mem_cons_of_mem _ hy)
        · intro y hy
          exact hinv.vals y (List.mem_cons_of_mem _ hy)
        · show Function.update (Function.update h.prev x.1 _) n _ hd = _
          rw [Function.update_noteq d2, Function.update_noteq d1]
          exact hinv.head_prev
        · show Function.update (Function.update h.next x.1 _) hd _ tl = _
          rw [Function.update_noteq (Ne.symm hhdtl), Function.update_noteq (Ne.symm hxtl)]
          exact hinv.tail_next
        · exact hinv.pool
        · intro a ha
          have ha' : a ∈ hd :: (rest.map Prod.fst ++ [tl]) := ha
          rw [hB] at ha'
          apply hheld
          simp only [List.nil_append, List.mem_cons] at ha' ⊢
          tauto
        · exact hinv.capacity
      · intro _
        refine ⟨x, out, rfl, rfl, ?_⟩
        rw [hout, hinv.data x (by simp)]
      · intro a ha
        have ha1 : a ≠ x.1 := fun e => ha (hheld _ (by rw [e]; simp))
        have ha2 : a ≠ n := fun e => ha (hheld _ (by rw [e]; simp))
        have ha3 : a ≠ hd := fun e => ha (hheld _ (by rw [e]; simp))
        constructor
        · show Function.update (Function.update h.prev x.1 _) n _ a = _
          rw [Function.update_noteq ha2, Function.update_noteq ha1]
        · show Function.update (Function.update h.next x.1 _) hd _ a = _
          rw [Function.update_noteq ha3, Function.update_noteq ha1]
      · intro hcl
        have m1 : hd ∈ outp := hheld _ (by simp)
        have m2 : n ∈ outp := hheld _ (by simp)
        exact ⟨(hcl.1.update_some x.1 true m1).update_some n false m1,
          (hcl.2.update_some x.1 true m2).update_some hd false m2⟩

/-- A completed `deque_unshift` keeps the invariant; it returns 0 exactly when a node
precedes the tail sentinel, and then unlinks that node and copies its payload out. -/
theorem deque_unshift_inv {N : Nat} {q : deq_t} {frags : FragMem} {h h1 : NodeMem}
    {hd tl : Nat} {nodes : List (Nat × List Nat)} {outp : List Nat} {fuel : Nat}
    {out : Option (List Nat)} {st : status} {out1 : Option (List Nat)}
    (hinv : DequeInv N q frags h hd tl nodes outp)
    (hrun : deque_unshift fuel (some q) out h = some (st, h1, out1)) :
    ∃ nodes1, DequeInv N q frags h1 hd tl nodes1 outp
      ∧ nodes1.map Prod.snd
          = (if st.ret = 0 then (nodes.map Prod.snd).dropLast else nodes.map Prod.snd)
      ∧ (st.ret = 0 → ∃ x o, nodes = nodes1 ++ [x] ∧ out = some o
          ∧ out1 = memcpy o x.2 q.val_bytes)
      ∧ (∀ a, a ∉ outp → h1.prev a = h.prev a ∧ h1.next a = h.next a)
      ∧ (Deque.Closed outp h → Deque.Closed outp h1) := by
  cases out with
  | none =>
    simp only [deque_unshift, Option.some.injEq, Prod.mk.injEq] at hrun
    obtain ⟨rfl, rfl, rfl⟩ := hrun
    exact ⟨nodes, hinv, by simp, by simp, fun _ _ => ⟨rfl, rfl⟩, fun hcl => hcl⟩
  | some out =>
    rcases List.eq_nil_or_concat nodes with hn | ⟨rest, x, hn⟩
    · subst hn
      have hlinked := hinv.linked
      have hadj : Deque.adj h hd tl := (List.chain'_cons.1 hlinked).1
      obtain ⟨hst, _, r, hh1⟩ :=
        deque_unshift_empty_links hinv.head hinv.tail hadj.1 hadj.2 hrun
      subst hst; subst hh1
      refine ⟨[], ?_, by simp, by simp, fun _ _ => ⟨rfl, rfl⟩, fun hcl => hcl⟩
      exact ⟨hinv.head, hinv.tail, hinv.linked, hinv.nodup, hinv.data, hinv.vals,
        hinv.head_prev, hinv.tail_next, hinv.pool, hinv.held, hinv.capacity⟩
    · rw [List.concat_eq_append] at hn
      subst hn
      obtain ⟨A, p, hA⟩ : ∃ A p, hd :: rest.map Prod.fst = A ++ [p] := by
        rcases List.eq_nil_or_concat (hd :: rest.map Prod.fst) with hl | ⟨L, b, hl⟩
        · simp at hl
        · exact ⟨L, b, by rw [hl, List.concat_eq_append]⟩
      have hfull : hd :: (rest ++ [x]).map Prod.fst ++ [tl] = A ++ p :: x.1 :: tl :: [] := by
        rw [List.map_append, ← List.cons_append, hA]
        simp
      have hlinked := hinv.linked
      have hnd := hinv.nodup
      have hheld := hinv.held
      have hunm := Deque.chain_prev_unmarked ((rest ++ [x]).map Prod.fst ++ [tl]) hd
        (by rw [hinv.head_prev]) hinv.linked
      have hunm' : ∀ a ∈ hd :: (rest ++ [x]).map Prod.fst ++ [tl], (h.prev a).d = false := hunm
      rw [hfull] at hlinked hnd hheld hunm'
      have hc := (List.chain'_split.1 hlinked).2
      rw [List.chain'_cons, List.chain'_cons] at hc
      obtain ⟨hpx, hxn, _⟩ := hc
      have hnd' := hnd
      rw [List.nodup_append] at hnd'
      obtain ⟨_, hBnd, hdis⟩ := hnd'
      simp only [List.nodup_cons, List.mem_cons, List.mem_singleton, List.not_mem_nil,
        not_or, or_false, not_false_eq_true, List.nodup_nil, and_true] at hBnd
      obtain ⟨⟨d1, d2⟩, d3⟩ := hBnd
      have hhdmem : hd ∈ A ++ [p] := by rw [← hA]; simp
      have hxhd : x.1 ≠ hd := by
        rintro he
        rcases List.mem_append.1 hhdmem with hm | hm
        · exact hdis hm (by rw [he]; simp)
        · simp only [List.mem_singleton] at hm
          exact d1 (by rw [he, hm])
      have htlhd : tl ≠ hd := by
        rintro he
        rcases List.mem_append.1 hhdmem with hm | hm
        · exact hdis hm (by rw [he]; simp)
        · simp only [List.mem_singleton] at hm
          exact d2 (by rw [he, hm])
      have hxh : some x.1 ≠ q.head := by
        rw [hinv.head]
        intro he
        simp only [Option.some.injEq] at he
        exact hxhd he
      obtain ⟨hst, hout, r, hh1⟩ := deque_unshift_links hinv.tail hxh hpx.1 hxn.1 hpx.2 hxn.2
        (by rw [hinv.tail_next]) (hunm' p (by simp)) d1 d2 d3 hrun
      subst hst; subst hh1
      have hfull1 : hd :: rest.map Prod.fst ++ [tl] = A ++ p :: tl :: [] := by
        rw [hA, List.append_assoc]; rfl
      refine ⟨rest, ?_, by simp, ?_, ?_, ?_⟩
      · constructor
        · exact hinv.head
        · exact hinv.tail
        · rw [hfull1]
          exact @Deque.chain_remove h A [] p x.1 tl r _ hlinked hnd
        · rw [hfull1]
          exact hnd.sublist ((List.Sublist.refl A).append
            ((List.sublist_cons_self _ _).cons₂ _))
        · intro y hy
          exact hinv.data y (List.mem_append_left _ hy)
        · intro y hy
          exact hinv.vals y (List.mem_append_left _ hy)
        · show Function.update (Function.update h.prev x.1 _) tl _ hd = _
          rw [Function.update_noteq (Ne.symm htlhd), Function.update_noteq (Ne.symm hxhd)]
          exact hinv.head_prev
        · show Function.update (Function.update h.next x.1 _) p _ tl = _
          rw [Function.update_noteq (Ne.symm d2), Function.update_noteq (Ne.symm d3)]
          exact hinv.tail_next
        · exact hinv.pool
        · intro a ha
          rw [hfull1] at ha
          apply hheld
          simp only [List.mem_append, List.mem_cons, List.mem_singleton, List.not_mem_nil,
            or_false] at ha ⊢
          tauto
        · exact hinv.capacity
      · intro _
        refine ⟨x, out, rfl, rfl, ?_⟩
        rw [hout, hinv.data x (by simp)]
      · intro a ha
        have ha1 : a ≠ x.1 := fun e => ha (hheld _ (by rw [e]; simp))
        have ha2 : a ≠ tl := fun e => ha (hheld _ (by rw [e]; simp))
        have ha3 : a ≠ p := fun e => ha (hheld _ (by rw [e]; simp))
        constructor
        · show Function.update (Function.update h.prev x.1 _) tl _ a = _
          rw [Function.update_noteq ha2, Function.update_noteq ha1]
        · show Function.update (Function.update h.next x.1 _) p _ a = _
          rw [Function.update_noteq ha3, Function.update_noteq ha1]
      · intro hcl
        have m1 : p ∈ outp := hheld _ (by simp)
        have m2 : tl ∈ outp := hheld _ (by simp)
        exact ⟨(hcl.1.update_some x.1 true m1).update_some tl false m1,
          (hcl.2.update_some x.1 true m2).update_some p false m2⟩

/-- Outcome of `MALLOC_NODE` on a pool that still has a free fragment and whose fragments
hold a node: a fragment not handed out before, initialised by `NODE_MAKER()`. -/
theorem MALLOC_NODE_inv {N : Nat} {pool : memory_pool} {frags : FragMem} {l out : List Nat}
    (fuel : Nat) (h : NodeMem) (hinv : PoolInv N pool frags l out) (hout : out.length < N)
    (hdb : pool.data_bytes + 16 ≤ SIZE_MOD) (hnode : sizeof_deque_node ≤ pool.data_bytes) :
    ∃ a pool1 l1, MALLOC_NODE (fuel + 1) pool frags h
        = some (some a, none, pool1,
            ⟨Function.update h.prev a ⟨none, false⟩, Function.update h.next a ⟨none, false⟩,
              Function.update h.ref a 0, h.data⟩)
      ∧ a ∉ out ∧ PoolInv N pool1 frags l1 (a :: out)
      ∧ pool1.capacity = pool.capacity ∧ pool1.data_bytes = pool.data_bytes := by
  rcases mempool_alloc_inv fuel hinv with ⟨_, hlen⟩ | ⟨p, self1, l1, halloc, _, _⟩
  · omega
  · rcases mempool_alloc_fresh hinv halloc with ⟨hp, _⟩ | ⟨a, l2, hp, hfresh, hinv1, hcap, hdb1⟩
    · simp at hp
    · simp only [Option.some.injEq] at hp
      subst hp
      have hge := (internal_mempool_aligned_data_bytes_ge self1 (by rw [hdb1]; exact hdb)).2
      have hnl : ¬ internal_mempool_aligned_data_bytes self1 < sizeof_deque_node := by
        rw [hdb1] at hge; omega
      refine ⟨p, self1, l2, ?_, hfresh, hinv1, hcap, hdb1⟩
      simp only [MALLOC_NODE, halloc, hnl, if_false, NodeMem.set_ref, NodeMem.set_prev,
        NodeMem.set_next]

/-- `deque_create` with valid arguments and a granted allocation returns 0 and
establishes the invariant of the empty deque: the two sentinels, taken from the pool,
point at each other and their outer links are `NULL`. -/
theorem deque_create_inv (fuel : Nat) (q0 : deq_t) (vb cap base : Nat) (frags : FragMem)
    (h0 : NodeMem) (hvb : 0 < vb) (hcap : 0 < cap) (hbase : 0 < base)
    (hnb : sizeof_deque_node * vb + 16 ≤ SIZE_MOD)
    (hfit : base + (cap + 2 + 1) * internal_mempool_aligned_data_bytes
        (MEMORY_POOL_MAKER none (sizeof_deque_node * vb) (cap + 2)) < SIZE_MOD) :
    ∃ q frags1 h hd tl, deque_create (fuel + 1) (some q0) vb cap (some base) frags h0
        = some (⟨0, none⟩, some q, frags1, h)
      ∧ DequeInv (cap + 2) q frags1 h hd tl [] [tl, hd]
      ∧ q.val_bytes = vb ∧ q.pool.capacity = cap + 2
      ∧ (∀ a, ((h.prev a).d = true → (h0.prev a).d = true)
          ∧ ((h.next a).d = true → (h0.next a).d = true))
      ∧ DequeSized q ∧ Deque.Closed [tl, hd] h := by
  have hF := (internal_mempool_aligned_data_bytes_ge
    (MEMORY_POOL_MAKER none (sizeof_deque_node * vb) (cap + 2)) hnb).1
  have hcapM : cap + 2 < SIZE_MOD := by
    have : cap + 2 + 1 ≤ (cap + 2 + 1) * internal_mempool_aligned_data_bytes
        (MEMORY_POOL_MAKER none (sizeof_deque_node * vb) (cap + 2)) :=
      Nat.le_mul_of_pos_right _ (by omega)
    omega
  have h48 : sizeof_deque_node ≤ sizeof_deque_node * vb := Nat.le_mul_of_pos_right _ hvb
  obtain ⟨self0, mem0, l0, hc, hinv0, hcap0, hdb0, _⟩ :=
    mempool_create_inv fuel q0.pool (sizeof_deque_node * vb) (cap + 2) base frags
      (by simp only [sizeof_deque_node] at *; omega) (by omega) hbase hnb hfit
  obtain ⟨hd, pool1, l1, hm1, _, hinv1, hcap1, hdb1⟩ :=
    MALLOC_NODE_inv fuel h0 hinv0 (by simp) (by rw [hdb0]; exact hnb) (by rw [hdb0]; exact h48)
  obtain ⟨tl, pool2, l2, hm2, hfresh2, hinv2, hcap2, hdb2⟩ :=
    MALLOC_NODE_inv fuel
      ⟨Function.update h0.prev hd ⟨none, false⟩, Function.update h0.next hd ⟨none, false⟩,
        Function.update h0.ref hd 0, h0.data⟩ hinv1 (by simp only [List.length_singleton]; omega)
      (by rw [hdb1, hdb0]; exact hnb) (by rw [hdb1, hdb0]; exact h48)
  have hne : tl ≠ hd := by
    intro he; exact hfresh2 (by simp [he])
  have hv0 : ¬ (vb = 0 ∨ cap = 0) := by omega
  refine ⟨⟨pool2, vb, some hd, some tl⟩, mem0,
    ⟨Function.update (Function.update (Function.update h0.prev hd ⟨none, false⟩) tl
        ⟨none, false⟩) tl ⟨some hd, false⟩,
      Function.update (Function.update (Function.update h0.next hd ⟨none, false⟩) tl
        ⟨none, false⟩) hd ⟨some tl, false⟩,
      Function.update (Function.update h0.ref hd 0) tl 0, h0.data⟩, hd, tl, ?_, ?_, ?_, ?_, ?_,
    ?_, ?_⟩
  · unfold deque_create
    simp only [hv0, if_false, Nat.mod_eq_of_lt hcapM,
      Nat.mod_eq_of_lt (show sizeof_deque_node * vb < SIZE_MOD by omega), hc, hm1, hm2,
      Option.some_bind, ne_eq, not_true_eq_false]
    simp [NodeMem.set_next, NodeMem.set_prev, Function.update_noteq (Ne.symm hne)]
  · constructor
    · rfl
    · rfl
    · show List.Chain' _ [hd, tl]
      rw [List.chain'_pair]
      constructor
      · simp [NodeMem.set_next, NodeMem.set_prev, Function.update_noteq (Ne.symm hne)]
      · simp [NodeMem.set_next, NodeMem.set_prev]
    · simp [Ne.symm hne]
    · intro x hx; simp at hx
    · intro x hx; simp at hx
    · simp [NodeMem.set_next, NodeMem.set_prev, Function.update_noteq (Ne.symm hne)]
    · simp [NodeMem.set_next, NodeMem.set_prev, Function.update_noteq hne]
    · exact ⟨l2, hinv2⟩
    · intro a ha
      simp only [List.map_nil, List.cons_append, List.nil_append, List.mem_cons,
        List.mem_singleton, List.not_mem_nil, or_false] at ha ⊢
      tauto
    · show pool2.capacity = cap + 2
      rw [hcap2, hcap1, hcap0]
  · rfl
  · show pool2.capacity = cap + 2
    rw [hcap2, hcap1, hcap0]
  · intro a
    constructor
    · show (Function.update (Function.update (Function.update h0.prev hd _) tl _) tl _ a).d = true
        → _
      by_cases hat : a = tl
      · subst hat; rw [Function.update_same]; simp
      · rw [Function.update_noteq hat, Function.update_noteq hat]
        by_cases hah : a = hd
        · subst hah; rw [Function.update_same]; simp
        · rw [Function.update_noteq hah]; exact id
    · show (Function.update (Function.update (Function.update h0.next hd _) tl _) hd _ a).d = true
        → _
      by_cases hah : a = hd
      · subst hah; rw [Function.update_same]; simp
      · rw [Function.update_noteq hah]
        by_cases hat : a = tl
        · subst hat; rw [Function.update_same]; simp
        · rw [Function.update_noteq hat, Function.update_noteq hah]; exact id
  · refine ⟨hvb, ?_, ?_⟩
    · show pool2.data_bytes = sizeof_deque_node * vb
      rw [hdb2, hdb1, hdb0]
    · show pool2.data_bytes + 16 ≤ SIZE_MOD
      rw [hdb2, hdb1, hdb0]; exact hnb
  · have hnil : Deque.LinksIn [tl, hd] (Function.update (Function.update h0.prev hd
        ⟨none, false⟩) tl ⟨none, false⟩) := by
      intro c hc e he
      simp only [List.mem_cons, List.mem_singleton, List.not_mem_nil, or_false] at hc
      rcases hc with rfl | rfl
      · rw [Function.update_same] at he; simp at he
      · rw [Function.update_noteq (Ne.symm hne), Function.update_same] at he; simp at he
    have hnil2 : Deque.LinksIn [tl, hd] (Function.update (Function.update h0.next hd
        ⟨none, false⟩) tl ⟨none, false⟩) := by
      intro c hc e he
      simp only [List.mem_cons, List.mem_singleton, List.not_mem_nil, or_false] at hc
      rcases hc with rfl | rfl
      · rw [Function.update_same] at he; simp at he
      · rw [Function.update_noteq (Ne.symm hne), Function.update_same] at he; simp at he
    exact ⟨hnil.update_some tl false (by simp), hnil2.update_some hd false (by simp)⟩

/-! ### Deque: sessions and deque_to_array -/

/-- Running a list of calls that all complete keeps the invariant, and the list of
payloads kept by the run is the list of the payloads of the nodes between the
sentinels. -/
theorem deque_run_inv {N : Nat} {frags : FragMem} {hd tl : Nat} (fuel : Nat) :
    ∀ (ops : List deque_op) (q : deq_t) (h : NodeMem) (nodes : List (Nat × List Nat))
      (outp : List Nat) (elems : List (List Nat)) (q1 : deq_t) (h1 : NodeMem)
      (elems1 : List (List Nat)),
      DequeInv N q frags h hd tl nodes outp → elems = nodes.map Prod.snd →
      deque_run fuel ops q frags h elems = some (q1, h1, elems1) →
      ∃ nodes1 outp1, DequeInv N q1 frags h1 hd tl nodes1 outp1
        ∧ elems1 = nodes1.map Prod.snd ∧ q1.val_bytes = q.val_bytes := by
  intro ops
  induction ops with
  | nil =>
    intro q h nodes outp elems q1 h1 elems1 hinv he hrun
    simp only [deque_run, Option.some.injEq, Prod.mk.injEq] at hrun
    obtain ⟨rfl, rfl, rfl⟩ := hrun
    exact ⟨nodes, outp, hinv, he, rfl⟩
  | cons op ops ih =>
    intro q h nodes outp elems q1 h1 elems1 hinv he hrun
    cases op with
    | push v =>
      simp only [deque_run] at hrun
      cases hp : deque_push fuel (some q) v frags h with
      | none => rw [hp] at hrun; simp at hrun
      | some r =>
        obtain ⟨st, q2, h2⟩ := r
        obtain ⟨q3, nodes3, outp3, hq, hinv3, hvb, hel, _, _⟩ := deque_push_inv hinv hp
        subst hq
        rw [hp] at hrun
        simp only at hrun
        obtain ⟨n4, o4, hinv4, he4, hvb4⟩ := ih q3 h2 nodes3 outp3 _ q1 h1 elems1 hinv3
          (by rw [hel, he]) hrun
        exact ⟨n4, o4, hinv4, he4, hvb4.trans hvb⟩
    | shift v =>
      simp only [deque_run] at hrun
      cases hp : deque_shift fuel (some q) v frags h with
      | none => rw [hp] at hrun; simp at hrun
      | some r =>
        obtain ⟨st, q2, h2⟩ := r
        obtain ⟨q3, nodes3, outp3, hq, hinv3, hvb, hel, _, _⟩ := deque_shift_inv hinv hp
        subst hq
        rw [hp] at hrun
        simp only at hrun
        obtain ⟨n4, o4, hinv4, he4, hvb4⟩ := ih q3 h2 nodes3 outp3 _ q1 h1 elems1 hinv3
          (by rw [hel, he]) hrun
        exact ⟨n4, o4, hinv4, he4, hvb4.trans hvb⟩
    | pop out =>
      simp only [deque_run] at hrun
      cases hp : deque_pop fuel (some q) out h with
      | none => rw [hp] at hrun; simp at hrun
      | some r =>
        obtain ⟨st, h2, out2⟩ := r
        obtain ⟨nodes3, hinv3, hel, _⟩ := deque_pop_inv hinv hp
        rw [hp] at hrun
        simp only at hrun
        exact ih q h2 nodes3 outp _ q1 h1 elems1 hinv3 (by rw [hel, he]) hrun
    | unshift out =>
      simp only [deque_run] at hrun
      cases hp : deque_unshift fuel (some q) out h with
      | none => rw [hp] at hrun; simp at hrun
      | some r =>
        obtain ⟨st, h2, out2⟩ := r
        obtain ⟨nodes3, hinv3, hel, _⟩ := deque_unshift_inv hinv hp
        rw [hp] at hrun
        simp only at hrun
        exact ih q h2 nodes3 outp _ q1 h1 elems1 hinv3 (by rw [hel, he]) hrun

/-- A session that completes ends in a state that satisfies the invariant. -/
theorem deque_session_inv (fuel : Nat) (q0 : deq_t) (vb cap base : Nat) (frags : FragMem)
    (h0 : NodeMem) (ops : List deque_op) (hvb : 0 < vb) (hcap : 0 < cap) (hbase : 0 < base)
    (hnb : sizeof_deque_node * vb + 16 ≤ SIZE_MOD)
    (hfit : base + (cap + 2 + 1) * internal_mempool_aligned_data_bytes
        (MEMORY_POOL_MAKER none (sizeof_deque_node * vb) (cap + 2)) < SIZE_MOD)
    (hs : (deque_session (fuel + 1) q0 vb cap (some base) frags h0 ops).isSome = true) :
    ∃ q1 h1 elems frags1 hd tl nodes outp,
      deque_session (fuel + 1) q0 vb cap (some base) frags h0 ops = some (q1, h1, elems)
      ∧ DequeInv (cap + 2) q1 frags1 h1 hd tl nodes outp
      ∧ elems = nodes.map Prod.snd ∧ q1.val_bytes = vb := by
  obtain ⟨q, frags1, h, hd, tl, hc, hinv, hq, _, _⟩ :=
    deque_create_inv fuel q0 vb cap base frags h0 hvb hcap hbase hnb hfit
  have hsess : deque_session (fuel + 1) q0 vb cap (some base) frags h0 ops
      = deque_run (fuel + 1) ops q frags1 h [] := by
    simp only [deque_session, hc, if_true]
  rw [hsess] at hs ⊢
  obtain ⟨⟨q1, h1, elems⟩, hr⟩ := Option.isSome_iff_exists.1 hs
  obtain ⟨nodes, outp, hinv1, he, hvb1⟩ :=
    deque_run_inv (fuel + 1) ops q h [] [tl, hd] [] q1 h1 elems hinv rfl hr
  exact ⟨q1, h1, elems, frags1, hd, tl, nodes, outp, hr, hinv1, he, hvb1.trans hq⟩

/-- The loop of `deque_to_array` started behind the node `x` of a chain fills the slots
from `i` on with the payloads of the nodes up to the tail sentinel. -/
theorem deque_to_array_loop_spec (h : NodeMem) (tl vb : Nat) :
    ∀ (nodes : List (Nat × List Nat)) (x i : Nat) (pre post : List (List Nat)) (fuel : Nat),
      List.Chain' (Deque.adj h) (x :: nodes.map Prod.fst ++ [tl]) →
      tl ∉ nodes.map Prod.fst →
      (∀ y ∈ nodes, h.data y.1 = y.2) → (∀ y ∈ nodes, y.2.length = vb) → pre.length = i →
      i + nodes.length ≤ INT_MAX → nodes.length + 1 ≤ fuel →
      deque_to_array_loop h (some tl) vb fuel (h.next x).p i
          (some (pre ++ List.replicate nodes.length (List.replicate vb 0) ++ post))
        = some (some (pre ++ nodes.map Prod.snd ++ post)) := by
  intro nodes
  induction nodes with
  | nil =>
    intro x i pre post fuel hc _ _ _ _ _ hfuel
    have hadj : Deque.adj h x tl := (List.chain'_cons.1 hc).1
    obtain ⟨f, rfl⟩ : ∃ f, fuel = f + 1 := ⟨fuel - 1, by simp at hfuel; omega⟩
    simp only [deque_to_array_loop, hadj.1, if_true, List.length_nil, List.replicate_zero,
      List.append_nil, List.map_nil]
  | cons y rest ih =>
    intro x i pre post fuel hc htl hdata hv hpre hi hfuel
    have hc' : List.Chain' (Deque.adj h) (x :: y.1 :: (rest.map Prod.fst ++ [tl])) := hc
    rw [List.chain'_cons] at hc'
    obtain ⟨hadj, hc2⟩ := hc'
    simp only [List.length_cons] at hi hfuel
    obtain ⟨f, rfl⟩ : ∃ f, fuel = f + 1 := ⟨fuel - 1, by omega⟩
    have hi' : ¬ INT_MAX ≤ i := by omega
    have hytl : ¬ (some y.1 = some tl) := by
      intro he
      simp only [Option.some.injEq] at he
      exact htl (by simp [he])
    have hylen : y.2.length = vb := hv y (by simp)
    have hstore : slot_store
        (some (pre ++ List.replicate (rest.length + 1) (List.replicate vb 0) ++ post)) i
          (h.data y.1) vb
        = some ((pre ++ [y.2]) ++ List.replicate rest.length (List.replicate vb 0) ++ post) := by
      rw [List.replicate_succ, List.append_assoc, List.cons_append, ← hpre, hdata y (by simp)]
      rw [slot_store_mid pre _ (List.replicate vb 0) y.2 vb (by simp) hylen]
      simp
    have hih := ih y.1 (i + 1) (pre ++ [y.2]) post f hc2
      (fun hm => htl (by simp [hm]))
      (fun z hz => hdata z (List.mem_cons_of_mem _ hz))
      (fun z hz => hv z (List.mem_cons_of_mem _ hz)) (by simp [hpre]) (by omega) (by omega)
    simp only [deque_to_array_loop, hadj.1, hytl, hi', if_false, List.length_cons, hstore]
    rw [hih]
    simp

/-- Under the invariant `deque_to_array` returns a buffer of as many slots as fragments
were taken from the pool, at least two more than there are nodes between the sentinels,
and its first slots hold the payloads of these nodes from front to back. -/
theorem deque_to_array_inv {N : Nat} {q : deq_t} {frags : FragMem} {h : NodeMem} {hd tl : Nat}
    {nodes : List (Nat × List Nat)} {outp : List Nat}
    (hinv : DequeInv N q frags h hd tl nodes outp) (hint : nodes.length ≤ INT_MAX)
    (hbuf : N * q.val_bytes < SIZE_MOD) (f : Nat) (hf : nodes.length + 1 ≤ f) :
    nodes.length + 2 ≤ outp.length
      ∧ deque_to_array f (some q) true h
        = some (some (nodes.map Prod.snd
            ++ List.replicate (outp.length - nodes.length) (List.replicate q.val_bytes 0)),
          none) := by
  obtain ⟨lp, hpool⟩ := hinv.pool
  obtain ⟨hfr, hle⟩ := hpool.freeable_eq
  have hbound := hpool.bound
  have hlen : nodes.length + 2 ≤ outp.length := by
    have hsub : (hd :: nodes.map Prod.fst ++ [tl]).Subperm outp :=
      hinv.nodup.subperm hinv.held
    have := hsub.length_le
    simp only [List.cons_append, List.length_cons, List.length_append, List.length_map,
      List.length_singleton] at this
    omega
  refine ⟨hlen, ?_⟩
  have hn : (q.pool.capacity + (SIZE_MOD - q.pool.freeable % SIZE_MOD)) % SIZE_MOD
      = outp.length := by
    have h1 : (N - outp.length) % SIZE_MOD = N - outp.length := Nat.mod_eq_of_lt (by omega)
    have h2 : N + (SIZE_MOD - (N - outp.length)) = outp.length + SIZE_MOD := by omega
    rw [hinv.capacity, hfr, h1, h2, Nat.add_mod_right, Nat.mod_eq_of_lt (by omega)]
  have hcal : calloc_slots true outp.length q.val_bytes
      = some (List.replicate outp.length (List.replicate q.val_bytes 0)) := by
    have : outp.length * q.val_bytes < SIZE_MOD :=
      lt_of_le_of_lt (Nat.mul_le_mul_right _ hle) hbuf
    simp only [calloc_slots, this, and_self, if_true]
  have hsplit : List.replicate outp.length (List.replicate q.val_bytes 0)
      = [] ++ List.replicate nodes.length (List.replicate q.val_bytes 0)
        ++ List.replicate (outp.length - nodes.length) (List.replicate q.val_bytes 0) := by
    rw [List.nil_append, ← List.replicate_add]
    congr 1
    omega
  have htl : tl ∉ nodes.map Prod.fst := by
    have hnd := hinv.nodup
    rw [List.nodup_append] at hnd
    intro hm
    exact hnd.2.2 (List.mem_cons_of_mem _ hm) (by simp)
  have hloop := deque_to_array_loop_spec h tl q.val_bytes nodes hd 0 []
    (List.replicate (outp.length - nodes.length) (List.replicate q.val_bytes 0)) f
    hinv.linked htl hinv.data hinv.vals rfl (by omega) hf
  rw [← hsplit] at hloop
  simp only [List.nil_append] at hloop
  simp only [deque_to_array, hn, hinv.head, hinv.tail, hcal, hloop]

/-! ### Deque: the chain of nodes, the sentinels and deque_to_array in sequential use -/

/-- Every inner node of a chain has a predecessor and a successor on the chain. -/
theorem Deque.chain_neighbours {h : NodeMem} {t : Nat} :
    ∀ (l : List Nat) (x : Nat), List.Chain' (Deque.adj h) (x :: l ++ [t]) →
      ∀ n ∈ l, ∃ a b, Deque.adj h a n ∧ Deque.adj h n b := by
  intro l
  induction l with
  | nil => intro x _ n hn; simp at hn
  | cons y l ih =>
    intro x hc n hn
    have hc' : List.Chain' (Deque.adj h) (x :: y :: (l ++ [t])) := hc
    rw [List.chain'_cons] at hc'
    obtain ⟨hxy, hc2⟩ := hc'
    rcases List.mem_cons.1 hn with rfl | hn
    · cases hl : l ++ [t] with
      | nil => simp at hl
      | cons z rest =>
        rw [hl, List.chain'_cons] at hc2
        exact ⟨x, z, hxy, hc2.1⟩
    · exact ih y hc2 n hn

/-- Under the invariant at least two more fragments were taken from the pool than there
are nodes between the sentinels. -/
theorem DequeInv.length_le {N : Nat} {q : deq_t} {frags : FragMem} {h : NodeMem} {hd tl : Nat}
    {nodes : List (Nat × List Nat)} {outp : List Nat}
    (hinv : DequeInv N q frags h hd tl nodes outp) : nodes.length + 2 ≤ outp.length := by
  have hsub : (hd :: nodes.map Prod.fst ++ [tl]).Subperm outp :=
    hinv.nodup.subperm hinv.held
  have := hsub.length_le
  simp only [List.cons_append, List.length_cons, List.length_append, List.length_map,
    List.length_singleton] at this
  omega

/-- C19: in a session of one thread that completes (a successful `deque_create` followed
by any calls), `deque_to_array`, given the buffer by `calloc`, returns a buffer of `n`
slots with `n >= k + 2`, where `k` is the number of live elements; its first `k` slots
hold the live elements from front to back (the elements inserted by `deque_push` newest
first, then the elements inserted by `deque_shift` oldest first, as kept by `deque_run`)
and the other slots are zero. -/
theorem deque_to_array_lists_live_elements (fuel : Nat) (q0 : deq_t) (vb cap base : Nat)
    (frags : FragMem) (h0 : NodeMem) (ops : List deque_op)
    (hvb : 0 < vb) (hcap : 0 < cap) (hbase : 0 < base)
    (hnb : sizeof_deque_node * vb + 16 ≤ SIZE_MOD)
    (hfit : base + (cap + 2 + 1) * internal_mempool_aligned_data_bytes
        (MEMORY_POOL_MAKER none (sizeof_deque_node * vb) (cap + 2)) < SIZE_MOD)
    (hs : (deque_session (fuel + 1) q0 vb cap (some base) frags h0 ops).isSome = true) :
    ∃ q1 h1 elems n,
      deque_session (fuel + 1) q0 vb cap (some base) frags h0 ops = some (q1, h1, elems)
      ∧ elems.length + 2 ≤ n
      ∧ (elems.length ≤ INT_MAX → ∀ g, elems.length + 1 ≤ g →
          deque_to_array g (some q1) true h1
            = some (some (elems ++ List.replicate (n - elems.length) (List.replicate vb 0)),
                none)) := by
  obtain ⟨q1, h1, elems, frags1, hd, tl, nodes, outp, hsess, hinv, he, hq⟩ :=
    deque_session_inv fuel q0 vb cap base frags h0 ops hvb hcap hbase hnb hfit hs
  have hF := (internal_mempool_aligned_data_bytes_ge
    (MEMORY_POOL_MAKER none (sizeof_deque_node * vb) (cap + 2)) hnb).2
  have hbuf : (cap + 2) * q1.val_bytes < SIZE_MOD := by
    rw [hq]
    have h1 : vb ≤ internal_mempool_aligned_data_bytes
        (MEMORY_POOL_MAKER none (sizeof_deque_node * vb) (cap + 2)) := by
      refine le_trans ?_ hF
      show vb ≤ sizeof_deque_node * vb
      simp only [sizeof_deque_node]; omega
    have h2 : (cap + 2) * vb ≤ (cap + 2 + 1) * internal_mempool_aligned_data_bytes
        (MEMORY_POOL_MAKER none (sizeof_deque_node * vb) (cap + 2)) :=
      Nat.mul_le_mul (by omega) h1
    omega
  have hlen : elems.length = nodes.length := by rw [he, List.length_map]
  refine ⟨q1, h1, elems, outp.length, hsess, ?_, ?_⟩
  · rw [hlen]
    exact hinv.length_le
  · intro hint g hg
    rw [hlen] at hint hg ⊢
    rw [he, ← hq]
    exact (deque_to_array_inv hinv hint hbuf g hg).2

/-- Instance of `deque_to_array_lists_live_elements`: two pushes, a shift and a pop on a
deque of `int`-sized elements. -/
theorem deque_to_array_lists_live_elements_witness :
    (0 < 4 ∧ 0 < 3 ∧ 0 < 4096 ∧ sizeof_deque_node * 4 + 16 ≤ SIZE_MOD
      ∧ 4096 + (3 + 2 + 1) * internal_mempool_aligned_data_bytes
          (MEMORY_POOL_MAKER none (sizeof_deque_node * 4) (3 + 2)) < SIZE_MOD
      ∧ (deque_session (7 + 1) ⟨MEMORY_POOL_MAKER none 0 0, 0, none, none⟩ 4 3
          (some 4096) (fun _ => none)
          ⟨fun _ => ⟨none, false⟩, fun _ => ⟨none, false⟩, fun _ => 0, fun _ => []⟩
          [deque_op.push (some [10, 0, 0, 0]), deque_op.shift (some [20, 0, 0, 0]),
            deque_op.push (some [30, 0, 0, 0]), deque_op.pop (some [0, 0, 0, 0])]).isSome = true)
    ∧ ∃ q1 h1 elems n,
      deque_session (7 + 1) ⟨MEMORY_POOL_MAKER none 0 0, 0, none, none⟩ 4 3
          (some 4096) (fun _ => none)
          ⟨fun _ => ⟨none, false⟩, fun _ => ⟨none, false⟩, fun _ => 0, fun _ => []⟩
          [deque_op.push (some [10, 0, 0, 0]), deque_op.shift (some [20, 0, 0, 0]),
            deque_op.push (some [30, 0, 0, 0]), deque_op.pop (some [0, 0, 0, 0])] = some (q1, h1, elems)
      ∧ elems.length + 2 ≤ n
      ∧ (elems.length ≤ INT_MAX → ∀ g, elems.length + 1 ≤ g →
          deque_to_array g (some q1) true h1
            = some (some (elems ++ List.replicate (n - elems.length) (List.replicate 4 0)),
                none)) :=
  ⟨⟨by decide, by decide, by decide, by decide, by decide, rfl⟩,
    deque_to_array_lists_live_elements 7 _ 4 3 4096 _ _ _ (by decide) (by decide) (by decide)
      (by decide) (by decide) rfl⟩

/-- C27: in a session of one thread that completes (a successful `deque_create` followed
by any calls), the deque is a consistent doubly linked chain: the `next` links lead from
the head sentinel through the nodes `addrs`, which are pairwise distinct and hold exactly
the live elements from front to back, to the tail sentinel, and every such node `n` has a
predecessor `a` and a successor `b` such that `n->prev` points at `a`, `a->next` at
`n`, `n->next` at `b` and `b->prev` at `n`, all four links without deletion mark. -/
theorem deque_is_a_consistent_doubly_linked_chain (fuel : Nat) (q0 : deq_t)
    (vb cap base : Nat) (frags : FragMem) (h0 : NodeMem) (ops : List deque_op)
    (hvb : 0 < vb) (hcap : 0 < cap) (hbase : 0 < base)
    (hnb : sizeof_deque_node * vb + 16 ≤ SIZE_MOD)
    (hfit : base + (cap + 2 + 1) * internal_mempool_aligned_data_bytes
        (MEMORY_POOL_MAKER none (sizeof_deque_node * vb) (cap + 2)) < SIZE_MOD)
    (hs : (deque_session (fuel + 1) q0 vb cap (some base) frags h0 ops).isSome = true) :
    ∃ q1 h1 elems hd tl addrs,
      deque_session (fuel + 1) q0 vb cap (some base) frags h0 ops = some (q1, h1, elems)
      ∧ q1.head = some hd ∧ q1.tail = some tl
      ∧ List.Chain' (Deque.adj h1) (hd :: addrs ++ [tl])
      ∧ (hd :: addrs ++ [tl]).Nodup
      ∧ addrs.map h1.data = elems
      ∧ ∀ n ∈ addrs, ∃ a b, h1.prev n = ⟨some a, false⟩ ∧ h1.next a = ⟨some n, false⟩
          ∧ h1.next n = ⟨some b, false⟩ ∧ h1.prev b = ⟨some n, false⟩ := by
  obtain ⟨q1, h1, elems, frags1, hd, tl, nodes, outp, hsess, hinv, he, _⟩ :=
    deque_session_inv fuel q0 vb cap base frags h0 ops hvb hcap hbase hnb hfit hs
  refine ⟨q1, h1, elems, hd, tl, nodes.map Prod.fst, hsess, hinv.head, hinv.tail, hinv.linked,
    hinv.nodup, ?_, ?_⟩
  · rw [he, List.map_map]
    apply List.map_congr_left
    intro x hx
    exact hinv.data x hx
  · intro n hn
    obtain ⟨a, b, ha, hb⟩ := Deque.chain_neighbours _ hd hinv.linked n hn
    exact ⟨a, b, ha.2, ha.1, hb.1, hb.2⟩

/-- Instance of `deque_is_a_consistent_doubly_linked_chain`: four insertions, the last of
which finds the pool exhausted, a removal at the back and a call given `NULL`. -/
theorem deque_is_a_consistent_doubly_linked_chain_witness :
    (0 < 4 ∧ 0 < 3 ∧ 0 < 4096 ∧ sizeof_deque_node * 4 + 16 ≤ SIZE_MOD
      ∧ 4096 + (3 + 2 + 1) * internal_mempool_aligned_data_bytes
          (MEMORY_POOL_MAKER none (sizeof_deque_node * 4) (3 + 2)) < SIZE_MOD
      ∧ (deque_session (7 + 1) ⟨MEMORY_POOL_MAKER none 0 0, 0, none, none⟩ 4 3
          (some 4096) (fun _ => none)
          ⟨fun _ => ⟨none, false⟩, fun _ => ⟨none, false⟩, fun _ => 0, fun _ => []⟩
          [deque_op.push (some [10, 0, 0, 0]), deque_op.shift (some [20, 0, 0, 0]),
            deque_op.push (some [30, 0, 0, 0]), deque_op.push (some [40, 0, 0, 0]),
            deque_op.unshift (some [0, 0, 0, 0]), deque_op.pop none]).isSome = true)
    ∧ ∃ q1 h1 elems hd tl addrs,
      deque_session (7 + 1) ⟨MEMORY_POOL_MAKER none 0 0, 0, none, none⟩ 4 3
          (some 4096) (fun _ => none)
          ⟨fun _ => ⟨none, false⟩, fun _ => ⟨none, false⟩, fun _ => 0, fun _ => []⟩
          [deque_op.push (some [10, 0, 0, 0]), deque_op.shift (some [20, 0, 0, 0]),
            deque_op.push (some [30, 0, 0, 0]), deque_op.push (some [40, 0, 0, 0]),
            deque_op.unshift (some [0, 0, 0, 0]), deque_op.pop none] = some (q1, h1, elems)
      ∧ q1.head = some hd ∧ q1.tail = some tl
      ∧ List.Chain' (Deque.adj h1) (hd :: addrs ++ [tl])
      ∧ (hd :: addrs ++ [tl]).Nodup
      ∧ addrs.map h1.data = elems
      ∧ ∀ n ∈ addrs, ∃ a b, h1.prev n = ⟨some a, false⟩ ∧ h1.next a = ⟨some n, false⟩
          ∧ h1.next n = ⟨some b, false⟩ ∧ h1.prev b = ⟨some n, false⟩ :=
  ⟨⟨by decide, by decide, by decide, by decide, by decide, rfl⟩,
    deque_is_a_consistent_doubly_linked_chain 7 _ 4 3 4096 _ _ _ (by decide) (by decide)
      (by decide) (by decide) (by decide) rfl⟩

/-- Counterexample to C28: after `deque_create(q, 4, 1)` on a pool granted at address 4096
the head sentinel is the fragment 4096 and the tail sentinel the fragment 4288, and
neither `head->prev.p` nor `tail->next.p` points at its own sentinel: both are `NULL`. -/
theorem deque_create_outer_links_are_not_self_loops :
    ∃ q frags h, deque_create 2 (some ⟨MEMORY_POOL_MAKER none 0 0, 0, none, none⟩) 4 1
        (some 4096) (fun _ => none)
        ⟨fun _ => ⟨none, false⟩, fun _ => ⟨none, false⟩, fun _ => 0, fun _ => []⟩
        = some (⟨0, none⟩, some q, frags, h)
      ∧ q.head = some 4096 ∧ q.tail = some 4288
      ∧ (h.prev 4096).p ≠ q.head ∧ (h.next 4288).p ≠ q.tail
      ∧ (h.prev 4096).p = none ∧ (h.next 4288).p = none :=
  ⟨_, _, _, rfl, rfl, rfl, by decide, by decide, rfl, rfl⟩

/-- C28 as amended: in a session of one thread that completes (a successful
`deque_create` followed by any calls), the outer links of the sentinels are `NULL` and
unmarked: `head->prev.p = NULL` and `tail->next.p = NULL`, both with `d = false`. -/
theorem deque_outer_links_stay_null (fuel : Nat) (q0 : deq_t)
    (vb cap base : Nat) (frags : FragMem) (h0 : NodeMem) (ops : List deque_op)
    (hvb : 0 < vb) (hcap : 0 < cap) (hbase : 0 < base)
    (hnb : sizeof_deque_node * vb + 16 ≤ SIZE_MOD)
    (hfit : base + (cap + 2 + 1) * internal_mempool_aligned_data_bytes
        (MEMORY_POOL_MAKER none (sizeof_deque_node * vb) (cap + 2)) < SIZE_MOD)
    (hs : (deque_session (fuel + 1) q0 vb cap (some base) frags h0 ops).isSome = true) :
    ∃ q1 h1 elems hd tl,
      deque_session (fuel + 1) q0 vb cap (some base) frags h0 ops = some (q1, h1, elems)
      ∧ q1.head = some hd ∧ q1.tail = some tl
      ∧ h1.prev hd = ⟨none, false⟩ ∧ h1.next tl = ⟨none, false⟩ := by
  obtain ⟨q1, h1, elems, frags1, hd, tl, nodes, outp, hsess, hinv, _, _⟩ :=
    deque_session_inv fuel q0 vb cap base frags h0 ops hvb hcap hbase hnb hfit hs
  exact ⟨q1, h1, elems, hd, tl, hsess, hinv.head, hinv.tail, hinv.head_prev, hinv.tail_next⟩

/-- Instance of `deque_outer_links_stay_null`: insertions and removals at both ends of a
deque of `int`-sized elements. -/
theorem deque_outer_links_stay_null_witness :
    (0 < 4 ∧ 0 < 3 ∧ 0 < 4096 ∧ sizeof_deque_node * 4 + 16 ≤ SIZE_MOD
      ∧ 4096 + (3 + 2 + 1) * internal_mempool_aligned_data_bytes
          (MEMORY_POOL_MAKER none (sizeof_deque_node * 4) (3 + 2)) < SIZE_MOD
      ∧ (deque_session (7 + 1) ⟨MEMORY_POOL_MAKER none 0 0, 0, none, none⟩ 4 3
          (some 4096) (fun _ => none)
          ⟨fun _ => ⟨none, false⟩, fun _ => ⟨none, false⟩, fun _ => 0, fun _ => []⟩
          [deque_op.shift (some [10, 0, 0, 0]), deque_op.pop (some [0, 0, 0, 0]),
            deque_op.push (some [20, 0, 0, 0]), deque_op.unshift (some [0, 0, 0, 0]),
            deque_op.unshift (some [0, 0, 0, 0])]).isSome = true)
    ∧ ∃ q1 h1 elems hd tl,
      deque_session (7 + 1) ⟨MEMORY_POOL_MAKER none 0 0, 0, none, none⟩ 4 3
          (some 4096) (fun _ => none)
          ⟨fun _ => ⟨none, false⟩, fun _ => ⟨none, false⟩, fun _ => 0, fun _ => []⟩
          [deque_op.shift (some [10, 0, 0, 0]), deque_op.pop (some [0, 0, 0, 0]),
            deque_op.push (some [20, 0, 0, 0]), deque_op.unshift (some [0, 0, 0, 0]),
            deque_op.unshift (some [0, 0, 0, 0])] = some (q1, h1, elems)
      ∧ q1.head = some hd ∧ q1.tail = some tl
      ∧ h1.prev hd = ⟨none, false⟩ ∧ h1.next tl = ⟨none, false⟩ :=
  ⟨⟨by decide, by decide, by decide, by decide, by decide, rfl⟩,
    deque_outer_links_stay_null 7 _ 4 3 4096 _ _ _ (by decide) (by decide)
      (by decide) (by decide) (by decide) rfl⟩

/-! ### Deque: deletion marks are never cleared -/

/-- Keeping the marks is reflexive. -/
theorem MarksKept.refl (x : Option Nat) (h : NodeMem) : MarksKept x h h :=
  fun _ _ => ⟨id, id⟩

/-- Keeping the marks is transitive. -/
theorem MarksKept.trans {x : Option Nat} {h h1 h2 : NodeMem} (a : MarksKept x h h1)
    (b : MarksKept x h1 h2) : MarksKept x h h2 :=
  fun c hc => ⟨fun hm => (b c hc).1 ((a c hc).1 hm), fun hm => (b c hc).2 ((a c hc).2 hm)⟩

/-- Leaving a node out of the comparison weakens the statement. -/
theorem MarksKept.weaken {x : Option Nat} {h h1 : NodeMem} (a : MarksKept none h h1) :
    MarksKept x h h1 :=
  fun c _ => a c (by simp)

/-- A store to a reference count keeps the marks. -/
theorem MarksKept.set_ref {x : Option Nat} {h h1 : NodeMem} (k : MarksKept x h h1) (a r : Nat) :
    MarksKept x h (h1.set_ref a r) := k

/-- An increment of a reference count keeps the marks. -/
theorem MarksKept.inc_ref {x : Option Nat} {h h1 : NodeMem} (k : MarksKept x h h1) (a : Nat) :
    MarksKept x h (h1.inc_ref a) := k

/-- A store to a payload keeps the marks. -/
theorem MarksKept.set_data {x : Option Nat} {h h1 : NodeMem} (k : MarksKept x h h1) (a : Nat)
    (v : List Nat) : MarksKept x h (h1.set_data a v) := k

/-- A store to `a->prev` keeps the marks when `a` is left out of the comparison, or the
link stored is marked, or the link overwritten is not. -/
theorem MarksKept.set_prev {x : Option Nat} {h h1 : NodeMem} (k : MarksKept x h h1) (a : Nat)
    (l : Link) (hl : some a = x ∨ l.d = true ∨ (h1.prev a).d = false) :
    MarksKept x h (h1.set_prev a l) := by
  intro c hc
  refine ⟨fun hm => ?_, (k c hc).2⟩
  have h1m := (k c hc).1 hm
  show (Function.update h1.prev a l c).d = true
  by_cases hca : c = a
  · subst hca
    rw [Function.update_same]
    rcases hl with hl | hl | hl
    · exact absurd hl hc
    · exact hl
    · rw [hl] at h1m; exact absurd h1m (by simp)
  · rw [Function.update_noteq hca]; exact h1m

/-- A store to `a->next` keeps the marks when `a` is left out of the comparison, or the
link stored is marked, or the link overwritten is not. -/
theorem MarksKept.set_next {x : Option Nat} {h h1 : NodeMem} (k : MarksKept x h h1) (a : Nat)
    (l : Link) (hl : some a = x ∨ l.d = true ∨ (h1.next a).d = false) :
    MarksKept x h (h1.set_next a l) := by
  intro c hc
  refine ⟨(k c hc).1, fun hm => ?_⟩
  have h1m := (k c hc).2 hm
  show (Function.update h1.next a l c).d = true
  by_cases hca : c = a
  · subst hca
    rw [Function.update_same]
    rcases hl with hl | hl | hl
    · exact absurd hl hc
    · exact hl
    · rw [hl] at h1m; exact absurd h1m (by simp)
  · rw [Function.update_noteq hca]; exact h1m

/-- A compare-and-swap on `a->prev` keeps the marks when the expected link is unmarked or
the new link is marked. -/
theorem MarksKept.cas_prev {x : Option Nat} {h h1 : NodeMem} (k : MarksKept x h h1) (a : Nat)
    (e d : Link) (hl : e.d = false ∨ d.d = true) :
    MarksKept x h (h1.set_prev a (CAS (h1.prev a) e d).2) := by
  apply k.set_prev
  right
  simp only [CAS]
  split
  · rename_i heq
    rcases hl with hl | hl
    · right; rw [heq]; exact hl
    · left; exact hl
  · cases hd : (h1.prev a).d
    · right; rfl
    · left; rfl

/-- A compare-and-swap on `a->next` keeps the marks when the expected link is unmarked or
the new link is marked. -/
theorem MarksKept.cas_next {x : Option Nat} {h h1 : NodeMem} (k : MarksKept x h h1) (a : Nat)
    (e d : Link) (hl : e.d = false ∨ d.d = true) :
    MarksKept x h (h1.set_next a (CAS (h1.next a) e d).2) := by
  apply k.set_next
  right
  simp only [CAS]
  split
  · rename_i heq
    rcases hl with hl | hl
    · right; rw [heq]; exact hl
    · left; exact hl
  · cases hd : (h1.next a).d
    · right; rfl
    · left; rfl

/-- A computation without result. -/
theorem Keeps.none {α : Type} {x : Option Nat} {mem : α → NodeMem} {h : NodeMem} :
    Keeps x mem h (Option.none : Option α) :=
  fun _ hr => by simp at hr

/-- A computation that returns at once. -/
theorem Keeps.some {α : Type} {x : Option Nat} {mem : α → NodeMem} {h : NodeMem} {r : α}
    (k : MarksKept x h (mem r)) : Keeps x mem h (Option.some r) :=
  fun r1 hr => by
    simp only [Option.some.injEq] at hr
    rw [← hr]; exact k

/-- Sequencing: the continuation runs on a memory that kept the marks. -/
theorem Keeps.bind {α β : Type} {x : Option Nat} {m1 : α → NodeMem} {m2 : β → NodeMem}
    {h : NodeMem} {o : Option α} {f : α → Option β} (ko : Keeps x m1 h o)
    (kf : ∀ r, MarksKept x h (m1 r) → Keeps x m2 h (f r)) : Keeps x m2 h (o.bind f) := by
  intro r hr
  obtain ⟨r1, h1, h2⟩ := Option.bind_eq_some.1 hr
  exact kf r1 (ko r1 h1) r h2

/-- `REL` keeps the marks. -/
theorem REL_keeps {x : Option Nat} {h h1 : NodeMem} (k : MarksKept x h h1) (fuel : Nat)
    (n : Option Nat) : Keeps x id h (REL fuel h1 n) := by
  intro r hr
  obtain ⟨hp, hn, _⟩ := REL_links fuel h1 n r hr
  intro c hc
  show ((h.prev c).d = true → (r.prev c).d = true) ∧ ((h.next c).d = true → (r.next c).d = true)
  rw [hp, hn]
  exact k c hc

/-- The conditional release of `last` keeps the marks. -/
theorem REL_last_keeps {x : Option Nat} {h h1 : NodeMem} (k : MarksKept x h h1) (fuel : Nat)
    (n : Option Nat) : Keeps x id h (REL_last fuel h1 n) := by
  cases n with
  | none => exact Keeps.some k
  | some l => exact REL_keeps k fuel (some l)

/-- `DEREF` keeps the marks. -/
theorem DEREF_keeps {x : Option Nat} {h h1 : NodeMem} (k : MarksKept x h h1) (l : Link) :
    Keeps x Prod.fst h (DEREF h1 l) := by
  unfold DEREF
  split
  · exact Keeps.some k
  · split
    · exact Keeps.none
    · exact Keeps.some (k.inc_ref _)

/-- `DEREF_D` keeps the marks. -/
theorem DEREF_D_keeps {x : Option Nat} {h h1 : NodeMem} (k : MarksKept x h h1) (l : Link) :
    Keeps x Prod.fst h (DEREF_D h1 l) := by
  unfold DEREF_D
  split
  · exact Keeps.none
  · exact Keeps.some (k.inc_ref _)

/-- `COPY` keeps the marks. -/
theorem COPY_keeps {x : Option Nat} {h h1 : NodeMem} (k : MarksKept x h h1) (n : Option Nat) :
    Keeps x id h (COPY h1 n) := by
  unfold COPY
  split
  · exact Keeps.none
  · exact Keeps.some (k.inc_ref _)

/-- `deque_mark_prev` keeps the marks: it only sets one. -/
theorem deque_mark_prev_keeps {x : Option Nat} {h : NodeMem} (node : Nat) :
    ∀ (fuel : Nat) (h1 : NodeMem), MarksKept x h h1 →
      Keeps x id h (deque_mark_prev fuel h1 node) := by
  intro fuel
  induction fuel with
  | zero => intro h1 _; exact Keeps.none
  | succ fuel ih =>
    intro h1 k
    simp only [deque_mark_prev]
    split
    · exact Keeps.some k
    · split
      · exact Keeps.some (k.cas_prev node _ _ (Or.inr rfl))
      · exact ih _ (k.cas_prev node _ _ (Or.inr rfl))

/-- `RemoveCrossReference` keeps the marks: the links it stores are marked. -/
theorem RemoveCrossReference_keeps {x : Option Nat} {h : NodeMem} (node : Nat) :
    ∀ (fuel : Nat) (h1 : NodeMem), MarksKept x h h1 →
      Keeps x id h (RemoveCrossReference fuel h1 node) := by
  intro fuel
  induction fuel with
  | zero => intro h1 _; exact Keeps.none
  | succ fuel ih =>
    intro h1 k
    simp only [RemoveCrossReference]
    split
    · exact Keeps.none
    · split
      · refine Keeps.bind (DEREF_D_keeps k _) ?_
        rintro ⟨h2, prev2⟩ k2
        refine Keeps.bind (REL_keeps (MarksKept.set_prev k2 node _ (Or.inr (Or.inl rfl))) _ _) ?_
        intro h3 k3
        exact ih h3 k3
      · split
        · exact Keeps.none
        · split
          · refine Keeps.bind (DEREF_D_keeps k _) ?_
            rintro ⟨h2, next2⟩ k2
            exact ih _ (MarksKept.set_next k2 node _ (Or.inr (Or.inl rfl)))
          · exact Keeps.some k

/-- The loop of `HelpInsert` keeps the marks: its compare-and-swap on `node->prev`
expects an unmarked link, the one on `last->next` too. -/
theorem HelpInsert_loop_keeps {x : Option Nat} {h : NodeMem} (node : Nat) :
    ∀ (fuel : Nat) (h1 : NodeMem) (last prev : Option Nat), MarksKept x h h1 →
      Keeps x Prod.fst h (HelpInsert_loop node fuel h1 last prev) := by
  intro fuel
  induction fuel with
  | zero => intro h1 _ _ _; exact Keeps.none
  | succ fuel ih =>
    intro h1 last prev k
    simp only [HelpInsert_loop]
    split
    · exact Keeps.none
    · rename_i pv
      refine Keeps.bind (DEREF_keeps k _) ?_
      rintro ⟨h2, prev2⟩ k2
      dsimp only
      split
      · split
        · rename_i l
          refine Keeps.bind (deque_mark_prev_keeps pv fuel _ k2) ?_
          intro h3 k3
          refine Keeps.bind (DEREF_D_keeps k3 _) ?_
          rintro ⟨h4, next2⟩ k4
          dsimp only
          refine Keeps.bind (REL_keeps (MarksKept.cas_next k4 l _ _ (Or.inl rfl)) _ _) ?_
          intro h5 k5
          refine Keeps.bind (REL_keeps k5 _ _) ?_
          intro h6 k6
          exact ih _ _ _ k6
        · refine Keeps.bind (DEREF_D_keeps k2 _) ?_
          rintro ⟨h3, prev3⟩ k3
          dsimp only
          refine Keeps.bind (REL_keeps k3 _ _) ?_
          intro h4 k4
          exact ih _ _ _ k4
      · rename_i p2
        split
        · refine Keeps.bind (REL_keeps k2 _ _) ?_
          intro h3 k3
          exact Keeps.some k3
        · rename_i hd
          split
          · refine Keeps.bind (REL_last_keeps k2 _ _) ?_
            intro h3 k3
            exact ih _ _ _ k3
          · refine Keeps.bind (REL_keeps k2 _ _) ?_
            intro h3 k3
            split
            · exact Keeps.some k3
            · split
              · have hcas := MarksKept.cas_prev k3 node (h2.prev node) (LINK_MAKER (some pv) false)
                  (Or.inl (by simpa using hd))
                split
                · refine Keeps.bind (COPY_keeps hcas _) ?_
                  intro h4 k4
                  refine Keeps.bind (REL_keeps k4 _ _) ?_
                  intro h5 k5
                  split
                  · exact ih _ _ _ k5
                  · exact Keeps.some k5
                · exact ih _ _ _ hcas
              · exact ih _ _ _ k3

/-- `HelpInsert` keeps the marks. -/
theorem HelpInsert_keeps {x : Option Nat} {h h1 : NodeMem} (k : MarksKept x h h1) (fuel : Nat)
    (prev : Option Nat) (node : Nat) : Keeps x Prod.fst h (HelpInsert fuel h1 prev node) := by
  unfold HelpInsert
  refine Keeps.bind (HelpInsert_loop_keeps node fuel h1 none prev k) ?_
  rintro ⟨h2, last, prev1⟩ k2
  dsimp only
  refine Keeps.bind (REL_last_keeps k2 _ _) ?_
  intro h3 k3
  exact Keeps.some k3

/-- The loop of `HelpDelete` keeps the marks: both compare-and-swaps expect an unmarked
link. -/
theorem HelpDelete_loop_keeps {x : Option Nat} {h : NodeMem} (node : Nat) :
    ∀ (fuel : Nat) (h1 : NodeMem) (last prev next : Option Nat), MarksKept x h h1 →
      Keeps x Prod.fst h (HelpDelete_loop node fuel h1 last prev next) := by
  intro fuel
  induction fuel with
  | zero => intro h1 _ _ _ _; exact Keeps.none
  | succ fuel ih =>
    intro h1 last prev next k
    simp only [HelpDelete_loop]
    split
    · exact Keeps.some k
    · split
      · exact Keeps.none
      · exact Keeps.none
      · rename_i nx pv _
        split
        · refine Keeps.bind (deque_mark_prev_keeps nx fuel _ k) ?_
          intro h2 k2
          refine Keeps.bind (DEREF_D_keeps k2 _) ?_
          rintro ⟨h3, next2⟩ k3
          dsimp only
          refine Keeps.bind (REL_keeps k3 _ _) ?_
          intro h4 k4
          exact ih _ _ _ _ k4
        · refine Keeps.bind (DEREF_keeps k _) ?_
          rintro ⟨h2, prev2⟩ k2
          dsimp only
          split
          · split
            · rename_i l
              refine Keeps.bind (deque_mark_prev_keeps pv fuel _ k2) ?_
              intro h3 k3
              refine Keeps.bind (DEREF_D_keeps k3 _) ?_
              rintro ⟨h4, next2⟩ k4
              dsimp only
              refine Keeps.bind (REL_keeps (MarksKept.cas_next k4 l _ _ (Or.inl rfl)) _ _) ?_
              intro h5 k5
              refine Keeps.bind (REL_keeps k5 _ _) ?_
              intro h6 k6
              exact ih _ _ _ _ k6
            · refine Keeps.bind (DEREF_D_keeps k2 _) ?_
              rintro ⟨h3, prev3⟩ k3
              dsimp only
              refine Keeps.bind (REL_keeps k3 _ _) ?_
              intro h4 k4
              exact ih _ _ _ _ k4
          · rename_i p2
            split
            · refine Keeps.bind (REL_last_keeps k2 _ _) ?_
              intro h3 k3
              exact ih _ _ _ _ k3
            · refine Keeps.bind (REL_keeps k2 _ _) ?_
              intro h3 k3
              have hcas := MarksKept.cas_next k3 pv (LINK_MAKER (some node) false)
                (LINK_MAKER (some nx) false) (Or.inl rfl)
              split
              · refine Keeps.bind (COPY_keeps hcas _) ?_
                intro h4 k4
                refine Keeps.bind (REL_keeps k4 _ _) ?_
                intro h5 k5
                exact Keeps.some k5
              · exact ih _ _ _ _ hcas

/-- `HelpDelete` keeps the marks. -/
theorem HelpDelete_keeps {x : Option Nat} {h h1 : NodeMem} (k : MarksKept x h h1) (fuel : Nat)
    (node : Nat) : Keeps x id h (HelpDelete fuel h1 node) := by
  unfold HelpDelete
  refine Keeps.bind (deque_mark_prev_keeps node fuel _ k) ?_
  intro h2 k2
  refine Keeps.bind (DEREF_D_keeps k2 _) ?_
  rintro ⟨h3, prev⟩ k3
  dsimp only
  refine Keeps.bind (DEREF_D_keeps k3 _) ?_
  rintro ⟨h4, next⟩ k4
  dsimp only
  refine Keeps.bind (HelpDelete_loop_keeps node fuel _ _ _ _ k4) ?_
  rintro ⟨h5, last, prev1, next1⟩ k5
  dsimp only
  refine Keeps.bind (REL_last_keeps k5 _ _) ?_
  intro h6 k6
  refine Keeps.bind (REL_keeps k6 _ _) ?_
  intro h7 k7
  exact REL_keeps k7 _ _

/-- The loop of `deque_push_common` keeps the marks: its compare-and-swap on
`next->prev` expects the unmarked link it read. -/
theorem deque_push_common_loop_keeps {x : Option Nat} {h : NodeMem} (node next : Nat) :
    ∀ (fuel : Nat) (h1 : NodeMem), MarksKept x h h1 →
      Keeps x id h (deque_push_common_loop node next fuel h1) := by
  intro fuel
  induction fuel with
  | zero => intro h1 _; exact Keeps.none
  | succ fuel ih =>
    intro h1 k
    simp only [deque_push_common_loop]
    split
    · exact Keeps.some k
    · rename_i hc
      have hd : (h1.prev next).d = false := by
        cases hb : (h1.prev next).d
        · rfl
        · exact absurd (Or.inl hb) hc
      have hcas := MarksKept.cas_prev k next (h1.prev next) (LINK_MAKER (some node) false)
        (Or.inl hd)
      split
      · refine Keeps.bind (COPY_keeps hcas _) ?_
        intro h2 k2
        refine Keeps.bind (REL_keeps k2 _ _) ?_
        intro h3 k3
        split
        · refine Keeps.bind (COPY_keeps k3 _) ?_
          intro h4 k4
          refine Keeps.bind (HelpInsert_keeps k4 _ _ _) ?_
          rintro ⟨h5, prev2⟩ k5
          exact REL_keeps k5 _ _
        · exact Keeps.some k3
      · exact ih _ hcas

/-- `deque_push_common` keeps the marks. -/
theorem deque_push_common_keeps {x : Option Nat} {h h1 : NodeMem} (k : MarksKept x h h1)
    (fuel : Nat) (node : Nat) (next : Option Nat) :
    Keeps x id h (deque_push_common fuel h1 node next) := by
  unfold deque_push_common
  split
  · exact Keeps.none
  · refine Keeps.bind (deque_push_common_loop_keeps node _ fuel h1 k) ?_
    intro h2 k2
    refine Keeps.bind (REL_keeps k2 _ _) ?_
    intro h3 k3
    exact REL_keeps k3 _ _

/-- The loop of `deque_pop` keeps the marks: its compare-and-swap on `node->next` sets
the mark. -/
theorem deque_pop_loop_keeps {x : Option Nat} {h : NodeMem} (vb : Nat) (tail : Option Nat)
    (out : List Nat) :
    ∀ (fuel : Nat) (h1 : NodeMem) (prev : Option Nat), MarksKept x h h1 →
      Keeps x Prod.fst h (deque_pop_loop vb tail out fuel h1 prev) := by
  intro fuel
  induction fuel with
  | zero => intro h1 _ _; exact Keeps.none
  | succ fuel ih =>
    intro h1 prev k
    simp only [deque_pop_loop]
    split
    · exact Keeps.none
    · rename_i pv
      refine Keeps.bind (DEREF_keeps k _) ?_
      rintro ⟨h2, node⟩ k2
      dsimp only
      split
      · refine Keeps.bind (REL_keeps k2 _ _) ?_
        intro h3 k3
        refine Keeps.bind (REL_keeps k3 _ _) ?_
        intro h4 k4
        exact Keeps.some k4
      · split
        · exact Keeps.none
        · rename_i nd _
          split
          · refine Keeps.bind (HelpDelete_keeps k2 _ _) ?_
            intro h3 k3
            refine Keeps.bind (REL_keeps k3 _ _) ?_
            intro h4 k4
            exact ih _ _ k4
          · have hcas := MarksKept.cas_next k2 nd (h2.next nd)
              (LINK_MAKER (h2.next nd).p true) (Or.inr rfl)
            split
            · refine Keeps.bind (HelpDelete_keeps hcas _ _) ?_
              intro h3 k3
              refine Keeps.bind (DEREF_D_keeps k3 _) ?_
              rintro ⟨h4, next⟩ k4
              dsimp only
              split
              · exact Keeps.none
              · refine Keeps.bind (HelpInsert_keeps k4 _ _ _) ?_
                rintro ⟨h5, prev1⟩ k5
                dsimp only
                refine Keeps.bind (REL_keeps k5 _ _) ?_
                intro h6 k6
                refine Keeps.bind (REL_keeps k6 _ _) ?_
                intro h7 k7
                intro r hr
                obtain ⟨o1, _, ho⟩ := Option.bind_eq_some.1 hr
                simp only [Option.some.injEq] at ho
                rw [← ho]; exact k7
            · refine Keeps.bind (REL_keeps hcas _ _) ?_
              intro h3 k3
              exact ih _ _ k3

/-- The loop of `deque_unshift` keeps the marks: its compare-and-swap on `node->next`
sets the mark. -/
theorem deque_unshift_loop_keeps {x : Option Nat} {h : NodeMem} (vb : Nat) (head : Option Nat)
    (next : Nat) (out : List Nat) :
    ∀ (fuel : Nat) (h1 : NodeMem) (node : Option Nat), MarksKept x h h1 →
      Keeps x Prod.fst h (deque_unshift_loop vb head next out fuel h1 node) := by
  intro fuel
  induction fuel with
  | zero => intro h1 _ _; exact Keeps.none
  | succ fuel ih =>
    intro h1 node k
    simp only [deque_unshift_loop]
    split
    · exact Keeps.none
    · rename_i nd
      split
      · refine Keeps.bind (HelpInsert_keeps k _ _ _) ?_
        rintro ⟨h2, node1⟩ k2
        exact ih _ _ k2
      · split
        · refine Keeps.bind (REL_keeps k _ _) ?_
          intro h2 k2
          refine Keeps.bind (REL_keeps k2 _ _) ?_
          intro h3 k3
          exact Keeps.some k3
        · have hcas := MarksKept.cas_next k nd (LINK_MAKER (some next) false)
            (LINK_MAKER (some next) true) (Or.inr rfl)
          split
          · refine Keeps.bind (HelpDelete_keeps hcas _ _) ?_
            intro h2 k2
            refine Keeps.bind (DEREF_D_keeps k2 _) ?_
            rintro ⟨h3, prev⟩ k3
            dsimp only
            refine Keeps.bind (HelpInsert_keeps k3 _ _ _) ?_
            rintro ⟨h4, prev1⟩ k4
            dsimp only
            refine Keeps.bind (REL_keeps k4 _ _) ?_
            intro h5 k5
            refine Keeps.bind (REL_keeps k5 _ _) ?_
            intro h6 k6
            intro r hr
            obtain ⟨o1, _, ho⟩ := Option.bind_eq_some.1 hr
            simp only [Option.some.injEq] at ho
            rw [← ho]; exact k6
          · exact ih _ _ hcas

/-- `deque_pop` keeps the marks. -/
theorem deque_pop_keeps (fuel : Nat) (q : Option deq_t) (val : Option (List Nat))
    (h : NodeMem) : Keeps none (fun r => r.2.1) h (deque_pop fuel q val h) := by
  unfold deque_pop
  split
  · exact Keeps.some (MarksKept.refl _ _)
  · exact Keeps.some (MarksKept.refl _ _)
  · refine Keeps.bind (COPY_keeps (MarksKept.refl _ _) _) ?_
    intro h1 k1
    refine Keeps.bind (deque_pop_loop_keeps _ _ _ fuel _ _ k1) ?_
    rintro ⟨h2, r⟩ k2
    dsimp only
    split
    · exact Keeps.some k2
    · refine Keeps.bind (RemoveCrossReference_keeps _ fuel _ k2) ?_
      intro h3 k3
      refine Keeps.bind (REL_keeps k3 _ _) ?_
      intro h4 k4
      exact Keeps.some k4

/-- `deque_unshift` keeps the marks. -/
theorem deque_unshift_keeps (fuel : Nat) (q : Option deq_t) (val : Option (List Nat))
    (h : NodeMem) : Keeps none (fun r => r.2.1) h (deque_unshift fuel q val h) := by
  unfold deque_unshift
  split
  · exact Keeps.some (MarksKept.refl _ _)
  · exact Keeps.some (MarksKept.refl _ _)
  · split
    · exact Keeps.none
    · refine Keeps.bind (COPY_keeps (MarksKept.refl _ _) _) ?_
      intro h1 k1
      refine Keeps.bind (DEREF_keeps k1 _) ?_
      rintro ⟨h2, node⟩ k2
      dsimp only
      refine Keeps.bind (deque_unshift_loop_keeps _ _ _ _ fuel _ _ k2) ?_
      rintro ⟨h3, r⟩ k3
      dsimp only
      split
      · exact Keeps.some k3
      · refine Keeps.bind (RemoveCrossReference_keeps _ fuel _ k3) ?_
        intro h4 k4
        refine Keeps.bind (REL_keeps k4 _ _) ?_
        intro h5 k5
        exact Keeps.some k5

/-- The loop of `deque_push` keeps the marks of all nodes but the new one, whose links it
stores. -/
theorem deque_push_loop_keeps {h : NodeMem} (node prev : Nat) :
    ∀ (fuel : Nat) (h1 : NodeMem) (next : Option Nat), MarksKept (some node) h h1 →
      Keeps (some node) Prod.fst h (deque_push_loop node prev fuel h1 next) := by
  intro fuel
  induction fuel with
  | zero => intro h1 _ _; exact Keeps.none
  | succ fuel ih =>
    intro h1 next k
    simp only [deque_push_loop]
    split
    · refine Keeps.bind (REL_keeps k _ _) ?_
      intro h2 k2
      refine Keeps.bind (DEREF_keeps k2 _) ?_
      rintro ⟨h3, next1⟩ k3
      exact ih _ _ k3
    · have hst := MarksKept.set_next (MarksKept.set_prev k node (LINK_MAKER (some prev) false)
        (Or.inl rfl)) node (LINK_MAKER next false) (Or.inl rfl)
      have hcas := MarksKept.cas_next hst prev (LINK_MAKER next false)
        (LINK_MAKER (some node) false) (Or.inl rfl)
      split
      · refine Keeps.bind (COPY_keeps hcas _) ?_
        intro h2 k2
        exact Keeps.some k2
      · exact ih _ _ hcas

/-- The loop of `deque_shift` keeps the marks of all nodes but the new one, whose links it
stores. -/
theorem deque_shift_loop_keeps {h : NodeMem} (node next : Nat) :
    ∀ (fuel : Nat) (h1 : NodeMem) (prev : Option Nat), MarksKept (some node) h h1 →
      Keeps (some node) id h (deque_shift_loop node next fuel h1 prev) := by
  intro fuel
  induction fuel with
  | zero => intro h1 _ _; exact Keeps.none
  | succ fuel ih =>
    intro h1 prev k
    simp only [deque_shift_loop]
    split
    · exact Keeps.none
    · rename_i pv
      split
      · refine Keeps.bind (HelpInsert_keeps k _ _ _) ?_
        rintro ⟨h2, prev1⟩ k2
        exact ih _ _ k2
      · have hst := MarksKept.set_next (MarksKept.set_prev k node (LINK_MAKER (some pv) false)
          (Or.inl rfl)) node (LINK_MAKER (some next) false) (Or.inl rfl)
        have hcas := MarksKept.cas_next hst pv (LINK_MAKER (some next) false)
          (LINK_MAKER (some node) false) (Or.inl rfl)
        split
        · exact COPY_keeps hcas _
        · exact ih _ _ hcas

/-- `CreateNode` changes the links of the fragment it takes from the pool only. -/
theorem CreateNode_keeps (fuel : Nat) (pool : memory_pool) (vb : Nat) (frags : FragMem)
    (h : NodeMem) (v : List Nat) (node : Option Nat) (e : Option errno_t)
    (pool1 : memory_pool) (h1 : NodeMem)
    (hc : CreateNode fuel pool vb frags h v = some (node, e, pool1, h1)) :
    MarksKept node h h1 := by
  rcases CreateNode_cases hc with ⟨e', p', _, hres⟩ | ⟨n, e', p', _, _, hres⟩
  · simp only [Prod.mk.injEq] at hres
    rw [hres.2.2.2]
    exact MarksKept.refl _ _
  · simp only [Prod.mk.injEq] at hres
    obtain ⟨hn, _, _, hh⟩ := hres
    subst hn; subst hh
    intro c hc'
    have hcn : c ≠ n := fun hcn => hc' (by rw [hcn])
    constructor
    · intro hm
      show (Function.update h.prev n _ c).d = true
      rw [Function.update_noteq hcn]; exact hm
    · intro hm
      show (Function.update h.next n _ c).d = true
      rw [Function.update_noteq hcn]; exact hm

/-- `deque_push` keeps the marks of all nodes but the one it creates. -/
theorem deque_push_keeps (fuel : Nat) (q : deq_t) (v : List Nat) (frags : FragMem)
    (h : NodeMem) :
    Keeps ((CreateNode fuel q.pool q.val_bytes frags h v).bind fun c => c.1)
      (fun r => r.2.2) h (deque_push fuel (some q) (some v) frags h) := by
  unfold deque_push
  simp only
  cases hc : CreateNode fuel q.pool q.val_bytes frags h v with
  | none => exact Keeps.none
  | some c =>
    obtain ⟨node, e, pool1, h1⟩ := c
    have k1 := CreateNode_keeps fuel q.pool q.val_bytes frags h v node e pool1 h1 hc
    simp only [Option.some_bind]
    cases node with
    | none => exact Keeps.some k1
    | some n =>
      simp only
      split
      · exact Keeps.none
      · refine Keeps.bind (COPY_keeps k1 _) ?_
        intro h2 k2
        refine Keeps.bind (DEREF_keeps k2 _) ?_
        rintro ⟨h3, next⟩ k3
        dsimp only
        refine Keeps.bind (deque_push_loop_keeps n _ fuel _ _ k3) ?_
        rintro ⟨h4, next1⟩ k4
        dsimp only
        refine Keeps.bind (deque_push_common_keeps k4 _ _ _) ?_
        intro h5 k5
        exact Keeps.some k5

/-- `deque_shift` keeps the marks of all nodes but the one it creates. -/
theorem deque_shift_keeps (fuel : Nat) (q : deq_t) (v : List Nat) (frags : FragMem)
    (h : NodeMem) :
    Keeps ((CreateNode fuel q.pool q.val_bytes frags h v).bind fun c => c.1)
      (fun r => r.2.2) h (deque_shift fuel (some q) (some v) frags h) := by
  unfold deque_shift
  simp only
  cases hc : CreateNode fuel q.pool q.val_bytes frags h v with
  | none => exact Keeps.none
  | some c =>
    obtain ⟨node, e, pool1, h1⟩ := c
    have k1 := CreateNode_keeps fuel q.pool q.val_bytes frags h v node e pool1 h1 hc
    simp only [Option.some_bind]
    cases node with
    | none => exact Keeps.some k1
    | some n =>
      simp only
      split
      · exact Keeps.none
      · refine Keeps.bind (COPY_keeps k1 _) ?_
        intro h2 k2
        refine Keeps.bind (DEREF_keeps k2 _) ?_
        rintro ⟨h3, prev⟩ k3
        dsimp only
        refine Keeps.bind (deque_shift_loop_keeps n _ fuel _ _ k3) ?_
        intro h4 k4
        refine Keeps.bind (deque_push_common_keeps k4 _ _ _) ?_
        intro h5 k5
        exact Keeps.some k5

/-! ### Deque: deletion marks in sessions -/

/-- The node returned by `CreateNode` is a fragment the pool had not handed out. -/
theorem CreateNode_fresh {N : Nat} {pool pool1 : memory_pool} {frags : FragMem}
    {lp outp : List Nat} {fuel vb : Nat} {h h1 : NodeMem} {v : List Nat} {n : Nat}
    {e : Option errno_t} (hpool : PoolInv N pool frags lp outp)
    (hc : CreateNode fuel pool vb frags h v = some (some n, e, pool1, h1)) : n ∉ outp := by
  rcases CreateNode_cases hc with ⟨e', p', _, hres⟩ | ⟨node, e', p', halloc, _, hres⟩
  · simp at hres
  · simp only [Prod.mk.injEq, Option.some.injEq] at hres
    rcases mempool_alloc_fresh hpool halloc with ⟨hn, _⟩ | ⟨a, l1, hp, hout, _⟩
    · simp at hn
    · simp only [Option.some.injEq] at hp
      rw [hres.1, hp]
      exact hout

/-- Leaving out a node whose links carry no mark is no restriction. -/
theorem MarksKept.of_unmarked {x : Option Nat} {h h1 : NodeMem} (k : MarksKept x h h1)
    (hx : ∀ a, some a = x → (h.prev a).d = false ∧ (h.next a).d = false) :
    MarksKept none h h1 := by
  intro a _
  by_cases hax : some a = x
  · obtain ⟨h1', h2'⟩ := hx a hax
    constructor
    · intro hm; rw [h1'] at hm; exact absurd hm (by simp)
    · intro hm; rw [h2'] at hm; exact absurd hm (by simp)
  · exact k a hax

/-- Running a list of calls that all complete, from a state in which only fragments taken
from the pool carry marks, keeps every mark, the invariant, and that property. -/
theorem deque_run_marks {N : Nat} {frags : FragMem} {hd tl : Nat} (fuel : Nat) :
    ∀ (ops : List deque_op) (q : deq_t) (h : NodeMem) (nodes : List (Nat × List Nat))
      (outp : List Nat) (elems : List (List Nat)) (q1 : deq_t) (h1 : NodeMem)
      (elems1 : List (List Nat)),
      DequeInv N q frags h hd tl nodes outp →
      (∀ a, a ∉ outp → (h.prev a).d = false ∧ (h.next a).d = false) →
      deque_run fuel ops q frags h elems = some (q1, h1, elems1) →
      MarksKept none h h1
        ∧ ∃ nodes1 outp1, DequeInv N q1 frags h1 hd tl nodes1 outp1
          ∧ (∀ a, a ∉ outp1 → (h1.prev a).d = false ∧ (h1.next a).d = false) := by
  intro ops
  induction ops with
  | nil =>
    intro q h nodes outp elems q1 h1 elems1 hinv hJ hrun
    simp only [deque_run, Option.some.injEq, Prod.mk.injEq] at hrun
    obtain ⟨rfl, rfl, rfl⟩ := hrun
    exact ⟨MarksKept.refl _ _, nodes, outp, hinv, hJ⟩
  | cons op ops ih =>
    intro q h nodes outp elems q1 h1 elems1 hinv hJ hrun
    obtain ⟨lp, hpool⟩ := hinv.pool
    cases op with
    | push v =>
      simp only [deque_run] at hrun
      cases hp : deque_push fuel (some q) v frags h with
      | none => rw [hp] at hrun; simp at hrun
      | some r =>
        obtain ⟨st, q2, h2⟩ := r
        obtain ⟨q3, nodes3, outp3, hq, hinv3, _, _, hsub, hframe, _⟩ := deque_push_inv hinv hp
        subst hq
        rw [hp] at hrun
        simp only at hrun
        have hJ3 : ∀ a, a ∉ outp3 → (h2.prev a).d = false ∧ (h2.next a).d = false := by
          intro a ha
          obtain ⟨e1, e2⟩ := hframe a ha
          rw [e1, e2]
          exact hJ a (fun hm => ha (hsub a hm))
        have hk : MarksKept none h h2 := by
          cases v with
          | none =>
            simp only [deque_push, Option.some.injEq, Prod.mk.injEq] at hp
            rw [← hp.2.2]; exact MarksKept.refl _ _
          | some v =>
            have hk1 := deque_push_keeps fuel q v frags h _ hp
            refine MarksKept.of_unmarked hk1 ?_
            intro a ha
            obtain ⟨c, hc, hc1⟩ := Option.bind_eq_some.1 ha.symm
            obtain ⟨n, e, p1, hh⟩ := c
            simp only at hc1
            subst hc1
            exact hJ a (CreateNode_fresh hpool hc)
        obtain ⟨hk2, n4, o4, hinv4, hJ4⟩ := ih q3 h2 nodes3 outp3 _ q1 h1 elems1 hinv3 hJ3 hrun
        exact ⟨hk.trans hk2, n4, o4, hinv4, hJ4⟩
    | shift v =>
      simp only [deque_run] at hrun
      cases hp : deque_shift fuel (some q) v frags h with
      | none => rw [hp] at hrun; simp at hrun
      | some r =>
        obtain ⟨st, q2, h2⟩ := r
        obtain ⟨q3, nodes3, outp3, hq, hinv3, _, _, hsub, hframe, _⟩ := deque_shift_inv hinv hp
        subst hq
        rw [hp] at hrun
        simp only at hrun
        have hJ3 : ∀ a, a ∉ outp3 → (h2.prev a).d = false ∧ (h2.next a).d = false := by
          intro a ha
          obtain ⟨e1, e2⟩ := hframe a ha
          rw [e1, e2]
          exact hJ a (fun hm => ha (hsub a hm))
        have hk : MarksKept none h h2 := by
          cases v with
          | none =>
            simp only [deque_shift, Option.some.injEq, Prod.mk.injEq] at hp
            rw [← hp.2.2]; exact MarksKept.refl _ _
          | some v =>
            have hk1 := deque_shift_keeps fuel q v frags h _ hp
            refine MarksKept.of_unmarked hk1 ?_
            intro a ha
            obtain ⟨c, hc, hc1⟩ := Option.bind_eq_some.1 ha.symm
            obtain ⟨n, e, p1, hh⟩ := c
            simp only at hc1
            subst hc1
            exact hJ a (CreateNode_fresh hpool hc)
        obtain ⟨hk2, n4, o4, hinv4, hJ4⟩ := ih q3 h2 nodes3 outp3 _ q1 h1 elems1 hinv3 hJ3 hrun
        exact ⟨hk.trans hk2, n4, o4, hinv4, hJ4⟩
    | pop out =>
      simp only [deque_run] at hrun
      cases hp : deque_pop fuel (some q) out h with
      | none => rw [hp] at hrun; simp at hrun
      | some r =>
        obtain ⟨st, h2, out2⟩ := r
        obtain ⟨nodes3, hinv3, _, _, hframe, _⟩ := deque_pop_inv hinv hp
        rw [hp] at hrun
        simp only at hrun
        have hJ3 : ∀ a, a ∉ outp → (h2.prev a).d = false ∧ (h2.next a).d = false := by
          intro a ha
          obtain ⟨e1, e2⟩ := hframe a ha
          rw [e1, e2]
          exact hJ a ha
        have hk : MarksKept none h h2 := deque_pop_keeps fuel (some q) out h _ hp
        obtain ⟨hk2, n4, o4, hinv4, hJ4⟩ := ih q h2 nodes3 outp _ q1 h1 elems1 hinv3 hJ3 hrun
        exact ⟨hk.trans hk2, n4, o4, hinv4, hJ4⟩
    | unshift out =>
      simp only [deque_run] at hrun
      cases hp : deque_unshift fuel (some q) out h with
      | none => rw [hp] at hrun; simp at hrun
      | some r =>
        obtain ⟨st, h2, out2⟩ := r
        obtain ⟨nodes3, hinv3, _, _, hframe, _⟩ := deque_unshift_inv hinv hp
        rw [hp] at hrun
        simp only at hrun
        have hJ3 : ∀ a, a ∉ outp → (h2.prev a).d = false ∧ (h2.next a).d = false := by
          intro a ha
          obtain ⟨e1, e2⟩ := hframe a ha
          rw [e1, e2]
          exact hJ a ha
        have hk : MarksKept none h h2 := deque_unshift_keeps fuel (some q) out h _ hp
        obtain ⟨hk2, n4, o4, hinv4, hJ4⟩ := ih q h2 nodes3 outp _ q1 h1 elems1 hinv3 hJ3 hrun
        exact ⟨hk.trans hk2, n4, o4, hinv4, hJ4⟩

/-- Running two lists of calls one after the other is running their concatenation. -/
theorem deque_run_append (fuel : Nat) (frags : FragMem) (ops2 : List deque_op) :
    ∀ (ops1 : List deque_op) (q : deq_t) (h : NodeMem) (elems : List (List Nat)),
      deque_run fuel (ops1 ++ ops2) q frags h elems
        = (deque_run fuel ops1 q frags h elems).bind
            fun r => deque_run fuel ops2 r.1 frags r.2.1 r.2.2 := by
  intro ops1
  induction ops1 with
  | nil => intro q h elems; simp [deque_run]
  | cons op ops ih =>
    intro q h elems
    cases op with
    | push v =>
      simp only [List.cons_append, deque_run]
      cases deque_push fuel (some q) v frags h with
      | none => simp
      | some r =>
        obtain ⟨st, q2, h2⟩ := r
        cases q2 with
        | none => simp
        | some q3 => simp only; exact ih _ _ _
    | shift v =>
      simp only [List.cons_append, deque_run]
      cases deque_shift fuel (some q) v frags h with
      | none => simp
      | some r =>
        obtain ⟨st, q2, h2⟩ := r
        cases q2 with
        | none => simp
        | some q3 => simp only; exact ih _ _ _
    | pop out =>
      simp only [List.cons_append, deque_run]
      cases deque_pop fuel (some q) out h with
      | none => simp
      | some r =>
        obtain ⟨st, h2, o2⟩ := r
        simp only; exact ih _ _ _
    | unshift out =>
      simp only [List.cons_append, deque_run]
      cases deque_unshift fuel (some q) out h with
      | none => simp
      | some r =>
        obtain ⟨st, h2, o2⟩ := r
        simp only; exact ih _ _ _

/-! ### Deque: monotonicity of the deletion marks -/

/-- C29: no deque operation or helper clears a deletion mark. Started on any node memory,
`deque_mark_prev`, `HelpDelete`, `HelpInsert`, `RemoveCrossReference`,
`deque_push_common`, `deque_pop` and `deque_unshift` end, when they end, in a memory where
every `prev` or `next` link that was marked is still marked; `deque_push` and
`deque_shift` do so for the links of all nodes but the one `CreateNode` initialises for
them. In a session of one thread on a pool region zeroed by `calloc` that node is a fragment
never handed out before, so that between the state after the calls `ops1` and the state
after the further calls `ops2` every marked link stays marked, and a node with a marked
link is not on the chain from the head sentinel to the tail sentinel any more. -/
theorem deque_deletion_marks_are_never_cleared (fuel : Nat) (q0 : deq_t) (vb cap base : Nat)
    (frags : FragMem) (h0 : NodeMem) (ops1 ops2 : List deque_op)
    (hvb : 0 < vb) (hcap : 0 < cap) (hbase : 0 < base)
    (hnb : sizeof_deque_node * vb + 16 ≤ SIZE_MOD)
    (hfit : base + (cap + 2 + 1) * internal_mempool_aligned_data_bytes
        (MEMORY_POOL_MAKER none (sizeof_deque_node * vb) (cap + 2)) < SIZE_MOD)
    (hz : ∀ a, (h0.prev a).d = false ∧ (h0.next a).d = false)
    (hs : (deque_session (fuel + 1) q0 vb cap (some base) frags h0 (ops1 ++ ops2)).isSome
      = true) :
    (∀ (f : Nat) (h h1 : NodeMem) (node : Nat),
        deque_mark_prev f h node = some h1 → MarksKept none h h1)
    ∧ (∀ (f : Nat) (h h1 : NodeMem) (node : Nat),
        HelpDelete f h node = some h1 → MarksKept none h h1)
    ∧ (∀ (f : Nat) (h h1 : NodeMem) (prev p : Option Nat) (node : Nat),
        HelpInsert f h prev node = some (h1, p) → MarksKept none h h1)
    ∧ (∀ (f : Nat) (h h1 : NodeMem) (node : Nat),
        RemoveCrossReference f h node = some h1 → MarksKept none h h1)
    ∧ (∀ (f : Nat) (h h1 : NodeMem) (node : Nat) (next : Option Nat),
        deque_push_common f h node next = some h1 → MarksKept none h h1)
    ∧ (∀ (f : Nat) (q : Option deq_t) (out out1 : Option (List Nat)) (h h1 : NodeMem)
        (st : status), deque_pop f q out h = some (st, h1, out1) → MarksKept none h h1)
    ∧ (∀ (f : Nat) (q : Option deq_t) (out out1 : Option (List Nat)) (h h1 : NodeMem)
        (st : status), deque_unshift f q out h = some (st, h1, out1) → MarksKept none h h1)
    ∧ (∀ (f : Nat) (q : deq_t) (v : List Nat) (fr : FragMem) (h h1 : NodeMem) (st : status)
        (q1 : Option deq_t), deque_push f (some q) (some v) fr h = some (st, q1, h1) →
        MarksKept ((CreateNode f q.pool q.val_bytes fr h v).bind fun c => c.1) h h1)
    ∧ (∀ (f : Nat) (q : deq_t) (v : List Nat) (fr : FragMem) (h h1 : NodeMem) (st : status)
        (q1 : Option deq_t), deque_shift f (some q) (some v) fr h = some (st, q1, h1) →
        MarksKept ((CreateNode f q.pool q.val_bytes fr h v).bind fun c => c.1) h h1)
    ∧ ∃ q1 h1 e1 q2 h2 e2 hd tl addrs,
        deque_session (fuel + 1) q0 vb cap (some base) frags h0 ops1 = some (q1, h1, e1)
        ∧ deque_session (fuel + 1) q0 vb cap (some base) frags h0 (ops1 ++ ops2)
            = some (q2, h2, e2)
        ∧ MarksKept none h1 h2
        ∧ q2.head = some hd ∧ q2.tail = some tl
        ∧ List.Chain' (Deque.adj h2) (hd :: addrs ++ [tl])
        ∧ ∀ a, (h1.prev a).d = true ∨ (h1.next a).d = true → a ∉ hd :: addrs ++ [tl] := by
  refine ⟨fun f h h1 node hr => deque_mark_prev_keeps node f h (MarksKept.refl _ _) h1 hr,
    fun f h h1 node hr => HelpDelete_keeps (MarksKept.refl _ _) f node h1 hr,
    fun f h h1 prev p node hr => HelpInsert_keeps (MarksKept.refl _ _) f prev node (h1, p) hr,
    fun f h h1 node hr => RemoveCrossReference_keeps node f h (MarksKept.refl _ _) h1 hr,
    fun f h h1 node next hr => deque_push_common_keeps (MarksKept.refl _ _) f node next h1 hr,
    fun f q out out1 h h1 st hr => deque_pop_keeps f q out h (st, h1, out1) hr,
    fun f q out out1 h h1 st hr => deque_unshift_keeps f q out h (st, h1, out1) hr,
    fun f q v fr h h1 st q1 hr => deque_push_keeps f q v fr h (st, q1, h1) hr,
    fun f q v fr h h1 st q1 hr => deque_shift_keeps f q v fr h (st, q1, h1) hr, ?_⟩
  obtain ⟨q, frags1, h, hd, tl, hc, hinv, _, _, hm0, _⟩ :=
    deque_create_inv fuel q0 vb cap base frags h0 hvb hcap hbase hnb hfit
  have hsess : ∀ ops, deque_session (fuel + 1) q0 vb cap (some base) frags h0 ops
      = deque_run (fuel + 1) ops q frags1 h [] := by
    intro ops
    simp only [deque_session, hc, if_true]
  rw [hsess, deque_run_append] at hs
  obtain ⟨⟨q2, h2, e2⟩, hr2⟩ := Option.isSome_iff_exists.1 hs
  obtain ⟨⟨q1, h1, e1⟩, hr1, hr12⟩ := Option.bind_eq_some.1 hr2
  have hJ : ∀ a, a ∉ [tl, hd] → (h.prev a).d = false ∧ (h.next a).d = false := by
    intro a _
    obtain ⟨z1, z2⟩ := hz a
    obtain ⟨m1, m2⟩ := hm0 a
    constructor
    · cases hb : (h.prev a).d
      · rfl
      · rw [m1 hb] at z1; exact absurd z1 (by simp)
    · cases hb : (h.next a).d
      · rfl
      · rw [m2 hb] at z2; exact absurd z2 (by simp)
  obtain ⟨_, nodes1, outp1, hinv1, hJ1⟩ :=
    deque_run_marks (fuel + 1) ops1 q h [] [tl, hd] [] q1 h1 e1 hinv hJ hr1
  obtain ⟨hk, nodes2, outp2, hinv2, _⟩ :=
    deque_run_marks (fuel + 1) ops2 q1 h1 nodes1 outp1 e1 q2 h2 e2 hinv1 hJ1 hr12
  refine ⟨q1, h1, e1, q2, h2, e2, hd, tl, nodes2.map Prod.fst, ?_, ?_, hk, hinv2.head,
    hinv2.tail, hinv2.linked, ?_⟩
  · rw [hsess]; exact hr1
  · rw [hsess, deque_run_append]; exact hr2
  · intro a ha hmem
    have hp := Deque.chain_prev_unmarked (nodes2.map Prod.fst ++ [tl]) hd
      (by rw [hinv2.head_prev]) hinv2.linked a hmem
    have hn := Deque.chain_next_unmarked (by rw [hinv2.tail_next])
      (hd :: nodes2.map Prod.fst) hinv2.linked a hmem
    rcases ha with ha | ha
    · have := (hk a (by simp)).1 ha
      rw [hp] at this; exact absurd this (by simp)
    · have := (hk a (by simp)).2 ha
      rw [hn] at this; exact absurd this (by simp)

/-- Instance of `deque_deletion_marks_are_never_cleared`: two pushes and a pop, which
marks the links of the node it removes, followed by a shift, an unshift and a push. -/
theorem deque_deletion_marks_are_never_cleared_witness :
    (0 < 4 ∧ 0 < 4 ∧ 0 < 4096 ∧ sizeof_deque_node * 4 + 16 ≤ SIZE_MOD
      ∧ 4096 + (4 + 2 + 1) * internal_mempool_aligned_data_bytes
          (MEMORY_POOL_MAKER none (sizeof_deque_node * 4) (4 + 2)) < SIZE_MOD
      ∧ (∀ a, (NodeMem.prev ⟨fun _ => ⟨none, false⟩, fun _ => ⟨none, false⟩, fun _ => 0, fun _ => []⟩ a).d = false
          ∧ (NodeMem.next ⟨fun _ => ⟨none, false⟩, fun _ => ⟨none, false⟩, fun _ => 0, fun _ => []⟩ a).d = false)
      ∧ (deque_session (7 + 1) ⟨MEMORY_POOL_MAKER none 0 0, 0, none, none⟩ 4 4
          (some 4096) (fun _ => none)
          ⟨fun _ => ⟨none, false⟩, fun _ => ⟨none, false⟩, fun _ => 0, fun _ => []⟩
          ([deque_op.push (some [10, 0, 0, 0]), deque_op.push (some [20, 0, 0, 0]),
            deque_op.pop (some [0, 0, 0, 0])]
            ++ [deque_op.shift (some [30, 0, 0, 0]), deque_op.unshift (some [0, 0, 0, 0]),
            deque_op.push (some [40, 0, 0, 0])])).isSome = true)
    ∧ (∀ (f : Nat) (h h1 : NodeMem) (node : Nat),
        deque_mark_prev f h node = some h1 → MarksKept none h h1)
    ∧ (∀ (f : Nat) (h h1 : NodeMem) (node : Nat),
        HelpDelete f h node = some h1 → MarksKept none h h1)
    ∧ (∀ (f : Nat) (h h1 : NodeMem) (prev p : Option Nat) (node : Nat),
        HelpInsert f h prev node = some (h1, p) → MarksKept none h h1)
    ∧ (∀ (f : Nat) (h h1 : NodeMem) (node : Nat),
        RemoveCrossReference f h node = some h1 → MarksKept none h h1)
    ∧ (∀ (f : Nat) (h h1 : NodeMem) (node : Nat) (next : Option Nat),
        deque_push_common f h node next = some h1 → MarksKept none h h1)
    ∧ (∀ (f : Nat) (q : Option deq_t) (out out1 : Option (List Nat)) (h h1 : NodeMem)
        (st : status), deque_pop f q out h = some (st, h1, out1) → MarksKept none h h1)
    ∧ (∀ (f : Nat) (q : Option deq_t) (out out1 : Option (List Nat)) (h h1 : NodeMem)
        (st : status), deque_unshift f q out h = some (st, h1, out1) → MarksKept none h h1)
    ∧ (∀ (f : Nat) (q : deq_t) (v : List Nat) (fr : FragMem) (h h1 : NodeMem) (st : status)
        (q1 : Option deq_t), deque_push f (some q) (some v) fr h = some (st, q1, h1) →
        MarksKept ((CreateNode f q.pool q.val_bytes fr h v).bind fun c => c.1) h h1)
    ∧ (∀ (f : Nat) (q : deq_t) (v : List Nat) (fr : FragMem) (h h1 : NodeMem) (st : status)
        (q1 : Option deq_t), deque_shift f (some q) (some v) fr h = some (st, q1, h1) →
        MarksKept ((CreateNode f q.pool q.val_bytes fr h v).bind fun c => c.1) h h1)
    ∧ ∃ q1 h1 e1 q2 h2 e2 hd tl addrs,
        deque_session (7 + 1) ⟨MEMORY_POOL_MAKER none 0 0, 0, none, none⟩ 4 4
          (some 4096) (fun _ => none)
          ⟨fun _ => ⟨none, false⟩, fun _ => ⟨none, false⟩, fun _ => 0, fun _ => []⟩
          [deque_op.push (some [10, 0, 0, 0]), deque_op.push (some [20, 0, 0, 0]),
            deque_op.pop (some [0, 0, 0, 0])] = some (q1, h1, e1)
        ∧ deque_session (7 + 1) ⟨MEMORY_POOL_MAKER none 0 0, 0, none, none⟩ 4 4
          (some 4096) (fun _ => none)
          ⟨fun _ => ⟨none, false⟩, fun _ => ⟨none, false⟩, fun _ => 0, fun _ => []⟩
          ([deque_op.push (some [10, 0, 0, 0]), deque_op.push (some [20, 0, 0, 0]),
            deque_op.pop (some [0, 0, 0, 0])]
            ++ [deque_op.shift (some [30, 0, 0, 0]), deque_op.unshift (some [0, 0, 0, 0]),
            deque_op.push (some [40, 0, 0, 0])])
            = some (q2, h2, e2)
        ∧ MarksKept none h1 h2
        ∧ q2.head = some hd ∧ q2.tail = some tl
        ∧ List.Chain' (Deque.adj h2) (hd :: addrs ++ [tl])
        ∧ ∀ a, (h1.prev a).d = true ∨ (h1.next a).d = true → a ∉ hd :: addrs ++ [tl] :=
  ⟨⟨by decide, by decide, by decide, by decide, by decide, fun _ => ⟨rfl, rfl⟩, rfl⟩,
    deque_deletion_marks_are_never_cleared 7 _ 4 4 4096 _ _ _ _ (by decide) (by decide)
      (by decide) (by decide) (by decide) (fun _ => ⟨rfl, rfl⟩) rfl⟩

/-! ### Queue: a stale Tail and the freed sentinel -/

/-- Every iteration of the loop of `queue_enqueue` starts by loading `q->Tail` and
reading `tail.ptr->next`: when that read hits a node that is not allocated, the loop has
no defined result. -/
theorem Queue.enqueue_loop_reads_tail_next (node fuel : Nat) (q : queue_t) (heap : QHeap)
    (h : Queue.enqueue_read_next heap q.Tail = none) :
    Queue.enqueue_loop node fuel q heap = none := by
  cases fuel with
  | zero => rfl
  | succ fuel =>
    unfold Queue.enqueue_read_next at h
    cases ht : q.Tail.ptr with
    | none => simp only [Queue.enqueue_loop, ht]
    | some t =>
      rw [ht] at h
      simp only at h
      cases hh : heap t with
      | none => simp only [Queue.enqueue_loop, ht, hh]
      | some nd => rw [hh] at h; simp at h

/-- C23 fails on the code: thread A enters `queue_enqueue` on a fresh queue, allocates its
node (at 8192) and loads `q->Tail`, which points at the sentinel (at 4096); thread B then
runs a whole `queue_enqueue` (node at 12288) and a whole `queue_dequeue`, which frees the
sentinel; the next statement of A, `next = tail.ptr->next`, reads the freed node. -/
theorem queue_enqueue_reads_freed_sentinel :
    ∃ q1 heap1 nodeA heapA q2 heap2 q3 heap3 out,
      queue_create (some ⟨⟨none, 0⟩, ⟨none, 0⟩, 0, 0⟩) 4 (some 4096) (fun _ => none)
        = some (⟨0, none⟩, some q1, heap1)
      ∧ Queue.new_node q1 heap1 (some 8192) = (some nodeA, heapA)
      ∧ queue_enqueue 2 (some q1) (some [7, 0, 0, 0]) (some 12288) heapA
        = some (⟨0, none⟩, some q2, heap2)
      ∧ queue_dequeue 2 (some q2) (some [0, 0, 0, 0]) heap2
        = some (⟨0, none⟩, some q3, heap3, out)
      ∧ q1.Tail.ptr = some 4096 ∧ (heap1 4096).isSome = true ∧ heap3 4096 = none
      ∧ Queue.enqueue_read_next heap3 q1.Tail = none :=
  ⟨_, _, _, _, _, _, _, _, _, rfl, rfl, rfl, rfl, rfl, rfl, rfl, rfl⟩

/-! ### Failing inputs: pool exhaustion after pops, the errno of stack_pop, reference counts of the sentinels -/

/-- C4 fails on the code: on a deque created with capacity 1 a push, a pop and a second
push are made; the pop returns the element, so the deque holds no element, and yet the
second push (and likewise a shift) returns -1 with `ENOMEM`: the node of the popped
element was not given back to the pool. -/
theorem deque_push_fails_below_capacity_after_pop :
    ∃ q frags h q1 h1 h2 q3 h3 q4 h4,
      deque_create 8 (some ⟨MEMORY_POOL_MAKER none 0 0, 0, none, none⟩) 4 1 (some 4096)
          (fun _ => none)
          ⟨fun _ => ⟨none, false⟩, fun _ => ⟨none, false⟩, fun _ => 0, fun _ => []⟩
        = some (⟨0, none⟩, some q, frags, h)
      ∧ deque_push 8 (some q) (some [10, 0, 0, 0]) frags h = some (⟨0, none⟩, some q1, h1)
      ∧ deque_pop 8 (some q1) (some [0, 0, 0, 0]) h1 = some (⟨0, none⟩, h2, some [10, 0, 0, 0])
      ∧ deque_push 8 (some q1) (some [20, 0, 0, 0]) frags h2
        = some (⟨-1, some errno_t.ENOMEM⟩, some q3, h3)
      ∧ deque_shift 8 (some q1) (some [20, 0, 0, 0]) frags h2
        = some (⟨-1, some errno_t.ENOMEM⟩, some q4, h4)
      ∧ mempool_freeable (some q1.pool) = (0, none) :=
  ⟨_, _, _, _, _, _, _, _, _, _, rfl, rfl, rfl, rfl, rfl, rfl⟩

/-- C9 fails on the code: `stack_pop` on a freshly created stack, which holds no element,
returns -1 with `ENOMEM`, the very `errno` that `stack_push` assigns when the free list
is exhausted (here after two pushes on a stack of capacity 2). -/
theorem stack_pop_on_empty_stack_reports_ENOMEM :
    ∃ s0 s1 s2 s3 s4,
      stack_create 4 2 true = some (some s0)
      ∧ stack_pop 2 (some s0) (some [0, 0, 0, 0])
        = some (⟨-1, some errno_t.ENOMEM⟩, some s1, some [0, 0, 0, 0])
      ∧ stack_push 2 (some s0) (some [1, 0, 0, 0]) = some (⟨0, none⟩, some s2)
      ∧ stack_push 2 (some s2) (some [2, 0, 0, 0]) = some (⟨0, none⟩, some s3)
      ∧ stack_push 2 (some s3) (some [3, 0, 0, 0]) = some (⟨-1, some errno_t.ENOMEM⟩, some s4) :=
  ⟨_, _, _, _, _, rfl, rfl, rfl, rfl, rfl⟩

/-- C10 fails on the code: on a freshly created deque, whose sentinels (at 4096 and 4288)
have reference count 0, `deque_pop` and `deque_unshift` return -1 with `ENOENT` and leave
the output buffer and the links alone, but both leave the reference counts of the two
sentinels at 4294967295. -/
theorem deque_pop_on_empty_deque_changes_reference_counts :
    ∃ q frags h h1 h2,
      deque_create 8 (some ⟨MEMORY_POOL_MAKER none 0 0, 0, none, none⟩) 4 1 (some 4096)
          (fun _ => none)
          ⟨fun _ => ⟨none, false⟩, fun _ => ⟨none, false⟩, fun _ => 0, fun _ => []⟩
        = some (⟨0, none⟩, some q, frags, h)
      ∧ q.head = some 4096 ∧ q.tail = some 4288
      ∧ deque_pop 8 (some q) (some [0, 0, 0, 0]) h
        = some (⟨-1, some errno_t.ENOENT⟩, h1, some [0, 0, 0, 0])
      ∧ deque_unshift 8 (some q) (some [0, 0, 0, 0]) h
        = some (⟨-1, some errno_t.ENOENT⟩, h2, some [0, 0, 0, 0])
      ∧ h.ref 4096 = 0 ∧ h.ref 4288 = 0
      ∧ h1.ref 4096 = 4294967295 ∧ h1.ref 4288 = 4294967295
      ∧ h2.ref 4096 = 4294967295 ∧ h2.ref 4288 = 4294967295 :=
  ⟨_, _, _, _, _, rfl, rfl, rfl, rfl, rfl, rfl, rfl, rfl, rfl, rfl, rfl⟩

/-! ### Queue and pool: order of the elements and exhaustion -/

/-- When every node asked for is granted at an unused address of its own, a list of calls
of one thread returns, call by call, what the same calls return on the FIFO list of the
specification, and leaves the payloads of that list behind the sentinel. -/
theorem queue_trace_refines (fuel : Nat) : ∀ (ops : List queue_op) (q : queue_t) (heap : QHeap)
    (nodes : List (Nat × List Nat)), QueueInv q heap nodes →
    (∀ op ∈ ops, queue_op.fits q.value_bytes op = true) →
    (∀ v e, queue_op.enqueue v e ∈ ops →
      ∃ a, e = some a ∧ 0 < a ∧ a + (sizeof_node_t + q.value_bytes) < SIZE_MOD
        ∧ heap a = none) →
    (ops.filterMap queue_op.env).Nodup →
    ∃ q1 heap1 nodes1,
      queue_run (fuel + 1) ops q heap (nodes.tail.map Prod.snd)
        = some (q1, heap1, nodes1.tail.map Prod.snd)
      ∧ QueueInv q1 heap1 nodes1 ∧ q1.value_bytes = q.value_bytes
      ∧ nodes1.tail.map Prod.snd = spec_queue_run q.value_bytes ops (nodes.tail.map Prod.snd)
      ∧ queue_trace (fuel + 1) ops q heap
        = some (spec_queue_trace q.value_bytes ops (nodes.tail.map Prod.snd)) := by
  intro ops
  induction ops with
  | nil =>
    intro q heap nodes hinv _ _ _
    exact ⟨q, heap, nodes, rfl, hinv, rfl, rfl, rfl⟩
  | cons op ops ih =>
    intro q heap nodes hinv hfits hgr hnd
    have hop := hfits op (by simp)
    have hfits1 : ∀ q1 : queue_t, q1.value_bytes = q.value_bytes →
        ∀ op ∈ ops, queue_op.fits q1.value_bytes op = true := by
      intro q1 hq1 o ho
      rw [hq1]
      exact hfits o (List.mem_cons_of_mem _ ho)
    cases op with
    | enqueue v e =>
      obtain ⟨a, he, ha0, hafit, hafresh⟩ := hgr v e (by simp)
      subst he
      simp only [List.filterMap_cons, queue_op.env, List.nodup_cons] at hnd
      obtain ⟨hanot, hnd1⟩ := hnd
      cases v with
      | none =>
        obtain ⟨q4, heap4, n4, hrun4, hinv4, hvb4, hs4, ht4⟩ :=
          ih q heap nodes hinv (hfits1 q rfl)
            (fun v e hm => hgr v e (List.mem_cons_of_mem _ hm)) hnd1
        refine ⟨q4, heap4, n4, ?_, hinv4, hvb4, ?_, ?_⟩
        · simp only [queue_run, queue_enqueue]
          exact hrun4
        · simp only [spec_queue_run, spec_queue_step]
          exact hs4
        · simp only [queue_trace, queue_enqueue, ht4, spec_queue_trace, spec_queue_step,
            Option.map_some']
      | some x =>
        obtain ⟨st, q1, heap1, nodes1, hrun, hinv1, hvb, _, _, _, hframe, hgranted⟩ :=
          queue_enqueue_inv fuel hinv (some x) (some a) hop
        obtain ⟨hs, hn1⟩ := hgranted x a rfl rfl ha0 hafit hafresh
        subst hs
        have hel : nodes1.tail.map Prod.snd
            = nodes.tail.map Prod.snd ++ [x.take q.value_bytes] := by
          rw [hn1]
          cases hn : nodes with
          | nil => exact absurd hn hinv.nonempty
          | cons z rest => simp
        have hgr1 : ∀ v e, queue_op.enqueue v e ∈ ops →
            ∃ b, e = some b ∧ 0 < b ∧ b + (sizeof_node_t + q1.value_bytes) < SIZE_MOD
              ∧ heap1 b = none := by
          intro v e hm
          obtain ⟨b, hb, hb0, hbfit, hbfresh⟩ := hgr v e (List.mem_cons_of_mem _ hm)
          refine ⟨b, hb, hb0, by rw [hvb]; exact hbfit, ?_⟩
          rcases hframe b hbfresh with h | ⟨y, hy⟩
          · exact h
          · exfalso
            rw [hn1] at hy
            have hab : a = b := by
              have := List.append_cancel_left hy
              simp only [List.cons.injEq, Prod.mk.injEq, and_true] at this
              exact this.1
            apply hanot
            rw [List.mem_filterMap]
            exact ⟨queue_op.enqueue v e, hm, by rw [hb, hab]; rfl⟩
        obtain ⟨q4, heap4, n4, hrun4, hinv4, hvb4, hs4, ht4⟩ :=
          ih q1 heap1 nodes1 hinv1 (hfits1 q1 hvb) hgr1 hnd1
        refine ⟨q4, heap4, n4, ?_, hinv4, hvb4.trans hvb, ?_, ?_⟩
        · simp only [queue_run, hrun, if_true, Option.getD_some]
          rw [← hel, hrun4]
        · simp only [spec_queue_run, spec_queue_step]
          rw [hs4, hel, hvb]
        · simp only [queue_trace, hrun, ht4, spec_queue_trace, spec_queue_step,
            Option.map_some', hel, hvb]
    | dequeue out =>
      have hnd1 : (ops.filterMap queue_op.env).Nodup := by
        simpa [List.filterMap_cons, queue_op.env] using hnd
      cases out with
      | none =>
        obtain ⟨q4, heap4, n4, hrun4, hinv4, hvb4, hs4, ht4⟩ :=
          ih q heap nodes hinv (hfits1 q rfl)
            (fun v e hm => hgr v e (List.mem_cons_of_mem _ hm)) hnd1
        refine ⟨q4, heap4, n4, ?_, hinv4, hvb4, ?_, ?_⟩
        · simp only [queue_run, queue_dequeue]
          exact hrun4
        · simp only [spec_queue_run, spec_queue_step]
          exact hs4
        · simp only [queue_trace, queue_dequeue, ht4, spec_queue_trace, spec_queue_step,
            Option.map_some']
      | some o =>
        obtain ⟨st, q1, heap1, nodes1, out1, hrun, hinv1, hvb, h0, h1, hst, hheap⟩ :=
          queue_dequeue_inv fuel hinv (some o) hop
        have hgr1 : ∀ v e, queue_op.enqueue v e ∈ ops →
            ∃ b, e = some b ∧ 0 < b ∧ b + (sizeof_node_t + q1.value_bytes) < SIZE_MOD
              ∧ heap1 b = none := by
          intro v e hm
          obtain ⟨b, hb, hb0, hbfit, hbfresh⟩ := hgr v e (List.mem_cons_of_mem _ hm)
          refine ⟨b, hb, hb0, by rw [hvb]; exact hbfit, ?_⟩
          by_cases hr : st.ret = 0
          · obtain ⟨s, _, hh, _⟩ := hheap hr
            rw [hh]
            by_cases hbs : b = s
            · rw [hbs, Function.update_same]
            · rw [Function.update_noteq hbs]; exact hbfresh
          · rw [(h1 hr).2.1]; exact hbfresh
        obtain ⟨q4, heap4, n4, hrun4, hinv4, hvb4, hs4, ht4⟩ :=
          ih q1 heap1 nodes1 hinv1 (hfits1 q1 hvb) hgr1 hnd1
        rcases hst o rfl with ⟨hs, hne⟩ | ⟨hs, hemp⟩
        · subst hs
          obtain ⟨hn2, _, hout⟩ := h0 rfl
          cases hn : nodes with
          | nil => exact absurd hn hinv.nonempty
          | cons z rest =>
            rw [hn] at hn2 hne
            simp only [List.tail_cons] at hn2 hne
            cases hr : rest with
            | nil => exact absurd hr hne
            | cons y rest2 =>
              rw [hr] at hn2
              have hy := hout o rfl y (by rw [hn2]; rfl)
              subst hn2
              subst hn
              subst hr
              simp only [List.tail_cons, List.map_cons] at hrun4 hs4 ht4 ⊢
              refine ⟨q4, heap4, n4, ?_, hinv4, hvb4.trans hvb, ?_, ?_⟩
              · simp only [queue_run, hrun, if_true, List.tail_cons]
                exact hrun4
              · simp only [spec_queue_run, spec_queue_step]
                rw [hs4, hvb]
              · simp only [queue_trace, hrun, ht4, spec_queue_trace, spec_queue_step,
                  Option.map_some', hy, hvb]
        · subst hs
          obtain ⟨hn2, hh2, hq2, ho2⟩ := h1 (by decide)
          subst hn2; subst hh2; subst hq2; subst ho2
          rw [hemp] at hrun4 hs4 ht4 ⊢
          simp only [List.map_nil] at hrun4 hs4 ht4 ⊢
          refine ⟨q4, heap4, n4, ?_, hinv4, hvb4, ?_, ?_⟩
          · simp only [queue_run, hrun, show ¬ ((-1 : Int) = 0) by decide, if_false]
            exact hrun4
          · simp only [spec_queue_run, spec_queue_step]
            exact hs4
          · simp only [queue_trace, hrun, ht4, spec_queue_trace, spec_queue_step,
              Option.map_some']

/-- On the FIFO list of the specification each enqueue of a list of enqueues returns 0 and
appends its payload. -/
theorem spec_queue_trace_enqueues (n : Nat) : ∀ (vs : List (List Nat × Nat))
    (rest : List queue_op) (es : List (List Nat)),
    spec_queue_trace n (vs.map (fun x => queue_op.enqueue (some x.1) (some x.2)) ++ rest) es
      = vs.map (fun _ => ((⟨0, none⟩ : status), (none : Option (List Nat))))
        ++ spec_queue_trace n rest (es ++ vs.map fun x => x.1.take n) := by
  intro vs
  induction vs with
  | nil => intro rest es; simp
  | cons x vs ih =>
    intro rest es
    simp only [List.map_cons, List.cons_append, spec_queue_trace, spec_queue_step,
      List.append_eq, ih, List.append_assoc, List.singleton_append, List.nil_append]

/-- On the FIFO list of the specification as many dequeues as the list holds elements
return the elements, oldest first. -/
theorem spec_queue_trace_dequeues (n : Nat) (o : List Nat) : ∀ (es : List (List Nat)),
    spec_queue_trace n (List.replicate es.length (queue_op.dequeue (some o))) es
      = es.map fun x => ((⟨0, none⟩ : status), some (x ++ o.drop n)) := by
  intro es
  induction es with
  | nil => rfl
  | cons x es ih =>
    simp only [List.length_cons, List.replicate_succ, spec_queue_trace, spec_queue_step, ih,
      List.map_cons]

/-- C1: after a successful `queue_create`:
(1) any calls `ops` of one thread (each given `NULL` or a buffer of at least
`value_bytes` bytes) whose nodes are granted, each at an unused address of its own, return,
call by call, exactly the statuses and output buffers that the same calls return on the
FIFO list of the specification (`spec_queue_trace`: an enqueue appends, a dequeue removes
and returns the oldest element), and leave that list as the payloads kept;
(2) enqueuing `v1 .. vn` (nodes granted) and then dequeuing `n` times returns 0 each time
and yields exactly `v1 .. vn` in that order;
(3) after any calls `ops` at all, in the state reached, where `elems` lists the payloads
enqueued and not yet dequeued, oldest first, a `queue_dequeue` returns -1 with `ENOENT`
and leaves the buffer alone when `elems` is empty and otherwise returns 0 with the oldest
payload in the buffer, and a `queue_enqueue` whose node is granted at an unused address
returns 0 and puts its payload at the back of `elems`. -/
theorem queue_dequeue_returns_oldest_element (fuel vb : Nat) (q0 q1 : queue_t)
    (env : Option Nat) (heap0 heap1 : QHeap) (ops : List queue_op)
    (hcreate : queue_create (some q0) vb env heap0 = some (⟨0, none⟩, some q1, heap1))
    (hops : ∀ op ∈ ops, queue_op.fits vb op = true) :
    ((∀ v e, queue_op.enqueue v e ∈ ops →
          ∃ a, e = some a ∧ 0 < a ∧ a + (sizeof_node_t + vb) < SIZE_MOD ∧ heap1 a = none) →
        (ops.filterMap queue_op.env).Nodup →
        queue_trace (fuel + 1) ops q1 heap1 = some (spec_queue_trace vb ops [])
        ∧ ∃ q heap, queue_run (fuel + 1) ops q1 heap1 []
            = some (q, heap, spec_queue_run vb ops []))
    ∧ (∀ (vs : List (List Nat × Nat)) (o : List Nat),
        (∀ x ∈ vs, vb ≤ x.1.length ∧ 0 < x.2 ∧ x.2 + (sizeof_node_t + vb) < SIZE_MOD
          ∧ heap1 x.2 = none) →
        (vs.map Prod.snd).Nodup → vb ≤ o.length →
        queue_trace (fuel + 1)
            (vs.map (fun x => queue_op.enqueue (some x.1) (some x.2))
              ++ List.replicate vs.length (queue_op.dequeue (some o))) q1 heap1
          = some (vs.map (fun _ => (⟨0, none⟩, none))
              ++ vs.map fun x => (⟨0, none⟩, some (x.1.take vb ++ o.drop vb))))
    ∧ ∃ q heap elems, queue_run (fuel + 1) ops q1 heap1 [] = some (q, heap, elems)
      ∧ (∀ o : List Nat, vb ≤ o.length →
          ∃ st q2 heap2 out1,
            queue_dequeue (fuel + 1) (some q) (some o) heap = some (st, some q2, heap2, out1)
            ∧ ((elems = [] ∧ st = ⟨-1, some errno_t.ENOENT⟩ ∧ out1 = some o)
              ∨ ∃ x rest, elems = x :: rest ∧ st = ⟨0, none⟩ ∧ x.length = vb
                  ∧ out1 = some (x ++ o.drop vb)
                  ∧ queue_run (fuel + 1) [queue_op.dequeue (some o)] q heap elems
                      = some (q2, heap2, rest)))
      ∧ (∀ (x : List Nat) (a : Nat), vb ≤ x.length → 0 < a →
          a + (sizeof_node_t + vb) < SIZE_MOD → heap a = none →
          ∃ q2 heap2,
            queue_enqueue (fuel + 1) (some q) (some x) (some a) heap
              = some (⟨0, none⟩, some q2, heap2)
            ∧ queue_run (fuel + 1) [queue_op.enqueue (some x) (some a)] q heap elems
              = some (q2, heap2, elems ++ [x.take vb])) := by
  obtain ⟨s, v, hinv0, hvb0, _⟩ := queue_create_inv q0 q1 vb env heap0 heap1 hcreate
  refine ⟨?_, ?_, ?_⟩
  · intro hgr hnd
    obtain ⟨q, heap, nodes, hrun, _, _, hspec, htr⟩ :=
      queue_trace_refines fuel ops q1 heap1 [(s, v)] hinv0 (by rw [hvb0]; exact hops)
        (by rw [hvb0]; exact hgr) hnd
    rw [hvb0] at hspec htr
    simp only [List.tail_cons, List.map_nil] at hrun hspec htr
    exact ⟨htr, q, heap, by rw [hrun, hspec]⟩
  · intro vs o hvs hnd ho
    obtain ⟨q, heap, nodes, _, _, _, _, htr⟩ :=
      queue_trace_refines fuel
        (vs.map (fun x => queue_op.enqueue (some x.1) (some x.2))
          ++ List.replicate vs.length (queue_op.dequeue (some o))) q1 heap1 [(s, v)] hinv0
        (by
          intro op hop
          rw [hvb0]
          rcases List.mem_append.1 hop with h | h
          · obtain ⟨x, hx, rfl⟩ := List.mem_map.1 h
            simp [queue_op.fits, buffer_fits, (hvs x hx).1]
          · rw [List.eq_of_mem_replicate h]
            simp [queue_op.fits, buffer_fits, ho])
        (by
          intro w e hm
          rw [hvb0]
          rcases List.mem_append.1 hm with h | h
          · obtain ⟨x, hx, he⟩ := List.mem_map.1 h
            simp only [queue_op.enqueue.injEq] at he
            obtain ⟨_, h1, h2, h3⟩ := hvs x hx
            exact ⟨x.2, he.2.symm, h1, h2, h3⟩
          · have := List.eq_of_mem_replicate h
            cases this)
        (by
          have h1 : (vs.map (fun x => queue_op.enqueue (some x.1) (some x.2))).filterMap
              queue_op.env = vs.map Prod.snd := by
            rw [List.filterMap_map]
            induction vs with
            | nil => rfl
            | cons x vs ih =>
              simp only [List.filterMap_cons, Function.comp, queue_op.env, List.map_cons] at ih ⊢
              rw [ih (fun y hy => hvs y (List.mem_cons_of_mem _ hy))
                (List.nodup_cons.1 hnd).2]
          have h2 : ∀ k, (List.replicate k (queue_op.dequeue (some o))).filterMap queue_op.env
              = [] := by
            intro k
            induction k with
            | zero => rfl
            | succ k ih => simp only [List.replicate_succ, List.filterMap_cons, queue_op.env, ih]
          rw [List.filterMap_append, h1, h2, List.append_nil]
          exact hnd)
    rw [htr, hvb0, spec_queue_trace_enqueues]
    simp only [List.tail_cons, List.map_nil, List.nil_append]
    have hl : vs.length = (vs.map fun x => x.1.take vb).length := by simp
    rw [hl, spec_queue_trace_dequeues, List.map_map]
    rfl
  · obtain ⟨q, heap, nodes, elems, hrun, hinv, he, hvb⟩ :=
      queue_run_inv fuel ops q1 heap1 [(s, v)] [] hinv0 rfl (by rw [hvb0]; exact hops)
    have hqvb : q.value_bytes = vb := hvb.trans hvb0
    refine ⟨q, heap, elems, hrun, ?_, ?_⟩
    · intro o ho
      obtain ⟨st, q2, heap2, nodes2, out1, hd, hinv2, _, h0, h1, hst, _⟩ :=
        queue_dequeue_inv fuel hinv (some o) (by simp [buffer_fits, hqvb, ho])
      refine ⟨st, q2, heap2, out1, hd, ?_⟩
      rcases hst o rfl with ⟨hs, hne⟩ | ⟨hs, hemp⟩
      · right
        obtain ⟨hn2, _, hout⟩ := h0 (by rw [hs])
        cases hn : nodes with
        | nil => exact absurd hn hinv.nonempty
        | cons z rest =>
          rw [hn] at hn2 hne he
          simp only [List.tail_cons] at hn2 hne he
          cases hr : rest with
          | nil => exact absurd hr hne
          | cons x rest2 =>
            rw [hr] at hn2 he
            have hx := hout o rfl x (by rw [hn2]; rfl)
            have hxl : x.2.length = vb := by
              rw [← hqvb]; exact hinv.vals x (by rw [hn, hr]; simp)
            refine ⟨x.2, rest2.map Prod.snd, by rw [he]; rfl, hs, hxl, by rw [hx, hqvb], ?_⟩
            simp only [queue_run, hd, hs, if_true]
            rw [he]; rfl
      · left
        obtain ⟨_, _, _, hout⟩ := h1 (by rw [hs]; decide)
        refine ⟨?_, hs, hout⟩
        rw [he, hemp]; rfl
    · intro x a hx ha0 hafit hafresh
      obtain ⟨st, q2, heap2, nodes2, hd, _, _, _, _, _, _, hgranted⟩ :=
        queue_enqueue_inv fuel hinv (some x) (some a) (by simp [buffer_fits, hqvb, hx])
      obtain ⟨hs, _⟩ := hgranted x a rfl rfl ha0 (by rw [hqvb]; exact hafit) hafresh
      subst hs
      refine ⟨q2, heap2, hd, ?_⟩
      simp only [queue_run, hd, if_true, Option.getD_some, hqvb]

/-- Instance of `queue_dequeue_returns_oldest_element` on a queue of `int`-sized
elements: the values 10, 20, 30, 40 are enqueued and four dequeues follow; all the calls
return 0 and the dequeues yield 10, 20, 30, 40 in that order. -/
theorem queue_dequeue_returns_oldest_element_witness :
    (queue_create (some ⟨⟨none, 0⟩, ⟨none, 0⟩, 0, 0⟩) 4 (some 4096) (fun _ => none)
        = some (⟨0, none⟩, some ⟨⟨some 4096, 0⟩, ⟨some 4096, 0⟩, 4, 0⟩,
            Function.update (Function.update (fun _ => none) 4096
              (some ⟨⟨none, 0⟩, [0, 0, 0, 0]⟩)) 4096 (some ⟨⟨none, 0⟩, [0, 0, 0, 0]⟩))
      ∧ ∀ op ∈ [queue_op.enqueue (some [10, 0, 0, 0]) (some 8192),
                 queue_op.enqueue (some [20, 0, 0, 0]) (some 12288),
                 queue_op.enqueue (some [30, 0, 0, 0]) (some 16384),
                 queue_op.enqueue (some [40, 0, 0, 0]) (some 20480),
                 queue_op.dequeue (some [0, 0, 0, 0]), queue_op.dequeue (some [0, 0, 0, 0]),
                 queue_op.dequeue (some [0, 0, 0, 0]), queue_op.dequeue (some [0, 0, 0, 0])],
          queue_op.fits 4 op = true)
    ∧ queue_trace (0 + 1)
        [queue_op.enqueue (some [10, 0, 0, 0]) (some 8192),
          queue_op.enqueue (some [20, 0, 0, 0]) (some 12288),
          queue_op.enqueue (some [30, 0, 0, 0]) (some 16384),
          queue_op.enqueue (some [40, 0, 0, 0]) (some 20480),
          queue_op.dequeue (some [0, 0, 0, 0]), queue_op.dequeue (some [0, 0, 0, 0]),
          queue_op.dequeue (some [0, 0, 0, 0]), queue_op.dequeue (some [0, 0, 0, 0])]
        ⟨⟨some 4096, 0⟩, ⟨some 4096, 0⟩, 4, 0⟩
        (Function.update (Function.update (fun _ => none) 4096
          (some ⟨⟨none, 0⟩, [0, 0, 0, 0]⟩)) 4096 (some ⟨⟨none, 0⟩, [0, 0, 0, 0]⟩))
      = some [(⟨0, none⟩, none), (⟨0, none⟩, none), (⟨0, none⟩, none), (⟨0, none⟩, none),
          (⟨0, none⟩, some [10, 0, 0, 0]), (⟨0, none⟩, some [20, 0, 0, 0]),
          (⟨0, none⟩, some [30, 0, 0, 0]), (⟨0, none⟩, some [40, 0, 0, 0])] :=
  ⟨⟨rfl, by decide⟩,
    (queue_dequeue_returns_oldest_element 0 4 ⟨⟨none, 0⟩, ⟨none, 0⟩, 0, 0⟩
      ⟨⟨some 4096, 0⟩, ⟨some 4096, 0⟩, 4, 0⟩ (some 4096) (fun _ => none) _
      [queue_op.enqueue (some [10, 0, 0, 0]) (some 8192),
        queue_op.enqueue (some [20, 0, 0, 0]) (some 12288),
        queue_op.enqueue (some [30, 0, 0, 0]) (some 16384),
        queue_op.enqueue (some [40, 0, 0, 0]) (some 20480),
        queue_op.dequeue (some [0, 0, 0, 0]), queue_op.dequeue (some [0, 0, 0, 0]),
        queue_op.dequeue (some [0, 0, 0, 0]), queue_op.dequeue (some [0, 0, 0, 0])]
      rfl (by decide)).2.1
      [([10, 0, 0, 0], 8192), ([20, 0, 0, 0], 12288), ([30, 0, 0, 0], 16384),
        ([40, 0, 0, 0], 20480)] [0, 0, 0, 0] (by decide) (by decide) (by decide)⟩

/-- A `queue_dequeue` on a queue whose list holds the sentinel alone returns -1 with
`ENOENT` and changes nothing. -/
theorem queue_dequeue_empty {q : queue_t} {heap : QHeap} {x : Nat × List Nat}
    (hinv : QueueInv q heap [x]) (fuel : Nat) (o : List Nat) :
    queue_dequeue (fuel + 1) (some q) (some o) heap
      = some (⟨-1, some errno_t.ENOENT⟩, some q, heap, some o) := by
  obtain ⟨hh, nd, hnd, _, hrest⟩ := hinv.hchain
  simp only [Queue.chain] at hrest
  have htail : q.Tail.ptr = some x.1 := by rw [hinv.htail]; rfl
  simp only [queue_dequeue, Queue.dequeue_loop, hh, hnd, htail, hrest, if_true, and_self]

/-- C8: after a successful `queue_create` and after every sequence of calls made by one
thread that leaves no element in the queue (none enqueued, or as many successful
dequeues as successful enqueues), `queue_dequeue` with any buffer returns -1 with
`ENOENT` and leaves the buffer, `Head`, `Tail`, the size counter and the heap of nodes
exactly as they were. -/
theorem queue_dequeue_on_empty_queue_changes_nothing (fuel vb : Nat) (q0 q1 : queue_t)
    (env : Option Nat) (heap0 heap1 : QHeap) (ops : List queue_op)
    (hcreate : queue_create (some q0) vb env heap0 = some (⟨0, none⟩, some q1, heap1))
    (hops : ∀ op ∈ ops, queue_op.fits vb op = true) :
    (∀ f o, queue_dequeue (f + 1) (some q1) (some o) heap1
        = some (⟨-1, some errno_t.ENOENT⟩, some q1, heap1, some o))
    ∧ ∃ q heap elems, queue_run (fuel + 1) ops q1 heap1 [] = some (q, heap, elems)
      ∧ (elems = [] → ∀ f o, queue_dequeue (f + 1) (some q) (some o) heap
          = some (⟨-1, some errno_t.ENOENT⟩, some q, heap, some o)) := by
  obtain ⟨s, v, hinv0, hvb0, _⟩ := queue_create_inv q0 q1 vb env heap0 heap1 hcreate
  obtain ⟨q, heap, nodes, elems, hrun, hinv, he, hvb⟩ :=
    queue_run_inv fuel ops q1 heap1 [(s, v)] [] hinv0 rfl (by rw [hvb0]; exact hops)
  refine ⟨fun f o => queue_dequeue_empty hinv0 f o, q, heap, elems, hrun, ?_⟩
  intro hemp f o
  cases hn : nodes with
  | nil => exact absurd hn hinv.nonempty
  | cons z rest =>
    rw [hn] at he hinv
    rw [he] at hemp
    simp only [List.tail_cons, List.map_eq_nil_iff] at hemp
    rw [hemp] at hinv
    exact queue_dequeue_empty hinv f o

/-- Instance of `queue_dequeue_on_empty_queue_changes_nothing`: two enqueues and two
dequeues empty the queue again. -/
theorem queue_dequeue_on_empty_queue_changes_nothing_witness :
    (queue_create (some ⟨⟨none, 0⟩, ⟨none, 0⟩, 0, 0⟩) 4 (some 4096) (fun _ => none)
        = some (⟨0, none⟩, some ⟨⟨some 4096, 0⟩, ⟨some 4096, 0⟩, 4, 0⟩,
            Function.update (Function.update (fun _ => none) 4096
              (some ⟨⟨none, 0⟩, [0, 0, 0, 0]⟩)) 4096 (some ⟨⟨none, 0⟩, [0, 0, 0, 0]⟩))
      ∧ ∀ op ∈ [queue_op.enqueue (some [10, 0, 0, 0]) (some 8192),
                 queue_op.enqueue (some [20, 0, 0, 0]) (some 12288),
                 queue_op.dequeue (some [0, 0, 0, 0]),
                 queue_op.dequeue (some [0, 0, 0, 0])],
          queue_op.fits 4 op = true)
    ∧ (∀ f o, queue_dequeue (f + 1) (some ⟨⟨some 4096, 0⟩, ⟨some 4096, 0⟩, 4, 0⟩) (some o)
          (Function.update (Function.update (fun _ => none) 4096
              (some ⟨⟨none, 0⟩, [0, 0, 0, 0]⟩)) 4096 (some ⟨⟨none, 0⟩, [0, 0, 0, 0]⟩))
        = some (⟨-1, some errno_t.ENOENT⟩, some ⟨⟨some 4096, 0⟩, ⟨some 4096, 0⟩, 4, 0⟩,
          Function.update (Function.update (fun _ => none) 4096
              (some ⟨⟨none, 0⟩, [0, 0, 0, 0]⟩)) 4096 (some ⟨⟨none, 0⟩, [0, 0, 0, 0]⟩), some o))
    ∧ ∃ q heap elems,
        queue_run (0 + 1) [queue_op.enqueue (some [10, 0, 0, 0]) (some 8192),
                 queue_op.enqueue (some [20, 0, 0, 0]) (some 12288),
                 queue_op.dequeue (some [0, 0, 0, 0]),
                 queue_op.dequeue (some [0, 0, 0, 0])]
            ⟨⟨some 4096, 0⟩, ⟨some 4096, 0⟩, 4, 0⟩
            (Function.update (Function.update (fun _ => none) 4096
              (some ⟨⟨none, 0⟩, [0, 0, 0, 0]⟩)) 4096 (some ⟨⟨none, 0⟩, [0, 0, 0, 0]⟩)) []
          = some (q, heap, elems)
      ∧ (elems = [] → ∀ f o, queue_dequeue (f + 1) (some q) (some o) heap
          = some (⟨-1, some errno_t.ENOENT⟩, some q, heap, some o)) :=
  ⟨⟨rfl, by decide⟩,
    queue_dequeue_on_empty_queue_changes_nothing 0 4 ⟨⟨none, 0⟩, ⟨none, 0⟩, 0, 0⟩
      ⟨⟨some 4096, 0⟩, ⟨some 4096, 0⟩, 4, 0⟩ (some 4096) (fun _ => none) _ _ rfl (by decide)⟩

/-- As long as fewer than `N` fragments are held, consecutive allocations all return a
fragment. -/
theorem pool_run_allocs {N : Nat} (fuel : Nat) : ∀ (k : Nat) (self : memory_pool)
    (mem : FragMem) (l out : List Nat), PoolInv N self mem l out → out.length + k ≤ N →
    ∃ self1 l1 out1, pool_run (fuel + 1) (List.replicate k pool_op.alloc) self mem out
        = some (self1, mem, out1)
      ∧ PoolInv N self1 mem l1 out1 ∧ out1.length = out.length + k := by
  intro k
  induction k with
  | zero => intro self mem l out hinv _; exact ⟨self, l, out, rfl, hinv, rfl⟩
  | succ k ih =>
    intro self mem l out hinv hk
    rcases mempool_alloc_inv fuel hinv with ⟨_, hlen⟩ | ⟨p, self1, l1, h, hinv1, _⟩
    · omega
    · obtain ⟨s2, l2, o2, hrun, hinv2, hl2⟩ :=
        ih self1 mem l1 (p :: out) hinv1 (by simp only [List.length_cons]; omega)
      refine ⟨s2, l2, o2, ?_, hinv2, ?_⟩
      · simp only [List.replicate_succ, pool_run, h, hrun]
      · rw [hl2, List.length_cons]; omega

/-- C7: for a pool created by `mempool_create(mp, data_bytes, N)` with `N >= 1`, any
`k <= N` consecutive allocations each return a fragment (`pool_run` then holds `k`
pairwise distinct fragments); after `N` of them the next `mempool_alloc` returns `NULL`
with `ENOMEM` and leaves the pool as it was; and in every state reached by allocations
and releases of held fragments, `mempool_alloc` returns `NULL` exactly when the free list
from `head` holds one fragment, the sentinel, alone. -/
theorem mempool_alloc_fails_exactly_when_exhausted (fuel : Nat) (mp : memory_pool)
    (data_bytes N base : Nat) (mem : FragMem)
    (hd : 0 < data_bytes) (hN : 0 < N) (hbase : 0 < base) (hdb : data_bytes + 16 ≤ SIZE_MOD)
    (hfit : base + (N + 1) * internal_mempool_aligned_data_bytes
        (MEMORY_POOL_MAKER none data_bytes N) < SIZE_MOD) :
    ∃ self0 mem0, mempool_create (fuel + 1) (some mp) data_bytes N (some base) mem
        = some (⟨0, none⟩, some self0, mem0)
      ∧ (∀ k, k ≤ N → ∃ self1 out,
          pool_run (fuel + 1) (List.replicate k pool_op.alloc) self0 mem0 []
            = some (self1, mem0, out)
          ∧ out.length = k ∧ out.Nodup)
      ∧ (∃ self1 out,
          pool_run (fuel + 1) (List.replicate N pool_op.alloc) self0 mem0 []
            = some (self1, mem0, out)
          ∧ mempool_alloc (fuel + 1) (some self1) mem0
            = some (none, some errno_t.ENOMEM, some self1))
      ∧ ∀ ops, ∃ self1 mem1 out l,
          pool_run (fuel + 1) ops self0 mem0 [] = some (self1, mem1, out)
          ∧ Pool.chain mem1 self1.head.frag l
          ∧ ((∃ e s, mempool_alloc (fuel + 1) (some self1) mem1 = some (none, e, s))
              ↔ l.length = 1) := by
  obtain ⟨self0, mem0, l0, hc, hinv0, _⟩ :=
    mempool_create_inv fuel mp data_bytes N base mem hd hN hbase hdb hfit
  refine ⟨self0, mem0, hc, ?_, ?_, ?_⟩
  · intro k hk
    obtain ⟨s1, l1, o1, hrun, hinv1, hlen⟩ :=
      pool_run_allocs fuel k self0 mem0 l0 [] hinv0 (by simpa using hk)
    exact ⟨s1, o1, hrun, by simpa using hlen, (List.nodup_append.1 hinv1.nodup).2.1⟩
  · obtain ⟨s1, l1, o1, hrun, hinv1, hlen⟩ :=
      pool_run_allocs fuel N self0 mem0 l0 [] hinv0 (by simp)
    refine ⟨s1, o1, hrun, ?_⟩
    rcases mempool_alloc_inv fuel hinv1 with ⟨h, _⟩ | ⟨p, s2, l2, _, hinv2, _⟩
    · exact h
    · have := hinv2.freeable_eq.2
      simp only [List.length_cons, List.length_nil] at this hlen
      omega
  · intro ops
    obtain ⟨self1, mem1, l1, out, hrun, hinv1⟩ := pool_run_inv fuel ops self0 mem0 l0 [] hinv0
    refine ⟨self1, mem1, out, l1, hrun, hinv1.hchain, ?_⟩
    have htot := hinv1.total
    rcases mempool_alloc_inv fuel hinv1 with ⟨h, hlen⟩ | ⟨p, s2, l2, h, hinv2, _⟩
    · constructor
      · intro _; omega
      · intro _; exact ⟨_, _, h⟩
    · constructor
      · rintro ⟨e, s, he⟩
        rw [h] at he
        simp at he
      · intro hl
        have := hinv2.freeable_eq.2
        simp only [List.length_cons] at this
        omega

/-- Instance of `mempool_alloc_fails_exactly_when_exhausted` on a pool of two 16-byte
fragments at address 4096. -/
theorem mempool_alloc_fails_exactly_when_exhausted_witness :
    (0 < 8 ∧ 0 < 2 ∧ 0 < 4096 ∧ 8 + 16 ≤ SIZE_MOD
      ∧ 4096 + (2 + 1) * internal_mempool_aligned_data_bytes (MEMORY_POOL_MAKER none 8 2)
          < SIZE_MOD)
    ∧ ∃ self0 mem0, mempool_create (0 + 1) (some (MEMORY_POOL_MAKER none 0 0)) 8 2 (some 4096)
          (fun _ => none) = some (⟨0, none⟩, some self0, mem0)
      ∧ (∀ k, k ≤ 2 → ∃ self1 out,
          pool_run (0 + 1) (List.replicate k pool_op.alloc) self0 mem0 []
            = some (self1, mem0, out)
          ∧ out.length = k ∧ out.Nodup)
      ∧ (∃ self1 out,
          pool_run (0 + 1) (List.replicate 2 pool_op.alloc) self0 mem0 []
            = some (self1, mem0, out)
          ∧ mempool_alloc (0 + 1) (some self1) mem0
            = some (none, some errno_t.ENOMEM, some self1))
      ∧ ∀ ops, ∃ self1 mem1 out l,
          pool_run (0 + 1) ops self0 mem0 [] = some (self1, mem1, out)
          ∧ Pool.chain mem1 self1.head.frag l
          ∧ ((∃ e s, mempool_alloc (0 + 1) (some self1) mem1 = some (none, e, s))
              ↔ l.length = 1) :=
  ⟨⟨by decide, by decide, by decide, by decide, by decide⟩,
    mempool_alloc_fails_exactly_when_exhausted 0 _ 8 2 4096 _ (by decide) (by decide)
      (by decide) (by decide) (by decide)⟩

/-! ### Stack: order of the elements and exhaustion -/

/-- Running a list of calls keeps the invariant, and the payloads kept by the run are the
payloads of the nodes on the list rooted at `head`, in the order of the list. -/
theorem stack_run_elems_inv {cap : Nat} (fuel : Nat) : ∀ (ops : List stack_op) (s : stack)
    (live fr : List Nat) (elems : List (List Nat)), StackInv cap s live fr →
    elems = live.map (Stack.payload s) →
    (∀ op ∈ ops, stack_op.fits s.value_bytes op = true) →
    ∃ s1 live1 fr1 elems1, stack_run_elems (fuel + 1) ops s elems = some (s1, elems1)
      ∧ StackInv cap s1 live1 fr1 ∧ elems1 = live1.map (Stack.payload s1)
      ∧ s1.value_bytes = s.value_bytes := by
  intro ops
  induction ops with
  | nil =>
    intro s live fr elems hinv he _
    exact ⟨s, live, fr, elems, rfl, hinv, he, rfl⟩
  | cons op ops ih =>
    intro s live fr elems hinv he hfits
    have hop := hfits op (by simp)
    cases op with
    | push v =>
      obtain ⟨st, s1, live1, fr1, hrun, hinv1, hvb, _, _, _, _, _, hfail, hok⟩ :=
        stack_push_inv fuel hinv v hop
      have hfits1 : ∀ op ∈ ops, stack_op.fits s1.value_bytes op = true := by
        intro op hmem
        rw [hvb]
        exact hfits op (by simp [hmem])
      have he1 : (if st.ret = 0 then (v.getD []).take s.value_bytes :: elems else elems)
          = live1.map (Stack.payload s1) := by
        by_cases hr : st.ret = 0
        · obtain ⟨a, nd1, hl, hb, hval, hframe⟩ := hok hr
          rw [if_pos hr, hl, List.map_cons, he]
          have ha : a ∉ live := by
            have := (List.nodup_append.1 hinv1.nodup).1
            rw [hl] at this
            exact (List.nodup_cons.1 this).1
          congr 1
          · simp only [Stack.payload, hb, hval]
          · apply List.map_congr_left
            intro i hi
            have hia : i ≠ a := fun e => ha (e ▸ hi)
            simp only [Stack.payload, hframe i hia]
        · obtain ⟨hs, hl, _⟩ := hfail hr
          rw [if_neg hr, hl, hs, he]
      obtain ⟨s2, l2, f2, e2, hrun2, hinv2, he2, hvb2⟩ := ih s1 live1 fr1 _ hinv1 he1 hfits1
      exact ⟨s2, l2, f2, e2, by simp only [stack_run_elems, hrun, hrun2], hinv2, he2,
        hvb2.trans hvb⟩
    | pop out =>
      obtain ⟨st, s1, live1, fr1, out1, hrun, hinv1, hvb, _, _, _, _, _, hfail, hok⟩ :=
        stack_pop_inv fuel hinv out hop
      have hfits1 : ∀ op ∈ ops, stack_op.fits s1.value_bytes op = true := by
        intro op hmem
        rw [hvb]
        exact hfits op (by simp [hmem])
      have he1 : (if st.ret = 0 then elems.tail else elems)
          = live1.map (Stack.payload s1) := by
        by_cases hr : st.ret = 0
        · obtain ⟨a, nd, hl, hb, _, hframe⟩ := hok hr
          rw [if_pos hr, he, hl, List.map_cons, List.tail_cons]
          have ha : a ∉ live1 := by
            have := (List.nodup_append.1 hinv.nodup).1
            rw [hl] at this
            exact (List.nodup_cons.1 this).1
          apply List.map_congr_left
          intro i hi
          have hia : i ≠ a := fun e => ha (e ▸ hi)
          simp only [Stack.payload, hframe i hia]
        · obtain ⟨hs, hl, _⟩ := hfail hr
          rw [if_neg hr, hl, hs, he]
      obtain ⟨s2, l2, f2, e2, hrun2, hinv2, he2, hvb2⟩ := ih s1 live1 fr1 _ hinv1 he1 hfits1
      exact ⟨s2, l2, f2, e2, by simp only [stack_run_elems, hrun, hrun2], hinv2, he2,
        hvb2.trans hvb⟩

/-- As long as the free list is not exhausted, consecutive pushes all return 0 and stack
their payloads. -/
theorem stack_run_pushes {cap : Nat} (fuel : Nat) : ∀ (vs : List (List Nat)) (s : stack)
    (live fr : List Nat) (elems : List (List Nat)), StackInv cap s live fr →
    elems = live.map (Stack.payload s) → (∀ v ∈ vs, s.value_bytes ≤ v.length) →
    live.length + vs.length ≤ cap →
    ∃ s1 live1 fr1,
      stack_run_elems (fuel + 1) (vs.map fun v => stack_op.push (some v)) s elems
        = some (s1, (vs.map fun v => v.take s.value_bytes).reverse ++ elems)
      ∧ StackInv cap s1 live1 fr1
      ∧ (vs.map fun v => v.take s.value_bytes).reverse ++ elems = live1.map (Stack.payload s1)
      ∧ s1.value_bytes = s.value_bytes := by
  intro vs
  induction vs with
  | nil =>
    intro s live fr elems hinv he _ _
    exact ⟨s, live, fr, rfl, hinv, by simpa using he, rfl⟩
  | cons v vs ih =>
    intro s live fr elems hinv he hfits hlen
    simp only [List.length_cons] at hlen
    obtain ⟨st, s1, live1, fr1, hrun, hinv1, hvb, _, _, _, _, hst, hfail, hok⟩ :=
      stack_push_inv fuel hinv (some v) (by simp [buffer_fits, hfits v (by simp)])
    have htot := hinv.total
    have hs : st = ⟨0, none⟩ := by
      rcases hst v rfl with ⟨h, _⟩ | ⟨_, h⟩
      · exact h
      · rw [h] at htot; simp only [List.length_nil] at htot; omega
    subst hs
    obtain ⟨a, nd1, hl, hb, hval, hframe⟩ := hok rfl
    have ha : a ∉ live := by
      have := (List.nodup_append.1 hinv1.nodup).1
      rw [hl] at this
      exact (List.nodup_cons.1 this).1
    have he1 : v.take s.value_bytes :: elems = live1.map (Stack.payload s1) := by
      rw [hl, List.map_cons, he]
      congr 1
      · simp only [Stack.payload, hb, hval, Option.getD_some]
      · apply List.map_congr_left
        intro i hi
        have hia : i ≠ a := fun e => ha (e ▸ hi)
        simp only [Stack.payload, hframe i hia]
    obtain ⟨s2, l2, f2, hrun2, hinv2, he2, hvb2⟩ :=
      ih s1 live1 fr1 _ hinv1 he1
        (fun w hw => by rw [hvb]; exact hfits w (List.mem_cons_of_mem _ hw))
        (by rw [hl, List.length_cons]; omega)
    refine ⟨s2, l2, f2, ?_, hinv2, ?_, hvb2.trans hvb⟩
    · simp only [List.map_cons, stack_run_elems, hrun, if_true, Option.getD_some]
      rw [hrun2, hvb]
      simp
    · rw [← he2, hvb]
      simp

/-- C2: after `stack_create` every sequence of calls made by one thread (each given
`NULL` or a buffer of at least `value_bytes` bytes) completes, and in the state reached,
where `elems` lists the payloads pushed and not yet popped, newest first, a `stack_pop`
into a buffer `o` of at least `value_bytes` bytes completes: when `elems` is empty it
returns -1 and leaves `o` alone, otherwise it returns 0 and has copied the newest payload
into the first `value_bytes` bytes of `o`; and while fewer than `cap` elements are held,
a `stack_push` of `v` returns 0 and a `stack_pop` right after it returns the first
`value_bytes` bytes of `v`. -/
theorem stack_pop_returns_most_recent_element (vb cap fuel : Nat) (ops : List stack_op)
    (hcap : 0 < cap) (hvb : vb + 24 ≤ SIZE_MOD)
    (hsz : sizeof_stack + Stack.node_byte_aligned vb * cap < SIZE_MOD)
    (hops : ∀ op ∈ ops, stack_op.fits vb op = true) :
    ∃ s0, stack_create vb cap true = some (some s0)
      ∧ ∃ s elems, stack_run_elems (fuel + 1) ops s0 [] = some (s, elems)
        ∧ (∀ o : List Nat, vb ≤ o.length →
            ∃ st s1 out1, stack_pop (fuel + 1) (some s) (some o) = some (st, some s1, out1)
              ∧ ((elems = [] ∧ st.ret = -1 ∧ out1 = some o)
                ∨ ∃ x rest, elems = x :: rest ∧ st = ⟨0, none⟩ ∧ x.length = vb
                    ∧ out1 = some (x ++ o.drop vb)
                    ∧ stack_run_elems (fuel + 1) [stack_op.pop (some o)] s elems
                        = some (s1, rest)))
        ∧ (∀ v o : List Nat, vb ≤ v.length → vb ≤ o.length → elems.length < cap →
            ∃ s1 s2, stack_push (fuel + 1) (some s) (some v) = some (⟨0, none⟩, some s1)
              ∧ stack_pop (fuel + 1) (some s1) (some o)
                = some (⟨0, none⟩, some s2, some (v.take vb ++ o.drop vb))) := by
  obtain ⟨s0, hc, hinv0, hv0, _⟩ := stack_create_inv vb cap hcap hvb hsz
  obtain ⟨s, live, fr, elems, hrun, hinv, he, hvbs⟩ :=
    stack_run_elems_inv fuel ops s0 [] _ [] hinv0 rfl (by rw [hv0]; exact hops)
  have hsvb : s.value_bytes = vb := hvbs.trans hv0
  refine ⟨s0, hc, s, elems, hrun, ?_, ?_⟩
  · intro o ho
    obtain ⟨st, s1, live1, fr1, out1, hpop, hinv1, _, _, _, _, _, hst, hfail, hok⟩ :=
      stack_pop_inv fuel hinv (some o) (by simp [buffer_fits, hsvb, ho])
    refine ⟨st, s1, out1, hpop, ?_⟩
    rcases hst o rfl with ⟨hs, hne⟩ | ⟨hs, hemp⟩
    · right
      obtain ⟨a, nd, hl, hb, hout, _⟩ := hok (by rw [hs])
      obtain ⟨nd', hnd', hlen⟩ := hinv.cells a (by rw [hl]; simp)
      rw [hb] at hnd'
      simp only [Option.some.injEq] at hnd'
      subst hnd'
      refine ⟨nd.value, live1.map (Stack.payload s), ?_, hs, by rw [hlen, hsvb], ?_, ?_⟩
      · rw [he, hl, List.map_cons]
        simp only [Stack.payload, hb]
      · rw [hout o rfl, hsvb]
      · simp only [stack_run_elems, hpop, hs, if_true]
        rw [he, hl, List.map_cons, List.tail_cons]
    · left
      obtain ⟨_, _, _, hout⟩ := hfail (by rw [hs]; decide)
      exact ⟨by rw [he, hemp]; rfl, by rw [hs], hout⟩
  · intro v o hv ho hlt
    have hll : live.length < cap := by rw [he, List.length_map] at hlt; exact hlt
    obtain ⟨st, s1, live1, fr1, hpush, hinv1, hvb1, _, _, _, _, hst, _, hok⟩ :=
      stack_push_inv fuel hinv (some v) (by simp [buffer_fits, hsvb, hv])
    have htot := hinv.total
    have hs : st = ⟨0, none⟩ := by
      rcases hst v rfl with ⟨h, _⟩ | ⟨_, h⟩
      · exact h
      · rw [h] at htot; simp only [List.length_nil] at htot; omega
    subst hs
    obtain ⟨a, nd1, hl, hb, hval, _⟩ := hok rfl
    obtain ⟨st2, s2, live2, fr2, out2, hpop, _, _, _, _, _, _, hst2, _, hok2⟩ :=
      stack_pop_inv fuel hinv1 (some o) (by simp [buffer_fits, hvb1, hsvb, ho])
    have hs2 : st2 = ⟨0, none⟩ := by
      rcases hst2 o rfl with ⟨h, _⟩ | ⟨_, h⟩
      · exact h
      · rw [hl] at h; simp at h
    subst hs2
    obtain ⟨a2, nd2, hl2, hb2, hout2, _⟩ := hok2 rfl
    have haa : a2 = a := by
      rw [hl] at hl2
      simp only [List.cons.injEq] at hl2
      exact hl2.1.symm
    subst haa
    rw [hb] at hb2
    simp only [Option.some.injEq] at hb2
    subst hb2
    refine ⟨s1, s2, hpush, ?_⟩
    rw [hpop, hout2 o rfl, hval, hvb1, hsvb]
    simp

/-- Instance of `stack_pop_returns_most_recent_element` on a stack of two `int`-sized
elements. -/
theorem stack_pop_returns_most_recent_element_witness :
    (0 < 2 ∧ 4 + 24 ≤ SIZE_MOD ∧ sizeof_stack + Stack.node_byte_aligned 4 * 2 < SIZE_MOD
      ∧ ∀ op ∈ [stack_op.push (some [10, 0, 0, 0]), stack_op.push (some [20, 0, 0, 0]),
                 stack_op.pop (some [0, 0, 0, 0])], stack_op.fits 4 op = true)
    ∧ ∃ s0, stack_create 4 2 true = some (some s0)
      ∧ ∃ s elems, stack_run_elems (0 + 1) [stack_op.push (some [10, 0, 0, 0]),
            stack_op.push (some [20, 0, 0, 0]), stack_op.pop (some [0, 0, 0, 0])] s0 []
          = some (s, elems)
        ∧ (∀ o : List Nat, 4 ≤ o.length →
            ∃ st s1 out1, stack_pop (0 + 1) (some s) (some o) = some (st, some s1, out1)
              ∧ ((elems = [] ∧ st.ret = -1 ∧ out1 = some o)
                ∨ ∃ x rest, elems = x :: rest ∧ st = ⟨0, none⟩ ∧ x.length = 4
                    ∧ out1 = some (x ++ o.drop 4)
                    ∧ stack_run_elems (0 + 1) [stack_op.pop (some o)] s elems
                        = some (s1, rest)))
        ∧ (∀ v o : List Nat, 4 ≤ v.length → 4 ≤ o.length → elems.length < 2 →
            ∃ s1 s2, stack_push (0 + 1) (some s) (some v) = some (⟨0, none⟩, some s1)
              ∧ stack_pop (0 + 1) (some s1) (some o)
                = some (⟨0, none⟩, some s2, some (v.take 4 ++ o.drop 4))) :=
  ⟨⟨by decide, by decide, by decide, by decide⟩,
    stack_pop_returns_most_recent_element 4 2 0 _ (by decide) (by decide) (by decide)
      (by decide)⟩

/-- C5: for a stack created with capacity `cap >= 1`, `cap` consecutive pushes on the
fresh stack all return 0; and in every state reached by calls of one thread (each given
`NULL` or a buffer of at least `value_bytes` bytes), where `elems` lists the live
elements, `stack_size` is their number and a `stack_push` of a value completes: it
returns -1 with `ENOMEM` exactly when `cap` elements are live, and then the stack (its
contents, size and both lists) is the same as before; otherwise it returns 0 and the
size grows by one. -/
theorem stack_push_fails_exactly_when_full (vb cap fuel : Nat) (ops : List stack_op)
    (hcap : 0 < cap) (hvb : vb + 24 ≤ SIZE_MOD)
    (hsz : sizeof_stack + Stack.node_byte_aligned vb * cap < SIZE_MOD)
    (hops : ∀ op ∈ ops, stack_op.fits vb op = true) :
    ∃ s0, stack_create vb cap true = some (some s0)
      ∧ (∀ vs : List (List Nat), (∀ v ∈ vs, vb ≤ v.length) → vs.length ≤ cap →
          ∃ s, stack_run_elems (fuel + 1) (vs.map fun v => stack_op.push (some v)) s0 []
              = some (s, (vs.map fun v => v.take vb).reverse)
            ∧ stack_size (some s) = (vs.length, none))
      ∧ ∃ s elems, stack_run_elems (fuel + 1) ops s0 [] = some (s, elems)
        ∧ stack_size (some s) = (elems.length, none)
        ∧ ∀ v : List Nat, vb ≤ v.length →
            ∃ st s1, stack_push (fuel + 1) (some s) (some v) = some (st, some s1)
              ∧ ((st = ⟨-1, some errno_t.ENOMEM⟩ ∧ elems.length = cap ∧ s1 = s)
                ∨ (st = ⟨0, none⟩ ∧ elems.length < cap
                    ∧ stack_size (some s1) = (elems.length + 1, none))) := by
  obtain ⟨s0, hc, hinv0, hv0, _⟩ := stack_create_inv vb cap hcap hvb hsz
  refine ⟨s0, hc, ?_, ?_⟩
  · intro vs hvs hlen
    obtain ⟨s1, live1, fr1, hrun, hinv1, he1, _⟩ :=
      stack_run_pushes fuel vs s0 [] _ [] hinv0 rfl (by rw [hv0]; exact hvs) (by simpa using hlen)
    rw [hv0] at hrun he1
    simp only [List.append_nil] at hrun he1
    refine ⟨s1, hrun, ?_⟩
    have := congrArg List.length he1
    simp only [List.length_reverse, List.length_map] at this
    simp only [stack_size, hinv1.size, this]
  · obtain ⟨s, live, fr, elems, hrun, hinv, he, hvbs⟩ :=
      stack_run_elems_inv fuel ops s0 [] _ [] hinv0 rfl (by rw [hv0]; exact hops)
    have hsvb : s.value_bytes = vb := hvbs.trans hv0
    have hlen : elems.length = live.length := by rw [he, List.length_map]
    refine ⟨s, elems, hrun, by simp only [stack_size, hinv.size, hlen], ?_⟩
    intro v hv
    obtain ⟨st, s1, live1, fr1, hpush, hinv1, _, _, h0, _, _, hst, hfail, _⟩ :=
      stack_push_inv fuel hinv (some v) (by simp [buffer_fits, hsvb, hv])
    refine ⟨st, s1, hpush, ?_⟩
    have htot := hinv.total
    rcases hst v rfl with ⟨hs, hne⟩ | ⟨hs, hemp⟩
    · right
      refine ⟨hs, ?_, ?_⟩
      · have : 0 < fr.length := List.length_pos.2 hne
        omega
      · simp only [stack_size, h0 (by rw [hs]), hinv.size, hlen]
    · left
      refine ⟨hs, ?_, (hfail (by rw [hs]; decide)).1⟩
      rw [hemp] at htot
      simp only [List.length_nil] at htot
      omega

/-- Instance of `stack_push_fails_exactly_when_full` on a stack of two `int`-sized
elements. -/
theorem stack_push_fails_exactly_when_full_witness :
    (0 < 2 ∧ 4 + 24 ≤ SIZE_MOD ∧ sizeof_stack + Stack.node_byte_aligned 4 * 2 < SIZE_MOD
      ∧ ∀ op ∈ [stack_op.push (some [10, 0, 0, 0]), stack_op.push (some [20, 0, 0, 0]),
                 stack_op.push (some [30, 0, 0, 0])], stack_op.fits 4 op = true)
    ∧ ∃ s0, stack_create 4 2 true = some (some s0)
      ∧ (∀ vs : List (List Nat), (∀ v ∈ vs, 4 ≤ v.length) → vs.length ≤ 2 →
          ∃ s, stack_run_elems (0 + 1) (vs.map fun v => stack_op.push (some v)) s0 []
              = some (s, (vs.map fun v => v.take 4).reverse)
            ∧ stack_size (some s) = (vs.length, none))
      ∧ ∃ s elems, stack_run_elems (0 + 1) [stack_op.push (some [10, 0, 0, 0]),
            stack_op.push (some [20, 0, 0, 0]), stack_op.push (some [30, 0, 0, 0])] s0 []
          = some (s, elems)
        ∧ stack_size (some s) = (elems.length, none)
        ∧ ∀ v : List Nat, 4 ≤ v.length →
            ∃ st s1, stack_push (0 + 1) (some s) (some v) = some (st, some s1)
              ∧ ((st = ⟨-1, some errno_t.ENOMEM⟩ ∧ elems.length = 2 ∧ s1 = s)
                ∨ (st = ⟨0, none⟩ ∧ elems.length < 2
                    ∧ stack_size (some s1) = (elems.length + 1, none))) :=
  ⟨⟨by decide, by decide, by decide, by decide⟩,
    stack_push_fails_exactly_when_full 4 2 0 _ (by decide) (by decide) (by decide)
      (by decide)⟩

/-! ### Deque: completion of sessions, order of the elements and exhaustion -/

/-- The fragments handed out by the pool of a deque are pairwise distinct and at most as
many as the pool holds. -/
theorem DequeInv.outp_nodup {N : Nat} {q : deq_t} {frags : FragMem} {h : NodeMem} {hd tl : Nat}
    {nodes : List (Nat × List Nat)} {outp : List Nat}
    (hinv : DequeInv N q frags h hd tl nodes outp) : outp.Nodup ∧ outp.length ≤ N := by
  obtain ⟨lp, hpool⟩ := hinv.pool
  exact ⟨(List.nodup_append.1 hpool.nodup).2.1, hpool.freeable_eq.2⟩

/-- With enough fuel `deque_pop` returns under the invariant: 0 when a node sits between
the sentinels, else -1 with `ENOENT`. -/
theorem deque_pop_returns {N : Nat} {q : deq_t} {frags : FragMem} {h : NodeMem} {hd tl : Nat}
    {nodes : List (Nat × List Nat)} {outp : List Nat} (fuel : Nat)
    (hinv : DequeInv N q frags h hd tl nodes outp) (hcl : Deque.Closed outp h)
    (out : Option (List Nat)) (hfit : buffer_fits q.val_bytes out = true)
    (hf : N * UINT32_MOD + 2 ≤ fuel) :
    ∃ st h1 out1, deque_pop (fuel + 2) (some q) out h = some (st, h1, out1)
      ∧ (∀ o, out = some o → (nodes = [] ∧ st = ⟨-1, some errno_t.ENOENT⟩ ∧ out1 = some o)
          ∨ (nodes ≠ [] ∧ st = ⟨0, none⟩)) := by
  obtain ⟨hS, hlen⟩ := hinv.outp_nodup
  have hf' : outp.length * UINT32_MOD + 2 ≤ fuel := by
    have := Nat.mul_le_mul_right UINT32_MOD hlen
    omega
  have hheld := hinv.held
  cases out with
  | none => exact ⟨_, _, _, rfl, fun o ho => by simp at ho⟩
  | some out =>
    cases hn : nodes with
    | nil =>
      subst hn
      have hadj : Deque.adj h hd tl := (List.chain'_cons.1 hinv.linked).1
      obtain ⟨res, hrun, hst, hout, _⟩ := deque_pop_empty_total (o := out) hS hcl
        (hheld hd (by simp)) (hheld tl (by simp)) hf' hinv.head hinv.tail hadj.1
      obtain ⟨st, h1, out1⟩ := res
      simp only at hst hout
      exact ⟨st, h1, out1, hrun, fun o ho => Or.inl ⟨rfl, hst, hout.trans ho⟩⟩
    | cons x rest =>
      subst hn
      obtain ⟨n, B, hB⟩ : ∃ n B, rest.map Prod.fst ++ [tl] = n :: B := by
        cases hl : rest.map Prod.fst ++ [tl] with
        | nil => simp at hl
        | cons a b => exact ⟨a, b, rfl⟩
      have hlinked := hinv.linked
      have hnd := hinv.nodup
      have hunm := Deque.chain_next_unmarked (by rw [hinv.tail_next])
        (hd :: (x :: rest).map Prod.fst) hinv.linked
      have hfull : hd :: (x :: rest).map Prod.fst ++ [tl] = [] ++ hd :: x.1 :: n :: B := by
        rw [← hB]; rfl
      rw [hfull] at hlinked hnd hheld hunm
      have hc := hlinked
      simp only [List.nil_append] at hc hnd
      rw [List.chain'_cons, List.chain'_cons] at hc
      obtain ⟨hpx, hxn, _⟩ := hc
      have hnd' := hnd
      simp only [List.nodup_cons, List.mem_cons, not_or] at hnd'
      obtain ⟨⟨d1, d2, hhdB⟩, ⟨d3, hxB⟩, hnB, hBnd⟩ := hnd'
      have htlmem : tl ∈ n :: B := by rw [← hB]; simp
      have hxt : some x.1 ≠ q.tail := by
        rw [hinv.tail]
        intro he
        simp only [Option.some.injEq] at he
        rw [he] at d3 hxB
        rcases List.mem_cons.1 htlmem with hm | hm
        · exact d3 hm
        · exact hxB hm
      have hvx : (h.data x.1).length = q.val_bytes := by
        rw [hinv.data x (by simp)]; exact hinv.vals x (by simp)
      have ho : q.val_bytes ≤ out.length := by simpa [buffer_fits] using hfit
      have hm : memcpy out (h.data x.1) q.val_bytes
          = some ((h.data x.1).take q.val_bytes ++ out.drop q.val_bytes) := by
        simp only [memcpy, hvx, le_refl, ho, and_self, if_true]
      obtain ⟨res, hrun, hst, _, _⟩ := deque_pop_total hS hcl
        (hheld hd (by simp)) (hheld x.1 (by simp)) (hheld n (by simp)) hf'
        hinv.head hxt hpx.1 hxn.1 hpx.2 hxn.2
        (hunm n (by simp)) (by rw [hinv.head_prev]) d1 d2 d3 hm
      obtain ⟨st, h1, out1⟩ := res
      simp only at hst
      exact ⟨st, h1, out1, hrun, fun _ _ => Or.inr ⟨by simp, hst⟩⟩

/-- With enough fuel `deque_unshift` returns under the invariant: 0 when a node sits
between the sentinels, else -1 with `ENOENT`. -/
theorem deque_unshift_returns {N : Nat} {q : deq_t} {frags : FragMem} {h : NodeMem}
    {hd tl : Nat} {nodes : List (Nat × List Nat)} {outp : List Nat} (fuel : Nat)
    (hinv : DequeInv N q frags h hd tl nodes outp) (hcl : Deque.Closed outp h)
    (out : Option (List Nat)) (hfit : buffer_fits q.val_bytes out = true)
    (hf : N * UINT32_MOD + 2 ≤ fuel) :
    ∃ st h1 out1, deque_unshift (fuel + 2) (some q) out h = some (st, h1, out1)
      ∧ (∀ o, out = some o → (nodes = [] ∧ st = ⟨-1, some errno_t.ENOENT⟩ ∧ out1 = some o)
          ∨ (nodes ≠ [] ∧ st = ⟨0, none⟩)) := by
  obtain ⟨hS, hlen⟩ := hinv.outp_nodup
  have hf' : outp.length * UINT32_MOD + 2 ≤ fuel := by
    have := Nat.mul_le_mul_right UINT32_MOD hlen
    omega
  have hheld := hinv.held
  cases out with
  | none => exact ⟨_, _, _, rfl, fun o ho => by simp at ho⟩
  | some out =>
    rcases List.eq_nil_or_concat nodes with hn | ⟨rest, x, hn⟩
    · subst hn
      have hadj : Deque.adj h hd tl := (List.chain'_cons.1 hinv.linked).1
      obtain ⟨res, hrun, hst, hout, _⟩ := deque_unshift_empty_total (o := out) hS hcl
        (hheld hd (by simp)) (hheld tl (by simp)) hf' hinv.head hinv.tail hadj.1 hadj.2
      obtain ⟨st, h1, out1⟩ := res
      simp only at hst hout
      exact ⟨st, h1, out1, hrun, fun o ho => Or.inl ⟨rfl, hst, hout.trans ho⟩⟩
    · rw [List.concat_eq_append] at hn
      subst hn
      obtain ⟨A, p, hA⟩ : ∃ A p, hd :: rest.map Prod.fst = A ++ [p] := by
        rcases List.eq_nil_or_concat (hd :: rest.map Prod.fst) with hl | ⟨L, b, hl⟩
        · simp at hl
        · exact ⟨L, b, by rw [hl, List.concat_eq_append]⟩
      have hfull : hd :: (rest ++ [x]).map Prod.fst ++ [tl] = A ++ p :: x.1 :: tl :: [] := by
        rw [List.map_append, ← List.cons_append, hA]
        simp
      have hlinked := hinv.linked
      have hnd := hinv.nodup
      have hunm := Deque.chain_prev_unmarked ((rest ++ [x]).map Prod.fst ++ [tl]) hd
        (by rw [hinv.head_prev]) hinv.linked
      have hunm' : ∀ a ∈ hd :: (rest ++ [x]).map Prod.fst ++ [tl], (h.prev a).d = false := hunm
      rw [hfull] at hlinked hnd hheld hunm'
      have hc := (List.chain'_split.1 hlinked).2
      rw [List.chain'_cons, List.chain'_cons] at hc
      obtain ⟨hpx, hxn, _⟩ := hc
      have hnd' := hnd
      rw [List.nodup_append] at hnd'
      obtain ⟨_, hBnd, hdis⟩ := hnd'
      simp only [List.nodup_cons, List.mem_cons, List.mem_singleton, List.not_mem_nil,
        not_or, or_false, not_false_eq_true, List.nodup_nil, and_true] at hBnd
      obtain ⟨⟨d1, d2⟩, d3⟩ := hBnd
      have hhdmem : hd ∈ A ++ [p] := by rw [← hA]; simp
      have hxhd : x.1 ≠ hd := by
        rintro he
        rcases List.mem_append.1 hhdmem with hm | hm
        · exact hdis hm (by rw [he]; simp)
        · simp only [List.mem_singleton] at hm
          exact d1 (by rw [he, hm])
      have hxh : some x.1 ≠ q.head := by
        rw [hinv.head]
        intro he
        simp only [Option.some.injEq] at he
        exact hxhd he
      have hvx : (h.data x.1).length = q.val_bytes := by
        rw [hinv.data x (by simp)]; exact hinv.vals x (by simp)
      have ho : q.val_bytes ≤ out.length := by simpa [buffer_fits] using hfit
      have hm : memcpy out (h.data x.1) q.val_bytes
          = some ((h.data x.1).take q.val_bytes ++ out.drop q.val_bytes) := by
        simp only [memcpy, hvx, le_refl, ho, and_self, if_true]
      obtain ⟨res, hrun, hst, _, _⟩ := deque_unshift_total hS hcl
        (hheld p (by simp)) (hheld x.1 (by simp)) (hheld tl (by simp)) hf'
        hinv.tail hxh hpx.1 hxn.1 hpx.2 hxn.2
        (by rw [hinv.tail_next]) (hunm' p (by simp)) d1 d2 d3 hm
      obtain ⟨st, h1, out1⟩ := res
      simp only at hst
      exact ⟨st, h1, out1, hrun, fun _ _ => Or.inr ⟨by simp, hst⟩⟩

/-- With enough fuel `deque_push` returns under the invariant: -1 with `ENOMEM` and nothing
changed when the pool has handed out all its fragments, else 0. -/
theorem deque_push_returns {N : Nat} {q : deq_t} {frags : FragMem} {h : NodeMem} {hd tl : Nat}
    {nodes : List (Nat × List Nat)} {outp : List Nat} (fuel : Nat)
    (hinv : DequeInv N q frags h hd tl nodes outp) (hcl : Deque.Closed outp h)
    (hsz : DequeSized q)
    (v : Option (List Nat)) (hfit : buffer_fits q.val_bytes v = true)
    (hf : N * UINT32_MOD + 2 ≤ fuel) :
    ∃ st q1 h1, deque_push (fuel + 2) (some q) v frags h = some (st, some q1, h1)
      ∧ DequeSized q1
      ∧ (∀ x, v = some x → (st = ⟨-1, some errno_t.ENOMEM⟩ ∧ outp.length = N ∧ q1 = q ∧ h1 = h)
          ∨ (st = ⟨0, none⟩ ∧ outp.length < N)) := by
  have hheld := hinv.held
  cases v with
  | none => exact ⟨_, _, _, rfl, hsz, fun o ho => by simp at ho⟩
  | some v =>
    have hv : q.val_bytes ≤ v.length := by simpa [buffer_fits] using hfit
    obtain ⟨lp, hpool⟩ := hinv.pool
    rcases mempool_alloc_inv (fuel + 1) hpool with ⟨halloc, hlen⟩ | ⟨node, pool1, l1, halloc, hpool1, _⟩
    · refine ⟨⟨-1, some errno_t.ENOMEM⟩, q, h, ?_, hsz, fun _ _ => Or.inl ⟨rfl, hlen, rfl, rfl⟩⟩
      simp only [deque_push, CreateNode, MALLOC_NODE, halloc]
    · rcases mempool_alloc_fresh hpool halloc with ⟨hp, _⟩ | ⟨a, l2, hp, hout, _, _, hdb1⟩
      · simp at hp
      · simp only [Option.some.injEq] at hp
        subst hp
        obtain ⟨hvb0, hdb, hdb16⟩ := hsz
        have hge := (internal_mempool_aligned_data_bytes_ge pool1 (by rw [hdb1]; exact hdb16)).2
        rw [hdb1, hdb] at hge
        have h48 : sizeof_deque_node * q.val_bytes = 48 * q.val_bytes := rfl
        have hcreate := CreateNode_total (h := h) (w := q.val_bytes) halloc
          (by simp only [sizeof_deque_node] at *; omega) hv
          (by simp only [sizeof_deque_node, offsetof_data] at *; omega)
        have hS1 : (node :: outp).Nodup := (List.nodup_append.1 hpool1.nodup).2.1
        have hlen1 : (node :: outp).length ≤ N := hpool1.freeable_eq.2
        simp only [List.length_cons] at hlen1
        have hf' : (outp.length + 1) * UINT32_MOD + 2 ≤ fuel := by
          have := Nat.mul_le_mul_right UINT32_MOD hlen1
          omega
        obtain ⟨nx, B, hB⟩ : ∃ nx B, nodes.map Prod.fst ++ [tl] = nx :: B := by
          cases hl : nodes.map Prod.fst ++ [tl] with
          | nil => simp at hl
          | cons a b => exact ⟨a, b, rfl⟩
        have hlinked := hinv.linked
        rw [List.cons_append, hB] at hlinked hheld
        have hadj : Deque.adj h hd nx := (List.chain'_cons.1 hlinked).1
        obtain ⟨res, hrun, hst, hq1, _⟩ := deque_push_total hS1 hcl
          (hheld hd (by simp)) (hheld nx (by simp)) hf' hinv.head hadj.1 hadj.2 hcreate
        obtain ⟨st, q1, h1⟩ := res
        simp only at hst hq1
        subst hq1
        exact ⟨st, _, h1, hrun, ⟨hvb0, hdb1.trans hdb, by rw [hdb1]; exact hdb16⟩,
          fun _ _ => Or.inr ⟨hst, by omega⟩⟩

/-- With enough fuel `deque_shift` returns under the invariant: -1 with `ENOMEM` and nothing
changed when the pool has handed out all its fragments, else 0. -/
theorem deque_shift_returns {N : Nat} {q : deq_t} {frags : FragMem} {h : NodeMem} {hd tl : Nat}
    {nodes : List (Nat × List Nat)} {outp : List Nat} (fuel : Nat)
    (hinv : DequeInv N q frags h hd tl nodes outp) (hcl : Deque.Closed outp h)
    (hsz : DequeSized q)
    (v : Option (List Nat)) (hfit : buffer_fits q.val_bytes v = true)
    (hf : N * UINT32_MOD + 2 ≤ fuel) :
    ∃ st q1 h1, deque_shift (fuel + 2) (some q) v frags h = some (st, some q1, h1)
      ∧ DequeSized q1
      ∧ (∀ x, v = some x → (st = ⟨-1, some errno_t.ENOMEM⟩ ∧ outp.length = N ∧ q1 = q ∧ h1 = h)
          ∨ (st = ⟨0, none⟩ ∧ outp.length < N)) := by
  have hheld := hinv.held
  cases v with
  | none => exact ⟨_, _, _, rfl, hsz, fun o ho => by simp at ho⟩
  | some v =>
    have hv : q.val_bytes ≤ v.length := by simpa [buffer_fits] using hfit
    obtain ⟨lp, hpool⟩ := hinv.pool
    rcases mempool_alloc_inv (fuel + 1) hpool with ⟨halloc, hlen⟩ | ⟨node, pool1, l1, halloc, hpool1, _⟩
    · refine ⟨⟨-1, some errno_t.ENOMEM⟩, q, h, ?_, hsz, fun _ _ => Or.inl ⟨rfl, hlen, rfl, rfl⟩⟩
      simp only [deque_shift, CreateNode, MALLOC_NODE, halloc]
    · rcases mempool_alloc_fresh hpool halloc with ⟨hp, _⟩ | ⟨a, l2, hp, hout, _, _, hdb1⟩
      · simp at hp
      · simp only [Option.some.injEq] at hp
        subst hp
        obtain ⟨hvb0, hdb, hdb16⟩ := hsz
        have hge := (internal_mempool_aligned_data_bytes_ge pool1 (by rw [hdb1]; exact hdb16)).2
        rw [hdb1, hdb] at hge
        have h48 : sizeof_deque_node * q.val_bytes = 48 * q.val_bytes := rfl
        have hcreate := CreateNode_total (h := h) (w := q.val_bytes) halloc
          (by simp only [sizeof_deque_node] at *; omega) hv
          (by simp only [sizeof_deque_node, offsetof_data] at *; omega)
        have hS1 : (node :: outp).Nodup := (List.nodup_append.1 hpool1.nodup).2.1
        have hlen1 : (node :: outp).length ≤ N := hpool1.freeable_eq.2
        simp only [List.length_cons] at hlen1
        have hf' : (outp.length + 1) * UINT32_MOD + 2 ≤ fuel := by
          have := Nat.mul_le_mul_right UINT32_MOD hlen1
          omega
        obtain ⟨A, p, hA⟩ : ∃ A p, hd :: nodes.map Prod.fst = A ++ [p] := by
          rcases List.eq_nil_or_concat (hd :: nodes.map Prod.fst) with hl | ⟨L, b, hl⟩
          · simp at hl
          · exact ⟨L, b, by rw [hl, List.concat_eq_append]⟩
        have hfull : hd :: nodes.map Prod.fst ++ [tl] = A ++ p :: tl :: [] := by
          rw [hA, List.append_assoc]; rfl
        have hlinked := hinv.linked
        rw [hfull] at hlinked hheld
        have hadj : Deque.adj h p tl :=
          (List.chain'_cons.1 (List.chain'_split.1 hlinked).2).1
        obtain ⟨res, hrun, hst, hq1, _⟩ := deque_shift_total hS1 hcl
          (hheld p (by simp)) (hheld tl (by simp)) hf' hinv.tail hadj.1 hadj.2 hcreate
        obtain ⟨st, q1, h1⟩ := res
        simp only at hst hq1
        subst hq1
        exact ⟨st, _, h1, hrun, ⟨hvb0, hdb1.trans hdb, by rw [hdb1]; exact hdb16⟩,
          fun _ _ => Or.inr ⟨hst, by omega⟩⟩

/-- With enough fuel every list of calls of one thread, each given `NULL` or a buffer of
at least `val_bytes` bytes, completes under the invariant and keeps it. -/
theorem deque_run_total {N : Nat} {frags : FragMem} {hd tl : Nat} (fuel : Nat)
    (hf : N * UINT32_MOD + 2 ≤ fuel) :
    ∀ (ops : List deque_op) (q : deq_t) (h : NodeMem) (nodes : List (Nat × List Nat))
      (outp : List Nat),
      DequeInv N q frags h hd tl nodes outp → Deque.Closed outp h → DequeSized q →
      (∀ op ∈ ops, deque_op.fits q.val_bytes op = true) →
      ∃ q1 h1 nodes1 outp1,
        deque_run (fuel + 2) ops q frags h (nodes.map Prod.snd)
          = some (q1, h1, nodes1.map Prod.snd)
        ∧ DequeInv N q1 frags h1 hd tl nodes1 outp1 ∧ Deque.Closed outp1 h1
        ∧ DequeSized q1 ∧ q1.val_bytes = q.val_bytes := by
  intro ops
  induction ops with
  | nil =>
    intro q h nodes outp hinv hcl hsz _
    exact ⟨q, h, nodes, outp, rfl, hinv, hcl, hsz, rfl⟩
  | cons op ops ih =>
    intro q h nodes outp hinv hcl hsz hops
    have hop := hops op (by simp)
    have hrest : ∀ q1 : deq_t, q1.val_bytes = q.val_bytes →
        ∀ op ∈ ops, deque_op.fits q1.val_bytes op = true := by
      intro q1 hq1 o ho
      rw [hq1]
      exact hops o (List.mem_cons_of_mem _ ho)
    cases op with
    | push v =>
      obtain ⟨st, q1, h1, hrun, hsz1, _⟩ := deque_push_returns fuel hinv hcl hsz v hop hf
      obtain ⟨q2, nodes3, outp3, hq, hinv3, hvb, hel, _, _, hcl3, _⟩ := deque_push_inv hinv hrun
      simp only [Option.some.injEq] at hq
      subst hq
      obtain ⟨q4, h4, n4, o4, hrun4, hinv4, hcl4, hsz4, hvb4⟩ :=
        ih q1 h1 nodes3 outp3 hinv3 (hcl3 hcl) hsz1 (hrest q1 hvb)
      refine ⟨q4, h4, n4, o4, ?_, hinv4, hcl4, hsz4, hvb4.trans hvb⟩
      simp only [deque_run, hrun]
      rw [← hel, hrun4]
    | shift v =>
      obtain ⟨st, q1, h1, hrun, hsz1, _⟩ := deque_shift_returns fuel hinv hcl hsz v hop hf
      obtain ⟨q2, nodes3, outp3, hq, hinv3, hvb, hel, _, _, hcl3, _⟩ := deque_shift_inv hinv hrun
      simp only [Option.some.injEq] at hq
      subst hq
      obtain ⟨q4, h4, n4, o4, hrun4, hinv4, hcl4, hsz4, hvb4⟩ :=
        ih q1 h1 nodes3 outp3 hinv3 (hcl3 hcl) hsz1 (hrest q1 hvb)
      refine ⟨q4, h4, n4, o4, ?_, hinv4, hcl4, hsz4, hvb4.trans hvb⟩
      simp only [deque_run, hrun]
      rw [← hel, hrun4]
    | pop out =>
      obtain ⟨st, h1, out1, hrun, _⟩ := deque_pop_returns fuel hinv hcl out hop hf
      obtain ⟨nodes3, hinv3, hel, _, _, hcl3⟩ := deque_pop_inv hinv hrun
      obtain ⟨q4, h4, n4, o4, hrun4, hinv4, hcl4, hsz4, hvb4⟩ :=
        ih q h1 nodes3 outp hinv3 (hcl3 hcl) hsz (hrest q rfl)
      refine ⟨q4, h4, n4, o4, ?_, hinv4, hcl4, hsz4, hvb4⟩
      simp only [deque_run, hrun]
      rw [← hel, hrun4]
    | unshift out =>
      obtain ⟨st, h1, out1, hrun, _⟩ := deque_unshift_returns fuel hinv hcl out hop hf
      obtain ⟨nodes3, hinv3, hel, _, _, hcl3⟩ := deque_unshift_inv hinv hrun
      obtain ⟨q4, h4, n4, o4, hrun4, hinv4, hcl4, hsz4, hvb4⟩ :=
        ih q h1 nodes3 outp hinv3 (hcl3 hcl) hsz (hrest q rfl)
      refine ⟨q4, h4, n4, o4, ?_, hinv4, hcl4, hsz4, hvb4⟩
      simp only [deque_run, hrun]
      rw [← hel, hrun4]

/-- With enough fuel every session of one thread completes: `deque_create` with valid
arguments returns 0, every call after it returns, and the state reached satisfies the
invariant. -/
theorem deque_session_total (fuel : Nat) (q0 : deq_t) (vb cap base : Nat) (frags : FragMem)
    (h0 : NodeMem) (ops : List deque_op) (hvb : 0 < vb) (hcap : 0 < cap) (hbase : 0 < base)
    (hnb : sizeof_deque_node * vb + 16 ≤ SIZE_MOD)
    (hfit : base + (cap + 2 + 1) * internal_mempool_aligned_data_bytes
        (MEMORY_POOL_MAKER none (sizeof_deque_node * vb) (cap + 2)) < SIZE_MOD)
    (hf : (cap + 2) * UINT32_MOD + 2 ≤ fuel)
    (hops : ∀ op ∈ ops, deque_op.fits vb op = true) :
    ∃ q h frags1 hd tl nodes outp,
      deque_session (fuel + 2) q0 vb cap (some base) frags h0 ops
        = some (q, h, nodes.map Prod.snd)
      ∧ DequeInv (cap + 2) q frags1 h hd tl nodes outp ∧ Deque.Closed outp h
      ∧ DequeSized q ∧ q.val_bytes = vb
      ∧ ∃ q1 h1, deque_create (fuel + 2) (some q0) vb cap (some base) frags h0
            = some (⟨0, none⟩, some q1, frags1, h1)
          ∧ deque_run (fuel + 2) ops q1 frags1 h1 [] = some (q, h, nodes.map Prod.snd)
          ∧ DequeInv (cap + 2) q1 frags1 h1 hd tl [] [tl, hd] ∧ Deque.Closed [tl, hd] h1
          ∧ DequeSized q1 ∧ q1.val_bytes = vb := by
  obtain ⟨q1, frags1, h1, hd, tl, hc, hinv, hq, _, _, hsz, hcl⟩ :=
    deque_create_inv (fuel + 1) q0 vb cap base frags h0 hvb hcap hbase hnb hfit
  obtain ⟨q, h, nodes, outp, hrun, hinv1, hcl1, hsz1, hvb1⟩ :=
    deque_run_total fuel hf ops q1 h1 [] [tl, hd] hinv hcl hsz (by rw [hq]; exact hops)
  refine ⟨q, h, frags1, hd, tl, nodes, outp, ?_, hinv1, hcl1, hsz1, hvb1.trans hq,
    q1, h1, hc, hrun, hinv, hcl, hsz, hq⟩
  simp only [deque_session, hc, if_true]
  exact hrun

/-- While the pool has fragments left, consecutive insertions all return 0: each takes a
fragment and adds a node. -/
theorem deque_run_inserts {N : Nat} {frags : FragMem} {hd tl : Nat} (fuel : Nat)
    (hf : N * UINT32_MOD + 2 ≤ fuel) :
    ∀ (vs : List (Bool × List Nat)) (q : deq_t) (h : NodeMem) (nodes : List (Nat × List Nat))
      (outp : List Nat),
      DequeInv N q frags h hd tl nodes outp → Deque.Closed outp h → DequeSized q →
      (∀ bv ∈ vs, q.val_bytes ≤ bv.2.length) → outp.length + vs.length ≤ N →
      ∃ q1 h1 nodes1 outp1,
        deque_run (fuel + 2) (vs.map deque_insert) q frags h (nodes.map Prod.snd)
          = some (q1, h1, nodes1.map Prod.snd)
        ∧ DequeInv N q1 frags h1 hd tl nodes1 outp1 ∧ Deque.Closed outp1 h1
        ∧ DequeSized q1 ∧ q1.val_bytes = q.val_bytes
        ∧ outp1.length = outp.length + vs.length
        ∧ nodes1.length = nodes.length + vs.length := by
  intro vs
  induction vs with
  | nil =>
    intro q h nodes outp hinv hcl hsz _ _
    exact ⟨q, h, nodes, outp, rfl, hinv, hcl, hsz, rfl, rfl, rfl⟩
  | cons bv vs ih =>
    intro q h nodes outp hinv hcl hsz hvs hlen
    obtain ⟨b, v⟩ := bv
    have hv : q.val_bytes ≤ v.length := hvs (b, v) (by simp)
    simp only [List.length_cons] at hlen
    cases b with
    | true =>
      obtain ⟨st, q1, h1, hrun, hsz1, hst⟩ := deque_push_returns fuel hinv hcl hsz (some v)
        (by simp [buffer_fits, hv]) hf
      have hs : st = ⟨0, none⟩ := by
        rcases hst v rfl with ⟨_, hN, _⟩ | ⟨hs, _⟩
        · omega
        · exact hs
      subst hs
      obtain ⟨q2, nodes3, outp3, hq, hinv3, hvb, hel, _, _, hcl3, hl3⟩ :=
        deque_push_inv hinv hrun
      simp only [Option.some.injEq] at hq
      subst hq
      simp only [if_true, Option.getD_some] at hel hl3
      obtain ⟨q4, h4, n4, o4, hrun4, hinv4, hcl4, hsz4, hvb4, hl4, hn4⟩ :=
        ih q1 h1 nodes3 outp3 hinv3 (hcl3 hcl) hsz1
          (fun bv hbv => by rw [hvb]; exact hvs bv (List.mem_cons_of_mem _ hbv))
          (by omega)
      have hn3 := congrArg List.length hel
      simp only [List.length_map, List.length_cons] at hn3
      refine ⟨q4, h4, n4, o4, ?_, hinv4, hcl4, hsz4, hvb4.trans hvb, ?_, ?_⟩
      · simp only [List.map_cons, deque_insert, if_true, deque_run, hrun, Option.getD_some]
        rw [← hel, hrun4]
      · simp only [List.length_cons]; omega
      · simp only [List.length_cons]; omega
    | false =>
      obtain ⟨st, q1, h1, hrun, hsz1, hst⟩ := deque_shift_returns fuel hinv hcl hsz (some v)
        (by simp [buffer_fits, hv]) hf
      have hs : st = ⟨0, none⟩ := by
        rcases hst v rfl with ⟨_, hN, _⟩ | ⟨hs, _⟩
        · omega
        · exact hs
      subst hs
      obtain ⟨q2, nodes3, outp3, hq, hinv3, hvb, hel, _, _, hcl3, hl3⟩ :=
        deque_shift_inv hinv hrun
      simp only [Option.some.injEq] at hq
      subst hq
      simp only [if_true, Option.getD_some] at hel hl3
      obtain ⟨q4, h4, n4, o4, hrun4, hinv4, hcl4, hsz4, hvb4, hl4, hn4⟩ :=
        ih q1 h1 nodes3 outp3 hinv3 (hcl3 hcl) hsz1
          (fun bv hbv => by rw [hvb]; exact hvs bv (List.mem_cons_of_mem _ hbv))
          (by omega)
      have hn3 := congrArg List.length hel
      simp only [List.length_map, List.length_append, List.length_singleton] at hn3
      refine ⟨q4, h4, n4, o4, ?_, hinv4, hcl4, hsz4, hvb4.trans hvb, ?_, ?_⟩
      · simp only [List.map_cons, deque_insert, Bool.false_eq_true, if_false, deque_run, hrun,
          if_true, Option.getD_some]
        rw [← hel, hrun4]
      · simp only [List.length_cons]; omega
      · simp only [List.length_cons]; omega

/-- While the pool has fragments left for its insertions, a list of calls of one thread
returns, call by call, what the same calls return on the double-ended sequence of the
specification, and leaves the payloads of that sequence between the sentinels. -/
theorem deque_trace_refines {N : Nat} {frags : FragMem} {hd tl : Nat} (fuel : Nat)
    (hf : N * UINT32_MOD + 2 ≤ fuel) :
    ∀ (ops : List deque_op) (q : deq_t) (h : NodeMem) (nodes : List (Nat × List Nat))
      (outp : List Nat),
      DequeInv N q frags h hd tl nodes outp → Deque.Closed outp h → DequeSized q →
      (∀ op ∈ ops, deque_op.fits q.val_bytes op = true) →
      outp.length + (ops.filter deque_op.inserts).length ≤ N →
      ∃ q1 h1 nodes1 outp1,
        deque_run (fuel + 2) ops q frags h (nodes.map Prod.snd)
          = some (q1, h1, nodes1.map Prod.snd)
        ∧ DequeInv N q1 frags h1 hd tl nodes1 outp1 ∧ Deque.Closed outp1 h1
        ∧ DequeSized q1 ∧ q1.val_bytes = q.val_bytes
        ∧ outp1.length ≤ outp.length + (ops.filter deque_op.inserts).length
        ∧ nodes1.map Prod.snd = spec_deque_run q.val_bytes ops (nodes.map Prod.snd)
        ∧ deque_trace (fuel + 2) ops q frags h
          = some (spec_deque_trace q.val_bytes ops (nodes.map Prod.snd)) := by
  intro ops
  induction ops with
  | nil =>
    intro q h nodes outp hinv hcl hsz _ _
    exact ⟨q, h, nodes, outp, rfl, hinv, hcl, hsz, rfl, by simp, rfl, rfl⟩
  | cons op ops ih =>
    intro q h nodes outp hinv hcl hsz hops hlen
    have hop := hops op (by simp)
    have hrest : ∀ q1 : deq_t, q1.val_bytes = q.val_bytes →
        ∀ op ∈ ops, deque_op.fits q1.val_bytes op = true := by
      intro q1 hq1 o ho
      rw [hq1]
      exact hops o (List.mem_cons_of_mem _ ho)
    cases op with
    | push v =>
      simp only [List.filter_cons, deque_op.inserts, if_true, List.length_cons] at hlen ⊢
      cases v with
      | none =>
        obtain ⟨q4, h4, n4, o4, hrun4, hinv4, hcl4, hsz4, hvb4, hl4, hs4, ht4⟩ :=
          ih q h nodes outp hinv hcl hsz (hrest q rfl) (by omega)
        refine ⟨q4, h4, n4, o4, ?_, hinv4, hcl4, hsz4, hvb4, by omega, ?_, ?_⟩
        · simp only [deque_run, deque_push]
          exact hrun4
        · simp only [spec_deque_run, spec_deque_step]
          exact hs4
        · simp only [deque_trace, deque_push, ht4, spec_deque_trace, spec_deque_step,
            Option.map_some']
      | some x =>
        obtain ⟨st, q1, h1, hrun, hsz1, hst⟩ := deque_push_returns fuel hinv hcl hsz (some x)
          hop hf
        have hs : st = ⟨0, none⟩ := by
          rcases hst x rfl with ⟨_, hN, _⟩ | ⟨hs, _⟩
          · omega
          · exact hs
        subst hs
        obtain ⟨q2, nodes3, outp3, hq, hinv3, hvb, hel, _, _, hcl3, hl3⟩ :=
          deque_push_inv hinv hrun
        simp only [Option.some.injEq] at hq
        subst hq
        simp only [if_true, Option.getD_some] at hel hl3
        obtain ⟨q4, h4, n4, o4, hrun4, hinv4, hcl4, hsz4, hvb4, hl4, hs4, ht4⟩ :=
          ih q1 h1 nodes3 outp3 hinv3 (hcl3 hcl) hsz1 (hrest q1 hvb) (by omega)
        refine ⟨q4, h4, n4, o4, ?_, hinv4, hcl4, hsz4, hvb4.trans hvb, by omega, ?_, ?_⟩
        · simp only [deque_run, hrun, if_true, Option.getD_some]
          rw [← hel, hrun4]
        · simp only [spec_deque_run, spec_deque_step]
          rw [hs4, hel, hvb]
        · simp only [deque_trace, hrun, ht4, spec_deque_trace, spec_deque_step,
            Option.map_some', hel, hvb]
    | shift v =>
      simp only [List.filter_cons, deque_op.inserts, if_true, List.length_cons] at hlen ⊢
      cases v with
      | none =>
        obtain ⟨q4, h4, n4, o4, hrun4, hinv4, hcl4, hsz4, hvb4, hl4, hs4, ht4⟩ :=
          ih q h nodes outp hinv hcl hsz (hrest q rfl) (by omega)
        refine ⟨q4, h4, n4, o4, ?_, hinv4, hcl4, hsz4, hvb4, by omega, ?_, ?_⟩
        · simp only [deque_run, deque_shift]
          exact hrun4
        · simp only [spec_deque_run, spec_deque_step]
          exact hs4
        · simp only [deque_trace, deque_shift, ht4, spec_deque_trace, spec_deque_step,
            Option.map_some']
      | some x =>
        obtain ⟨st, q1, h1, hrun, hsz1, hst⟩ := deque_shift_returns fuel hinv hcl hsz (some x)
          hop hf
        have hs : st = ⟨0, none⟩ := by
          rcases hst x rfl with ⟨_, hN, _⟩ | ⟨hs, _⟩
          · omega
          · exact hs
        subst hs
        obtain ⟨q2, nodes3, outp3, hq, hinv3, hvb, hel, _, _, hcl3, hl3⟩ :=
          deque_shift_inv hinv hrun
        simp only [Option.some.injEq] at hq
        subst hq
        simp only [if_true, Option.getD_some] at hel hl3
        obtain ⟨q4, h4, n4, o4, hrun4, hinv4, hcl4, hsz4, hvb4, hl4, hs4, ht4⟩ :=
          ih q1 h1 nodes3 outp3 hinv3 (hcl3 hcl) hsz1 (hrest q1 hvb) (by omega)
        refine ⟨q4, h4, n4, o4, ?_, hinv4, hcl4, hsz4, hvb4.trans hvb, by omega, ?_, ?_⟩
        · simp only [deque_run, hrun, if_true, Option.getD_some]
          rw [← hel, hrun4]
        · simp only [spec_deque_run, spec_deque_step]
          rw [hs4, hel, hvb]
        · simp only [deque_trace, hrun, ht4, spec_deque_trace, spec_deque_step,
            Option.map_some', hel, hvb]
    | pop out =>
      have hflt : (List.filter deque_op.inserts (deque_op.pop out :: ops))
          = List.filter deque_op.inserts ops := by
        simp [List.filter_cons, deque_op.inserts]
      rw [hflt] at hlen ⊢
      cases out with
      | none =>
        obtain ⟨q4, h4, n4, o4, hrun4, hinv4, hcl4, hsz4, hvb4, hl4, hs4, ht4⟩ :=
          ih q h nodes outp hinv hcl hsz (hrest q rfl) hlen
        refine ⟨q4, h4, n4, o4, ?_, hinv4, hcl4, hsz4, hvb4, hl4, ?_, ?_⟩
        · simp only [deque_run, deque_pop]
          exact hrun4
        · simp only [spec_deque_run, spec_deque_step]
          exact hs4
        · simp only [deque_trace, deque_pop, ht4, spec_deque_trace, spec_deque_step,
            Option.map_some']
      | some o =>
        have ho : q.val_bytes ≤ o.length := by simpa [deque_op.fits, buffer_fits] using hop
        obtain ⟨st, h1, out1, hrun, hst⟩ := deque_pop_returns fuel hinv hcl (some o) hop hf
        obtain ⟨nodes3, hinv3, hel, hout, _, hcl3⟩ := deque_pop_inv hinv hrun
        obtain ⟨q4, h4, n4, o4, hrun4, hinv4, hcl4, hsz4, hvb4, hl4, hs4, ht4⟩ :=
          ih q h1 nodes3 outp hinv3 (hcl3 hcl) hsz (hrest q rfl) hlen
        refine ⟨q4, h4, n4, o4, ?_, hinv4, hcl4, hsz4, hvb4, hl4, ?_, ?_⟩
        · simp only [deque_run, hrun]
          rw [← hel, hrun4]
        · rcases hst o rfl with ⟨hn, hs, _⟩ | ⟨hn, hs⟩
          · subst hs; subst hn
            simp only [show ¬ ((-1 : Int) = 0) by decide, if_false] at hel
            simp only [spec_deque_run, spec_deque_step, List.map_nil]
            rw [hs4, hel]; rfl
          · subst hs
            obtain ⟨x, o', hnodes, _, _⟩ := hout rfl
            subst hnodes
            simp only [spec_deque_run, spec_deque_step, List.map_cons]
            exact hs4
        · rcases hst o rfl with ⟨hn, hs, ho1⟩ | ⟨hn, hs⟩
          · subst hs; subst hn; subst ho1
            simp only [show ¬ ((-1 : Int) = 0) by decide, if_false] at hel
            simp only [deque_trace, hrun, ht4, spec_deque_trace, spec_deque_step,
              Option.map_some', List.map_nil, hel]
          · subst hs
            obtain ⟨x, o', hnodes, ho', hout1⟩ := hout rfl
            simp only [Option.some.injEq] at ho'
            subst ho'; subst hnodes
            have hxl : x.2.length = q.val_bytes := hinv.vals x (by simp)
            have hm : out1 = some (x.2 ++ o.drop q.val_bytes) := by
              rw [hout1]
              simp only [memcpy, hxl, le_refl, ho, and_self, if_true]
              rw [← hxl, List.take_length]
            simp only [deque_trace, hrun, ht4, spec_deque_trace, spec_deque_step,
              Option.map_some', List.map_cons, hm]
    | unshift out =>
      have hflt : (List.filter deque_op.inserts (deque_op.unshift out :: ops))
          = List.filter deque_op.inserts ops := by
        simp [List.filter_cons, deque_op.inserts]
      rw [hflt] at hlen ⊢
      cases out with
      | none =>
        obtain ⟨q4, h4, n4, o4, hrun4, hinv4, hcl4, hsz4, hvb4, hl4, hs4, ht4⟩ :=
          ih q h nodes outp hinv hcl hsz (hrest q rfl) hlen
        refine ⟨q4, h4, n4, o4, ?_, hinv4, hcl4, hsz4, hvb4, hl4, ?_, ?_⟩
        · simp only [deque_run, deque_unshift]
          exact hrun4
        · simp only [spec_deque_run, spec_deque_step]
          exact hs4
        · simp only [deque_trace, deque_unshift, ht4, spec_deque_trace, spec_deque_step,
            Option.map_some']
      | some o =>
        have ho : q.val_bytes ≤ o.length := by simpa [deque_op.fits, buffer_fits] using hop
        obtain ⟨st, h1, out1, hrun, hst⟩ := deque_unshift_returns fuel hinv hcl (some o) hop hf
        obtain ⟨nodes3, hinv3, hel, hout, _, hcl3⟩ := deque_unshift_inv hinv hrun
        obtain ⟨q4, h4, n4, o4, hrun4, hinv4, hcl4, hsz4, hvb4, hl4, hs4, ht4⟩ :=
          ih q h1 nodes3 outp hinv3 (hcl3 hcl) hsz (hrest q rfl) hlen
        refine ⟨q4, h4, n4, o4, ?_, hinv4, hcl4, hsz4, hvb4, hl4, ?_, ?_⟩
        · simp only [deque_run, hrun]
          rw [← hel, hrun4]
        · rcases hst o rfl with ⟨hn, hs, _⟩ | ⟨hn, hs⟩
          · subst hs; subst hn
            simp only [show ¬ ((-1 : Int) = 0) by decide, if_false] at hel
            simp only [spec_deque_run, spec_deque_step, List.map_nil, List.getLast?_nil]
            rw [hs4, hel]; rfl
          · subst hs
            obtain ⟨x, o', hnodes, _, _⟩ := hout rfl
            subst hnodes
            have hgl : (nodes3.map Prod.snd ++ [x.2]).getLast? = some x.2 := by simp
            simp only [spec_deque_run, spec_deque_step, List.map_append, List.map_cons,
              List.map_nil, hgl, List.dropLast_concat]
            exact hs4
        · rcases hst o rfl with ⟨hn, hs, ho1⟩ | ⟨hn, hs⟩
          · subst hs; subst hn; subst ho1
            simp only [show ¬ ((-1 : Int) = 0) by decide, if_false] at hel
            simp only [deque_trace, hrun, ht4, spec_deque_trace, spec_deque_step,
              Option.map_some', List.map_nil, List.getLast?_nil, hel]
          · subst hs
            obtain ⟨x, o', hnodes, ho', hout1⟩ := hout rfl
            simp only [Option.some.injEq] at ho'
            subst ho'; subst hnodes
            have hxl : x.2.length = q.val_bytes := hinv.vals x (by simp)
            have hm : out1 = some (x.2 ++ o.drop q.val_bytes) := by
              rw [hout1]
              simp only [memcpy, hxl, le_refl, ho, and_self, if_true]
              rw [← hxl, List.take_length]
            have hgl : (nodes3.map Prod.snd ++ [x.2]).getLast? = some x.2 := by simp
            simp only [deque_trace, hrun, ht4, spec_deque_trace, spec_deque_step,
              Option.map_some', List.map_append, List.map_cons, List.map_nil, hgl,
              List.dropLast_concat, hm]

/-- On the double-ended sequence of the specification every insertion returns 0. -/
theorem spec_deque_trace_inserts (n : Nat) : ∀ (vs : List (Bool × List Nat))
    (es : List (List Nat)),
    spec_deque_trace n (vs.map deque_insert) es
      = vs.map (fun _ => ((⟨0, none⟩ : status), (none : Option (List Nat)))) := by
  intro vs
  induction vs with
  | nil => intro es; rfl
  | cons bv vs ih =>
    intro es
    obtain ⟨b, v⟩ := bv
    cases b <;>
      simp only [List.map_cons, deque_insert, if_true, Bool.false_eq_true, if_false,
        spec_deque_trace, spec_deque_step, ih]

/-- Every call of a list of insertions is an insertion of a value that is not `NULL`. -/
theorem deque_insert_list (n : Nat) (vs : List (Bool × List Nat))
    (hvs : ∀ bv ∈ vs, n ≤ bv.2.length) :
    ((vs.map deque_insert).filter deque_op.inserts).length = vs.length
      ∧ ∀ op ∈ vs.map deque_insert, deque_op.fits n op = true := by
  induction vs with
  | nil => exact ⟨rfl, by simp⟩
  | cons bv vs ih =>
    obtain ⟨h1, h2⟩ := ih (fun x hx => hvs x (List.mem_cons_of_mem _ hx))
    have hb := hvs bv (by simp)
    obtain ⟨b, v⟩ := bv
    constructor
    · cases b <;>
        simp only [List.map_cons, deque_insert, if_true, Bool.false_eq_true, if_false,
          List.filter_cons, deque_op.inserts, List.length_cons, h1]
    · intro op hop
      simp only [List.map_cons, List.mem_cons] at hop
      rcases hop with rfl | hop
      · cases b <;> simp [deque_insert, deque_op.fits, buffer_fits, hb]
      · exact h2 op hop

/-- C3: with enough fuel `deque_create` with valid arguments returns 0, and then:
(1) any calls `ops` of one thread (each given `NULL` or a buffer of at least `val_bytes`
bytes) of which at most `cap` are insertions return, call by call, exactly the statuses
and output buffers that the same calls return on the double-ended sequence of the
specification (`spec_deque_trace`: `deque_push` inserts at the front, `deque_shift` at
the back, `deque_pop` removes and returns the front element, `deque_unshift` the back
element), and leave that sequence as the payloads kept;
(2) for `cap >= 2`, `push_front(a); push_back(b); pop_front(); pop_back()` all return 0
and the pops return `a` and `b`;
(3) `push_front(a); pop_back()` on the empty deque return 0 and the pop returns `a`;
(4) after any calls `ops` at all, in the state reached, where `elems` is the sequence
kept by `deque_run`, `deque_pop` returns -1 with `ENOENT` on the empty sequence and else
0 with the front element, `deque_unshift` likewise with the back element, and
`deque_push` and `deque_shift` return 0 and insert at the front and at the back, or
return -1 with `ENOMEM` and change nothing; they return 0 when `ops` holds fewer than
`cap` insertions. -/
theorem deque_behaves_as_double_ended_sequence (fuel : Nat) (q0 : deq_t) (vb cap base : Nat)
    (frags : FragMem) (h0 : NodeMem) (ops : List deque_op)
    (hvb : 0 < vb) (hcap : 0 < cap) (hbase : 0 < base)
    (hnb : sizeof_deque_node * vb + 16 ≤ SIZE_MOD)
    (hfit : base + (cap + 2 + 1) * internal_mempool_aligned_data_bytes
        (MEMORY_POOL_MAKER none (sizeof_deque_node * vb) (cap + 2)) < SIZE_MOD)
    (hf : (cap + 2) * UINT32_MOD + 2 ≤ fuel)
    (hops : ∀ op ∈ ops, deque_op.fits vb op = true) :
    ∃ q1 frags1 h1,
      deque_create (fuel + 2) (some q0) vb cap (some base) frags h0
        = some (⟨0, none⟩, some q1, frags1, h1)
      ∧ ((ops.filter deque_op.inserts).length ≤ cap →
          deque_trace (fuel + 2) ops q1 frags1 h1 = some (spec_deque_trace vb ops [])
          ∧ ∃ q h, deque_run (fuel + 2) ops q1 frags1 h1 []
              = some (q, h, spec_deque_run vb ops []))
      ∧ (2 ≤ cap → ∀ a b o : List Nat, vb ≤ a.length → vb ≤ b.length → vb ≤ o.length →
          deque_trace (fuel + 2)
              [deque_op.push (some a), deque_op.shift (some b), deque_op.pop (some o),
                deque_op.unshift (some o)] q1 frags1 h1
            = some [(⟨0, none⟩, none), (⟨0, none⟩, none),
                (⟨0, none⟩, some (a.take vb ++ o.drop vb)),
                (⟨0, none⟩, some (b.take vb ++ o.drop vb))])
      ∧ (∀ a o : List Nat, vb ≤ a.length → vb ≤ o.length →
          deque_trace (fuel + 2) [deque_op.push (some a), deque_op.unshift (some o)]
              q1 frags1 h1
            = some [(⟨0, none⟩, none), (⟨0, none⟩, some (a.take vb ++ o.drop vb))])
      ∧ ∃ q h elems, deque_run (fuel + 2) ops q1 frags1 h1 [] = some (q, h, elems)
        ∧ (∀ o : List Nat, vb ≤ o.length →
            ∃ st h2 out1, deque_pop (fuel + 2) (some q) (some o) h = some (st, h2, out1)
              ∧ ((elems = [] ∧ st = ⟨-1, some errno_t.ENOENT⟩ ∧ out1 = some o)
                ∨ ∃ x rest, elems = x :: rest ∧ st = ⟨0, none⟩ ∧ x.length = vb
                    ∧ out1 = some (x ++ o.drop vb)
                    ∧ deque_run (fuel + 2) [deque_op.pop (some o)] q frags1 h elems
                        = some (q, h2, rest)))
        ∧ (∀ o : List Nat, vb ≤ o.length →
            ∃ st h2 out1, deque_unshift (fuel + 2) (some q) (some o) h = some (st, h2, out1)
              ∧ ((elems = [] ∧ st = ⟨-1, some errno_t.ENOENT⟩ ∧ out1 = some o)
                ∨ ∃ x rest, elems = rest ++ [x] ∧ st = ⟨0, none⟩ ∧ x.length = vb
                    ∧ out1 = some (x ++ o.drop vb)
                    ∧ deque_run (fuel + 2) [deque_op.unshift (some o)] q frags1 h elems
                        = some (q, h2, rest)))
        ∧ (∀ v : List Nat, vb ≤ v.length →
            ∃ st q2 h2, deque_push (fuel + 2) (some q) (some v) frags1 h
                = some (st, some q2, h2)
              ∧ ((st = ⟨0, none⟩
                  ∧ deque_run (fuel + 2) [deque_op.push (some v)] q frags1 h elems
                      = some (q2, h2, v.take vb :: elems))
                ∨ (st = ⟨-1, some errno_t.ENOMEM⟩ ∧ q2 = q ∧ h2 = h))
              ∧ ((ops.filter deque_op.inserts).length < cap → st = ⟨0, none⟩))
        ∧ (∀ v : List Nat, vb ≤ v.length →
            ∃ st q2 h2, deque_shift (fuel + 2) (some q) (some v) frags1 h
                = some (st, some q2, h2)
              ∧ ((st = ⟨0, none⟩
                  ∧ deque_run (fuel + 2) [deque_op.shift (some v)] q frags1 h elems
                      = some (q2, h2, elems ++ [v.take vb]))
                ∨ (st = ⟨-1, some errno_t.ENOMEM⟩ ∧ q2 = q ∧ h2 = h))
              ∧ ((ops.filter deque_op.inserts).length < cap → st = ⟨0, none⟩)) := by
  obtain ⟨q1, frags1, h1, hd, tl, hc, hinv, hq, _, _, hsz, hcl⟩ :=
    deque_create_inv (fuel + 1) q0 vb cap base frags h0 hvb hcap hbase hnb hfit
  have hops1 : ∀ op ∈ ops, deque_op.fits q1.val_bytes op = true := by rw [hq]; exact hops
  refine ⟨q1, frags1, h1, hc, ?_, ?_, ?_, ?_⟩
  · intro hins
    obtain ⟨q, h, nodes, outp, hrun, _, _, _, _, _, hspec, htr⟩ :=
      deque_trace_refines fuel hf ops q1 h1 [] [tl, hd] hinv hcl hsz hops1
        (by simp only [List.length_cons, List.length_nil]; omega)
    rw [hq] at hspec htr
    simp only [List.map_nil] at hrun hspec htr
    exact ⟨htr, q, h, by rw [hrun, hspec]⟩
  · intro h2 a b o ha hb ho
    obtain ⟨q, h, nodes, outp, _, _, _, _, _, _, _, htr⟩ :=
      deque_trace_refines fuel hf
        [deque_op.push (some a), deque_op.shift (some b), deque_op.pop (some o),
          deque_op.unshift (some o)] q1 h1 [] [tl, hd] hinv hcl hsz
        (by simp [deque_op.fits, buffer_fits, hq, ha, hb, ho])
        (by simp [deque_op.inserts]; omega)
    rw [htr, hq]
    simp [spec_deque_trace, spec_deque_step]
  · intro a o ha ho
    obtain ⟨q, h, nodes, outp, _, _, _, _, _, _, _, htr⟩ :=
      deque_trace_refines fuel hf
        [deque_op.push (some a), deque_op.unshift (some o)] q1 h1 [] [tl, hd] hinv hcl hsz
        (by simp [deque_op.fits, buffer_fits, hq, ha, ho])
        (by simp [deque_op.inserts]; omega)
    rw [htr, hq]
    simp [spec_deque_trace, spec_deque_step]
  · have key : ∃ q h nodes outp,
        deque_run (fuel + 2) ops q1 frags1 h1 [] = some (q, h, nodes.map Prod.snd)
        ∧ DequeInv (cap + 2) q frags1 h hd tl nodes outp ∧ Deque.Closed outp h
        ∧ DequeSized q ∧ q.val_bytes = vb
        ∧ ((ops.filter deque_op.inserts).length < cap → outp.length < cap + 2) := by
      by_cases hlt : (ops.filter deque_op.inserts).length < cap
      · obtain ⟨q, h, nodes, outp, hrun, hinv1, hcl1, hsz1, hvb1, hl1, _, _⟩ :=
          deque_trace_refines fuel hf ops q1 h1 [] [tl, hd] hinv hcl hsz hops1
            (by simp only [List.length_cons, List.length_nil]; omega)
        simp only [List.length_cons, List.length_nil] at hl1
        exact ⟨q, h, nodes, outp, hrun, hinv1, hcl1, hsz1, hvb1.trans hq, fun _ => by omega⟩
      · obtain ⟨q, h, nodes, outp, hrun, hinv1, hcl1, hsz1, hvb1⟩ :=
          deque_run_total fuel hf ops q1 h1 [] [tl, hd] hinv hcl hsz hops1
        exact ⟨q, h, nodes, outp, hrun, hinv1, hcl1, hsz1, hvb1.trans hq,
          fun h => absurd h hlt⟩
    obtain ⟨q, h, nodes, outp, hrun, hinv, hcl, hsz, hqvb, hroom⟩ := key
    refine ⟨q, h, nodes.map Prod.snd, hrun, ?_, ?_, ?_, ?_⟩
    · intro o ho
      obtain ⟨st, h2, out1, hrun, hst⟩ := deque_pop_returns fuel hinv hcl (some o)
        (by simp [buffer_fits, hqvb, ho]) hf
      obtain ⟨nodes1, _, hel, hout, _⟩ := deque_pop_inv hinv hrun
      refine ⟨st, h2, out1, hrun, ?_⟩
      rcases hst o rfl with ⟨hn, hs, ho1⟩ | ⟨hn, hs⟩
      · left
        exact ⟨by rw [hn]; rfl, hs, ho1⟩
      · right
        obtain ⟨x, o', hnodes, ho', hout1⟩ := hout (by rw [hs])
        simp only [Option.some.injEq] at ho'
        subst ho'
        have hxl : x.2.length = q.val_bytes := hinv.vals x (by rw [hnodes]; simp)
        refine ⟨x.2, nodes1.map Prod.snd, by rw [hnodes]; rfl, hs, by rw [hxl, hqvb], ?_, ?_⟩
        · have hxl' : x.2.length = vb := hxl.trans hqvb
          rw [hout1, hqvb]
          simp only [memcpy, hxl', le_refl, ho, and_self, if_true]
          rw [← hxl', List.take_length]
        · simp only [deque_run, hrun, hs, if_true]
          rw [hnodes]
          rfl
    · intro o ho
      obtain ⟨st, h2, out1, hrun, hst⟩ := deque_unshift_returns fuel hinv hcl (some o)
        (by simp [buffer_fits, hqvb, ho]) hf
      obtain ⟨nodes1, _, hel, hout, _⟩ := deque_unshift_inv hinv hrun
      refine ⟨st, h2, out1, hrun, ?_⟩
      rcases hst o rfl with ⟨hn, hs, ho1⟩ | ⟨hn, hs⟩
      · left
        exact ⟨by rw [hn]; rfl, hs, ho1⟩
      · right
        obtain ⟨x, o', hnodes, ho', hout1⟩ := hout (by rw [hs])
        simp only [Option.some.injEq] at ho'
        subst ho'
        have hxl : x.2.length = q.val_bytes := hinv.vals x (by rw [hnodes]; simp)
        refine ⟨x.2, nodes1.map Prod.snd, by rw [hnodes]; simp, hs, by rw [hxl, hqvb], ?_, ?_⟩
        · have hxl' : x.2.length = vb := hxl.trans hqvb
          rw [hout1, hqvb]
          simp only [memcpy, hxl', le_refl, ho, and_self, if_true]
          rw [← hxl', List.take_length]
        · simp only [deque_run, hrun, hs, if_true]
          rw [hnodes]
          simp
    · intro v hv
      obtain ⟨st, q2, h2, hpush, _, hst⟩ := deque_push_returns fuel hinv hcl hsz (some v)
        (by simp [buffer_fits, hqvb, hv]) hf
      refine ⟨st, q2, h2, hpush, ?_, ?_⟩
      · rcases hst v rfl with ⟨hs, _, hq2, hh2⟩ | ⟨hs, _⟩
        · exact Or.inr ⟨hs, hq2, hh2⟩
        · left
          refine ⟨hs, ?_⟩
          subst hs
          simp only [deque_run, hpush, if_true, Option.getD_some, hqvb]
      · intro hlt
        rcases hst v rfl with ⟨_, hN, _⟩ | ⟨hs, _⟩
        · have := hroom hlt
          omega
        · exact hs
    · intro v hv
      obtain ⟨st, q2, h2, hshift, _, hst⟩ := deque_shift_returns fuel hinv hcl hsz (some v)
        (by simp [buffer_fits, hqvb, hv]) hf
      refine ⟨st, q2, h2, hshift, ?_, ?_⟩
      · rcases hst v rfl with ⟨hs, _, hq2, hh2⟩ | ⟨hs, _⟩
        · exact Or.inr ⟨hs, hq2, hh2⟩
        · left
          refine ⟨hs, ?_⟩
          subst hs
          simp only [deque_run, hshift, if_true, Option.getD_some, hqvb]
      · intro hlt
        rcases hst v rfl with ⟨_, hN, _⟩ | ⟨hs, _⟩
        · have := hroom hlt
          omega
        · exact hs

/-- Instance of `deque_behaves_as_double_ended_sequence` on a deque of capacity 10
with `int`-sized elements: the calls `push_front(10); push_back(20); pop_front;
push_back(30); pop_back; push_back(40); pop_front; pop_front; push_front(50); pop_back`
all return 0 and the pops return 10, 30, 20, 40 and 50. -/
theorem deque_behaves_as_double_ended_sequence_witness :
    (0 < 4 ∧ 0 < 10 ∧ 0 < 4096 ∧ sizeof_deque_node * 4 + 16 ≤ SIZE_MOD
      ∧ 4096 + (10 + 2 + 1) * internal_mempool_aligned_data_bytes
          (MEMORY_POOL_MAKER none (sizeof_deque_node * 4) (10 + 2)) < SIZE_MOD
      ∧ (10 + 2) * UINT32_MOD + 2 ≤ 51539607554
      ∧ ∀ op ∈ [deque_op.push (some [10, 0, 0, 0]), deque_op.shift (some [20, 0, 0, 0]),
            deque_op.pop (some [0, 0, 0, 0]), deque_op.shift (some [30, 0, 0, 0]),
            deque_op.unshift (some [0, 0, 0, 0]), deque_op.shift (some [40, 0, 0, 0]),
            deque_op.pop (some [0, 0, 0, 0]), deque_op.pop (some [0, 0, 0, 0]),
            deque_op.push (some [50, 0, 0, 0]), deque_op.unshift (some [0, 0, 0, 0])],
          deque_op.fits 4 op = true)
    ∧ ∃ q1 frags1 h1,
      deque_create (51539607554 + 2) (some ⟨MEMORY_POOL_MAKER none 0 0, 0, none, none⟩) 4 10
          (some 4096) (fun _ => none)
          ⟨fun _ => ⟨none, false⟩, fun _ => ⟨none, false⟩, fun _ => 0, fun _ => []⟩
        = some (⟨0, none⟩, some q1, frags1, h1)
      ∧ deque_trace (51539607554 + 2)
          [deque_op.push (some [10, 0, 0, 0]), deque_op.shift (some [20, 0, 0, 0]),
            deque_op.pop (some [0, 0, 0, 0]), deque_op.shift (some [30, 0, 0, 0]),
            deque_op.unshift (some [0, 0, 0, 0]), deque_op.shift (some [40, 0, 0, 0]),
            deque_op.pop (some [0, 0, 0, 0]), deque_op.pop (some [0, 0, 0, 0]),
            deque_op.push (some [50, 0, 0, 0]), deque_op.unshift (some [0, 0, 0, 0])]
          q1 frags1 h1
        = some [(⟨0, none⟩, none), (⟨0, none⟩, none), (⟨0, none⟩, some [10, 0, 0, 0]),
            (⟨0, none⟩, none), (⟨0, none⟩, some [30, 0, 0, 0]), (⟨0, none⟩, none),
            (⟨0, none⟩, some [20, 0, 0, 0]), (⟨0, none⟩, some [40, 0, 0, 0]),
            (⟨0, none⟩, none), (⟨0, none⟩, some [50, 0, 0, 0])] :=
  ⟨⟨by decide, by decide, by decide, by decide, by decide, by decide, by decide⟩,
    match deque_behaves_as_double_ended_sequence 51539607554
      ⟨MEMORY_POOL_MAKER none 0 0, 0, none, none⟩ 4 10 4096 (fun _ => none)
      ⟨fun _ => ⟨none, false⟩, fun _ => ⟨none, false⟩, fun _ => 0, fun _ => []⟩
      [deque_op.push (some [10, 0, 0, 0]), deque_op.shift (some [20, 0, 0, 0]),
        deque_op.pop (some [0, 0, 0, 0]), deque_op.shift (some [30, 0, 0, 0]),
        deque_op.unshift (some [0, 0, 0, 0]), deque_op.shift (some [40, 0, 0, 0]),
        deque_op.pop (some [0, 0, 0, 0]), deque_op.pop (some [0, 0, 0, 0]),
        deque_op.push (some [50, 0, 0, 0]), deque_op.unshift (some [0, 0, 0, 0])]
      (by decide) (by decide) (by decide) (by decide) (by decide) (by decide) (by decide)
    with
    | ⟨q1, frags1, h1, hc, href, _⟩ =>
      ⟨q1, frags1, h1, hc, (href (by decide)).1.trans (congrArg some (by decide))⟩⟩

/-- C6: on a deque created with capacity `cap >= 1`, with enough fuel `deque_create`
returns 0 and any `k <= cap` consecutive insertions (any mix of `deque_push` and
`deque_shift`, each of a value of at least `val_bytes` bytes) complete and all return 0
(the sequence kept by `deque_run` then holds `k` elements); in the state reached, with
the fragment memory `deque_create` left, after fewer than `cap` of them one more
`deque_push` or `deque_shift` returns 0, and after `cap` of them it returns -1 with
`ENOMEM` and leaves the control block and the node memory (elements, links and counts) as
they were. -/
theorem deque_accepts_capacity_insertions_then_fails (fuel : Nat) (q0 : deq_t)
    (vb cap base : Nat) (frags : FragMem) (h0 : NodeMem) (vs : List (Bool × List Nat))
    (hvb : 0 < vb) (hcap : 0 < cap) (hbase : 0 < base)
    (hnb : sizeof_deque_node * vb + 16 ≤ SIZE_MOD)
    (hfit : base + (cap + 2 + 1) * internal_mempool_aligned_data_bytes
        (MEMORY_POOL_MAKER none (sizeof_deque_node * vb) (cap + 2)) < SIZE_MOD)
    (hf : (cap + 2) * UINT32_MOD + 2 ≤ fuel)
    (hvs : ∀ bv ∈ vs, vb ≤ bv.2.length) (hlen : vs.length ≤ cap) :
    ∃ q1 frags1 h1,
      deque_create (fuel + 2) (some q0) vb cap (some base) frags h0
        = some (⟨0, none⟩, some q1, frags1, h1)
      ∧ deque_trace (fuel + 2) (vs.map deque_insert) q1 frags1 h1
        = some (vs.map fun _ => (⟨0, none⟩, none))
      ∧ ∃ q h elems,
        deque_run (fuel + 2) (vs.map deque_insert) q1 frags1 h1 [] = some (q, h, elems)
        ∧ elems.length = vs.length
        ∧ ∀ v : List Nat, vb ≤ v.length →
            (vs.length < cap →
              (∃ q2 h2, deque_push (fuel + 2) (some q) (some v) frags1 h
                  = some (⟨0, none⟩, some q2, h2))
              ∧ ∃ q2 h2, deque_shift (fuel + 2) (some q) (some v) frags1 h
                  = some (⟨0, none⟩, some q2, h2))
            ∧ (vs.length = cap →
              deque_push (fuel + 2) (some q) (some v) frags1 h
                  = some (⟨-1, some errno_t.ENOMEM⟩, some q, h)
              ∧ deque_shift (fuel + 2) (some q) (some v) frags1 h
                  = some (⟨-1, some errno_t.ENOMEM⟩, some q, h)) := by
  obtain ⟨q1, frags1, h1, hd, tl, hc, hinv, hq, _, _, hsz, hcl⟩ :=
    deque_create_inv (fuel + 1) q0 vb cap base frags h0 hvb hcap hbase hnb hfit
  obtain ⟨hcount, hfits⟩ := deque_insert_list vb vs hvs
  obtain ⟨_, _, _, _, _, _, _, _, _, _, _, htr⟩ :=
    deque_trace_refines fuel hf (vs.map deque_insert) q1 h1 [] [tl, hd] hinv hcl hsz
      (by rw [hq]; exact hfits)
      (by rw [hcount]; simp only [List.length_cons, List.length_nil]; omega)
  rw [spec_deque_trace_inserts] at htr
  obtain ⟨q, h, nodes, outp, hrun, hinv1, hcl1, hsz1, hvb1, hl1, hn1⟩ :=
    deque_run_inserts fuel hf vs q1 h1 [] [tl, hd] hinv hcl hsz (by rw [hq]; exact hvs)
      (by simp only [List.length_cons, List.length_nil]; omega)
  have hqvb : q.val_bytes = vb := hvb1.trans hq
  simp only [List.length_cons, List.length_nil] at hl1 hn1
  refine ⟨q1, frags1, h1, hc, htr, q, h, nodes.map Prod.snd, hrun,
    by rw [List.length_map]; omega, ?_⟩
  intro v hv
  obtain ⟨st, q2, h2, hpush, _, hst⟩ := deque_push_returns fuel hinv1 hcl1 hsz1 (some v)
    (by simp [buffer_fits, hqvb, hv]) hf
  obtain ⟨st', q2', h2', hshift, _, hst'⟩ := deque_shift_returns fuel hinv1 hcl1 hsz1 (some v)
    (by simp [buffer_fits, hqvb, hv]) hf
  constructor
  · intro hlt
    constructor
    · rcases hst v rfl with ⟨_, hN, _⟩ | ⟨hs, _⟩
      · omega
      · exact ⟨q2, h2, by rw [hpush, hs]⟩
    · rcases hst' v rfl with ⟨_, hN, _⟩ | ⟨hs, _⟩
      · omega
      · exact ⟨q2', h2', by rw [hshift, hs]⟩
  · intro heq
    constructor
    · rcases hst v rfl with ⟨hs, _, hq2, hh2⟩ | ⟨_, hN⟩
      · rw [hpush, hs, hq2, hh2]
      · omega
    · rcases hst' v rfl with ⟨hs, _, hq2, hh2⟩ | ⟨_, hN⟩
      · rw [hshift, hs, hq2, hh2]
      · omega

/-- Instance of `deque_accepts_capacity_insertions_then_fails`: a `deque_push` and a
`deque_shift` fill a deque of capacity 2. -/
theorem deque_accepts_capacity_insertions_then_fails_witness :
    (0 < 4 ∧ 0 < 2 ∧ 0 < 4096 ∧ sizeof_deque_node * 4 + 16 ≤ SIZE_MOD
      ∧ 4096 + (2 + 2 + 1) * internal_mempool_aligned_data_bytes
          (MEMORY_POOL_MAKER none (sizeof_deque_node * 4) (2 + 2)) < SIZE_MOD
      ∧ (2 + 2) * UINT32_MOD + 2 ≤ 17179869186
      ∧ (∀ bv ∈ [(true, [10, 0, 0, 0]), (false, [20, 0, 0, 0])], 4 ≤ bv.2.length)
      ∧ [(true, [10, 0, 0, 0]), (false, [20, 0, 0, 0])].length ≤ 2)
    ∧ ∃ q1 frags1 h1,
      deque_create (17179869186 + 2) (some ⟨MEMORY_POOL_MAKER none 0 0, 0, none, none⟩) 4 2
          (some 4096) (fun _ => none)
          ⟨fun _ => ⟨none, false⟩, fun _ => ⟨none, false⟩, fun _ => 0, fun _ => []⟩
        = some (⟨0, none⟩, some q1, frags1, h1)
      ∧ deque_trace (17179869186 + 2)
          ([(true, [10, 0, 0, 0]), (false, [20, 0, 0, 0])].map deque_insert) q1 frags1 h1
        = some ([(true, [10, 0, 0, 0]), (false, [20, 0, 0, 0])].map
            fun _ => (⟨0, none⟩, none))
      ∧ ∃ q h elems,
        deque_run (17179869186 + 2)
            ([(true, [10, 0, 0, 0]), (false, [20, 0, 0, 0])].map deque_insert) q1 frags1 h1 []
          = some (q, h, elems)
        ∧ elems.length = [(true, [10, 0, 0, 0]), (false, [20, 0, 0, 0])].length
        ∧ ∀ v : List Nat, 4 ≤ v.length →
            ([(true, [10, 0, 0, 0]), (false, [20, 0, 0, 0])].length < 2 →
              (∃ q2 h2, deque_push (17179869186 + 2) (some q) (some v) frags1 h
                  = some (⟨0, none⟩, some q2, h2))
              ∧ ∃ q2 h2, deque_shift (17179869186 + 2) (some q) (some v) frags1 h
                  = some (⟨0, none⟩, some q2, h2))
            ∧ ([(true, [10, 0, 0, 0]), (false, [20, 0, 0, 0])].length = 2 →
              deque_push (17179869186 + 2) (some q) (some v) frags1 h
                  = some (⟨-1, some errno_t.ENOMEM⟩, some q, h)
              ∧ deque_shift (17179869186 + 2) (some q) (some v) frags1 h
                  = some (⟨-1, some errno_t.ENOMEM⟩, some q, h)) :=
  ⟨⟨by decide, by decide, by decide, by decide, by decide, by decide, by decide, by decide⟩,
    deque_accepts_capacity_insertions_then_fails 17179869186 _ 4 2 4096 _ _ _ (by decide)
      (by decide) (by decide) (by decide) (by decide) (by decide) (by decide) (by decide)⟩

/-! ### Counters of the tagged pointers -/

/-- The static `pop`, when it takes a node, leaves the list head with its `aba` counter one
above (modulo `2^64`) the counter the head held. -/
theorem Stack.pop_loop_aba (buf : Nat → Option stack_node) : ∀ (fuel : Nat)
    (cell orig : stack_head) (n : Nat) (cell1 : stack_head),
    Stack.pop_loop buf fuel cell orig = some (some n, cell1) →
    cell1.aba = (cell.aba + 1) % SIZE_MOD := by
  intro fuel
  induction fuel with
  | zero => intro cell orig n cell1 h; simp [Stack.pop_loop] at h
  | succ fuel ih =>
    intro cell orig n cell1 h
    simp only [Stack.pop_loop] at h
    split at h
    · simp at h
    · split at h
      · simp at h
      · rename_i nd _
        by_cases hc : cell = orig
        · subst hc
          simp only [CAS, if_true, Option.some.injEq, Prod.mk.injEq] at h
          rw [← h.2]
        · simp only [CAS, hc, if_false, Bool.false_eq_true] at h
          exact ih cell cell n cell1 h

/-- The static `push` leaves the list head pointing at the node, with its `aba` counter
one above (modulo `2^64`) the counter the head held. -/
theorem Stack.push_loop_aba (node : Nat) : ∀ (fuel : Nat) (buf : Nat → Option stack_node)
    (cell orig : stack_head) (buf1 : Nat → Option stack_node) (cell1 : stack_head),
    Stack.push_loop node fuel buf cell orig = some (buf1, cell1) →
    cell1.node = some node ∧ cell1.aba = (cell.aba + 1) % SIZE_MOD := by
  intro fuel
  induction fuel with
  | zero => intro buf cell orig buf1 cell1 h; simp [Stack.push_loop] at h
  | succ fuel ih =>
    intro buf cell orig buf1 cell1 h
    simp only [Stack.push_loop] at h
    split at h
    · simp at h
    · by_cases hc : cell = orig
      · subst hc
        simp only [CAS, if_true, Option.some.injEq, Prod.mk.injEq] at h
        rw [← h.2]
        exact ⟨rfl, rfl⟩
      · simp only [CAS, hc, if_false, Bool.false_eq_true] at h
        exact ih _ cell cell buf1 cell1 h

/-- A `stack_push` that returns 0 has advanced the `aba` counters of both list heads by
one. -/
theorem stack_push_aba {fuel : Nat} {s s1 : stack} {v : List Nat}
    (h : stack_push fuel (some s) (some v) = some (⟨0, none⟩, some s1)) :
    s1.free.aba = (s.free.aba + 1) % SIZE_MOD ∧ s1.head.aba = (s.head.aba + 1) % SIZE_MOD := by
  simp only [stack_push] at h
  split at h
  · simp at h
  · simp at h
  · rename_i n free1 hpop
    split at h
    · simp at h
    · split at h
      · simp at h
      · split at h
        · simp at h
        · rename_i buf2 head1 hpush
          simp only [Option.some.injEq, Prod.mk.injEq, true_and] at h
          subst h
          exact ⟨Stack.pop_loop_aba _ _ _ _ _ _ hpop, (Stack.push_loop_aba _ _ _ _ _ _ _ hpush).2⟩

/-- A `stack_pop` that returns 0 has advanced the `aba` counters of both list heads by
one. -/
theorem stack_pop_aba {fuel : Nat} {s s1 : stack} {o : List Nat} {out1 : Option (List Nat)}
    (h : stack_pop fuel (some s) (some o) = some (⟨0, none⟩, some s1, out1)) :
    s1.head.aba = (s.head.aba + 1) % SIZE_MOD ∧ s1.free.aba = (s.free.aba + 1) % SIZE_MOD := by
  simp only [stack_pop] at h
  split at h
  · simp at h
  · simp at h
  · rename_i n head1 hpop
    split at h
    · simp at h
    · split at h
      · simp at h
      · split at h
        · simp at h
        · rename_i buf2 free1 hpush
          simp only [Option.some.injEq, Prod.mk.injEq, true_and] at h
          obtain ⟨h, _⟩ := h
          subst h
          exact ⟨Stack.pop_loop_aba _ _ _ _ _ _ hpop, (Stack.push_loop_aba _ _ _ _ _ _ _ hpush).2⟩

/-- C31: every successful update of a tagged pointer of a container advances its counter
by one modulo the width of the counter. After a successful `queue_create` and any calls
of one thread, a `queue_dequeue` that returns 0 has moved `Head.ptr` and set `Head.count`
to the old value plus 1 modulo `2^32`, and a `queue_enqueue` that returns 0 has moved
`Tail.ptr`, set `Tail.count` to the old value plus 1 and set the counter of the `next`
link of the node that was last to its old value plus 1; the static `pop` and `push` of
the stack, and with them `stack_push` and `stack_pop` when they return 0, set the `aba`
of each list head they update to the old value plus 1 modulo `2^64`. -/
theorem successful_updates_increment_the_counter (fuel vb : Nat) (q0 q1 : queue_t)
    (env : Option Nat) (heap0 heap1 : QHeap) (ops : List queue_op)
    (hcreate : queue_create (some q0) vb env heap0 = some (⟨0, none⟩, some q1, heap1))
    (hops : ∀ op ∈ ops, queue_op.fits vb op = true) :
    (∃ q heap elems, queue_run (fuel + 1) ops q1 heap1 [] = some (q, heap, elems)
        ∧ (∀ o : List Nat, vb ≤ o.length →
            ∃ st q2 heap2 out1,
              queue_dequeue (fuel + 1) (some q) (some o) heap = some (st, some q2, heap2, out1)
              ∧ (st.ret = 0 → q2.Head.ptr ≠ q.Head.ptr
                  ∧ q2.Head.count = (q.Head.count + 1) % UINT32_MOD)
              ∧ (st.ret ≠ 0 → q2 = q))
        ∧ (∀ (v : List Nat) (e : Option Nat), vb ≤ v.length →
            ∃ st q2 heap2,
              queue_enqueue (fuel + 1) (some q) (some v) e heap = some (st, some q2, heap2)
              ∧ (st.ret = 0 → q2.Tail.ptr ≠ q.Tail.ptr
                  ∧ q2.Tail.count = (q.Tail.count + 1) % UINT32_MOD
                  ∧ ∃ t nd nd1, q.Tail.ptr = some t ∧ heap t = some nd ∧ heap2 t = some nd1
                      ∧ nd.next.ptr = none ∧ nd1.next.ptr ≠ none
                      ∧ nd1.next.count = (nd.next.count + 1) % UINT32_MOD)))
    ∧ (∀ f buf cell n cell1, Stack.pop f buf cell = some (some n, cell1) →
        cell1.aba = (cell.aba + 1) % SIZE_MOD)
    ∧ (∀ f buf cell node buf1 cell1, Stack.push f buf cell node = some (buf1, cell1) →
        cell1.node = some node ∧ cell1.aba = (cell.aba + 1) % SIZE_MOD)
    ∧ (∀ f s v s1, stack_push f (some s) (some v) = some (⟨0, none⟩, some s1) →
        s1.free.aba = (s.free.aba + 1) % SIZE_MOD ∧ s1.head.aba = (s.head.aba + 1) % SIZE_MOD)
    ∧ (∀ f s o s1 out1, stack_pop f (some s) (some o) = some (⟨0, none⟩, some s1, out1) →
        s1.head.aba = (s.head.aba + 1) % SIZE_MOD ∧ s1.free.aba = (s.free.aba + 1) % SIZE_MOD) := by
  refine ⟨?_, fun f buf cell n cell1 h => Stack.pop_loop_aba _ _ _ _ _ _ h,
    fun f buf cell node buf1 cell1 h => Stack.push_loop_aba _ _ _ _ _ _ _ h,
    fun f s v s1 h => stack_push_aba h, fun f s o s1 out1 h => stack_pop_aba h⟩
  obtain ⟨s, v, hinv0, hvb0, _⟩ := queue_create_inv q0 q1 vb env heap0 heap1 hcreate
  obtain ⟨q, heap, nodes, elems, hrun, hinv, he, hvb⟩ :=
    queue_run_inv fuel ops q1 heap1 [(s, v)] [] hinv0 rfl (by rw [hvb0]; exact hops)
  have hqvb : q.value_bytes = vb := hvb.trans hvb0
  refine ⟨q, heap, elems, hrun, ?_, ?_⟩
  · intro o ho
    obtain ⟨st, q2, heap2, nodes2, out1, hd, _, _, _, h1, _, hcnt⟩ :=
      queue_dequeue_inv fuel hinv (some o) (by simp [buffer_fits, hqvb, ho])
    refine ⟨st, q2, heap2, out1, hd, fun h => ?_, fun h => (h1 h).2.2.1⟩
    obtain ⟨_, _, _, hc, hp, _⟩ := hcnt h
    exact ⟨hp, hc⟩
  · intro w e hw
    obtain ⟨st, q2, heap2, nodes2, hd, _, _, _, _, hcnt, _⟩ :=
      queue_enqueue_inv fuel hinv (some w) e (by simp [buffer_fits, hqvb, hw])
    refine ⟨st, q2, heap2, hd, fun h => ?_⟩
    obtain ⟨t, nd, nd1, ht, hnd, hnd1, hn0, hn1, hc1, hc2, hp, _⟩ := hcnt h
    exact ⟨hp, hc2, t, nd, nd1, ht, hnd, hnd1, hn0, hn1, hc1⟩

/-- Instance of `successful_updates_increment_the_counter`: two enqueues and a dequeue on
a queue of `int`-sized elements. -/
theorem successful_updates_increment_the_counter_witness :
    (queue_create (some ⟨⟨none, 0⟩, ⟨none, 0⟩, 0, 0⟩) 4 (some 4096) (fun _ => none)
        = some (⟨0, none⟩, some ⟨⟨some 4096, 0⟩, ⟨some 4096, 0⟩, 4, 0⟩,
            Function.update (Function.update (fun _ => none) 4096
              (some ⟨⟨none, 0⟩, [0, 0, 0, 0]⟩)) 4096 (some ⟨⟨none, 0⟩, [0, 0, 0, 0]⟩))
      ∧ ∀ op ∈ [queue_op.enqueue (some [10, 0, 0, 0]) (some 8192),
                 queue_op.enqueue (some [20, 0, 0, 0]) (some 12288),
                 queue_op.dequeue (some [0, 0, 0, 0])], queue_op.fits 4 op = true)
    ∧ (∃ q heap elems, queue_run (0 + 1) [queue_op.enqueue (some [10, 0, 0, 0]) (some 8192),
            queue_op.enqueue (some [20, 0, 0, 0]) (some 12288),
            queue_op.dequeue (some [0, 0, 0, 0])]
          ⟨⟨some 4096, 0⟩, ⟨some 4096, 0⟩, 4, 0⟩
          (Function.update (Function.update (fun _ => none) 4096
              (some ⟨⟨none, 0⟩, [0, 0, 0, 0]⟩)) 4096 (some ⟨⟨none, 0⟩, [0, 0, 0, 0]⟩)) [] = some (q, heap, elems)
        ∧ (∀ o : List Nat, 4 ≤ o.length →
            ∃ st q2 heap2 out1,
              queue_dequeue (0 + 1) (some q) (some o) heap = some (st, some q2, heap2, out1)
              ∧ (st.ret = 0 → q2.Head.ptr ≠ q.Head.ptr
                  ∧ q2.Head.count = (q.Head.count + 1) % UINT32_MOD)
              ∧ (st.ret ≠ 0 → q2 = q))
        ∧ (∀ (v : List Nat) (e : Option Nat), 4 ≤ v.length →
            ∃ st q2 heap2,
              queue_enqueue (0 + 1) (some q) (some v) e heap = some (st, some q2, heap2)
              ∧ (st.ret = 0 → q2.Tail.ptr ≠ q.Tail.ptr
                  ∧ q2.Tail.count = (q.Tail.count + 1) % UINT32_MOD
                  ∧ ∃ t nd nd1, q.Tail.ptr = some t ∧ heap t = some nd ∧ heap2 t = some nd1
                      ∧ nd.next.ptr = none ∧ nd1.next.ptr ≠ none
                      ∧ nd1.next.count = (nd.next.count + 1) % UINT32_MOD)))
    ∧ (∀ f buf cell n cell1, Stack.pop f buf cell = some (some n, cell1) →
        cell1.aba = (cell.aba + 1) % SIZE_MOD)
    ∧ (∀ f buf cell node buf1 cell1, Stack.push f buf cell node = some (buf1, cell1) →
        cell1.node = some node ∧ cell1.aba = (cell.aba + 1) % SIZE_MOD)
    ∧ (∀ f s v s1, stack_push f (some s) (some v) = some (⟨0, none⟩, some s1) →
        s1.free.aba = (s.free.aba + 1) % SIZE_MOD ∧ s1.head.aba = (s.head.aba + 1) % SIZE_MOD)
    ∧ (∀ f s o s1 out1, stack_pop f (some s) (some o) = some (⟨0, none⟩, some s1, out1) →
        s1.head.aba = (s.head.aba + 1) % SIZE_MOD ∧ s1.free.aba = (s.free.aba + 1) % SIZE_MOD) :=
  ⟨⟨rfl, by decide⟩,
    successful_updates_increment_the_counter 0 4 ⟨⟨none, 0⟩, ⟨none, 0⟩, 0, 0⟩ _ (some 4096)
      (fun _ => none) _ _ rfl (by decide)⟩

/-- C32, counterexample: on a pool of one 16-byte fragment at address 4096 the first
`mempool_alloc` returns the fragment at 4096, whose next link has the counter 1; the
`mempool_free` of this fragment leaves the link at `(NULL, 0)`, a lower counter. -/
theorem mempool_free_lowers_a_link_counter :
    ∃ self0 mem0 self1 self2 mem2 nd nd2,
      mempool_create 1 (some (MEMORY_POOL_MAKER none 0 0)) 8 1 (some 4096) (fun _ => none)
        = some (⟨0, none⟩, some self0, mem0)
      ∧ mempool_alloc 1 (some self0) mem0 = some (some 4096, none, some self1)
      ∧ mempool_free 1 (some self1) mem0 (some 4096) = some (some self2, mem2)
      ∧ mem0 4096 = some nd ∧ mem2 4096 = some nd2
      ∧ nd = ⟨1, some 4112⟩ ∧ nd2 = ⟨0, none⟩ ∧ nd2.count < nd.count :=
  ⟨_, _, _, _, _, _, _, rfl, rfl, rfl, rfl, rfl, rfl, rfl, by decide⟩

/-- C32, amended: for a pool created by `mempool_create`, after every sequence of
allocations and of releases of fragments still held, `mempool_alloc` returns and a
failed one leaves the pool unchanged, a successful one adds 1 modulo `2^32` to the
counter of `head` and leaves `tail` (and all the links) unchanged; `mempool_free` of a
fragment held returns, leaves `head` unchanged, adds 1 modulo `2^32` to the counter of
`tail` and to the counter of the next link of the fragment that was last, resets the next
link of the released fragment to `(NULL, 0)` and leaves every other link unchanged. -/
theorem mempool_counters_advance_except_on_reinsertion (fuel : Nat) (mp : memory_pool)
    (data_bytes N base : Nat) (mem : FragMem) (ops : List pool_op)
    (hd : 0 < data_bytes) (hN : 0 < N) (hbase : 0 < base) (hdb : data_bytes + 16 ≤ SIZE_MOD)
    (hfit : base + (N + 1) * internal_mempool_aligned_data_bytes
        (MEMORY_POOL_MAKER none data_bytes N) < SIZE_MOD) :
    ∃ self0 mem0, mempool_create (fuel + 1) (some mp) data_bytes N (some base) mem
        = some (⟨0, none⟩, some self0, mem0)
      ∧ ∃ self1 mem1 out, pool_run (fuel + 1) ops self0 mem0 [] = some (self1, mem1, out)
        ∧ (∃ p e self2, mempool_alloc (fuel + 1) (some self1) mem1 = some (p, e, some self2)
            ∧ (p = none → self2 = self1)
            ∧ (p ≠ none → self2.head.count = (self1.head.count + 1) % UINT32_MOD
                ∧ self2.tail = self1.tail))
        ∧ ∀ p ∈ out, ∃ self2 mem2 t nd,
            mempool_free (fuel + 1) (some self1) mem1 (some p) = some (some self2, mem2)
            ∧ self1.tail.frag = some t ∧ t ≠ p ∧ mem1 t = some nd
            ∧ self2.head = self1.head
            ∧ self2.tail.count = (self1.tail.count + 1) % UINT32_MOD
            ∧ mem2 t = some ⟨(nd.count + 1) % UINT32_MOD, some p⟩
            ∧ mem2 p = some ⟨0, none⟩
            ∧ ∀ a, a ≠ p → a ≠ t → mem2 a = mem1 a := by
  obtain ⟨self0, mem0, l0, hc, hinv0, _⟩ :=
    mempool_create_inv fuel mp data_bytes N base mem hd hN hbase hdb hfit
  obtain ⟨self1, mem1, l1, out, hrun, hinv1⟩ := pool_run_inv fuel ops self0 mem0 l0 [] hinv0
  refine ⟨self0, mem0, hc, self1, mem1, out, hrun, ?_, ?_⟩
  · obtain ⟨h1, h2⟩ := internal_mempool_pick_inv fuel hinv1
    cases hl : l1 with
    | nil => exact absurd hl hinv1.nonempty
    | cons a rest =>
      cases hr : rest with
      | nil =>
        subst hr
        exact ⟨none, some errno_t.ENOMEM, self1, by simp only [mempool_alloc, h1 a hl], fun _ => rfl,
          fun h => absurd rfl h⟩
      | cons b rest2 =>
        subst hr
        obtain ⟨s2, hpick, _, _, _, _, _, hhead, htail⟩ := h2 a b rest2 hl
        exact ⟨some a, none, s2, by simp only [mempool_alloc, hpick], fun h => by simp at h,
          fun _ => ⟨by rw [hhead], htail⟩⟩
  · intro p hp
    obtain ⟨self2, mem2, hput, _, _, _, _, _, hhead, t, nd, ht, htp, hnd, htail, hmem⟩ :=
      internal_mempool_put_inv fuel hinv1 p hp
    refine ⟨self2, mem2, t, nd, by simp only [mempool_free, hput], ht, htp, hnd, hhead,
      by rw [htail], ?_, ?_, ?_⟩
    · rw [hmem, Function.update_same]
    · rw [hmem, Function.update_noteq (Ne.symm htp), Function.update_same]
      rfl
    · intro a hap hat
      rw [hmem, Function.update_noteq hat, Function.update_noteq hap]

/-- Instance of `mempool_counters_advance_except_on_reinsertion` on a pool of two
16-byte fragments at address 4096, after two allocations and one release. -/
theorem mempool_counters_advance_except_on_reinsertion_witness :
    (0 < 8 ∧ 0 < 2 ∧ 0 < 4096 ∧ 8 + 16 ≤ SIZE_MOD
      ∧ 4096 + (2 + 1) * internal_mempool_aligned_data_bytes (MEMORY_POOL_MAKER none 8 2)
          < SIZE_MOD)
    ∧ ∃ self0 mem0, mempool_create (0 + 1) (some (MEMORY_POOL_MAKER none 0 0)) 8 2 (some 4096)
          (fun _ => none) = some (⟨0, none⟩, some self0, mem0)
      ∧ ∃ self1 mem1 out,
          pool_run (0 + 1) [pool_op.alloc, pool_op.alloc, pool_op.free 1] self0 mem0 []
            = some (self1, mem1, out)
        ∧ (∃ p e self2, mempool_alloc (0 + 1) (some self1) mem1 = some (p, e, some self2)
            ∧ (p = none → self2 = self1)
            ∧ (p ≠ none → self2.head.count = (self1.head.count + 1) % UINT32_MOD
                ∧ self2.tail = self1.tail))
        ∧ ∀ p ∈ out, ∃ self2 mem2 t nd,
            mempool_free (0 + 1) (some self1) mem1 (some p) = some (some self2, mem2)
            ∧ self1.tail.frag = some t ∧ t ≠ p ∧ mem1 t = some nd
            ∧ self2.head = self1.head
            ∧ self2.tail.count = (self1.tail.count + 1) % UINT32_MOD
            ∧ mem2 t = some ⟨(nd.count + 1) % UINT32_MOD, some p⟩
            ∧ mem2 p = some ⟨0, none⟩
            ∧ ∀ a, a ≠ p → a ≠ t → mem2 a = mem1 a :=
  ⟨⟨by decide, by decide, by decide, by decide, by decide⟩,
    mempool_counters_advance_except_on_reinsertion 0 (MEMORY_POOL_MAKER none 0 0) 8 2 4096
      (fun _ => none) [pool_op.alloc, pool_op.alloc, pool_op.free 1]
      (by decide) (by decide) (by decide) (by decide) (by decide)⟩

/-! ### Sizes of fragments and nodes -/

/-- C34: as long as the arithmetic does not wrap, `internal_mempool_aligned_data_bytes`
returns the least multiple of 16 that is at least `max(data_bytes, 16)`, 16 being the size
of the fragment header, and the `node_byte_aligned` of the stack returns the least
multiple of 16 that is at least `sizeof(struct stack_node) + value_bytes`. -/
theorem fragment_and_node_sizes_are_rounded_up_to_16 (self : memory_pool) (value_bytes : Nat)
    (hd : self.data_bytes + 16 ≤ SIZE_MOD) (hv : sizeof_stack_node + value_bytes + 16 ≤ SIZE_MOD) :
    (16 ∣ internal_mempool_aligned_data_bytes self
      ∧ max self.data_bytes sizeof_memory_fragment ≤ internal_mempool_aligned_data_bytes self
      ∧ ∀ m, 16 ∣ m → max self.data_bytes sizeof_memory_fragment ≤ m →
          internal_mempool_aligned_data_bytes self ≤ m)
    ∧ (16 ∣ Stack.node_byte_aligned value_bytes
      ∧ sizeof_stack_node + value_bytes ≤ Stack.node_byte_aligned value_bytes
      ∧ ∀ m, 16 ∣ m → sizeof_stack_node + value_bytes ≤ m →
          Stack.node_byte_aligned value_bytes ≤ m) := by
  constructor
  · simp only [internal_mempool_aligned_data_bytes, sizeof_memory_fragment, SIZE_MOD] at *
    split
    · refine ⟨?_, ?_, ?_⟩
      · omega
      · omega
      · intro m hm hle
        omega
    · refine ⟨?_, ?_, ?_⟩
      · omega
      · omega
      · intro m hm hle
        omega
  · simp only [Stack.node_byte_aligned, sizeof_stack_node, SIZE_MOD] at *
    split
    · refine ⟨?_, ?_, ?_⟩
      · omega
      · omega
      · intro m hm hle
        omega
    · refine ⟨?_, ?_, ?_⟩
      · omega
      · omega
      · intro m hm hle
        omega

/-- Instance of `fragment_and_node_sizes_are_rounded_up_to_16`: 40 bytes of data give
fragments of 48 bytes, and values of 4 bytes give stack nodes of 16 bytes. -/
theorem fragment_and_node_sizes_are_rounded_up_to_16_witness :
    ((MEMORY_POOL_MAKER none 40 3).data_bytes + 16 ≤ SIZE_MOD
      ∧ sizeof_stack_node + 4 + 16 ≤ SIZE_MOD)
    ∧ (16 ∣ internal_mempool_aligned_data_bytes (MEMORY_POOL_MAKER none 40 3)
      ∧ max (MEMORY_POOL_MAKER none 40 3).data_bytes sizeof_memory_fragment
          ≤ internal_mempool_aligned_data_bytes (MEMORY_POOL_MAKER none 40 3)
      ∧ ∀ m, 16 ∣ m → max (MEMORY_POOL_MAKER none 40 3).data_bytes sizeof_memory_fragment ≤ m →
          internal_mempool_aligned_data_bytes (MEMORY_POOL_MAKER none 40 3) ≤ m)
    ∧ (16 ∣ Stack.node_byte_aligned 4
      ∧ sizeof_stack_node + 4 ≤ Stack.node_byte_aligned 4
      ∧ ∀ m, 16 ∣ m → sizeof_stack_node + 4 ≤ m → Stack.node_byte_aligned 4 ≤ m) :=
  ⟨⟨by decide, by decide⟩,
    fragment_and_node_sizes_are_rounded_up_to_16 (MEMORY_POOL_MAKER none 40 3) 4 (by decide)
      (by decide)⟩

/-- C40: for `val_bytes >= 1` whose product with the node size does not wrap, the fragment
size `sizeof(struct deque_node) * val_bytes` that `deque_create` asks the pool for is at
least the offset of `data` (36, in a node of 48 bytes) plus `val_bytes`; and in every state
reached by a session of one thread the fragments of the pool, which are at least that
large, hold a node with its payload, so that the `memcpy` of `CreateNode` stays inside the
fragment. -/
theorem deque_fragment_holds_node_and_payload (fuel : Nat) (q0 : deq_t) (vb cap base : Nat)
    (frags : FragMem) (h0 : NodeMem) (ops : List deque_op)
    (hvb : 0 < vb) (hcap : 0 < cap) (hbase : 0 < base)
    (hnb : sizeof_deque_node * vb + 16 ≤ SIZE_MOD)
    (hfit : base + (cap + 2 + 1) * internal_mempool_aligned_data_bytes
        (MEMORY_POOL_MAKER none (sizeof_deque_node * vb) (cap + 2)) < SIZE_MOD)
    (hf : (cap + 2) * UINT32_MOD + 2 ≤ fuel)
    (hops : ∀ op ∈ ops, deque_op.fits vb op = true) :
    offsetof_data + vb ≤ (sizeof_deque_node * vb) % SIZE_MOD
    ∧ ∃ q h elems,
      deque_session (fuel + 2) q0 vb cap (some base) frags h0 ops = some (q, h, elems)
      ∧ q.val_bytes = vb
      ∧ q.pool.data_bytes = (sizeof_deque_node * vb) % SIZE_MOD
      ∧ q.pool.data_bytes ≤ internal_mempool_aligned_data_bytes q.pool
      ∧ sizeof_deque_node ≤ internal_mempool_aligned_data_bytes q.pool
      ∧ offsetof_data + q.val_bytes ≤ internal_mempool_aligned_data_bytes q.pool := by
  have hlt : sizeof_deque_node * vb < SIZE_MOD := by omega
  have h48 : sizeof_deque_node * vb = 48 * vb := rfl
  constructor
  · rw [Nat.mod_eq_of_lt hlt]
    simp only [offsetof_data, h48]
    omega
  · obtain ⟨q, h, frags1, hd, tl, nodes, outp, hsess, _, _, hsz, hqvb, _⟩ :=
      deque_session_total fuel q0 vb cap base frags h0 ops hvb hcap hbase hnb hfit hf hops
    obtain ⟨_, hdb, hdb16⟩ := hsz
    have hge := (internal_mempool_aligned_data_bytes_ge q.pool hdb16).2
    rw [hqvb] at hdb
    refine ⟨q, h, _, hsess, hqvb, ?_, hge, ?_, ?_⟩
    · rw [Nat.mod_eq_of_lt hlt]; exact hdb
    · rw [hdb] at hge
      simp only [sizeof_deque_node] at *
      omega
    · rw [hdb, hqvb] at *
      simp only [offsetof_data, sizeof_deque_node] at *
      omega

/-- Instance of `deque_fragment_holds_node_and_payload`: a deque of capacity 2 with
`int`-sized elements after a `deque_push`. -/
theorem deque_fragment_holds_node_and_payload_witness :
    (0 < 4 ∧ 0 < 2 ∧ 0 < 4096 ∧ sizeof_deque_node * 4 + 16 ≤ SIZE_MOD
      ∧ 4096 + (2 + 2 + 1) * internal_mempool_aligned_data_bytes
          (MEMORY_POOL_MAKER none (sizeof_deque_node * 4) (2 + 2)) < SIZE_MOD
      ∧ (2 + 2) * UINT32_MOD + 2 ≤ 17179869186
      ∧ ∀ op ∈ [deque_op.push (some [10, 0, 0, 0])], deque_op.fits 4 op = true)
    ∧ offsetof_data + 4 ≤ (sizeof_deque_node * 4) % SIZE_MOD
    ∧ ∃ q h elems,
      deque_session (17179869186 + 2) ⟨MEMORY_POOL_MAKER none 0 0, 0, none, none⟩ 4 2
          (some 4096) (fun _ => none)
          ⟨fun _ => ⟨none, false⟩, fun _ => ⟨none, false⟩, fun _ => 0, fun _ => []⟩
          [deque_op.push (some [10, 0, 0, 0])] = some (q, h, elems)
      ∧ q.val_bytes = 4
      ∧ q.pool.data_bytes = (sizeof_deque_node * 4) % SIZE_MOD
      ∧ q.pool.data_bytes ≤ internal_mempool_aligned_data_bytes q.pool
      ∧ sizeof_deque_node ≤ internal_mempool_aligned_data_bytes q.pool
      ∧ offsetof_data + q.val_bytes ≤ internal_mempool_aligned_data_bytes q.pool :=
  ⟨⟨by decide, by decide, by decide, by decide, by decide, by decide, by decide⟩,
    deque_fragment_holds_node_and_payload 17179869186 _ 4 2 4096 _ _ _ (by decide)
      (by decide) (by decide) (by decide) (by decide) (by decide) (by decide)⟩

/-! ### Nodes and size of the queue -/

/-- Every node of a chain is allocated, and its `next` pointer is `NULL` or leads to a
node of the chain. -/
theorem Queue.chain_next_mem (heap : QHeap) : ∀ (nodes : List (Nat × List Nat)) (p : Option Nat),
    Queue.chain heap p nodes →
    ∀ x ∈ nodes, ∃ nd, heap x.1 = some nd
      ∧ (nd.next.ptr = none ∨ ∃ y ∈ nodes, nd.next.ptr = some y.1) := by
  intro nodes
  induction nodes with
  | nil => intro p _ x hx; simp at hx
  | cons z rest ih =>
    intro p hc x hx
    obtain ⟨_, nd, hnd, _, hrest⟩ := hc
    rcases List.mem_cons.1 hx with rfl | hx
    · refine ⟨nd, hnd, ?_⟩
      cases rest with
      | nil => left; exact hrest
      | cons y l => right; exact ⟨y, by simp, hrest.1⟩
    · obtain ⟨nd2, hnd2, h2⟩ := ih _ hrest x hx
      refine ⟨nd2, hnd2, ?_⟩
      rcases h2 with h2 | ⟨y, hy, h2⟩
      · left; exact h2
      · right; exact ⟨y, List.mem_cons_of_mem _ hy, h2⟩

/-- C38: after a successful `queue_create` and after every sequence of calls made by one
thread (each given `NULL` or a buffer of at least `value_bytes` bytes), the size counter is
the number of elements of the queue: the nodes reachable from `Head` are the sentinel and
`size` more, as many as the payloads enqueued and not dequeued; a `queue_dequeue` that
fails leaves the counter alone, one that returns 0 takes 1 off a counter that was at least
1, and a `queue_enqueue` that returns 0 adds 1. -/
theorem queue_size_counts_elements (fuel vb : Nat) (q0 q1 : queue_t)
    (env : Option Nat) (heap0 heap1 : QHeap) (ops : List queue_op)
    (hcreate : queue_create (some q0) vb env heap0 = some (⟨0, none⟩, some q1, heap1))
    (hops : ∀ op ∈ ops, queue_op.fits vb op = true) :
    q1.size = 0
    ∧ ∃ q heap elems nodes, queue_run (fuel + 1) ops q1 heap1 [] = some (q, heap, elems)
      ∧ Queue.chain heap q.Head.ptr nodes
      ∧ q.size + 1 = nodes.length ∧ q.size = elems.length
      ∧ (∀ out, buffer_fits vb out = true →
          ∃ st q2 heap2 out1,
            queue_dequeue (fuel + 1) (some q) out heap = some (st, some q2, heap2, out1)
            ∧ (st.ret ≠ 0 → q2.size = q.size)
            ∧ (st.ret = 0 → 0 < q.size ∧ q2.size + 1 = q.size))
      ∧ (∀ v e, buffer_fits vb v = true →
          ∃ st q2 heap2,
            queue_enqueue (fuel + 1) (some q) v e heap = some (st, some q2, heap2)
            ∧ (st.ret ≠ 0 → q2.size = q.size)
            ∧ (st.ret = 0 → q2.size = q.size + 1)) := by
  obtain ⟨s, v, hinv0, hvb0, hs0⟩ := queue_create_inv q0 q1 vb env heap0 heap1 hcreate
  obtain ⟨q, heap, nodes, elems, hrun, hinv, he, hvb⟩ :=
    queue_run_inv fuel ops q1 heap1 [(s, v)] [] hinv0 rfl (by rw [hvb0]; exact hops)
  have hqvb : q.value_bytes = vb := hvb.trans hvb0
  have hsz := hinv.size
  refine ⟨hs0, q, heap, elems, nodes, hrun, hinv.hchain, hsz, ?_, ?_, ?_⟩
  · rw [he, List.length_map, List.length_tail]
    omega
  · intro out hout
    obtain ⟨st, q2, heap2, nodes2, out1, hd, hinv2, _, h0, h1, _⟩ :=
      queue_dequeue_inv fuel hinv out (by rw [hqvb]; exact hout)
    refine ⟨st, q2, heap2, out1, hd, fun hne => by rw [(h1 hne).2.2.1], fun h => ?_⟩
    obtain ⟨hn2, hne, _⟩ := h0 h
    have hsz2 := hinv2.size
    rw [hn2, List.length_tail] at hsz2
    have hpos := List.length_pos.2 hne
    rw [List.length_tail] at hpos
    omega
  · intro w e hw
    obtain ⟨st, q2, heap2, nodes2, hd, hinv2, _, h0, h1, _⟩ :=
      queue_enqueue_inv fuel hinv w e (by rw [hqvb]; exact hw)
    refine ⟨st, q2, heap2, hd, fun hne => ?_, fun h => ?_⟩
    · have hsz2 := hinv2.size
      rw [h1 hne] at hsz2
      omega
    · obtain ⟨a, ha⟩ := h0 h
      have hsz2 := hinv2.size
      rw [ha, List.length_append, List.length_singleton] at hsz2
      omega

/-- Instance of `queue_size_counts_elements`: two enqueues and a dequeue on a queue of
`int`-sized elements. -/
theorem queue_size_counts_elements_witness :
    (queue_create (some ⟨⟨none, 0⟩, ⟨none, 0⟩, 0, 0⟩) 4 (some 4096) (fun _ => none)
        = some (⟨0, none⟩, some ⟨⟨some 4096, 0⟩, ⟨some 4096, 0⟩, 4, 0⟩,
            Function.update (Function.update (fun _ => none) 4096
              (some ⟨⟨none, 0⟩, [0, 0, 0, 0]⟩)) 4096 (some ⟨⟨none, 0⟩, [0, 0, 0, 0]⟩))
      ∧ ∀ op ∈ [queue_op.enqueue (some [10, 0, 0, 0]) (some 8192),
                 queue_op.enqueue (some [20, 0, 0, 0]) (some 12288),
                 queue_op.dequeue (some [0, 0, 0, 0])], queue_op.fits 4 op = true)
    ∧ (⟨⟨some 4096, 0⟩, ⟨some 4096, 0⟩, 4, 0⟩ : queue_t).size = 0
    ∧ ∃ q heap elems nodes,
      queue_run (0 + 1) [queue_op.enqueue (some [10, 0, 0, 0]) (some 8192),
            queue_op.enqueue (some [20, 0, 0, 0]) (some 12288),
            queue_op.dequeue (some [0, 0, 0, 0])]
          ⟨⟨some 4096, 0⟩, ⟨some 4096, 0⟩, 4, 0⟩
          (Function.update (Function.update (fun _ => none) 4096
              (some ⟨⟨none, 0⟩, [0, 0, 0, 0]⟩)) 4096 (some ⟨⟨none, 0⟩, [0, 0, 0, 0]⟩)) []
        = some (q, heap, elems)
      ∧ Queue.chain heap q.Head.ptr nodes
      ∧ q.size + 1 = nodes.length ∧ q.size = elems.length
      ∧ (∀ out, buffer_fits 4 out = true →
          ∃ st q2 heap2 out1,
            queue_dequeue (0 + 1) (some q) out heap = some (st, some q2, heap2, out1)
            ∧ (st.ret ≠ 0 → q2.size = q.size)
            ∧ (st.ret = 0 → 0 < q.size ∧ q2.size + 1 = q.size))
      ∧ (∀ v e, buffer_fits 4 v = true →
          ∃ st q2 heap2,
            queue_enqueue (0 + 1) (some q) v e heap = some (st, some q2, heap2)
            ∧ (st.ret ≠ 0 → q2.size = q.size)
            ∧ (st.ret = 0 → q2.size = q.size + 1)) :=
  ⟨⟨rfl, by decide⟩,
    queue_size_counts_elements 0 4 ⟨⟨none, 0⟩, ⟨none, 0⟩, 0, 0⟩ _ (some 4096) (fun _ => none) _ _
      rfl (by decide)⟩

/-- C36: after a successful `queue_create` and after every sequence of calls made by one
thread (each given `NULL` or a buffer of at least `value_bytes` bytes), the nodes
reachable from `Head` are allocated, the `next` pointer of each is `NULL` or leads to one
of them, and `Tail` points at one of them; and when a `queue_dequeue` then returns 0, the
old sentinel `s` it freed is not allocated any more and is referenced neither by `Head`,
nor by `Tail`, nor by the `next` pointer of a node reachable from `Head`, none of which
is `s`. -/
theorem queue_reachable_nodes_are_allocated (fuel vb : Nat) (q0 q1 : queue_t)
    (env : Option Nat) (heap0 heap1 : QHeap) (ops : List queue_op)
    (hcreate : queue_create (some q0) vb env heap0 = some (⟨0, none⟩, some q1, heap1))
    (hops : ∀ op ∈ ops, queue_op.fits vb op = true) :
    ∃ q heap elems nodes, queue_run (fuel + 1) ops q1 heap1 [] = some (q, heap, elems)
      ∧ Queue.chain heap q.Head.ptr nodes
      ∧ (∀ x ∈ nodes, ∃ nd, heap x.1 = some nd
          ∧ (nd.next.ptr = none ∨ ∃ y ∈ nodes, nd.next.ptr = some y.1))
      ∧ (∃ t ∈ nodes, q.Tail.ptr = some t.1)
      ∧ ∀ o : List Nat, vb ≤ o.length →
          ∃ st q2 heap2 out1,
            queue_dequeue (fuel + 1) (some q) (some o) heap = some (st, some q2, heap2, out1)
            ∧ (st.ret = 0 → ∃ s nodes2, q.Head.ptr = some s
                ∧ heap2 = Function.update heap s none ∧ heap2 s = none
                ∧ Queue.chain heap2 q2.Head.ptr nodes2
                ∧ s ∉ nodes2.map Prod.fst
                ∧ q2.Head.ptr ≠ some s ∧ q2.Tail.ptr ≠ some s
                ∧ ∀ x ∈ nodes2, ∃ nd, heap2 x.1 = some nd ∧ nd.next.ptr ≠ some s) := by
  obtain ⟨s, v, hinv0, hvb0, _⟩ := queue_create_inv q0 q1 vb env heap0 heap1 hcreate
  obtain ⟨q, heap, nodes, elems, hrun, hinv, he, hvb⟩ :=
    queue_run_inv fuel ops q1 heap1 [(s, v)] [] hinv0 rfl (by rw [hvb0]; exact hops)
  have hqvb : q.value_bytes = vb := hvb.trans hvb0
  have htailmem : ∀ {q : queue_t} {heap : QHeap} {nodes : List (Nat × List Nat)},
      QueueInv q heap nodes → ∃ t ∈ nodes, q.Tail.ptr = some t.1 := by
    intro q heap nodes hinv
    cases ht : nodes.getLast? with
    | none => exact absurd (List.getLast?_eq_none_iff.1 ht) hinv.nonempty
    | some t => exact ⟨t, List.mem_of_getLast?_eq_some ht, by rw [hinv.htail, ht]; rfl⟩
  refine ⟨q, heap, elems, nodes, hrun, hinv.hchain,
    Queue.chain_next_mem heap nodes _ hinv.hchain, htailmem hinv, ?_⟩
  intro o ho
  obtain ⟨st, q2, heap2, nodes2, out1, hd, hinv2, _, _, _, _, hfree⟩ :=
    queue_dequeue_inv fuel hinv (some o) (by simp [buffer_fits, hqvb, ho])
  refine ⟨st, q2, heap2, out1, hd, fun h => ?_⟩
  obtain ⟨s, hs, hheap2, _⟩ := hfree h
  have hs2 : heap2 s = none := by rw [hheap2, Function.update_same]
  have hnot : s ∉ nodes2.map Prod.fst := by
    intro hm
    obtain ⟨nd, hnd⟩ := Queue.queue_chain_cell hinv2.hchain s hm
    rw [hs2] at hnd
    cases hnd
  have hnotmem : ∀ x ∈ nodes2, x.1 ≠ s := fun x hx e =>
    hnot (e ▸ List.mem_map_of_mem Prod.fst hx)
  refine ⟨s, nodes2, hs, hheap2, hs2, hinv2.hchain, hnot, ?_, ?_, ?_⟩
  · cases hn : nodes2 with
    | nil => exact absurd hn hinv2.nonempty
    | cons x rest =>
      have hc := hinv2.hchain
      rw [hn] at hc
      rw [hc.1]
      intro e
      simp only [Option.some.injEq] at e
      exact hnotmem x (by rw [hn]; simp) e
  · obtain ⟨t, ht, htl⟩ := htailmem hinv2
    rw [htl]
    intro e
    simp only [Option.some.injEq] at e
    exact hnotmem t ht e
  · intro x hx
    obtain ⟨nd, hnd, hnext⟩ := Queue.chain_next_mem heap2 nodes2 _ hinv2.hchain x hx
    refine ⟨nd, hnd, ?_⟩
    rcases hnext with hnext | ⟨y, hy, hnext⟩
    · rw [hnext]; simp
    · rw [hnext]
      intro e
      simp only [Option.some.injEq] at e
      exact hnotmem y hy e

/-- Instance of `queue_reachable_nodes_are_allocated`: two enqueues and a dequeue on a
queue of `int`-sized elements. -/
theorem queue_reachable_nodes_are_allocated_witness :
    (queue_create (some ⟨⟨none, 0⟩, ⟨none, 0⟩, 0, 0⟩) 4 (some 4096) (fun _ => none)
        = some (⟨0, none⟩, some ⟨⟨some 4096, 0⟩, ⟨some 4096, 0⟩, 4, 0⟩,
            Function.update (Function.update (fun _ => none) 4096
              (some ⟨⟨none, 0⟩, [0, 0, 0, 0]⟩)) 4096 (some ⟨⟨none, 0⟩, [0, 0, 0, 0]⟩))
      ∧ ∀ op ∈ [queue_op.enqueue (some [10, 0, 0, 0]) (some 8192),
                 queue_op.enqueue (some [20, 0, 0, 0]) (some 12288),
                 queue_op.dequeue (some [0, 0, 0, 0])], queue_op.fits 4 op = true)
    ∧ ∃ q heap elems nodes,
      queue_run (0 + 1) [queue_op.enqueue (some [10, 0, 0, 0]) (some 8192),
            queue_op.enqueue (some [20, 0, 0, 0]) (some 12288),
            queue_op.dequeue (some [0, 0, 0, 0])]
          ⟨⟨some 4096, 0⟩, ⟨some 4096, 0⟩, 4, 0⟩
          (Function.update (Function.update (fun _ => none) 4096
              (some ⟨⟨none, 0⟩, [0, 0, 0, 0]⟩)) 4096 (some ⟨⟨none, 0⟩, [0, 0, 0, 0]⟩)) []
        = some (q, heap, elems)
      ∧ Queue.chain heap q.Head.ptr nodes
      ∧ (∀ x ∈ nodes, ∃ nd, heap x.1 = some nd
          ∧ (nd.next.ptr = none ∨ ∃ y ∈ nodes, nd.next.ptr = some y.1))
      ∧ (∃ t ∈ nodes, q.Tail.ptr = some t.1)
      ∧ ∀ o : List Nat, 4 ≤ o.length →
          ∃ st q2 heap2 out1,
            queue_dequeue (0 + 1) (some q) (some o) heap = some (st, some q2, heap2, out1)
            ∧ (st.ret = 0 → ∃ s nodes2, q.Head.ptr = some s
                ∧ heap2 = Function.update heap s none ∧ heap2 s = none
                ∧ Queue.chain heap2 q2.Head.ptr nodes2
                ∧ s ∉ nodes2.map Prod.fst
                ∧ q2.Head.ptr ≠ some s ∧ q2.Tail.ptr ≠ some s
                ∧ ∀ x ∈ nodes2, ∃ nd, heap2 x.1 = some nd ∧ nd.next.ptr ≠ some s) :=
  ⟨⟨rfl, by decide⟩,
    queue_reachable_nodes_are_allocated 0 4 ⟨⟨none, 0⟩, ⟨none, 0⟩, 0, 0⟩ _ (some 4096)
      (fun _ => none) _ _ rfl (by decide)⟩

/-! ### Release of deque nodes -/

/-- The logging `REL_log` computes the memory that `REL` computes. -/
theorem REL_log_fst : ∀ (fuel : Nat) (h : NodeMem) (x : Option Nat),
    (REL_log fuel h x).map Prod.fst = REL fuel h x := by
  intro fuel
  induction fuel with
  | zero => intro h x; rfl
  | succ fuel ih =>
    intro h x
    cases x with
    | none => rfl
    | some a =>
      simp only [REL_log, REL]
      split
      · rw [← ih]
        cases h2 : REL_log fuel (h.set_ref a ((h.ref a + (UINT32_MOD - 1)) % UINT32_MOD))
            ((h.set_ref a ((h.ref a + (UINT32_MOD - 1)) % UINT32_MOD)).prev a).p with
        | none => rfl
        | some r2 =>
          obtain ⟨m2, l2⟩ := r2
          simp only [Option.map_some']
          rw [← ih]
          cases h3 : REL_log fuel m2 (m2.next a).p with
          | none => rfl
          | some r3 => rfl
      · rfl

/-- `REL_log` returns when its fuel exceeds the cost of the reference counts by 2, and the
number of invocations it logs plus the cost it leaves is at most the cost it found plus
2. -/
theorem REL_log_terminates (S : List Nat) (hS : S.Nodup) : ∀ (fuel : Nat) (h : NodeMem)
    (x : Option Nat), Deque.Closed S h → (∀ a, x = some a → a ∈ S) →
    Deque.cost h S + 2 ≤ fuel →
    ∃ h1 log, REL_log fuel h x = some (h1, log)
      ∧ log.length + Deque.cost h1 S ≤ Deque.cost h S + 2 := by
  intro fuel
  induction fuel with
  | zero => intro h x _ _ hf; omega
  | succ fuel ih =>
    intro h x hc hx hf
    cases x with
    | none => exact ⟨h, [none], rfl, by simp only [List.length_singleton]; omega⟩
    | some a =>
      have ha : a ∈ S := hx a rfl
      have hcost := Deque.cost_set_ref h a ((h.ref a + (UINT32_MOD - 1)) % UINT32_MOD) S hS ha
      simp only [REL_log]
      by_cases h1 : h.ref a = 1
      · rw [if_pos h1]
        rw [h1] at hcost
        rw [Deque.refCost_one.1, Deque.refCost_one.2] at hcost
        have hM : UINT32_MOD = 4294967296 := rfl
        obtain ⟨h2, l2, hr2, hc2⟩ := ih (h.set_ref a ((1 + (UINT32_MOD - 1)) % UINT32_MOD))
          ((h.set_ref a ((1 + (UINT32_MOD - 1)) % UINT32_MOD)).prev a).p hc
          (fun b hb => hc.1 a ha b hb) (by omega)
        rw [h1, hr2]
        have hr2' : REL fuel (h.set_ref a ((1 + (UINT32_MOD - 1)) % UINT32_MOD))
            ((h.set_ref a ((1 + (UINT32_MOD - 1)) % UINT32_MOD)).prev a).p = some h2 := by
          rw [← REL_log_fst, hr2]
          rfl
        obtain ⟨hp2, hn2, _⟩ := REL_links _ _ _ _ hr2'
        have hc' : Deque.Closed S h2 := by
          unfold Deque.Closed
          rw [hp2, hn2]
          exact hc
        obtain ⟨h3, l3, hr3, hc3⟩ := ih h2 (h2.next a).p hc'
          (fun b hb => hc'.2 a ha b hb) (by omega)
        simp only [hr3]
        refine ⟨h3, _, rfl, ?_⟩
        simp only [List.length_cons, List.length_append]
        omega
      · rw [if_neg h1]
        refine ⟨_, _, rfl, ?_⟩
        have := Deque.refCost_dec (h.ref a)
        simp only [List.length_singleton]
        omega

/-- C37: on a finite heap, the nodes `S` whose links are `NULL` or lead to nodes of `S`,
`REL(x)` returns for every assignment of reference counts and every such link graph,
cyclic ones included, once its fuel (the depth of the recursion through `TerminateNode`)
is `2^32` per node plus 2: the call makes at most `(2^32 - 1)` invocations per node plus
2, hence finitely many decrements, and it leaves all links as they were. -/
theorem REL_terminates_on_finite_heaps (S : List Nat) (h : NodeMem) (x : Option Nat)
    (fuel : Nat) (hS : S.Nodup) (hc : Deque.Closed S h) (hx : ∀ a, x = some a → a ∈ S)
    (hf : S.length * UINT32_MOD + 2 ≤ fuel) :
    ∃ h1 log, REL_log fuel h x = some (h1, log) ∧ REL fuel h x = some h1
      ∧ log.length ≤ S.length * (UINT32_MOD - 1) + 2
      ∧ h1.prev = h.prev ∧ h1.next = h.next ∧ h1.data = h.data := by
  have hle := Deque.cost_le h S
  have hM : UINT32_MOD = 4294967296 := rfl
  have hmul : S.length * (UINT32_MOD - 1) ≤ S.length * UINT32_MOD :=
    Nat.mul_le_mul_left _ (by omega)
  obtain ⟨h1, log, hr, hlen⟩ := REL_log_terminates S hS fuel h x hc hx (by omega)
  have hr' : REL fuel h x = some h1 := by
    rw [← REL_log_fst, hr]
    rfl
  obtain ⟨hp, hn, hd⟩ := REL_links _ _ _ _ hr'
  exact ⟨h1, log, hr, hr', by omega, hp, hn, hd⟩

/-- Instance of `REL_terminates_on_finite_heaps`: two nodes that point at each other
through both links, each with reference count 1. -/
theorem REL_terminates_on_finite_heaps_witness :
    ([1, 2].Nodup
      ∧ Deque.Closed [1, 2]
          ⟨fun a => ⟨some (3 - a), false⟩, fun a => ⟨some (3 - a), false⟩, fun _ => 1,
            fun _ => []⟩
      ∧ (∀ a, some 1 = some a → a ∈ [1, 2])
      ∧ [1, 2].length * UINT32_MOD + 2 ≤ 8589934594)
    ∧ ∃ h1 log,
      REL_log 8589934594
          ⟨fun a => ⟨some (3 - a), false⟩, fun a => ⟨some (3 - a), false⟩, fun _ => 1,
            fun _ => []⟩ (some 1) = some (h1, log)
      ∧ REL 8589934594
          ⟨fun a => ⟨some (3 - a), false⟩, fun a => ⟨some (3 - a), false⟩, fun _ => 1,
            fun _ => []⟩ (some 1) = some h1
      ∧ log.length ≤ [1, 2].length * (UINT32_MOD - 1) + 2
      ∧ h1.prev = (fun a => ⟨some (3 - a), false⟩)
      ∧ h1.next = (fun a => ⟨some (3 - a), false⟩) ∧ h1.data = (fun _ => []) :=
  ⟨⟨by decide,
      ⟨by intro a ha b hb; simp at ha hb; rcases ha with rfl | rfl <;> simp [← hb],
        by intro a ha b hb; simp at ha hb; rcases ha with rfl | rfl <;> simp [← hb]⟩,
      by intro a ha; simp at ha; simp [← ha], by decide⟩,
    REL_terminates_on_finite_heaps [1, 2] _ (some 1) 8589934594 (by decide)
      ⟨by intro a ha b hb; simp at ha hb; rcases ha with rfl | rfl <;> simp [← hb],
        by intro a ha b hb; simp at ha hb; rcases ha with rfl | rfl <;> simp [← hb]⟩
      (by intro a ha; simp at ha; simp [← ha]) (by decide)⟩

/-- On a deque whose head sentinel is followed by the tail sentinel, `deque_pop` takes a
reference to each sentinel and then is the release of the tail sentinel followed by the
release of the head sentinel. -/
theorem deque_pop_empty_unfold {q : deq_t} {h : NodeMem} {hd tl : Nat} (fuel : Nat)
    (out : List Nat) (hhead : q.head = some hd) (htail : q.tail = some tl)
    (hpx : h.next hd = ⟨some tl, false⟩) :
    deque_pop (fuel + 1) (some q) (some out) h
      = (REL fuel ((h.inc_ref hd).inc_ref tl) (some tl)).bind fun m =>
          (REL fuel m (some hd)).bind fun m1 =>
            some (⟨-1, some errno_t.ENOENT⟩, m1, some out) := by
  simp only [deque_pop, hhead, htail, COPY, NodeMem.inc_ref, NodeMem.set_ref,
    Option.some_bind, deque_pop_loop, DEREF, hpx, Bool.false_eq_true, if_false, if_true,
    Option.bind_assoc]

/-- C35 fails on the code: on the deque made by `deque_create(q, 4, 1)`, whose sentinels
(at 4096 and 4288) have reference count 0 and outer links `NULL`, `deque_pop` takes its
references with `COPY(head)` and `DEREF(&head->next)` and then calls `REL` on the tail
sentinel; that call finds the count 1, runs `TerminateNode` on the sentinel, and the
invocations of `REL` it makes are `REL(tail)`, `REL(head)`, `REL(NULL)`, `REL(tail)`,
`REL(NULL)`: `REL` is invoked with a null node twice. -/
theorem deque_pop_on_fresh_deque_releases_null :
    ∃ q frags h h1 h2 h3,
      deque_create 8 (some ⟨MEMORY_POOL_MAKER none 0 0, 0, none, none⟩) 4 1 (some 4096)
          (fun _ => none)
          ⟨fun _ => ⟨none, false⟩, fun _ => ⟨none, false⟩, fun _ => 0, fun _ => []⟩
        = some (⟨0, none⟩, some q, frags, h)
      ∧ q.head = some 4096 ∧ q.tail = some 4288
      ∧ (h.prev 4096).p = none ∧ (h.next 4288).p = none
      ∧ COPY h q.head = some h1
      ∧ DEREF h1 (h1.next 4096) = some (h2, q.tail)
      ∧ (∀ (fuel : Nat) (out : List Nat),
          deque_pop (fuel + 1) (some q) (some out) h
            = (REL fuel h2 q.tail).bind fun m =>
                (REL fuel m q.head).bind fun m1 =>
                  some (⟨-1, some errno_t.ENOENT⟩, m1, some out))
      ∧ REL_log 8 h2 q.tail = some (h3, [some 4288, some 4096, none, some 4288, none])
      ∧ REL 8 h2 q.tail = some h3 :=
  ⟨_, _, _, _, _, _, rfl, rfl, rfl, rfl, rfl, rfl, rfl, fun fuel out => deque_pop_empty_unfold fuel out rfl rfl rfl, rfl, rfl⟩

/-- C33: with enough fuel, in every state reached by a session of one thread, where the
chain runs from the head sentinel `hd` through the nodes `addrs` to the tail sentinel
`tl`, and for every node `n` of the chain with predecessor `p` and successor `x`: once the
`next` link of `n` has been marked (`n->next = {x, true}`, `p->next` still `{n, false}`),
`HelpDelete(n)` returns, has marked `n->prev`, has set `p->next` to `{x, false}`, and has
changed no other link and no payload. -/
theorem HelpDelete_unlinks_the_marked_node (fuel : Nat) (q0 : deq_t) (vb cap base : Nat)
    (frags : FragMem) (h0 : NodeMem) (ops : List deque_op)
    (hvb : 0 < vb) (hcap : 0 < cap) (hbase : 0 < base)
    (hnb : sizeof_deque_node * vb + 16 ≤ SIZE_MOD)
    (hfit : base + (cap + 2 + 1) * internal_mempool_aligned_data_bytes
        (MEMORY_POOL_MAKER none (sizeof_deque_node * vb) (cap + 2)) < SIZE_MOD)
    (hf : (cap + 2) * UINT32_MOD + 2 ≤ fuel)
    (hops : ∀ op ∈ ops, deque_op.fits vb op = true) :
    ∃ q h elems hd tl addrs,
      deque_session (fuel + 2) q0 vb cap (some base) frags h0 ops = some (q, h, elems)
      ∧ q.head = some hd ∧ q.tail = some tl
      ∧ List.Chain' (Deque.adj h) (hd :: addrs ++ [tl])
      ∧ addrs.map h.data = elems
      ∧ ∀ A B p n x, hd :: addrs ++ [tl] = A ++ p :: n :: x :: B →
          h.next p = ⟨some n, false⟩ ∧ h.prev n = ⟨some p, false⟩
          ∧ h.next n = ⟨some x, false⟩
          ∧ ∃ r, HelpDelete (fuel + 1) (h.set_next n ⟨some x, true⟩) n
              = some ⟨Function.update h.prev n ⟨some p, true⟩,
                  Function.update (Function.update h.next n ⟨some x, true⟩) p ⟨some x, false⟩,
                  r, h.data⟩ := by
  obtain ⟨q, h, frags1, hd, tl, nodes, outp, hsess, hinv, hcl, _, _, _⟩ :=
    deque_session_total fuel q0 vb cap base frags h0 ops hvb hcap hbase hnb hfit hf hops
  refine ⟨q, h, nodes.map Prod.snd, hd, tl, nodes.map Prod.fst, hsess, hinv.head, hinv.tail,
    hinv.linked, ?_, ?_⟩
  · rw [List.map_map]
    apply List.map_congr_left
    intro x hx
    exact hinv.data x hx
  · intro A B p n x hfull
    obtain ⟨hS, hlen⟩ := hinv.outp_nodup
    have hf' : outp.length * UINT32_MOD + 2 ≤ fuel := by
      have := Nat.mul_le_mul_right UINT32_MOD hlen
      omega
    have hlinked := hinv.linked
    have hnd := hinv.nodup
    have hheld := hinv.held
    have hunm := Deque.chain_next_unmarked (by rw [hinv.tail_next])
      (hd :: nodes.map Prod.fst) hinv.linked
    rw [hfull] at hlinked hnd hheld hunm
    have hc := (List.chain'_split.1 hlinked).2
    rw [List.chain'_cons, List.chain'_cons] at hc
    obtain ⟨hpn, hnx, _⟩ := hc
    have hnd' := (List.nodup_append.1 hnd).2.1
    simp only [List.nodup_cons, List.mem_cons, not_or] at hnd'
    obtain ⟨⟨d1, d2, _⟩, ⟨d3, _⟩, _⟩ := hnd'
    have hxS : x ∈ outp := hheld x (by simp)
    have hnS : n ∈ outp := hheld n (by simp)
    refine ⟨hpn.1, hpn.2, hnx.1, ?_⟩
    obtain ⟨h1, hrun, r, hh1⟩ := HelpDelete_total (p := p) (n := x) (b := false)
      (h := ⟨h.prev, Function.update h.next n ⟨some x, true⟩, h.ref, h.data⟩)
      hS ⟨hcl.1, hcl.2.update_some n true hxS⟩ hnS hf' hpn.2 (Function.update_same _ _ _)
      (by show Function.update h.next n _ p = _
          rw [Function.update_noteq d1]; exact hpn.1)
      (by show (Function.update h.next n _ x).d = false
          rw [Function.update_noteq (Ne.symm d3)]; exact hunm x (by simp))
      d2
    exact ⟨r, by rw [← hh1]; exact hrun⟩

/-- Instance of `HelpDelete_unlinks_the_marked_node`: a deque of capacity 2 with
`int`-sized elements after a `deque_push` and a `deque_shift`. -/
theorem HelpDelete_unlinks_the_marked_node_witness :
    (0 < 4 ∧ 0 < 2 ∧ 0 < 4096 ∧ sizeof_deque_node * 4 + 16 ≤ SIZE_MOD
      ∧ 4096 + (2 + 2 + 1) * internal_mempool_aligned_data_bytes
          (MEMORY_POOL_MAKER none (sizeof_deque_node * 4) (2 + 2)) < SIZE_MOD
      ∧ (2 + 2) * UINT32_MOD + 2 ≤ 17179869186
      ∧ ∀ op ∈ [deque_op.push (some [10, 0, 0, 0]), deque_op.shift (some [20, 0, 0, 0])],
          deque_op.fits 4 op = true)
    ∧ ∃ q h elems hd tl addrs,
      deque_session (17179869186 + 2) ⟨MEMORY_POOL_MAKER none 0 0, 0, none, none⟩ 4 2
          (some 4096) (fun _ => none)
          ⟨fun _ => ⟨none, false⟩, fun _ => ⟨none, false⟩, fun _ => 0, fun _ => []⟩
          [deque_op.push (some [10, 0, 0, 0]), deque_op.shift (some [20, 0, 0, 0])]
        = some (q, h, elems)
      ∧ q.head = some hd ∧ q.tail = some tl
      ∧ List.Chain' (Deque.adj h) (hd :: addrs ++ [tl])
      ∧ addrs.map h.data = elems
      ∧ ∀ A B p n x, hd :: addrs ++ [tl] = A ++ p :: n :: x :: B →
          h.next p = ⟨some n, false⟩ ∧ h.prev n = ⟨some p, false⟩
          ∧ h.next n = ⟨some x, false⟩
          ∧ ∃ r, HelpDelete (17179869186 + 1) (h.set_next n ⟨some x, true⟩) n
              = some ⟨Function.update h.prev n ⟨some p, true⟩,
                  Function.update (Function.update h.next n ⟨some x, true⟩) p ⟨some x, false⟩,
                  r, h.data⟩ :=
  ⟨⟨by decide, by decide, by decide, by decide, by decide, by decide, by decide⟩,
    HelpDelete_unlinks_the_marked_node 17179869186 _ 4 2 4096 _ _ _ (by decide)
      (by decide) (by decide) (by decide) (by decide) (by decide) (by decide)⟩

/-! ### Fragments and the range of the pool -/

/-- Running a list of calls keeps the fields fixed at creation, and keeps every
property of the addresses of the fragments, which are only moved between the free list
and the caller. -/
theorem pool_run_frags {N : Nat} (P : Nat → Prop) (fuel : Nat) :
    ∀ (ops : List pool_op) (self : memory_pool) (mem : FragMem) (l out : List Nat),
      PoolInv N self mem l out → (∀ a ∈ l ++ out, P a) →
      ∃ self1 mem1 l1 out1, pool_run (fuel + 1) ops self mem out = some (self1, mem1, out1)
        ∧ PoolInv N self1 mem1 l1 out1 ∧ (∀ a ∈ l1 ++ out1, P a)
        ∧ self1.capacity = self.capacity ∧ self1.data_bytes = self.data_bytes
        ∧ self1.pool = self.pool := by
  intro ops
  induction ops with
  | nil => intro self mem l out hinv hP; exact ⟨self, mem, l, out, rfl, hinv, hP, rfl, rfl, rfl⟩
  | cons op ops ih =>
    intro self mem l out hinv hP
    cases op with
    | alloc =>
      obtain ⟨h1, h2⟩ := internal_mempool_pick_inv fuel hinv
      cases hl : l with
      | nil => exact absurd hl hinv.nonempty
      | cons a rest =>
        cases hr : rest with
        | nil =>
          subst hr
          obtain ⟨s2, m2, l2, o2, hrun, hinv2, hP2, hc, hd, hp⟩ := ih self mem l out hinv hP
          exact ⟨s2, m2, l2, o2, by simp only [pool_run, mempool_alloc, h1 a hl, hrun], hinv2,
            hP2, hc, hd, hp⟩
        | cons b rest2 =>
          subst hr
          obtain ⟨self1, hpick, hinv1, _, hc1, hd1, hp1, _⟩ := h2 a b rest2 hl
          have hP1 : ∀ x ∈ (b :: rest2) ++ (a :: out), P x := by
            intro x hx
            apply hP x
            rw [hl]
            simp only [List.mem_append, List.mem_cons] at hx ⊢
            tauto
          obtain ⟨s2, m2, l2, o2, hrun, hinv2, hP2, hc, hd, hp⟩ :=
            ih self1 mem _ _ hinv1 hP1
          exact ⟨s2, m2, l2, o2, by simp only [pool_run, mempool_alloc, hpick, hrun], hinv2,
            hP2, hc.trans hc1, hd.trans hd1, hp.trans hp1⟩
    | free i =>
      cases hg : out.get? i with
      | none =>
        obtain ⟨s2, m2, l2, o2, hrun, hinv2, hP2, hc, hd, hp⟩ := ih self mem l out hinv hP
        exact ⟨s2, m2, l2, o2, by simp only [pool_run, hg, hrun], hinv2, hP2, hc, hd, hp⟩
      | some p =>
        have hpo : p ∈ out := List.get?_mem hg
        obtain ⟨self1, mem1, hput, hinv1, _, hc1, hd1, hp1, _⟩ :=
          internal_mempool_put_inv fuel hinv p hpo
        have hP1 : ∀ x ∈ (l ++ [p]) ++ out.erase p, P x := by
          intro x hx
          apply hP x
          simp only [List.mem_append, List.mem_singleton] at hx ⊢
          rcases hx with (hx | rfl) | hx
          · exact Or.inl hx
          · exact Or.inr hpo
          · exact Or.inr (List.mem_of_mem_erase hx)
        obtain ⟨s2, m2, l2, o2, hrun, hinv2, hP2, hc, hd, hp⟩ :=
          ih self1 mem1 _ _ hinv1 hP1
        exact ⟨s2, m2, l2, o2, by simp only [pool_run, hg, mempool_free, hput, hrun], hinv2,
          hP2, hc.trans hc1, hd.trans hd1, hp.trans hp1⟩

/-- The range test accepts the start address of each of the `N + 1` fragments of the
region. -/
theorem mempool_contains_fragment (self : memory_pool) (base j : Nat)
    (hp : self.pool = some base)
    (hfit : base + internal_mempool_aligned_data_bytes self * self.capacity + 1 < SIZE_MOD)
    (hj : j ≤ self.capacity) :
    mempool_contains (some self) (some (base + internal_mempool_aligned_data_bytes self * j))
      = (true, none) := by
  have hle : internal_mempool_aligned_data_bytes self * j
      ≤ internal_mempool_aligned_data_bytes self * self.capacity := Nat.mul_le_mul_left _ hj
  simp only [mempool_contains, hp, ptrval, Option.getD_some, Prod.mk.injEq, and_true,
    decide_eq_true_eq]
  rw [Nat.mod_eq_of_lt (a := internal_mempool_aligned_data_bytes self * self.capacity + 1)
    (by omega), Nat.mod_eq_of_lt (by omega)]
  omega

/-- C39: for a pool of capacity `N ≥ 1` created by `mempool_create` over the region at
`base`, after every sequence of allocations and of releases of fragments still held,
`mempool_contains` is true for each fragment held, for the fragment returned by the next
successful `mempool_alloc`, and for the start address `base + F * j` of every fragment
`j ≤ N`, the one with the highest address (`j = N`) included. -/
theorem mempool_contains_accepts_allocated_fragments (fuel : Nat) (mp : memory_pool)
    (data_bytes N base : Nat) (mem : FragMem) (ops : List pool_op)
    (hd : 0 < data_bytes) (hN : 0 < N) (hbase : 0 < base) (hdb : data_bytes + 16 ≤ SIZE_MOD)
    (hfit : base + (N + 1) * internal_mempool_aligned_data_bytes
        (MEMORY_POOL_MAKER none data_bytes N) < SIZE_MOD) :
    ∃ self0 mem0, mempool_create (fuel + 1) (some mp) data_bytes N (some base) mem
        = some (⟨0, none⟩, some self0, mem0)
      ∧ ∃ self1 mem1 out, pool_run (fuel + 1) ops self0 mem0 [] = some (self1, mem1, out)
        ∧ (∀ p ∈ out, mempool_contains (some self1) (some p) = (true, none))
        ∧ (∀ p e self2, mempool_alloc (fuel + 1) (some self1) mem1
              = some (some p, e, some self2) →
            mempool_contains (some self2) (some p) = (true, none))
        ∧ ∀ j, j ≤ N →
            mempool_contains (some self1)
              (some (base + internal_mempool_aligned_data_bytes self1 * j)) = (true, none) := by
  obtain ⟨self0, mem0, l0, hc, hinv0, hcap0, hdb0, hpool0, haddr0⟩ :=
    mempool_create_inv fuel mp data_bytes N base mem hd hN hbase hdb hfit
  have hF0 : internal_mempool_aligned_data_bytes self0
      = internal_mempool_aligned_data_bytes (MEMORY_POOL_MAKER none data_bytes N) :=
    internal_mempool_aligned_data_bytes_congr _ _ hdb0
  obtain ⟨hF16, _⟩ := internal_mempool_aligned_data_bytes_ge
    (MEMORY_POOL_MAKER none data_bytes N) hdb
  rw [← hF0] at hfit hF16
  have hfit' : base + internal_mempool_aligned_data_bytes self0 * N + 1 < SIZE_MOD := by
    have : (N + 1) * internal_mempool_aligned_data_bytes self0
        = internal_mempool_aligned_data_bytes self0 * N
          + internal_mempool_aligned_data_bytes self0 := by ring
    omega
  obtain ⟨self1, mem1, l1, out, hrun, hinv1, hP1, hcap1, hdb1, hpool1⟩ :=
    pool_run_frags
      (fun a => ∃ j, j ≤ N ∧ a = base + internal_mempool_aligned_data_bytes self0 * j)
      fuel ops self0 mem0 l0 [] hinv0 (by simpa using haddr0)
  have hF1 : internal_mempool_aligned_data_bytes self1
      = internal_mempool_aligned_data_bytes self0 :=
    internal_mempool_aligned_data_bytes_congr _ _ hdb1
  have key : ∀ (s : memory_pool), s.capacity = N → s.data_bytes = self0.data_bytes →
      s.pool = some base → ∀ j, j ≤ N →
      mempool_contains (some s) (some (base + internal_mempool_aligned_data_bytes self0 * j))
        = (true, none) := by
    intro s hsc hsd hsp j hj
    have hFs : internal_mempool_aligned_data_bytes s
        = internal_mempool_aligned_data_bytes self0 :=
      internal_mempool_aligned_data_bytes_congr _ _ hsd
    have := mempool_contains_fragment s base j hsp (by rw [hFs, hsc]; exact hfit')
      (by rw [hsc]; exact hj)
    rwa [hFs] at this
  have key1 := key self1 (hcap1.trans hcap0) hdb1 (hpool1.trans hpool0)
  refine ⟨self0, mem0, hc, self1, mem1, out, hrun, ?_, ?_, ?_⟩
  · intro p hp
    obtain ⟨j, hj, rfl⟩ := hP1 p (List.mem_append_right _ hp)
    exact key1 j hj
  · intro p e self2 halloc
    obtain ⟨h1, h2⟩ := internal_mempool_pick_inv fuel hinv1
    cases hl : l1 with
    | nil => exact absurd hl hinv1.nonempty
    | cons a rest =>
      cases hr : rest with
      | nil =>
        subst hr
        simp [mempool_alloc, h1 a hl] at halloc
      | cons b rest2 =>
        subst hr
        obtain ⟨s2, hpick, _, _, hc2, hd2, hp2, _⟩ := h2 a b rest2 hl
        simp only [mempool_alloc, hpick, Option.some.injEq, Prod.mk.injEq] at halloc
        obtain ⟨hap, _, hs⟩ := halloc
        subst hap; subst hs
        obtain ⟨j, hj, rfl⟩ := hP1 a (List.mem_append_left _ (by rw [hl]; simp))
        exact key s2 (hc2.trans (hcap1.trans hcap0)) (hd2.trans hdb1)
          (hp2.trans (hpool1.trans hpool0)) j hj
  · intro j hj
    rw [hF1]
    exact key1 j hj

/-- Instance of `mempool_contains_accepts_allocated_fragments` on a pool of one 16-byte
fragment at address 4096: after an allocation, its release and a second allocation the
caller holds the fragment at the highest address, 4112. -/
theorem mempool_contains_accepts_allocated_fragments_witness :
    (0 < 8 ∧ 0 < 1 ∧ 0 < 4096 ∧ 8 + 16 ≤ SIZE_MOD
      ∧ 4096 + (1 + 1) * internal_mempool_aligned_data_bytes (MEMORY_POOL_MAKER none 8 1)
          < SIZE_MOD)
    ∧ ∃ self0 mem0, mempool_create (0 + 1) (some (MEMORY_POOL_MAKER none 0 0)) 8 1 (some 4096)
          (fun _ => none) = some (⟨0, none⟩, some self0, mem0)
      ∧ ∃ self1 mem1 out,
          pool_run (0 + 1) [pool_op.alloc, pool_op.free 0, pool_op.alloc] self0 mem0 []
            = some (self1, mem1, out)
        ∧ (∀ p ∈ out, mempool_contains (some self1) (some p) = (true, none))
        ∧ (∀ p e self2, mempool_alloc (0 + 1) (some self1) mem1
              = some (some p, e, some self2) →
            mempool_contains (some self2) (some p) = (true, none))
        ∧ ∀ j, j ≤ 1 →
            mempool_contains (some self1)
              (some (4096 + internal_mempool_aligned_data_bytes self1 * j)) = (true, none) :=
  ⟨⟨by decide, by decide, by decide, by decide, by decide⟩,
    mempool_contains_accepts_allocated_fragments 0 (MEMORY_POOL_MAKER none 0 0) 8 1 4096
      (fun _ => none) [pool_op.alloc, pool_op.free 0, pool_op.alloc]
      (by decide) (by decide) (by decide) (by decide) (by decide)⟩

end LockFree
